import Mathlib

/-!
Verification of the crudite collaborative-document engine.

This file gives a shallow embedding, in Lean 4, of the parts of the
crudite source that the specification talks about:

* the operation log `Opset` (src/opset.rs);
* the identity-addressed document tree `Tree` (src/json/tree.rs and
  src/json/value.rs), together with the generic sequence engine
  (src/json.rs declares `mod sequence`, whose file is absent from the
  sources; the sequence functions below are modelled from spec section 4.2
  and from the string-only instance that is present in src/tree/sequence.rs).

Conventions of the embedding:

* Rust `panic!` / `expect` / `unwrap` failures are modelled by `none` of an
  outer `Option`; recoverable `Result` errors are `Except TreeError`.
* The persistent hash maps (`im::HashMap`) are modelled by association
  lists whose `insert` replaces in place, and `im::HashSet` by a list
  without duplicates.  Rust `binary_search` on the sorted vectors of the
  operation log is modelled by a linear scan that returns the same result
  on a sorted, duplicate-free vector.
* Loops whose termination depends on data-structure invariants
  (parent-pointer walks, segment-ring walks, the recursive splitter and
  the orphan sweep) take an explicit fuel argument; fuel exhaustion is
  `none`, i.e. it is identified with divergence/panic.
-/

namespace Crudite

/-! ## Association-list maps (model of `im::HashMap`) -/

/-- Lookup in an association list; model of `HashMap::get`. -/
def lookupA {κ α : Type _} [DecidableEq κ] : List (κ × α) → κ → Option α
  | [], _ => none
  | (k, v) :: rest, key => if k = key then some v else lookupA rest key

/-- Insert into an association list, replacing in place when the key is
already present; model of `HashMap::insert` (value part). -/
def insertA {κ α : Type _} [DecidableEq κ] : List (κ × α) → κ → α → List (κ × α)
  | [], key, val => [(key, val)]
  | (k, v) :: rest, key, val =>
    if k = key then (k, val) :: rest else (k, v) :: insertA rest key val

/-- Remove a key from an association list; model of `HashMap::remove`
(the maps of the source never hold duplicate keys). -/
def removeA {κ α : Type _} [DecidableEq κ] : List (κ × α) → κ → List (κ × α)
  | [], _ => []
  | (k, v) :: rest, key => if k = key then rest else (k, v) :: removeA rest key

/-- Key-membership test; model of `HashMap::contains_key`. -/
def containsA {κ α : Type _} [DecidableEq κ] (l : List (κ × α)) (key : κ) : Bool :=
  (lookupA l key).isSome

/-- Set insertion; model of `im::HashSet::insert`. -/
def insertS {α : Type _} [DecidableEq α] (l : List α) (x : α) : List α :=
  if x ∈ l then l else x :: l

/-! ## The operation log (src/opset.rs)

`Opset` is generic over the operation type `E` and the state type `S`.
The Rust code requires `E : Ord` and obtains the comparator from it; every
instantiation in the sources (`DocOp`, the test `TestEdit`) compares by the
numeric timestamp alone, and the spec (section 4.3) fixes the comparator
to be the timestamp order, so the embedding carries the timestamp

projection `ts : E → Nat` explicitly.  `apply` is `Operation::apply`. -/

structure Opset (E S : Type _) where
  /-- list of all ops applied to this tree, sorted by the comparator -/
  ops : List E
  /-- a list of (num ops applied, state of tree at that point in time) -/
  states : List (Nat × S)
  /-- at most, this many ops will be skipped over in the states cache -/
  cache_gap : Nat

namespace Opset

variable {E S : Type _}

/-- Model of `Opset::new`. -/
def new (initial_state : S) (cache_gap : Nat) : Opset E S :=
  { ops := [], cache_gap := cache_gap, states := [(0, initial_state)] }

/-- Fold a list of operations over a state; `ops[i].apply(&mut state)` in order. -/
def applyAll (apply : E → S → S) (l : List E) (s : S) : S :=
  l.foldl (fun st e => apply e st) s

/-- Result of `self.states.binary_search_by_key(&insert_point, |(n, _)| *n)`
mapped through `Ok(n) => n + 1, Err(n) => n`.  On the sorted, duplicate-free
key vector maintained by the log, `binary_search_by_key` returns `Ok i`
exactly when key `insert_point` sits at index `i`, and otherwise `Err` of
the number of keys below `insert_point`; the linear scan below computes the
same value. -/
def indexOfFirstBadState : List (Nat × S) → Nat → Nat
  | [], _ => 0
  | q :: rest, insert_point =>
    if q.1 < insert_point then indexOfFirstBadState rest insert_point + 1
    else if q.1 = insert_point then 1
    else 0

/-- The checkpoint push of the `recalculate` loop: push a fresh checkpoint
when the cache is empty or the top checkpoint is at least `cache_gap`
operations old. -/
def recalcPush (gap : Nat) (states : List (Nat × S)) (applied : Nat) (s : S) :
    List (Nat × S) :=
  match states.getLast? with
  | none => states ++ [(applied, s)]
  | some last => if last.1 + gap ≤ applied then states ++ [(applied, s)] else states

/-- The loop body of `Opset::recalculate`: starting from a popped checkpoint
`(applied, s)`, replay the remaining operations `rest = ops[applied..]`,
inserting cache checkpoints along the way. -/
def recalcLoop (apply : E → S → S) (gap : Nat) :
    List E → List (Nat × S) → Nat → S → List (Nat × S) × Nat × S
  | [], states, applied, s => (states, applied, s)
  | e :: rest, states, applied, s =>
    recalcLoop apply gap rest (recalcPush gap states applied s) (applied + 1) (apply e s)

/-- Model of `Opset::recalculate`: truncate the checkpoint vector to the
first bad state, pop the last remaining checkpoint, and replay the suffix
from it.  `none` models the `unwrap` panic when the checkpoint vector is
emptied by the truncation (unreachable in the maintained states of the
log). -/
def recalculate (apply : E → S → S) (o : Opset E S) (insert_point : Nat) :
    Option (Opset E S) :=
  match (o.states.take (indexOfFirstBadState o.states insert_point)).getLast? with
  | none => none
  | some popped =>
    match recalcLoop apply o.cache_gap (o.ops.drop popped.1)
        (o.states.take (indexOfFirstBadState o.states insert_point)).dropLast
        popped.1 popped.2 with
    | (sts, applied, s) => some { o with states := sts ++ [(applied, s)] }

/-- Model of `Opset::edit`.  `binary_search(&edit)` on the sorted,
duplicate-free op vector finds an element exactly when one with the same
timestamp is present — in which case `expect_err` panics (`none`) — and
otherwise yields the number of ops with a smaller timestamp as the
insertion point. -/
def edit (ts : E → Nat) (apply : E → S → S) (o : Opset E S) (e : E) :
    Option (Opset E S) :=
  if ∃ x ∈ o.ops, ts x = ts e then none
  else
    recalculate apply
      { o with ops :=
          List.insertIdx ((o.ops.takeWhile (fun x => ts x < ts e)).length) e o.ops }
      ((o.ops.takeWhile (fun x => ts x < ts e)).length)

/-- The insertion loop of `Opset::edit_from_iter`: threads the op vector and
the least insertion point. -/
def editFromIterLoop (ts : E → Nat) :
    List E → List E → Option Nat → Option (List E × Option Nat)
  | ops, [], least => some (ops, least)
  | ops, e :: rest, least =>
    if ∃ x ∈ ops, ts x = ts e then none
    else
      editFromIterLoop ts
        (List.insertIdx ((ops.takeWhile (fun x => ts x < ts e)).length) e ops) rest
        (match least with
         | some prev =>
           if prev < (ops.takeWhile (fun x => ts x < ts e)).length then some prev
           else some ((ops.takeWhile (fun x => ts x < ts e)).length)
         | none => some ((ops.takeWhile (fun x => ts x < ts e)).length))

/-- Model of `Opset::edit_from_iter`. -/
def edit_from_iter (ts : E → Nat) (apply : E → S → S) (o : Opset E S)
    (es : List E) : Option (Opset E S) :=
  match editFromIterLoop ts o.ops es none with
  | none => none
  | some (ops', least) =>
    match least with
    | none => some { o with ops := ops' }
    | some least_insert_point =>
      recalculate apply { o with ops := ops' } least_insert_point

/-- Model of `Opset::state`; `none` models the `expect` panic on an empty
state cache (unreachable in the maintained states of the log). -/
def state (o : Opset E S) : Option S :=
  (o.states.getLast?).map Prod.snd

/-- A convenience applier of several batches in sequence, used to express
"an operation log built incrementally ... one at a time or in batches". -/
def editBatches (ts : E → Nat) (apply : E → S → S) (o : Opset E S) :
    List (List E) → Option (Opset E S)
  | [] => some o
  | b :: bs => (edit_from_iter ts apply o b).bind (fun o' => editBatches ts apply o' bs)

/-! ### Invariant of the operation log -/

section Proofs

variable {E S : Type _} (ts : E → Nat) (apply : E → S → S)

/-- The op vector is strictly sorted by timestamp. -/
def SortedOps (l : List E) : Prop :=
  l.Pairwise (fun a b => ts a < ts b)

/-- Every checkpoint `(n, s)` of the cache records the fold of the first `n`
operations over the initial state. -/
def StatesOk (init : S) (ops : List E) (states : List (Nat × S)) : Prop :=
  ∀ q ∈ states, q.1 ≤ ops.length ∧ q.2 = applyAll apply (ops.take q.1) init

/-- Invariant maintained by the operation log: sorted ops, strictly
increasing checkpoint keys starting at `0`, a head checkpoint at `0`, the
final checkpoint covering all ops, and every checkpoint correct. -/
def Inv (init : S) (o : Opset E S) : Prop :=
  SortedOps ts o.ops ∧
  (o.states.map Prod.fst).Pairwise (· < ·) ∧
  (o.states.head?).map Prod.fst = some 0 ∧
  (o.states.getLast?).map Prod.fst = some o.ops.length ∧
  StatesOk apply init o.ops o.states

theorem Inv_new (init : S) (gap : Nat) :
    Inv ts apply init (Opset.new (E := E) init gap) := by
  refine ⟨List.Pairwise.nil, ?_, rfl, rfl, ?_⟩
  · simp [Opset.new]
  · intro q hq
    simp only [Opset.new, List.mem_singleton] at hq
    subst hq
    exact ⟨Nat.zero_le _, rfl⟩

theorem applyAll_append (l₁ l₂ : List E) (s : S) :
    applyAll apply (l₁ ++ l₂) s = applyAll apply l₂ (applyAll apply l₁ s) := by
  simp [applyAll, List.foldl_append]

/-- Everything kept by the truncation of `recalculate` is a checkpoint
taken at or before the insertion point. -/
theorem take_ifbs_le {p : Nat} :
    ∀ (states : List (Nat × S)),
      ∀ q ∈ states.take (indexOfFirstBadState states p), q.1 ≤ p := by
  intro states
  induction states with
  | nil => intro q hq; simp [indexOfFirstBadState] at hq
  | cons hd tl ih =>
    intro q hq
    by_cases hlt : hd.1 < p
    · rw [show indexOfFirstBadState (hd :: tl) p = indexOfFirstBadState tl p + 1 from
        by simp [indexOfFirstBadState, hlt], List.take_succ_cons] at hq
      rcases List.mem_cons.1 hq with hq | hq
      · subst hq; omega
      · exact ih q hq
    · by_cases heq : hd.1 = p
      · rw [show indexOfFirstBadState (hd :: tl) p = 1 from
          by simp [indexOfFirstBadState, hlt, heq]] at hq
        have : q = hd := by simpa [List.take_succ_cons] using hq
        subst this; omega
      · rw [show indexOfFirstBadState (hd :: tl) p = 0 from
          by simp [indexOfFirstBadState, hlt, heq]] at hq
        simp at hq

/-- The truncation of `recalculate` never empties the cache: its index is
at least one as soon as the head checkpoint is at key `0`. -/
theorem ifbs_pos {states : List (Nat × S)} {p : Nat}
    (hhead : states.head?.map Prod.fst = some 0) :
    1 ≤ indexOfFirstBadState states p := by
  match states with
  | [] => simp at hhead
  | hd :: tl =>
    have h0 : hd.1 = 0 := by simpa using hhead
    by_cases hp : 0 < p
    · simp [indexOfFirstBadState, h0, hp]
    · have hp0 : p = 0 := by omega
      simp [indexOfFirstBadState, h0, hp0]

theorem recalcPush_spec (gap : Nat) (base : List (Nat × S)) (a : Nat) (s : S) :
    ∃ push, recalcPush gap base a s = base ++ push ∧
      (push = [(a, s)] ∨ push = []) ∧ (base = [] → push = [(a, s)]) := by
  unfold recalcPush
  rcases h : base.getLast? with _ | last
  · exact ⟨[(a, s)], rfl, Or.inl rfl, fun _ => rfl⟩
  · have hbne : base ≠ [] := by
      intro hb; rw [hb] at h; simp at h
    by_cases hc : last.1 + gap ≤ a
    · exact ⟨[(a, s)], by simp [hc], Or.inl rfl, fun hb => absurd hb hbne⟩
    · exact ⟨[], by simp [hc], Or.inr rfl, fun hb => absurd hb hbne⟩

theorem recalcLoop_spec (init : S) (gap : Nat) (ops : List E) :
    ∀ (rest : List E) (base : List (Nat × S)) (a : Nat) (s : S),
      rest = ops.drop a → a ≤ ops.length →
      s = applyAll apply (ops.take a) init →
      StatesOk apply init ops base →
      ((base.map Prod.fst).Pairwise (· < ·)) →
      (∀ q ∈ base, q.1 < a) →
      ∃ ext,
        recalcLoop apply gap rest base a s =
          (base ++ ext, ops.length, applyAll apply ops init) ∧
        StatesOk apply init ops (base ++ ext) ∧
        (((base ++ ext).map Prod.fst).Pairwise (· < ·)) ∧
        (∀ q ∈ base ++ ext, q.1 < ops.length) ∧
        (base = [] →
          ((base ++ ext).head?.map Prod.fst = some a ∨ (rest = [] ∧ ext = []))) := by
  intro rest
  induction rest with
  | nil =>
    intro base a s hrest ha hs hok hpw hlt
    have halen : a = ops.length := by
      have h1 : ops.length ≤ a := List.drop_eq_nil_iff.1 hrest.symm
      omega
    refine ⟨[], ?_, by simpa using hok, by simpa using hpw, ?_, fun _ => Or.inr ⟨rfl, rfl⟩⟩
    · simp only [recalcLoop, List.append_nil]
      rw [halen] at hs ⊢
      rw [hs, List.take_length]
    · intro q hq
      rw [List.append_nil] at hq
      have := hlt q hq
      omega
  | cons e rest' ih =>
    intro base a s hrest ha hs hok hpw hlt
    have halt : a < ops.length := by
      rcases Nat.lt_or_ge a ops.length with h | h
      · exact h
      · exfalso
        have : ops.drop a = [] := List.drop_eq_nil_iff.2 h
        rw [this] at hrest
        exact absurd hrest (by simp)
    have hgete : ops[a]? = some e := by
      have h1 := List.head?_drop ops a
      rw [← hrest] at h1
      simpa using h1.symm
    have htake : ops.take (a + 1) = ops.take a ++ [e] := by
      rw [List.take_succ, hgete]
      rfl
    have happly : apply e s = applyAll apply (ops.take (a + 1)) init := by
      rw [htake, applyAll_append]
      simp [applyAll, hs]
    have hrest' : rest' = ops.drop (a + 1) := by
      have h2 : (ops.drop a).drop 1 = ops.drop (a + 1) := by
        rw [List.drop_drop]
      rw [← hrest] at h2
      simpa using h2
    obtain ⟨push, hpush, hpcases, hpnil⟩ := recalcPush_spec gap base a s
    have hokp : StatesOk apply init ops (base ++ push) := by
      intro q hq
      rcases List.mem_append.1 hq with hq | hq
      · exact hok q hq
      · rcases hpcases with h | h <;> rw [h] at hq <;> simp at hq
        rw [hq]
        exact ⟨Nat.le_of_lt halt, hs⟩
    have hpwp : (((base ++ push).map Prod.fst).Pairwise (· < ·)) := by
      rcases hpcases with h | h
      · rw [h, List.map_append, List.pairwise_append]
        refine ⟨hpw, by simp, ?_⟩
        intro x hx y hy
        simp only [List.map_cons, List.map_nil, List.mem_singleton] at hy
        obtain ⟨q, hq, hqx⟩ := List.mem_map.1 hx
        rw [hy, ← hqx]
        exact hlt q hq
      · simpa [h] using hpw
    have hltp : ∀ q ∈ base ++ push, q.1 < a + 1 := by
      intro q hq
      rcases List.mem_append.1 hq with hq | hq
      · have := hlt q hq; omega
      · rcases hpcases with h | h <;> rw [h] at hq <;> simp at hq
        rw [hq]
        omega
    obtain ⟨ext', heq', hok', hpw', hlen', hhead'⟩ :=
      ih (base ++ push) (a + 1) (apply e s) hrest' halt happly hokp hpwp hltp
    refine ⟨push ++ ext', ?_, ?_, ?_, ?_, ?_⟩
    · show recalcLoop apply gap (e :: rest') base a s = _
      simp only [recalcLoop, hpush]
      rw [heq', List.append_assoc]
    · rw [← List.append_assoc]
      exact hok'
    · rw [← List.append_assoc]
      exact hpw'
    · rw [← List.append_assoc]
      exact hlen'
    · intro hbase
      left
      have hp1 : push = [(a, s)] := hpnil hbase
      have : base ++ push ++ ext' = (a, s) :: ext' := by
        rw [hbase, hp1]
        rfl
      rw [← List.append_assoc, this]
      rfl

/-- Correctness of `recalculate`: whenever the checkpoints at or before the
insertion point are correct for the (already updated) op vector, the rebuilt
cache satisfies the full invariant on the states. -/
theorem recalculate_spec (init : S) {o : Opset E S} {p : Nat}
    (hkeys : (o.states.map Prod.fst).Pairwise (· < ·))
    (hhead : o.states.head?.map Prod.fst = some 0)
    (hok : ∀ q ∈ o.states, q.1 ≤ p →
      q.1 ≤ o.ops.length ∧ q.2 = applyAll apply (o.ops.take q.1) init) :
    ∃ o', recalculate apply o p = some o' ∧
      o'.ops = o.ops ∧ o'.cache_gap = o.cache_gap ∧
      ((o'.states.map Prod.fst).Pairwise (· < ·)) ∧
      o'.states.head?.map Prod.fst = some 0 ∧
      o'.states.getLast?.map Prod.fst = some o.ops.length ∧
      StatesOk apply init o.ops o'.states := by
  have hpos : 1 ≤ indexOfFirstBadState o.states p := ifbs_pos hhead
  set tr := o.states.take (indexOfFirstBadState o.states p) with htr
  have htrhead : tr.head? = o.states.head? := by
    rw [htr, List.head?_take, if_neg (by omega)]
  have htrne : tr ≠ [] := by
    intro h
    rw [h] at htrhead
    cases hs : o.states
    · rw [hs] at hhead; simp at hhead
    · rw [hs] at htrhead; simp at htrhead
  set popped := tr.getLast htrne with hpopdef
  have hpop : tr.getLast? = some popped := List.getLast?_eq_getLast tr htrne
  have hpmemtr : popped ∈ tr := List.getLast_mem htrne
  have hpmem : popped ∈ o.states := List.take_subset _ _ hpmemtr
  have hple : popped.1 ≤ p := take_ifbs_le o.states popped hpmemtr
  obtain ⟨hplen, hpval⟩ := hok popped hpmem hple
  set base := tr.dropLast with hbase
  have htrdec : base ++ [popped] = tr := List.dropLast_append_getLast htrne
  have hbsub : base.Sublist o.states :=
    (List.dropLast_sublist tr).trans (List.take_sublist _ _)
  have hokb : StatesOk apply init o.ops base := by
    intro q hq
    have hqtr : q ∈ tr := (List.dropLast_sublist tr).subset hq
    exact hok q (List.take_subset _ _ hqtr) (take_ifbs_le o.states q hqtr)
  have hpwb : ((base.map Prod.fst).Pairwise (· < ·)) :=
    List.Pairwise.sublist (List.Sublist.map Prod.fst hbsub) hkeys
  have hltb : ∀ q ∈ base, q.1 < popped.1 := by
    have hpwtr : ((tr.map Prod.fst).Pairwise (· < ·)) :=
      List.Pairwise.sublist (List.Sublist.map Prod.fst (List.take_sublist _ _)) hkeys
    rw [← htrdec, List.map_append, List.pairwise_append] at hpwtr
    intro q hq
    exact hpwtr.2.2 q.1 (List.mem_map.2 ⟨q, hq, rfl⟩) popped.1 (by simp)
  obtain ⟨ext, heq, hok', hpw', hlen', hhead'⟩ :=
    recalcLoop_spec apply init o.cache_gap o.ops (o.ops.drop popped.1) base popped.1
      popped.2 rfl hplen hpval hokb hpwb hltb
  refine ⟨{ o with states :=
      (base ++ ext) ++ [(o.ops.length, applyAll apply o.ops init)] }, ?_, rfl, rfl, ?_, ?_, ?_, ?_⟩
  · show recalculate apply o p = _
    unfold recalculate
    rw [← htr, hpop, ← hbase]
    dsimp only
    rw [heq]
  · rw [List.map_append, List.pairwise_append]
    refine ⟨hpw', by simp, ?_⟩
    intro x hx y hy
    simp only [List.map_cons, List.map_nil, List.mem_singleton] at hy
    obtain ⟨q, hq, hqx⟩ := List.mem_map.1 hx
    rw [hy, ← hqx]
    exact hlen' q hq
  · have hp0base : base = [] → popped.1 = 0 := by
      intro hb
      have h1 : tr.head? = some popped := by
        rw [← htrdec, hb]
        rfl
      rw [htrhead] at h1
      have h2 := congrArg (Option.map Prod.fst) h1
      rw [hhead] at h2
      simpa using h2.symm
    by_cases hb : base = []
    · rcases hhead' hb with h | ⟨hdropnil, hext⟩
      · rw [List.head?_append]
        rcases hcase : (base ++ ext).head? with _ | hd
        · rw [hcase] at h; simp at h
        · rw [hcase] at h
          have hhd : hd.1 = popped.1 := by simpa using h
          simp [Option.or, hhd, hp0base hb]
      · have hlen0 : o.ops.length = 0 := by
          have h3 : o.ops.drop popped.1 = [] := hdropnil
          rw [hp0base hb] at h3
          simpa using congrArg List.length h3
        rw [hb, hext]
        simp [hlen0]
    · have hbh : ∃ b, base.head? = some b ∧ b.1 = 0 := by
        have h1 : tr.head? = base.head? := by
          rw [← htrdec, List.head?_append]
          rcases hcase : base.head? with _ | b
          · exact absurd (List.head?_eq_none_iff.1 hcase) hb
          · rfl
        rcases hcase : base.head? with _ | b
        · exact absurd (List.head?_eq_none_iff.1 hcase) hb
        · refine ⟨b, rfl, ?_⟩
          rw [htrhead, hcase] at h1
          rw [h1] at hhead
          simpa using hhead
      obtain ⟨b, hbh1, hbh2⟩ := hbh
      rw [List.head?_append, List.head?_append, hbh1]
      simp [hbh2]
  · rw [List.getLast?_concat]
    rfl
  · intro q hq
    rcases List.mem_append.1 hq with hq | hq
    · exact hok' q hq
    · simp only [List.mem_singleton] at hq
      rw [hq]
      exact ⟨Nat.le_refl _, by rw [List.take_length]⟩

theorem insertIdx_length_append {α : Type _} (l₁ l₂ : List α) (x : α) :
    List.insertIdx l₁.length x (l₁ ++ l₂) = l₁ ++ x :: l₂ := by
  induction l₁ with
  | nil => simp
  | cons a l₁ ih => simpa [List.insertIdx_succ_cons] using ih

/-- Inserting at the binary-search insertion point splits the sorted vector
at the timestamp boundary. -/
theorem sorted_insert_decomp (l : List E) (e : E) :
    List.insertIdx ((l.takeWhile (fun x => ts x < ts e)).length) e l =
      l.takeWhile (fun x => ts x < ts e) ++ e :: l.dropWhile (fun x => ts x < ts e) := by
  have h := List.takeWhile_append_dropWhile (p := fun x => decide (ts x < ts e)) (l := l)
  calc List.insertIdx ((l.takeWhile (fun x => ts x < ts e)).length) e l
      = List.insertIdx ((l.takeWhile (fun x => ts x < ts e)).length) e
          (l.takeWhile (fun x => ts x < ts e) ++ l.dropWhile (fun x => ts x < ts e)) := by
        rw [h]
    _ = _ := insertIdx_length_append _ _ _

theorem dropWhile_gt {e : E} :
    ∀ l : List E, SortedOps ts l → (∀ x ∈ l, ts x ≠ ts e) →
      ∀ y ∈ l.dropWhile (fun x => ts x < ts e), ts e < ts y := by
  intro l
  induction l with
  | nil => intro _ _ y hy; simp at hy
  | cons a l ih =>
    intro hs hne y hy
    rw [List.dropWhile_cons] at hy
    by_cases hpa : ts a < ts e
    · rw [if_pos (by simpa using hpa)] at hy
      exact ih (List.pairwise_cons.1 hs).2 (fun x hx => hne x (List.mem_cons_of_mem _ hx)) y hy
    · rw [if_neg (by simpa using hpa)] at hy
      have hae : ts e < ts a := by
        have := hne a (List.mem_cons_self _ _)
        omega
      rcases List.mem_cons.1 hy with h | h
      · rw [h]; exact hae
      · have := (List.pairwise_cons.1 hs).1 y h
        omega

theorem sorted_insertIdx {l : List E} {e : E} (hs : SortedOps ts l)
    (hne : ∀ x ∈ l, ts x ≠ ts e) :
    SortedOps ts
      (l.takeWhile (fun x => ts x < ts e) ++ e :: l.dropWhile (fun x => ts x < ts e)) := by
  show List.Pairwise _ _
  rw [List.pairwise_append]
  refine ⟨List.Pairwise.sublist (List.takeWhile_sublist _) hs, ?_, ?_⟩
  · rw [List.pairwise_cons]
    exact ⟨dropWhile_gt ts l hs hne, List.Pairwise.sublist (List.dropWhile_sublist _) hs⟩
  · intro a ha b hb
    have hae : ts a < ts e := by simpa using List.mem_takeWhile_imp ha
    rcases List.mem_cons.1 hb with h | h
    · rw [h]; exact hae
    · have heb : ts e < ts b := dropWhile_gt ts l hs hne b h
      omega

theorem insert_take_prefix {l : List E} {e : E} {k : Nat}
    (hk : k ≤ (l.takeWhile (fun x => ts x < ts e)).length) :
    (l.takeWhile (fun x => ts x < ts e) ++ e :: l.dropWhile (fun x => ts x < ts e)).take k =
      l.take k := by
  rw [List.take_append_of_le_length hk]
  conv_rhs =>
    rw [← List.takeWhile_append_dropWhile (p := fun x => decide (ts x < ts e)) (l := l)]
  rw [List.take_append_of_le_length hk]

theorem insert_perm (l : List E) (e : E) :
    (l.takeWhile (fun x => ts x < ts e) ++ e :: l.dropWhile (fun x => ts x < ts e)).Perm
      (e :: l) := by
  refine List.perm_middle.trans ?_
  rw [List.takeWhile_append_dropWhile]

/-- Correctness of a single `edit`: on fresh timestamps it succeeds,
maintains the invariant, and its op vector is the old one plus the new
op. -/
theorem edit_spec (init : S) {o : Opset E S} {e : E}
    (hInv : Inv ts apply init o) (hne : ∀ x ∈ o.ops, ts x ≠ ts e) :
    ∃ o', edit ts apply o e = some o' ∧ Inv ts apply init o' ∧
      o'.ops.Perm (e :: o.ops) ∧ o'.cache_gap = o.cache_gap := by
  obtain ⟨hsort, hkeys, hhead, hlast, hok⟩ := hInv
  have hcond : ¬ ∃ x ∈ o.ops, ts x = ts e := by
    rintro ⟨x, hx, h⟩
    exact hne x hx h
  set ip := (o.ops.takeWhile (fun x => ts x < ts e)).length with hip
  set ops' := List.insertIdx ip e o.ops with hops'
  have hdecomp : ops' =
      o.ops.takeWhile (fun x => ts x < ts e) ++ e :: o.ops.dropWhile (fun x => ts x < ts e) :=
    sorted_insert_decomp ts o.ops e
  have hsort' : SortedOps ts ops' := by
    rw [hdecomp]; exact sorted_insertIdx ts hsort hne
  have hperm : ops'.Perm (e :: o.ops) := by
    rw [hdecomp]; exact insert_perm ts o.ops e
  have hlen' : ops'.length = o.ops.length + 1 := by
    simpa using hperm.length_eq
  have htake : ∀ k ≤ ip, ops'.take k = o.ops.take k := by
    intro k hk
    rw [hdecomp]
    exact insert_take_prefix ts hk
  obtain ⟨o', ho'eq, ho'ops, ho'gap, h1, h2, h3, h4⟩ :=
    recalculate_spec apply init (o := { o with ops := ops' }) (p := ip) hkeys hhead
      (by
        intro q hq hqip
        obtain ⟨hqlen, hqval⟩ := hok q hq
        refine ⟨by simp [hlen']; omega, ?_⟩
        show q.2 = applyAll apply (ops'.take q.1) init
        rw [htake q.1 hqip]
        exact hqval)
  refine ⟨o', ?_, ⟨?_, h1, h2, ?_, ?_⟩, ?_, ho'gap⟩
  · show edit ts apply o e = some o'
    unfold edit
    rw [if_neg hcond, ← hip, ← hops']
    exact ho'eq
  · rw [ho'ops]; exact hsort'
  · rw [ho'ops]; exact h3
  · rw [ho'ops]; exact h4
  · rw [ho'ops]; exact hperm

/-- Correctness of the insertion loop of `edit_from_iter`. -/
theorem editFromIterLoop_spec (es : List E) :
    ∀ (ops : List E) (least : Option Nat),
      SortedOps ts ops →
      es.Pairwise (fun a b => ts a ≠ ts b) →
      (∀ x ∈ ops, ∀ y ∈ es, ts x ≠ ts y) →
      (∀ m, least = some m → m ≤ ops.length) →
      ∃ ops' least',
        editFromIterLoop ts ops es least = some (ops', least') ∧
        SortedOps ts ops' ∧ ops'.Perm (ops ++ es) ∧
        (∀ m, least = some m → ∃ m', least' = some m' ∧ m' ≤ m) ∧
        (∀ k, (∀ m', least' = some m' → k ≤ m') → ops'.take k = ops.take k) ∧
        (least' = none → least = none ∧ ops' = ops ∧ es = []) ∧
        (∀ m', least' = some m' → m' ≤ ops'.length) := by
  induction es with
  | nil =>
    intro ops least hsort hpw hcross hle
    exact ⟨ops, least, rfl, hsort, by simp, fun m hm => ⟨m, hm, Nat.le_refl m⟩,
      fun k _ => rfl, fun h => ⟨h, rfl, rfl⟩, fun m' hm' => hle m' hm'⟩
  | cons e rest ih =>
    intro ops least hsort hpw hcross hle
    have hcond : ¬ ∃ x ∈ ops, ts x = ts e := by
      rintro ⟨x, hx, h⟩
      exact hcross x hx e (List.mem_cons_self _ _) h
    have hne : ∀ x ∈ ops, ts x ≠ ts e := fun x hx =>
      hcross x hx e (List.mem_cons_self _ _)
    set ip := (ops.takeWhile (fun x => ts x < ts e)).length with hip
    have hiple : ip ≤ ops.length := by
      rw [hip]
      exact (List.takeWhile_sublist _).length_le
    set ops₁ := List.insertIdx ip e ops with hops₁
    have hdecomp : ops₁ =
        ops.takeWhile (fun x => ts x < ts e) ++ e :: ops.dropWhile (fun x => ts x < ts e) :=
      sorted_insert_decomp ts ops e
    have hsort₁ : SortedOps ts ops₁ := by
      rw [hdecomp]; exact sorted_insertIdx ts hsort hne
    have hperm₁ : ops₁.Perm (e :: ops) := by
      rw [hdecomp]; exact insert_perm ts ops e
    have hlen₁ : ops₁.length = ops.length + 1 := by
      simpa using hperm₁.length_eq
    have htake₁ : ∀ k ≤ ip, ops₁.take k = ops.take k := by
      intro k hk
      rw [hdecomp]
      exact insert_take_prefix ts hk
    have hcross₁ : ∀ x ∈ ops₁, ∀ y ∈ rest, ts x ≠ ts y := by
      intro x hx y hy
      rcases List.mem_cons.1 (hperm₁.mem_iff.1 hx) with h | h
      · rw [h]
        exact (List.pairwise_cons.1 hpw).1 y hy
      · exact hcross x h y (List.mem_cons_of_mem _ hy)
    have hpw₁ : rest.Pairwise (fun a b => ts a ≠ ts b) := (List.pairwise_cons.1 hpw).2
    obtain ⟨m₁, hm₁eq, hm₁ip, hm₁len, hm₁least⟩ : ∃ m₁,
        (match least with
         | some prev => if prev < ip then some prev else some ip
         | none => some ip) = some m₁ ∧
        m₁ ≤ ip ∧ m₁ ≤ ops.length ∧ ∀ m, least = some m → m₁ ≤ m := by
      cases least with
      | none =>
        exact ⟨ip, rfl, Nat.le_refl ip, hiple, by intro m hm; cases hm⟩
      | some prev =>
        by_cases h : prev < ip
        · refine ⟨prev, by simp [h], by omega, hle prev rfl, ?_⟩
          intro m hm
          injection hm with hm
          omega
        · refine ⟨ip, by simp [h], Nat.le_refl ip, hiple, ?_⟩
          intro m hm
          injection hm with hm
          omega
    obtain ⟨ops', least', heq, h2, h3, h4, h5, h6, h7⟩ :=
      ih ops₁ (some m₁) hsort₁ hpw₁ hcross₁
        (by
          intro m hm
          injection hm with hm
          subst hm
          show m₁ ≤ ops₁.length
          omega)
    refine ⟨ops', least', ?_, h2, ?_, ?_, ?_, ?_, h7⟩
    · show editFromIterLoop ts ops (e :: rest) least = some (ops', least')
      unfold editFromIterLoop
      rw [if_neg hcond, ← hip, ← hops₁, hm₁eq]
      exact heq
    · refine h3.trans ?_
      have ha : (ops₁ ++ rest).Perm ((e :: ops) ++ rest) := hperm₁.append_right rest
      have hb : ((e :: ops) ++ rest).Perm (ops ++ e :: rest) := List.perm_middle.symm
      exact ha.trans hb
    · intro m hm
      obtain ⟨m', hm', hm'le⟩ := h4 m₁ rfl
      exact ⟨m', hm', Nat.le_trans hm'le (hm₁least m hm)⟩
    · intro k hk
      obtain ⟨m', hm'eq, hm'le⟩ := h4 m₁ rfl
      have hkip : k ≤ ip := Nat.le_trans (hk m' hm'eq) (Nat.le_trans hm'le hm₁ip)
      rw [h5 k hk, htake₁ k hkip]
    · intro h
      obtain ⟨hl₁, _, _⟩ := h6 h
      exact absurd hl₁ (by simp)

/-- Correctness of `edit_from_iter`: on fresh, pairwise-distinct timestamps
it succeeds, maintains the invariant, and appends the batch to the op
multiset. -/
theorem edit_from_iter_spec (init : S) {o : Opset E S} (es : List E)
    (hInv : Inv ts apply init o)
    (hpw : es.Pairwise (fun a b => ts a ≠ ts b))
    (hcross : ∀ x ∈ o.ops, ∀ y ∈ es, ts x ≠ ts y) :
    ∃ o', edit_from_iter ts apply o es = some o' ∧ Inv ts apply init o' ∧
      o'.ops.Perm (o.ops ++ es) ∧ o'.cache_gap = o.cache_gap := by
  obtain ⟨hsort, hkeys, hhead, hlast, hok⟩ := hInv
  obtain ⟨ops', least', heq, hsort', hperm, _, htake, hnone, hlenle⟩ :=
    editFromIterLoop_spec ts es o.ops none hsort hpw hcross (by simp)
  cases hl : least' with
  | none =>
    obtain ⟨_, hops, hes⟩ := hnone hl
    refine ⟨{ o with ops := ops' }, ?_, ⟨hsort', hkeys, hhead, ?_, ?_⟩, by simpa using hperm, rfl⟩
    · unfold edit_from_iter
      rw [heq, hl]
    · show _ = some ops'.length
      rw [hops]
      exact hlast
    · intro q hq
      rw [hops]
      exact hok q hq
  | some p =>
    have hlen : ops'.length = o.ops.length + es.length := by
      simpa using hperm.length_eq
    obtain ⟨o', ho'eq, ho'ops, ho'gap, h1, h2, h3, h4⟩ :=
      recalculate_spec apply init (o := { o with ops := ops' }) (p := p) hkeys hhead
        (by
          intro q hq hqp
          obtain ⟨hqlen, hqval⟩ := hok q hq
          refine ⟨by show q.1 ≤ ops'.length; omega, ?_⟩
          show q.2 = applyAll apply (ops'.take q.1) init
          rw [htake q.1 (by intro m' hm'; rw [hl] at hm'; injection hm' with h; omega)]
          exact hqval)
    refine ⟨o', ?_, ⟨?_, h1, h2, ?_, ?_⟩, ?_, ho'gap⟩
    · show edit_from_iter ts apply o es = some o'
      unfold edit_from_iter
      rw [heq, hl]
      exact ho'eq
    · rw [ho'ops]; exact hsort'
    · rw [ho'ops]; exact h3
    · rw [ho'ops]; exact h4
    · rw [ho'ops]; exact hperm

/-- The published state of an invariant-satisfying log is the fold of its
sorted op vector over the initial state. -/
theorem state_of_Inv (init : S) {o : Opset E S} (hInv : Inv ts apply init o) :
    Opset.state o = some (applyAll apply o.ops init) := by
  obtain ⟨_, _, _, hlast, hok⟩ := hInv
  rcases hgl : o.states.getLast? with _ | q
  · rw [hgl] at hlast
    simp at hlast
  · have hq : q ∈ o.states := List.mem_of_mem_getLast? hgl
    obtain ⟨hqlen, hqval⟩ := hok q hq
    have hqfst : q.1 = o.ops.length := by
      rw [hgl] at hlast
      simpa using hlast
    unfold Opset.state
    rw [hgl]
    show some q.2 = some (applyAll apply o.ops init)
    rw [hqval, hqfst, List.take_length]

/-- Two sorted op vectors holding the same multiset of operations are
equal. -/
theorem sortedOps_eq_of_perm {l₁ l₂ : List E} (hp : l₁.Perm l₂)
    (h₁ : SortedOps ts l₁) (h₂ : SortedOps ts l₂) : l₁ = l₂ := by
  haveI : IsAntisymm E (fun a b => ts a < ts b) :=
    ⟨fun a b hab hba => absurd hba (by omega)⟩
  exact List.eq_of_perm_of_sorted hp h₁ h₂

/-- One `edit` call is the same function as `edit_from_iter` on the
singleton batch. -/
theorem edit_eq_singleton_iter (o : Opset E S) (e : E) :
    edit ts apply o e = edit_from_iter ts apply o [e] := by
  by_cases h : ∃ x ∈ o.ops, ts x = ts e
  · unfold edit edit_from_iter editFromIterLoop
    rw [if_pos h, if_pos h]
  · unfold edit edit_from_iter editFromIterLoop
    rw [if_neg h, if_neg h]
    unfold editFromIterLoop
    rfl

/-- Applying batches one after the other succeeds on globally distinct fresh
timestamps and accumulates all their operations. -/
theorem editBatches_spec (init : S) :
    ∀ (batches : List (List E)) (o : Opset E S),
      Inv ts apply init o →
      ((batches.flatten).Pairwise (fun a b => ts a ≠ ts b)) →
      (∀ x ∈ o.ops, ∀ y ∈ batches.flatten, ts x ≠ ts y) →
      ∃ o', editBatches ts apply o batches = some o' ∧ Inv ts apply init o' ∧
        o'.ops.Perm (o.ops ++ batches.flatten) := by
  intro batches
  induction batches with
  | nil =>
    intro o hInv _ _
    exact ⟨o, rfl, hInv, by simp⟩
  | cons b bs ih =>
    intro o hInv hpw hcross
    have hflat : (b :: bs).flatten = b ++ bs.flatten := by simp
    rw [hflat] at hpw hcross
    obtain ⟨hpwb, hpwbs, hcrossb⟩ := List.pairwise_append.1 hpw
    obtain ⟨o₁, h1, hInv1, hperm1, _⟩ :=
      edit_from_iter_spec ts apply init b hInv hpwb
        (fun x hx y hy => hcross x hx y (List.mem_append_left _ hy))
    obtain ⟨o', h2, hInv2, hperm2⟩ := ih o₁ hInv1 hpwbs
      (by
        intro x hx y hy
        rcases List.mem_append.1 (hperm1.mem_iff.1 hx) with h | h
        · exact hcross x h y (List.mem_append_right _ hy)
        · exact hcrossb x h y hy)
    refine ⟨o', ?_, hInv2, ?_⟩
    · show editBatches ts apply o (b :: bs) = some o'
      unfold editBatches
      rw [h1]
      exact h2
    · rw [hflat, ← List.append_assoc]
      exact hperm2.trans (hperm1.append_right _)

end Proofs

/-! ### Claim theorems for the operation log -/

/-- C1: for every pair of disjoint operation batches `A` and `B` whose
operations all have distinct timestamps, feeding `A`'s operations into the
operation log and then `B`'s yields the same `state()` as feeding `B`'s
operations and then `A`'s. -/
theorem c1_disjoint_batches_commute {E S : Type _} (ts : E → Nat)
    (apply : E → S → S) (init : S) {o : Opset E S}
    (hInv : Inv ts apply init o) (A B : List E)
    (hAB : (A ++ B).Pairwise (fun a b => ts a ≠ ts b))
    (hops : ∀ x ∈ o.ops, ∀ y ∈ A ++ B, ts x ≠ ts y) :
    ∃ o₁ o₂,
      (edit_from_iter ts apply o A).bind
        (fun z => edit_from_iter ts apply z B) = some o₁ ∧
      (edit_from_iter ts apply o B).bind
        (fun z => edit_from_iter ts apply z A) = some o₂ ∧
      o₁.state = o₂.state := by
  obtain ⟨hpwA, hpwB, hcrossAB⟩ := List.pairwise_append.1 hAB
  have hopsA : ∀ x ∈ o.ops, ∀ y ∈ A, ts x ≠ ts y :=
    fun x hx y hy => hops x hx y (List.mem_append_left _ hy)
  have hopsB : ∀ x ∈ o.ops, ∀ y ∈ B, ts x ≠ ts y :=
    fun x hx y hy => hops x hx y (List.mem_append_right _ hy)
  obtain ⟨oA, hA, hInvA, hpermA, _⟩ := edit_from_iter_spec ts apply init A hInv hpwA hopsA
  obtain ⟨o₁, h1, hInv1, hperm1, _⟩ := edit_from_iter_spec ts apply init B hInvA hpwB
    (by
      intro x hx y hy
      rcases List.mem_append.1 (hpermA.mem_iff.1 hx) with h | h
      · exact hopsB x h y hy
      · exact hcrossAB x h y hy)
  obtain ⟨oB, hB, hInvB, hpermB, _⟩ := edit_from_iter_spec ts apply init B hInv hpwB hopsB
  obtain ⟨o₂, h2, hInv2, hperm2, _⟩ := edit_from_iter_spec ts apply init A hInvB hpwA
    (by
      intro x hx y hy
      rcases List.mem_append.1 (hpermB.mem_iff.1 hx) with h | h
      · exact hopsA x h y hy
      · exact fun hc => hcrossAB y hy x h hc.symm)
  have hopseq : o₁.ops = o₂.ops := by
    apply sortedOps_eq_of_perm ts ?_ hInv1.1 hInv2.1
    have p1 : o₁.ops.Perm ((o.ops ++ A) ++ B) := hperm1.trans (hpermA.append_right B)
    have p2 : o₂.ops.Perm ((o.ops ++ B) ++ A) := hperm2.trans (hpermB.append_right A)
    have hmid : ((o.ops ++ B) ++ A).Perm ((o.ops ++ A) ++ B) := by
      rw [List.append_assoc, List.append_assoc]
      exact List.perm_append_comm.append_left o.ops
    exact p1.trans ((p2.trans hmid).symm)
  refine ⟨o₁, o₂, ?_, ?_, ?_⟩
  · rw [hA]
    exact h1
  · rw [hB]
    exact h2
  · rw [state_of_Inv ts apply init hInv1, state_of_Inv ts apply init hInv2, hopseq]

/-- Witness for C1: two concrete disjoint batches over the log of the
source's own unit test. -/
theorem c1_disjoint_batches_commute_witness :
    ∃ o₁ o₂ : Opset (Nat × Nat) (List Nat),
      (edit_from_iter Prod.fst (fun e s => s ++ [e.2]) (Opset.new [0] 2)
          [(10, 1), (5, 2)]).bind
        (fun z => edit_from_iter Prod.fst (fun e s => s ++ [e.2]) z
          [(15, 3), (12, 4), (11, 5)]) = some o₁ ∧
      (edit_from_iter Prod.fst (fun e s => s ++ [e.2]) (Opset.new [0] 2)
          [(15, 3), (12, 4), (11, 5)]).bind
        (fun z => edit_from_iter Prod.fst (fun e s => s ++ [e.2]) z
          [(10, 1), (5, 2)]) = some o₂ ∧
      o₁.state = o₂.state :=
  c1_disjoint_batches_commute Prod.fst (fun e s => s ++ [e.2]) [0]
    (Inv_new Prod.fst (fun e s => s ++ [e.2]) [0] 2) [(10, 1), (5, 2)]
    [(15, 3), (12, 4), (11, 5)] (by decide)
    (by intro x hx; simp [Opset.new] at hx)

/-- C2: an operation log built incrementally from the operations in any
arrival order (one at a time — `edit` is the singleton case of
`edit_from_iter` — or in batches) has the same `state()` as a fresh log
that applies the same operations once in sorted timestamp order. -/
theorem c2_incremental_matches_sorted_replay {E S : Type _} (ts : E → Nat)
    (apply : E → S → S) (init : S) (gap gap' : Nat)
    (batches : List (List E)) (L : List E)
    (hdist : (batches.flatten).Pairwise (fun a b => ts a ≠ ts b))
    (hperm : (batches.flatten).Perm L) (hsorted : SortedOps ts L) :
    (∀ (o : Opset E S) (e : E), edit ts apply o e = edit_from_iter ts apply o [e]) ∧
    ∃ o₁ o₂,
      editBatches ts apply (Opset.new init gap) batches = some o₁ ∧
      edit_from_iter ts apply (Opset.new init gap') L = some o₂ ∧
      o₁.state = o₂.state ∧ o₁.state = some (applyAll apply L init) := by
  refine ⟨edit_eq_singleton_iter ts apply, ?_⟩
  obtain ⟨o₁, h1, hInv1, hperm1⟩ :=
    editBatches_spec ts apply init batches (Opset.new init gap)
      (Inv_new ts apply init gap) hdist
      (by intro x hx; simp [Opset.new] at hx)
  have hLpw : L.Pairwise (fun a b => ts a ≠ ts b) :=
    hsorted.imp (fun h => by omega)
  obtain ⟨o₂, h2, hInv2, hperm2, _⟩ :=
    edit_from_iter_spec ts apply init L (Inv_new ts apply init gap') hLpw
      (by intro x hx; simp [Opset.new] at hx)
  have hops1 : o₁.ops = L := by
    refine sortedOps_eq_of_perm ts ?_ hInv1.1 hsorted
    exact (hperm1.trans (by simp [Opset.new])).trans hperm
  have hops2 : o₂.ops = L := by
    refine sortedOps_eq_of_perm ts ?_ hInv2.1 hsorted
    exact hperm2.trans (by simp [Opset.new])
  refine ⟨o₁, o₂, h1, h2, ?_, ?_⟩
  · rw [state_of_Inv ts apply init hInv1, state_of_Inv ts apply init hInv2, hops1, hops2]
  · rw [state_of_Inv ts apply init hInv1, hops1]

/-- Witness for C2: three operations arriving as two batches versus a fresh
sorted replay. -/
theorem c2_incremental_matches_sorted_replay_witness :
    ∃ o₁ o₂ : Opset (Nat × Nat) (List Nat),
      editBatches Prod.fst (fun e s => s ++ [e.2]) (Opset.new [0] 2)
        [[(10, 1)], [(5, 2), (15, 3)]] = some o₁ ∧
      edit_from_iter Prod.fst (fun e s => s ++ [e.2]) (Opset.new [0] 3)
        [(5, 2), (10, 1), (15, 3)] = some o₂ ∧
      o₁.state = o₂.state ∧
      o₁.state = some (applyAll (fun e s => s ++ [e.2]) [(5, 2), (10, 1), (15, 3)] [0]) :=
  (c2_incremental_matches_sorted_replay Prod.fst (fun e s => s ++ [e.2]) [0] 2 3
    [[(10, 1)], [(5, 2), (15, 3)]] [(5, 2), (10, 1), (15, 3)]
    (by decide) (by decide) (by show List.Pairwise _ _; decide)).2

section Proofs2

variable {E S : Type _} (ts : E → Nat) (apply : E → S → S)

theorem editFromIterLoop_collision (e : E) :
    ∀ (es : List E) (ops : List E) (least : Option Nat),
      (∃ x ∈ ops, ts x = ts e) → e ∈ es →
      editFromIterLoop ts ops es least = none := by
  intro es
  induction es with
  | nil =>
    intro _ _ _ h
    simp at h
  | cons f rest ih =>
    intro ops least hex hmem
    by_cases hc : ∃ x ∈ ops, ts x = ts f
    · unfold editFromIterLoop
      rw [if_pos hc]
    · have hef : e ∈ rest := by
        rcases List.mem_cons.1 hmem with h | h
        · exfalso
          obtain ⟨x, hx, hts⟩ := hex
          exact hc ⟨x, hx, by rw [hts, h]⟩
        · exact h
      unfold editFromIterLoop
      rw [if_neg hc]
      apply ih
      · obtain ⟨x, hx, hts⟩ := hex
        refine ⟨x, ?_, hts⟩
        have hle : (ops.takeWhile (fun x => ts x < ts f)).length ≤ ops.length :=
          (List.takeWhile_sublist _).length_le
        exact (List.mem_insertIdx hle).2 (Or.inr hx)
      · exact hef

end Proofs2

/-- C8: an incoming operation whose timestamp equals the timestamp of an
operation already in the log is rejected at insertion time — the
`expect_err` bails out (modelled as `none`) and the op is never accepted
into the sorted ops vector, by `edit` and by `edit_from_iter` alike. -/
theorem c8_equal_timestamp_rejected {E S : Type _} (ts : E → Nat)
    (apply : E → S → S) {o : Opset E S} {e x : E}
    (hx : x ∈ o.ops) (hts : ts x = ts e) :
    edit ts apply o e = none ∧
    ∀ es, e ∈ es → edit_from_iter ts apply o es = none := by
  constructor
  · unfold edit
    rw [if_pos ⟨x, hx, hts⟩]
  · intro es hmem
    unfold edit_from_iter
    rw [editFromIterLoop_collision ts e es o.ops none ⟨x, hx, hts⟩ hmem]

/-- Witness for C8: a log holding timestamp 5 rejects another op at
timestamp 5, directly and inside a batch. -/
theorem c8_equal_timestamp_rejected_witness :
    edit Prod.fst (fun (e : Nat × Nat) (s : List Nat) => s ++ [e.2])
      ⟨[(5, 2)], [(0, [0])], 2⟩ (5, 9) = none ∧
    edit_from_iter Prod.fst (fun (e : Nat × Nat) (s : List Nat) => s ++ [e.2])
      ⟨[(5, 2)], [(0, [0])], 2⟩ [(7, 1), (5, 9)] = none := by
  have h := c8_equal_timestamp_rejected Prod.fst
    (fun (e : Nat × Nat) (s : List Nat) => s ++ [e.2])
    (o := ⟨[(5, 2)], [(0, [0])], 2⟩) (e := (5, 9)) (x := (5, 2))
    (by decide) rfl
  exact ⟨h.1, h.2 [(7, 1), (5, 9)] (by decide)⟩

end Opset

/-! ## The document tree (src/json/tree.rs)

Node arena indices (`NodeId(usize)`) are natural numbers; the two
persistent hash maps of the tree are association lists; the orphan set is a
duplicate-free list. -/

abbrev NodeId := Nat

/-- Model of `Child` (src/json/tree.rs). -/
inductive Child where
  | true
  | false
  | int (i : Int)
  | null
  | collection (n : NodeId)
  deriving DecidableEq, Repr

/-- Model of `TreeError` (src/json/tree.rs). -/
inductive TreeError where
  | unknownId
  | unexpectedNodeType
  | duplicateId
  | nodeAlreadyHadParent
  | editWouldCauseCycle
  deriving DecidableEq, Repr

/-- Model of `NodeType` (src/json/tree.rs). -/
inductive NodeType where
  | string
  | character
  | object
  | array
  | arrayEntry
  deriving DecidableEq, Repr

/-- Model of `Value` (src/json/value.rs); the `StringRef`/`ArrayRef`/
`ObjectRef` wrappers around the identity are inlined. -/
inductive Value (Id : Type _) where
  | string (id : Id)
  | array (id : Id)
  | object (id : Id)
  | int (i : Int)
  | true
  | false
  | null
  | unset
  deriving DecidableEq, Repr

/-- Model of `NodeData` (src/json/tree.rs).  A `StringSegment`'s `contents`
is kept as the list of its characters; the byte offsets that the `ids`
lists store are recovered through `charWidth`/`byteLen` below, mirroring
`len_utf8` and `String::len`.  `end` is a Lean keyword, so the second
sequence-container field is named `stop`. -/
inductive NodeData (Id : Type _) where
  | object (items : List (String × Child)) (id : Id)
  | array (start stop : NodeId) (id : Id)
  | arraySegment (prev next : NodeId) (contents : List Child)
      (ids : List (Id × Option Nat))
  | string (start stop : NodeId) (id : Id)
  | stringSegment (prev next : NodeId) (contents : List Char)
      (ids : List (Id × Option Nat))
  deriving DecidableEq, Repr

/-- Model of `Node` (src/json/tree.rs). -/
structure Node (Id : Type _) where
  data : NodeData Id
  parent : Option NodeId
  deriving DecidableEq, Repr

/-- Model of `Tree` (src/json/tree.rs). -/
structure Tree (Id : Type _) where
  next_node : NodeId
  root : Id
  orphans : List NodeId
  id_to_node : List (Id × NodeId)
  nodes : List (NodeId × Node Id)
  deriving DecidableEq, Repr

/-- Model of `Edit` (src/json/tree.rs). -/
inductive Edit (Id : Type _) where
  | arrayCreate (id : Id)
  | arrayInsert (index : Id) (id : Id) (item : Value Id)
  | arrayDelete (id : Id)
  | mapCreate (id : Id)
  | mapInsert (parent : Id) (key : String) (item : Value Id)
  | textCreate (id : Id)
  | textInsert (index : Id) (id : Id) (character : Char)
  | textDelete (id : Id)
  deriving DecidableEq

/-- The split threshold of the sequence engine (src/tree/sequence.rs). -/
def SPLIT_LEN : Nat := 1024

/-- The join threshold of the sequence engine (src/tree/sequence.rs). -/
def JOIN_LEN : Nat := 511

/-- Model of Rust `char::len_utf8`. -/
def charWidth (c : Char) : Nat :=
  if c.toNat < 0x80 then 1
  else if c.toNat < 0x800 then 2
  else if c.toNat < 0x10000 then 3
  else 4

/-- UTF-8 byte length of a character list; model of Rust `String::len`. -/
def byteLen (cs : List Char) : Nat :=
  (cs.map charWidth).sum

/-- Split a character list at a UTF-8 byte offset; `none` off a character
boundary or out of range, where the Rust `String` operations panic. -/
def splitCharsAt : List Char → Nat → Option (List Char × List Char)
  | cs, 0 => some ([], cs)
  | [], _ + 1 => none
  | c :: rest, ofs + 1 =>
    if charWidth c ≤ ofs + 1 then
      (splitCharsAt rest (ofs + 1 - charWidth c)).map (fun p => (c :: p.1, p.2))
    else none

/-- Model of `String::insert` at a byte index. -/
def stringInsertAt (cs : List Char) (ofs : Nat) (c : Char) : Option (List Char) :=
  (splitCharsAt cs ofs).map (fun p => p.1 ++ c :: p.2)

/-- Model of `String::remove` at a byte index, returning the removed char. -/
def stringRemoveAt (cs : List Char) (ofs : Nat) : Option (Char × List Char) :=
  match splitCharsAt cs ofs with
  | none => none
  | some (_, []) => none
  | some (pre, c :: post) => some (c, pre ++ post)

/-- Model of `Vec::insert`. -/
def listInsertAt {α : Type _} (l : List α) (i : Nat) (x : α) : Option (List α) :=
  if i ≤ l.length then some (l.take i ++ x :: l.drop i) else none

/-- Model of `Vec::remove`, returning the removed element. -/
def listRemoveAt {α : Type _} (l : List α) (i : Nat) : Option (α × List α) :=
  match l[i]? with
  | none => none
  | some x => some (x, l.take i ++ l.drop (i + 1))

namespace NodeData

variable {Id : Type _}

/-- Model of `Node::id`. -/
def idOf : NodeData Id → Option Id
  | .object _ id => some id
  | .string _ _ id => some id
  | .array _ _ id => some id
  | _ => none

/-- Model of `Node::segment_ids` (the `Ok` payload; `none` is the
`UnexpectedNodeType` case). -/
def segmentIds? : NodeData Id → Option (List (Id × Option Nat))
  | .stringSegment _ _ _ ids => some ids
  | .arraySegment _ _ _ ids => some ids
  | _ => none

/-- Replace the ids list of a segment (the `segment_ids_mut` write). -/
def withIds : NodeData Id → List (Id × Option Nat) → NodeData Id
  | .stringSegment p n cs _, ids => .stringSegment p n cs ids
  | .arraySegment p n cs _, ids => .arraySegment p n cs ids
  | d, _ => d

/-- Model of `Node::segment_contents_len` (bytes for string segments). -/
def segmentContentsLen? : NodeData Id → Option Nat
  | .stringSegment _ _ cs _ => some (byteLen cs)
  | .arraySegment _ _ cs _ => some cs.length
  | _ => none

/-- Model of `Node::segment_is_container`. -/
def segmentIsContainer : NodeData Id → Bool
  | .string _ _ _ => Bool.true
  | .array _ _ _ => Bool.true
  | _ => Bool.false

end NodeData

namespace Tree

variable {Id : Type _} [DecidableEq Id]

/-- Model of the private constructor `Tree::new`. -/
def new (root_id : Id) : Tree Id :=
  { next_node := 0, root := root_id, orphans := [], id_to_node := [], nodes := [] }

/-- Model of `Tree::next_id` (returns the fresh index and the bumped tree). -/
def next_id (t : Tree Id) : NodeId × Tree Id :=
  (t.next_node, { t with next_node := t.next_node + 1 })

/-- Model of `Tree::construct_simple`. -/
def construct_simple (t : Tree Id) (id : Id) (node_data : NodeData Id) :
    Tree Id × Except TreeError NodeId :=
  if containsA t.id_to_node id then (t, .error .duplicateId)
  else
    match next_id t with
    | (node_id, t1) =>
      ({ t1 with id_to_node := insertA t1.id_to_node id node_id,
                 orphans := insertS t1.orphans node_id,
                 nodes := insertA t1.nodes node_id ⟨node_data, none⟩ },
       .ok node_id)

/-- Model of `Tree::construct_object`. -/
def construct_object (t : Tree Id) (id : Id) : Tree Id × Except TreeError Unit :=
  match construct_simple t id (.object [] id) with
  | (t1, .error e) => (t1, .error e)
  | (t1, .ok _) => (t1, .ok ())

/-- Model of `Tree::construct_string` (note that the source draws the
segment's arena index before attempting `construct_simple`). -/
def construct_string (t : Tree Id) (id : Id) : Tree Id × Except TreeError Unit :=
  match next_id t with
  | (segment_id, t1) =>
    match construct_simple t1 id (.string segment_id segment_id id) with
    | (t2, .error e) => (t2, .error e)
    | (t2, .ok string_id) =>
      ({ t2 with nodes := (insertA t2.nodes segment_id
            ⟨.stringSegment string_id string_id [] [], some string_id⟩) },
       .ok ())

/-- Model of `Tree::construct_array`. -/
def construct_array (t : Tree Id) (id : Id) : Tree Id × Except TreeError Unit :=
  match next_id t with
  | (segment_id, t1) =>
    match construct_simple t1 id (.array segment_id segment_id id) with
    | (t2, .error e) => (t2, .error e)
    | (t2, .ok array_id) =>
      ({ t2 with nodes := (insertA t2.nodes segment_id
            ⟨.arraySegment array_id array_id [] [], some array_id⟩) },
       .ok ())

/-- Model of `Tree::new_with_string_root` (`construct_string` cannot fail on
the fresh tree, so the `unwrap` is silent). -/
def new_with_string_root (root_id : Id) : Tree Id :=
  { (construct_string (new root_id) root_id).1 with orphans := [] }

/-- Model of `Tree::new_with_object_root`. -/
def new_with_object_root (root_id : Id) : Tree Id :=
  { (construct_object (new root_id) root_id).1 with orphans := [] }

/-- Model of `Tree::new_with_array_root`. -/
def new_with_array_root (root_id : Id) : Tree Id :=
  { (construct_array (new root_id) root_id).1 with orphans := [] }

/-- Model of the method `Tree::id_to_node`. -/
def idToNode (t : Tree Id) (id : Id) : Except TreeError NodeId :=
  match lookupA t.id_to_node id with
  | some v => .ok v
  | none => .error .unknownId

/-- Model of `Tree::value_to_child`. -/
def value_to_child (t : Tree Id) (v : Value Id) : Except TreeError (Option Child) :=
  match v with
  | .object id => (idToNode t id).map (fun n => some (.collection n))
  | .array id => (idToNode t id).map (fun n => some (.collection n))
  | .string id => (idToNode t id).map (fun n => some (.collection n))
  | .true => .ok (some .true)
  | .false => .ok (some .false)
  | .null => .ok (some .null)
  | .int i => .ok (some (.int i))
  | .unset => .ok none

/-- Model of `Tree::get_type`. -/
def get_type (t : Tree Id) (id : Id) : Option (Except TreeError NodeType) :=
  match idToNode t id with
  | .error e => some (.error e)
  | .ok node_id =>
    match lookupA t.nodes node_id with
    | none => none
    | some node =>
      some (.ok (match node.data with
        | .object _ _ => .object
        | .string _ _ _ => .string
        | .stringSegment _ _ _ _ => .character
        | .array _ _ _ => .array
        | .arraySegment _ _ _ _ => .arrayEntry))

/-- Model of `Tree::child_to_value`; `none` is one of its `expect`/`panic`
branches. -/
def child_to_value (t : Tree Id) (child : Option Child) : Option (Value Id) :=
  match child with
  | none => some .unset
  | some .true => some .true
  | some .false => some .false
  | some .null => some .null
  | some (.int i) => some (.int i)
  | some (.collection node_id) =>
    match lookupA t.nodes node_id with
    | none => none
    | some node =>
      match node.data.idOf with
      | none => none
      | some id =>
        match get_type t id with
        | some (.ok .string) => some (.string id)
        | some (.ok .object) => some (.object id)
        | some (.ok .array) => some (.array id)
        | _ => none

/-- Model of `Tree::get_parent`. -/
def get_parent (t : Tree Id) (id : Id) : Option (Except TreeError (Option Id)) :=
  match idToNode t id with
  | .error e => some (.error e)
  | .ok node_id =>
    match lookupA t.nodes node_id with
    | none => none
    | some node =>
      match node.parent with
      | none => some (.ok none)
      | some parent_id =>
        match lookupA t.nodes parent_id with
        | none => none
        | some parent =>
          match parent.data.idOf with
          | none => none
          | some i => some (.ok (some i))

/-- Model of `Tree::move_to_orphan`. -/
def move_to_orphan (t : Tree Id) (item : NodeId) : Option (Tree Id) :=
  match lookupA t.nodes item with
  | none => none
  | some node =>
    some { t with nodes := insertA t.nodes item { node with parent := none },
                  orphans := insertS t.orphans item }

/-- The parent-pointer walk of `Tree::reparent_item`; fuel exhaustion
(`none`) is a walk that never terminates, which only a cyclic parent chain
could produce. -/
def parentWalk (t : Tree Id) (item : NodeId) :
    Nat → Option NodeId → Option (Except TreeError Unit)
  | _, none => some (.ok ())
  | 0, some _ => none
  | fuel + 1, some this =>
    if this = item then some (.error .editWouldCauseCycle)
    else
      match lookupA t.nodes this with
      | none => none
      | some node => parentWalk t item fuel node.parent

/-- Model of `Tree::reparent_item`.  The final `none` is the
`self.orphans.remove(&item).unwrap()` panic on a parentless node that is
not in the orphan set (only the root can be such a node). -/
def reparent_item (t : Tree Id) (item parent : NodeId) :
    Option (Tree Id × Except TreeError Unit) :=
  match lookupA t.nodes item with
  | none => none
  | some node =>
    if node.parent.isSome then some (t, .error .nodeAlreadyHadParent)
    else
      match parentWalk t item (t.nodes.length + 1) (some parent) with
      | none => none
      | some (.error e) => some (t, .error e)
      | some (.ok ()) =>
        if item ∈ t.orphans then
          some ({ t with orphans := t.orphans.erase item,
                         nodes := insertA t.nodes item { node with parent := some parent } },
                .ok ())
        else none

/-- Model of `Tree::object_assign`.  Note that on the `UnexpectedNodeType`
branch the tree returned is the one already mutated by `reparent_item`,
exactly as in the source. -/
def object_assign (t : Tree Id) (object : Id) (key : String) (value : Value Id) :
    Option (Tree Id × Except TreeError (Value Id)) :=
  match value_to_child t value with
  | .error e => some (t, .error e)
  | .ok child_opt =>
    match idToNode t object with
    | .error e => some (t, .error e)
    | .ok object_node_id =>
      match (match child_opt with
             | some (.collection child) => reparent_item t child object_node_id
             | _ => some (t, .ok ())) with
      | none => none
      | some (t1, .error e) => some (t1, .error e)
      | some (t1, .ok ()) =>
        match lookupA t1.nodes object_node_id with
        | none => none
        | some node =>
          match node.data with
          | .object items oid =>
            match (match (match child_opt with
                          | some child => insertA items key child
                          | none => removeA items key) with
                   | items' =>
                     (match lookupA items key with
                      | some (.collection old_id) =>
                        move_to_orphan
                          { t1 with nodes := (insertA t1.nodes object_node_id
                              ⟨.object items' oid, node.parent⟩) } old_id
                      | _ =>
                        some { t1 with nodes := (insertA t1.nodes object_node_id
                            ⟨.object items' oid, node.parent⟩) })) with
            | none => none
            | some t3 =>
              match child_to_value t3 (lookupA items key) with
              | none => none
              | some v => some (t3, .ok v)
          | _ => some (t1, .error .unexpectedNodeType)

/-- Out-degree bound used for the deletion fuel. -/
def nodeOutDeg : NodeData Id → Nat
  | .object items _ => items.length
  | .string _ _ _ => 1
  | .array _ _ _ => 1
  | .stringSegment _ _ _ _ => 1
  | .arraySegment _ _ contents _ => contents.length + 1

/-- Fuel that dominates the queue traffic of the deletion loop. -/
def deleteFuel (t : Tree Id) : Nat :=
  1 + (t.nodes.map (fun p => nodeOutDeg p.2.data + 1)).sum

/-- Remove every id of a segment's ids list from `id_to_node`; `none` models
the `unwrap` panic when one is absent. -/
def removeIdsA (m : List (Id × NodeId)) :
    List (Id × Option Nat) → Option (List (Id × NodeId))
  | [] => some m
  | (id, _) :: rest =>
    if containsA m id then removeIdsA (removeA m id) rest else none

/-- The `Child::Collection` references of a child list. -/
def collectionsOf (l : List Child) : List NodeId :=
  l.filterMap (fun c => match c with
    | .collection n => some n
    | _ => none)

/-- The queue loop of `Tree::delete`.  The queue is a stack (Rust
`Vec::pop`); the head of the list is the top.  The iteration order of the
persistent maps is unspecified in the source, so children are pushed in
list order. -/
def deleteLoop : Nat → Tree Id → List NodeId → Option (Tree Id)
  | 0, _, _ => none
  | _ + 1, t, [] => some t
  | fuel + 1, t, item :: queue =>
    match lookupA t.nodes item with
    | none => deleteLoop fuel t queue
    | some node =>
      match node.data with
      | .object items oid =>
        if containsA t.id_to_node oid then
          deleteLoop fuel
            { t with nodes := removeA t.nodes item,
                     id_to_node := removeA t.id_to_node oid }
            (collectionsOf (items.map Prod.snd) ++ queue)
        else none
      | .string start _ sid =>
        if containsA t.id_to_node sid then
          deleteLoop fuel
            { t with nodes := removeA t.nodes item,
                     id_to_node := removeA t.id_to_node sid }
            (start :: queue)
        else none
      | .array start _ aid =>
        if containsA t.id_to_node aid then
          deleteLoop fuel
            { t with nodes := removeA t.nodes item,
                     id_to_node := removeA t.id_to_node aid }
            (start :: queue)
        else none
      | .stringSegment _ next _ ids =>
        match removeIdsA t.id_to_node ids with
        | none => none
        | some m =>
          deleteLoop fuel { t with nodes := removeA t.nodes item, id_to_node := m }
            (next :: queue)
      | .arraySegment _ next contents ids =>
        match removeIdsA t.id_to_node ids with
        | none => none
        | some m =>
          deleteLoop fuel { t with nodes := removeA t.nodes item, id_to_node := m }
            (collectionsOf contents ++ (next :: queue))

/-- Model of `Tree::delete` (recursive deletion of a node and its
descendants). -/
def delete (t : Tree Id) (item : NodeId) : Option (Tree Id) :=
  deleteLoop (deleteFuel t + 1) t [item]

/-- The per-orphan loop of `Tree::delete_orphans`. -/
def deleteOrphansLoop : List NodeId → Tree Id → Option (Tree Id)
  | [], t => some t
  | o :: rest, t =>
    match delete t o with
    | none => none
    | some t1 => deleteOrphansLoop rest t1

/-- Model of `Tree::delete_orphans`. -/
def delete_orphans (t : Tree Id) : Option (Tree Id) :=
  match deleteOrphansLoop t.orphans t with
  | none => none
  | some t1 => some { t1 with orphans := [] }

/-! ### The sequence engine

Modelled from the spec: src/json.rs declares `mod sequence`, but the file
json/sequence.rs is absent from the sources.  The functions below follow
spec section 4.2 and the string-only instance that is present in
src/tree/sequence.rs, generalised over the two segment kinds exactly as
the closures passed from src/json/tree.rs indicate (content width is the
UTF-8 byte length for strings and 1 for arrays). -/

/-- Model of `lookup_id_index` (tree/sequence.rs); the final `none` is the
"couldn't find id in list" panic. -/
def lookup_id_index (t : Tree Id) (lookup_id : Id) :
    Option (Except TreeError (NodeId × Nat)) :=
  match lookupA t.id_to_node lookup_id with
  | none => some (.error .unknownId)
  | some node_id =>
    match lookupA t.nodes node_id with
    | none => none
    | some node =>
      match node.data.segmentIds? with
      | none => some (.error .unexpectedNodeType)
      | some ids =>
        match ids.findIdx? (fun q => q.1 = lookup_id) with
        | some i => some (.ok (node_id, i))
        | none => none

/-- The scanning loop of `lookup_insertion_point`: once the looked-up id
has been passed (accumulator set to its index plus one), the next live
entry's position is the insertion point. -/
def lookupIPLoop (lid : Id) : List (Id × Option Nat) → Nat → Option Nat →
    Sum (Nat × Nat) (Option Nat)
  | [], _, acc => .inr acc
  | (id, posOpt) :: rest, i, acc =>
    match acc, posOpt with
    | some ili, some pos => .inl (pos, ili)
    | _, _ => lookupIPLoop lid rest (i + 1) (if id = lid then some (i + 1) else acc)

/-- Model of `lookup_insertion_point` (tree/sequence.rs); the `none` cases
are its panics. -/
def lookup_insertion_point (t : Tree Id) (lid : Id) :
    Option (Except TreeError (NodeId × Nat × Nat)) :=
  match lookupA t.id_to_node lid with
  | none => some (.error .unknownId)
  | some node_id =>
    match lookupA t.nodes node_id with
    | none => none
    | some node =>
      match node.data with
      | .stringSegment _ _ contents ids =>
        (match lookupIPLoop lid ids 0 none with
         | .inl (si, ili) => some (.ok (node_id, si, ili))
         | .inr (some ili) => some (.ok (node_id, byteLen contents, ili))
         | .inr none => none)
      | .arraySegment _ _ contents ids =>
        (match lookupIPLoop lid ids 0 none with
         | .inl (si, ili) => some (.ok (node_id, si, ili))
         | .inr (some ili) => some (.ok (node_id, contents.length, ili))
         | .inr none => none)
      | .string start _ _ => some (.ok (start, 0, 0))
      | .array start _ _ => some (.ok (start, 0, 0))
      | _ => some (.error .unexpectedNodeType)

/-- Model of `insert_segment` (tree/sequence.rs): insert a fresh empty
segment of the same kind after `append_to` and stitch the ring. -/
def insert_segment (t : Tree Id) (append_to : NodeId) : Option (Tree Id × NodeId) :=
  match next_id t with
  | (new_id, t0) =>
    match lookupA t0.nodes append_to with
    | none => none
    | some node =>
      match
        (match node.data with
         | .stringSegment p nx cs ids =>
           some (node.parent, append_to, nx, Bool.true,
             insertA t0.nodes append_to ⟨.stringSegment p new_id cs ids, node.parent⟩)
         | .string start stop sid =>
           some (some append_to, append_to, start, Bool.true,
             insertA t0.nodes append_to ⟨.string new_id stop sid, node.parent⟩)
         | .arraySegment p nx cs ids =>
           some (node.parent, append_to, nx, Bool.false,
             insertA t0.nodes append_to ⟨.arraySegment p new_id cs ids, node.parent⟩)
         | .array start stop aid =>
           some (some append_to, append_to, start, Bool.false,
             insertA t0.nodes append_to ⟨.array new_id stop aid, node.parent⟩)
         | _ => none) with
      | none => none
      | some (parent, prev, next, isStr, nodes1) =>
        match
          (if isStr then
            insertA nodes1 new_id ⟨.stringSegment prev next [] [], parent⟩
          else
            insertA nodes1 new_id ⟨.arraySegment prev next [] [], parent⟩) with
        | nodes2 =>
          match lookupA nodes2 next with
          | none => none
          | some nextNode =>
            match nextNode.data with
            | .stringSegment _ nnx cs ids =>
              some ({ t0 with nodes := (insertA nodes2 next
                  ⟨.stringSegment new_id nnx cs ids, nextNode.parent⟩) }, new_id)
            | .string s _ sid =>
              some ({ t0 with nodes := (insertA nodes2 next
                  ⟨.string s new_id sid, nextNode.parent⟩) }, new_id)
            | .arraySegment _ nnx cs ids =>
              some ({ t0 with nodes := (insertA nodes2 next
                  ⟨.arraySegment new_id nnx cs ids, nextNode.parent⟩) }, new_id)
            | .array s _ aid =>
              some ({ t0 with nodes := (insertA nodes2 next
                  ⟨.array s new_id aid, nextNode.parent⟩) }, new_id)
            | _ => none

/-- The prev/next surgery of `delete_segment` (tree/sequence.rs) after the
segment node has been removed; panics (`none`) when it was the only
segment of the ring. -/
def deleteSegAux (t : Tree Id) (segment : NodeId) (segNode : Node Id)
    (old_prev old_next : NodeId) : Option (Tree Id × Node Id) :=
  if old_prev = old_next then none
  else
    match lookupA (removeA t.nodes segment) old_prev with
    | none => none
    | some pn =>
      match
        (match pn.data with
         | .stringSegment pp _ cs ids =>
           some (insertA (removeA t.nodes segment) old_prev
             ⟨.stringSegment pp old_next cs ids, pn.parent⟩)
         | .string _ stop sid =>
           some (insertA (removeA t.nodes segment) old_prev
             ⟨.string old_next stop sid, pn.parent⟩)
         | .arraySegment pp _ cs ids =>
           some (insertA (removeA t.nodes segment) old_prev
             ⟨.arraySegment pp old_next cs ids, pn.parent⟩)
         | .array _ stop aid =>
           some (insertA (removeA t.nodes segment) old_prev
             ⟨.array old_next stop aid, pn.parent⟩)
         | _ => none) with
      | none => none
      | some nodes2 =>
        match lookupA nodes2 old_next with
        | none => none
        | some nn =>
          match
            (match nn.data with
             | .stringSegment _ nx cs ids =>
               some (insertA nodes2 old_next ⟨.stringSegment old_prev nx cs ids, nn.parent⟩)
             | .string start _ sid =>
               some (insertA nodes2 old_next ⟨.string start old_prev sid, nn.parent⟩)
             | .arraySegment _ nx cs ids =>
               some (insertA nodes2 old_next ⟨.arraySegment old_prev nx cs ids, nn.parent⟩)
             | .array start _ aid =>
               some (insertA nodes2 old_next ⟨.array start old_prev aid, nn.parent⟩)
             | _ => none) with
          | none => none
          | some nodes3 => some ({ t with nodes := nodes3 }, segNode)

/-- Model of `delete_segment` (tree/sequence.rs). -/
def delete_segment (t : Tree Id) (segment : NodeId) : Option (Tree Id × Node Id) :=
  match lookupA t.nodes segment with
  | none => none
  | some segNode =>
    match segNode.data with
    | .stringSegment oldp oldn _ _ => deleteSegAux t segment segNode oldp oldn
    | .arraySegment oldp oldn _ _ => deleteSegAux t segment segNode oldp oldn
    | _ => none

/-- Redirect `id_to_node` for every id of a moved ids list (the
`tree.id_to_node[id] = target` writes; indexing panics on a missing key). -/
def redirectIds (ids : List (Id × Option Nat)) (m : List (Id × NodeId))
    (target : NodeId) : Option (List (Id × NodeId)) :=
  match ids with
  | [] => some m
  | (id, _) :: rest =>
    if containsA m id then redirectIds rest (insertA m id target) target else none

/-- Model of `consider_split` (tree/sequence.rs), fuel-recursive; with fuel
at least the ids-list length the recursion never runs dry. -/
def consider_split : Nat → Tree Id → NodeId → Option (Tree Id × NodeId × NodeId)
  | 0, _, _ => none
  | fuel + 1, t, segment =>
    match lookupA t.nodes segment with
    | none => none
    | some node =>
      match node.data with
      | .string _ _ _ => some (t, segment, segment)
      | .array _ _ _ => some (t, segment, segment)
      | .stringSegment p nx contents ids =>
        if ids.length ≤ SPLIT_LEN then some (t, segment, segment)
        else
          match splitCharsAt contents
              (((ids.drop (ids.length / 2)).findSome? Prod.snd).getD
                (byteLen contents)) with
          | none => none
          | some (keep, moved) =>
            match insert_segment
                { t with nodes := (insertA t.nodes segment
                    ⟨.stringSegment p nx keep (ids.take (ids.length / 2)),
                     node.parent⟩) } segment with
            | none => none
            | some (t2, new_node_id) =>
              match redirectIds
                  ((ids.drop (ids.length / 2)).map (fun q => (q.1, q.2.map
                    (fun n => n - ((ids.drop (ids.length / 2)).findSome?
                      Prod.snd).getD (byteLen contents)))))
                  t2.id_to_node new_node_id with
              | none => none
              | some m =>
                match lookupA t2.nodes new_node_id with
                | none => none
                | some nn =>
                  match nn.data with
                  | .stringSegment np nnx _ _ =>
                    match consider_split fuel
                        { t2 with
                          id_to_node := m,
                          nodes := (insertA t2.nodes new_node_id
                            ⟨.stringSegment np nnx moved
                              ((ids.drop (ids.length / 2)).map (fun q =>
                                (q.1, q.2.map (fun n => n -
                                  ((ids.drop (ids.length / 2)).findSome?
                                    Prod.snd).getD (byteLen contents))))),
                             nn.parent⟩) }
                        segment with
                    | none => none
                    | some (t5, left, _) =>
                      match consider_split fuel t5 new_node_id with
                      | none => none
                      | some (t6, _, right) => some (t6, left, right)
                  | _ => none
      | .arraySegment p nx contents ids =>
        if ids.length ≤ SPLIT_LEN then some (t, segment, segment)
        else
          if ((ids.drop (ids.length / 2)).findSome? Prod.snd).getD
              contents.length ≤ contents.length then
            match insert_segment
                { t with nodes := (insertA t.nodes segment
                    ⟨.arraySegment p nx
                      (contents.take
                        (((ids.drop (ids.length / 2)).findSome? Prod.snd).getD
                          contents.length))
                      (ids.take (ids.length / 2)),
                     node.parent⟩) } segment with
            | none => none
            | some (t2, new_node_id) =>
              match redirectIds
                  ((ids.drop (ids.length / 2)).map (fun q => (q.1, q.2.map
                    (fun n => n - ((ids.drop (ids.length / 2)).findSome?
                      Prod.snd).getD contents.length))))
                  t2.id_to_node new_node_id with
              | none => none
              | some m =>
                match lookupA t2.nodes new_node_id with
                | none => none
                | some nn =>
                  match nn.data with
                  | .arraySegment np nnx _ _ =>
                    match consider_split fuel
                        { t2 with
                          id_to_node := m,
                          nodes := (insertA t2.nodes new_node_id
                            ⟨.arraySegment np nnx
                              (contents.drop
                                (((ids.drop (ids.length / 2)).findSome?
                                  Prod.snd).getD contents.length))
                              ((ids.drop (ids.length / 2)).map (fun q =>
                                (q.1, q.2.map (fun n => n -
                                  ((ids.drop (ids.length / 2)).findSome?
                                    Prod.snd).getD contents.length)))),
                             nn.parent⟩) }
                        segment with
                    | none => none
                    | some (t5, left, _) =>
                      match consider_split fuel t5 new_node_id with
                      | none => none
                      | some (t6, _, right) => some (t6, left, right)
                  | _ => none
          else none
      | _ => none

/-- The merge of two adjacent segments, after `consider_join` has resolved
which pair `(left, right)` is in play; abort (`some t` unchanged) at a
container or when the length conditions fail. -/
def joinPair (t : Tree Id) (left right : NodeId) : Option (Tree Id) :=
  match lookupA t.nodes left with
  | none => none
  | some ln =>
    match ln.data.segmentIds? with
    | none => if ln.data.segmentIsContainer then some t else none
    | some lids =>
      match lookupA t.nodes right with
      | none => none
      | some rn =>
        match rn.data.segmentIds? with
        | none => if rn.data.segmentIsContainer then some t else none
        | some rids =>
          if JOIN_LEN ≤ lids.length ∨ JOIN_LEN ≤ rids.length ∨
              SPLIT_LEN ≤ lids.length + rids.length then some t
          else
            match delete_segment t right with
            | none => none
            | some (t1, deleted) =>
              match deleted.data with
              | .stringSegment _ _ dcs dids =>
                (match redirectIds dids t1.id_to_node left with
                 | none => none
                 | some m =>
                   match lookupA t1.nodes left with
                   | none => none
                   | some ln1 =>
                     match ln1.data with
                     | .stringSegment lp lnx lcs lids1 =>
                       some { t1 with
                         id_to_node := m,
                         nodes := (insertA t1.nodes left
                           ⟨.stringSegment lp lnx (lcs ++ dcs)
                             (lids1 ++ dids.map (fun q =>
                               (q.1, q.2.map (fun n => n + byteLen lcs)))),
                            ln1.parent⟩) }
                     | _ => none)
              | .arraySegment _ _ dcs dids =>
                (match redirectIds dids t1.id_to_node left with
                 | none => none
                 | some m =>
                   match lookupA t1.nodes left with
                   | none => none
                   | some ln1 =>
                     match ln1.data with
                     | .arraySegment lp lnx lcs lids1 =>
                       some { t1 with
                         id_to_node := m,
                         nodes := (insertA t1.nodes left
                           ⟨.arraySegment lp lnx (lcs ++ dcs)
                             (lids1 ++ dids.map (fun q =>
                               (q.1, q.2.map (fun n => n + lcs.length)))),
                            ln1.parent⟩) }
                     | _ => none)
              | _ => none

/-- Model of `consider_join` (tree/sequence.rs). -/
def consider_join (t : Tree Id) (segment : NodeId) (rightward : Bool) :
    Option (Tree Id) :=
  match lookupA t.nodes segment with
  | none => none
  | some node =>
    match node.data with
    | .string _ _ _ => some t
    | .array _ _ _ => some t
    | .stringSegment p nx _ _ =>
      if rightward then joinPair t segment nx else joinPair t p segment
    | .arraySegment p nx _ _ =>
      if rightward then joinPair t segment nx else joinPair t p segment
    | _ => none

/-- Modelled from the spec: the generic `sequence::insert` of the missing
json/sequence.rs.  `doInsert idx node` is the caller's closure performing
the content insertion at (weighted) index `idx` and returning the written
node together with the inserted width. -/
def seq_insert (t : Tree Id) (append_id new_id : Id)
    (doInsert : Nat → Node Id → Option (Node Id × Nat)) :
    Option (Tree Id × Except TreeError Unit) :=
  if containsA t.id_to_node new_id then some (t, .error .duplicateId)
  else
    match lookup_insertion_point t append_id with
    | none => none
    | some (.error e) => some (t, .error e)
    | some (.ok (node_id, cidx, ili)) =>
      match lookupA t.nodes node_id with
      | none => none
      | some node =>
        match doInsert cidx node with
        | none => none
        | some (node1, width) =>
          match node1.data.segmentIds? with
          | none => none
          | some ids =>
            match listInsertAt
                (ids.take ili ++ (ids.drop ili).map (fun q => (q.1, q.2.map (fun n => n + width))))
                ili (new_id, some cidx) with
            | none => none
            | some ids2 =>
              match consider_split (ids2.length + 1)
                  { t with
                    nodes := (insertA t.nodes node_id ⟨node1.data.withIds ids2, node1.parent⟩),
                    id_to_node := insertA t.id_to_node new_id node_id }
                  node_id with
              | none => none
              | some (t2, left, right) =>
                match consider_join t2 left Bool.false with
                | none => none
                | some t3 =>
                  match consider_join t3 right Bool.false with
                  | none => none
                  | some t4 => some (t4, .ok ())

/-- Modelled from the spec: the generic `sequence::delete` of the missing
json/sequence.rs.  `doRemove pos node` is the caller's closure removing the
content at (weighted) position `pos`, returning the written node, the
removed width and its payload. -/
def seq_delete {β : Type _} (t : Tree Id) (del_id : Id)
    (doRemove : Nat → Node Id → Option (Node Id × Nat × β)) :
    Option (Tree Id × Except TreeError Unit × Option β) :=
  match lookup_id_index t del_id with
  | none => none
  | some (.error e) => some (t, .error e, none)
  | some (.ok (node_id, ili)) =>
    match lookupA t.nodes node_id with
    | none => none
    | some node =>
      match node.data.segmentIds? with
      | none => none
      | some ids =>
        match ids[ili]? with
        | none => none
        | some (id0, posOpt) =>
          match posOpt with
          | none => some (t, .ok (), none)
          | some pos =>
            match doRemove pos ⟨node.data.withIds (ids.set ili (id0, none)), node.parent⟩ with
            | none => none
            | some (node1, width, payload) =>
              match node1.data.segmentIds? with
              | none => none
              | some ids1 =>
                some ({ t with nodes := (insertA t.nodes node_id
                    ⟨node1.data.withIds
                      (ids1.take ili ++ (ids1.drop ili).map (fun q =>
                        (q.1, q.2.map (fun n => n - width)))),
                     node1.parent⟩) },
                  .ok (), some payload)

/-- Model of `Tree::insert_character`. -/
def insert_character (t : Tree Id) (append_id character_id : Id) (character : Char) :
    Option (Tree Id × Except TreeError Unit) :=
  seq_insert t append_id character_id
    (fun string_index node =>
      match node.data with
      | .stringSegment p nx contents ids =>
        (stringInsertAt contents string_index character).map
          (fun cs => (⟨.stringSegment p nx cs ids, node.parent⟩, charWidth character))
      | _ => none)

/-- Model of `Tree::delete_character`. -/
def delete_character (t : Tree Id) (char_id : Id) :
    Option (Tree Id × Except TreeError Unit) :=
  match seq_delete t char_id
    (fun string_index node =>
      match node.data with
      | .stringSegment p nx contents ids =>
        (stringRemoveAt contents string_index).map
          (fun q => (⟨.stringSegment p nx q.2 ids, node.parent⟩, charWidth q.1, ()))
      | _ => none) with
  | none => none
  | some (t1, r, _) => some (t1, r)

/-- Model of `Tree::insert_list_item`. -/
def insert_list_item (t : Tree Id) (append_id item_id : Id) (value : Value Id) :
    Option (Tree Id × Except TreeError Unit) :=
  match value_to_child t value with
  | .error e => some (t, .error e)
  | .ok none => some (t, .ok ())
  | .ok (some child) =>
    match ((match child with
           | .collection c =>
             (match idToNode t append_id with
              | .error e => some (t, .error e)
              | .ok append_node =>
                match lookupA t.nodes append_node with
                | none => none
                | some anode =>
                  match anode.data with
                  | .arraySegment _ _ _ _ =>
                    (match anode.parent with
                     | none => none
                     | some par => reparent_item t c par)
                  | .array _ _ _ => reparent_item t c append_node
                  | _ => some (t, .error .unexpectedNodeType))
           | _ => some (t, .ok ())) :
          Option (Tree Id × Except TreeError Unit)) with
    | none => none
    | some (t1, .error e) => some (t1, .error e)
    | some (t1, .ok ()) =>
      seq_insert t1 append_id item_id
        (fun array_index node =>
          match node.data with
          | .arraySegment p nx contents ids =>
            (listInsertAt contents array_index child).map
              (fun cs => (⟨.arraySegment p nx cs ids, node.parent⟩, 1))
          | _ => none)

/-- Model of `Tree::delete_list_item`. -/
def delete_list_item (t : Tree Id) (item_id : Id) :
    Option (Tree Id × Except TreeError (Value Id)) :=
  match seq_delete t item_id
    (fun array_index node =>
      match node.data with
      | .arraySegment p nx contents ids =>
        (listRemoveAt contents array_index).map
          (fun q => (⟨.arraySegment p nx q.2 ids, node.parent⟩, 1, q.1))
      | _ => none) with
  | none => none
  | some (t1, .error e, _) => some (t1, .error e)
  | some (t1, .ok (), child_opt) =>
    match child_opt with
    | some (.collection cid) =>
      (match move_to_orphan t1 cid with
       | none => none
       | some t2 =>
         match child_to_value t2 child_opt with
         | none => none
         | some v => some (t2, .ok v))
    | _ =>
      match child_to_value t1 child_opt with
      | none => none
      | some v => some (t1, .ok v)

/-- Model of `Tree::update`. -/
def update (t : Tree Id) (edit : Edit Id) : Option (Tree Id × Except TreeError Unit) :=
  match edit with
  | .arrayCreate id => some (construct_array t id)
  | .arrayInsert index id item => insert_list_item t index id item
  | .arrayDelete id =>
    (delete_list_item t id).map (fun q => (q.1, q.2.map (fun _ => ())))
  | .mapCreate id => some (construct_object t id)
  | .mapInsert parent key item =>
    (object_assign t parent key item).map (fun q => (q.1, q.2.map (fun _ => ())))
  | .textCreate id => some (construct_string t id)
  | .textInsert index id character => insert_character t index id character
  | .textDelete id => delete_character t id

/-- Model of `StringRef::end` (src/json/value.rs); the inner `none` on an
empty ids list is its `ids.last().unwrap()` panic. -/
def stringRefEnd (t : Tree Id) (sid : Id) : Option (Except TreeError Id) :=
  match idToNode t sid with
  | .error e => some (.error e)
  | .ok node_id =>
    match lookupA t.nodes node_id with
    | none => none
    | some node =>
      match node.data with
      | .string _ stop _ =>
        (match lookupA t.nodes stop with
         | none => none
         | some last_node =>
           match last_node.data with
           | .stringSegment _ _ _ ids =>
             (match ids.getLast? with
              | none => none
              | some q => some (.ok q.1))
           | _ => some (.error .unexpectedNodeType))
      | _ => some (.error .unexpectedNodeType)

/-! ### Observations on sequences -/

/-- The segment chain of a sequence container, walked along `next` pointers
with fuel (spec section 4.2: traversal terminates when a node's `next`
equals the container). -/
def chainFrom (t : Tree Id) (container : NodeId) : Nat → NodeId → Option (List NodeId)
  | 0, _ => none
  | fuel + 1, cur =>
    if cur = container then some []
    else
      match lookupA t.nodes cur with
      | none => none
      | some node =>
        match node.data with
        | .stringSegment _ nx _ _ => (chainFrom t container fuel nx).map (cur :: ·)
        | .arraySegment _ nx _ _ => (chainFrom t container fuel nx).map (cur :: ·)
        | _ => none

/-- The segments of a container in traversal order. -/
def seqSegs (t : Tree Id) (container : NodeId) : Option (List NodeId) :=
  match lookupA t.nodes container with
  | none => none
  | some node =>
    match node.data with
    | .string start _ _ => chainFrom t container (t.nodes.length + 1) start
    | .array start _ _ => chainFrom t container (t.nodes.length + 1) start
    | _ => none

/-- All id entries of a sequence in traversal order, tombstones included. -/
def seqIdEntries (t : Tree Id) (container : NodeId) : Option (List (Id × Option Nat)) :=
  match seqSegs t container with
  | none => none
  | some ss =>
    ss.foldr (fun s acc =>
      match acc, (lookupA t.nodes s).bind (fun n => n.data.segmentIds?) with
      | some l, some ids => some (ids ++ l)
      | _, _ => none) (some [])

/-- The contents-walking loop of `StringRef::to_string`. -/
def toStringLoop (t : Tree Id) (string_node_id : NodeId) :
    Nat → NodeId → List Char → Option (List Char)
  | 0, _, _ => none
  | fuel + 1, next, acc =>
    if next = string_node_id then some acc
    else
      match lookupA t.nodes next with
      | none => none
      | some node =>
        match node.data with
        | .stringSegment _ nx cs _ => toStringLoop t string_node_id fuel nx (acc ++ cs)
        | _ => none

/-- Model of `StringRef::to_string` (src/json/value.rs). -/
def stringRefToString (t : Tree Id) (sid : Id) :
    Option (Except TreeError (List Char)) :=
  match idToNode t sid with
  | .error e => some (.error e)
  | .ok n =>
    match lookupA t.nodes n with
    | none => none
    | some node =>
      match node.data with
      | .string start _ _ => (toStringLoop t n (t.nodes.length + 1) start []).map .ok
      | _ => some (.error .unexpectedNodeType)

/-- The node that `insert_list_item` reparents a collection value under:
the anchor itself when it resolves to the array container, the segment's
parent when it resolves to an array entry. -/
def reparentTargetOfAnchor (anode : Node Id) (anid : NodeId) : Option NodeId :=
  match anode.data with
  | .arraySegment _ _ _ _ => anode.parent
  | .array _ _ _ => some anid
  | _ => none

end Tree

/-- Whether a node's data is the object variant. -/
def NodeData.isObject {Id : Type _} : NodeData Id → Bool
  | .object _ _ => Bool.true
  | _ => Bool.false

/-! ### Association-list lemmas -/

theorem lookupA_insertA_self {κ α : Type _} [DecidableEq κ]
    (m : List (κ × α)) (k : κ) (v : α) :
    lookupA (insertA m k v) k = some v := by
  induction m with
  | nil => simp [insertA, lookupA]
  | cons p rest ih =>
    obtain ⟨k', v'⟩ := p
    by_cases h : k' = k
    · simp [insertA, lookupA, h]
    · simp [insertA, lookupA, h, ih]

theorem lookupA_insertA_ne {κ α : Type _} [DecidableEq κ]
    (m : List (κ × α)) (k k' : κ) (v : α) (h : k ≠ k') :
    lookupA (insertA m k v) k' = lookupA m k' := by
  induction m with
  | nil => simp [insertA, lookupA, h]
  | cons p rest ih =>
    obtain ⟨k₀, v₀⟩ := p
    by_cases h0 : k₀ = k
    · simp [insertA, lookupA, h0, h]
    · by_cases h1 : k₀ = k'
      · simp [insertA, lookupA, h0, h1, Ne.symm h]
      · simp [insertA, lookupA, h0, h1, ih]

/-! ### Example trees for the witnesses -/

/-- Take the tree of a successful step (examples only use successful
steps). -/
def stepT {α : Type _} (fallback : Tree Nat) (p : Option (Tree Nat × α)) : Tree Nat :=
  match p with
  | some (t, _) => t
  | none => fallback

/-- A string root holding "ab" whose character id 1 has been deleted, so id
1 is a tombstone. -/
def exTombstone : Tree Nat :=
  stepT (Tree.new 0) (Tree.delete_character
    (stepT (Tree.new 0) (Tree.insert_character
      (stepT (Tree.new 0)
        (Tree.insert_character (Tree.new_with_string_root 0) 0 1 'a'))
      1 2 'b')) 1)

/-- An object root `{"k": Object(1)}`: the collection id 1 has a parent. -/
def exParentObj : Tree Nat :=
  stepT (Tree.new 0) (Tree.object_assign
    ((Tree.construct_object (Tree.new_with_object_root 0) 1).1) 0 "k"
    (Value.object 1))

/-- The cycle scenario of the source's own test: object 2 sits below the
orphaned object 1, so assigning 1 under 2 would close a cycle. -/
def exCycleObj : Tree Nat :=
  stepT (Tree.new 0) (Tree.object_assign
    (stepT (Tree.new 0) (Tree.object_assign
      ((Tree.construct_object
        (stepT (Tree.new 0) (Tree.object_assign
          ((Tree.construct_object (Tree.new_with_object_root 0) 1).1)
          0 "my key" (Value.object 1))) 2).1)
      1 "my key 2" (Value.object 2)))
    0 "my key" (Value.int 123))

/-- An array root `[Object(1)]`: the collection id 1 has a parent. -/
def exParentArr : Tree Nat :=
  stepT (Tree.new 0) (Tree.insert_list_item
    ((Tree.construct_object (Tree.new_with_array_root 0) 1).1) 0 2
    (Value.object 1))

/-- An orphaned object 1 holding the array 2: inserting Object(1) into
array 2 would close a cycle. -/
def exCycleArr : Tree Nat :=
  stepT (Tree.new 0) (Tree.object_assign
    ((Tree.construct_array
      ((Tree.construct_object (Tree.new_with_array_root 0) 1).1) 2).1)
    1 "k" (Value.array 2))

/-- A string-rooted tree with an orphan object 1 (for the C10 witness). -/
def exStringWithOrphan : Tree Nat :=
  (Tree.construct_object (Tree.new_with_string_root 0) 1).1

/-- An array root holding `[5, 7]` whose entry id 1 (the 5) has been
deleted, so id 1 is a tombstone. -/
def exArrTomb : Tree Nat :=
  stepT (Tree.new 0) (Tree.delete_list_item
    (stepT (Tree.new 0) (Tree.insert_list_item
      (stepT (Tree.new 0)
        (Tree.insert_list_item (Tree.new_with_array_root 0) 0 1 (Value.int 5)))
      1 2 (Value.int 7))) 1)

/-! ### Weighted offsets: the positions a well-formed segment stores -/

/-- The weighted offsets of a contents list: entry `j` is the total weight
of the first `j` elements.  With `charWidth` this is the byte offset of
each character of a string segment; with weight `1` it is the index of each
entry of an array segment. -/
def offsetsW {γ : Type _} (w : γ → Nat) (cs : List γ) : List Nat :=
  (List.range cs.length).map (fun j => ((cs.take j).map w).sum)

theorem offsetsW_length {γ : Type _} (w : γ → Nat) (cs : List γ) :
    (offsetsW w cs).length = cs.length := by
  simp [offsetsW]

theorem offsetsW_head_drop {γ : Type _} (w : γ → Nat) (cs : List γ) (j : Nat) :
    ((offsetsW w cs).drop j).head? =
      if j < cs.length then some (((cs.take j).map w).sum) else none := by
  rw [List.head?_drop]
  simp only [offsetsW, List.getElem?_map, List.getElem?_range]
  by_cases h : j < cs.length <;> simp [h] <;> omega

theorem charWidth_pos (c : Char) : 0 < charWidth c := by
  unfold charWidth
  repeat' split
  all_goals omega

theorem splitCharsAt_byteLen_take (cs : List Char) (j : Nat) (hj : j ≤ cs.length) :
    splitCharsAt cs (byteLen (cs.take j)) = some (cs.take j, cs.drop j) := by
  induction cs generalizing j with
  | nil =>
    have : j = 0 := by simpa using hj
    subst this
    simp [byteLen, splitCharsAt]
  | cons c rest ih =>
    cases j with
    | zero => simp [byteLen, splitCharsAt]
    | succ j =>
      have hw := charWidth_pos c
      have hbl : byteLen ((c :: rest).take (j + 1)) =
          charWidth c + byteLen (rest.take j) := by
        simp [byteLen]
      rw [hbl]
      obtain ⟨m, hm⟩ : ∃ m, charWidth c + byteLen (rest.take j) = m + 1 :=
        ⟨charWidth c + byteLen (rest.take j) - 1, by omega⟩
      rw [hm]
      show splitCharsAt (c :: rest) (m + 1) = _
      unfold splitCharsAt
      rw [if_pos (by omega : charWidth c ≤ m + 1)]
      rw [show m + 1 - charWidth c = byteLen (rest.take j) from by omega]
      rw [ih j (by simpa using hj)]
      simp

theorem take_append_cons {α : Type _} (l1 l2 : List α) (x : α) :
    (l1 ++ x :: l2).take (l1.length + 1) = l1 ++ [x] := by
  induction l1 with
  | nil => simp
  | cons a l1 ih => simpa using ih

theorem drop_append_cons {α : Type _} (l1 l2 : List α) (x : α) :
    (l1 ++ x :: l2).drop (l1.length + 1) = l2 := by
  induction l1 with
  | nil => simp
  | cons a l1 ih => simpa using ih

theorem offsetsW_cons {γ : Type _} (w : γ → Nat) (x : γ) (l : List γ) :
    offsetsW w (x :: l) = 0 :: (offsetsW w l).map (fun a => w x + a) := by
  simp only [offsetsW, List.length_cons, List.range_succ_eq_map, List.map_cons,
    List.take_zero, List.map_nil, List.sum_nil, List.map_map]
  refine congrArg (0 :: ·) ?_
  apply List.map_congr_left
  intro j _
  simp [Function.comp]

theorem offsetsW_append {γ : Type _} (w : γ → Nat) (u v : List γ) :
    offsetsW w (u ++ v) =
      offsetsW w u ++ (offsetsW w v).map (fun a => (u.map w).sum + a) := by
  induction u with
  | nil => simp [offsetsW]
  | cons x u ih =>
    rw [List.cons_append, offsetsW_cons, ih, offsetsW_cons]
    simp only [List.map_append, List.map_map, List.map_cons, List.cons_append,
      List.sum_cons]
    congr 1
    congr 1
    apply List.map_congr_left
    intro a _
    simp [Function.comp]
    omega

theorem offsetsW_take {γ : Type _} (w : γ → Nat) (cs : List γ) (j : Nat)
    (hj : j ≤ cs.length) :
    (offsetsW w cs).take j = offsetsW w (cs.take j) := by
  conv_lhs => rw [← List.take_append_drop j cs]
  rw [offsetsW_append, List.take_left']
  rw [offsetsW_length, List.length_take]
  omega

theorem offsetsW_drop {γ : Type _} (w : γ → Nat) (cs : List γ) (j : Nat)
    (hj : j ≤ cs.length) :
    (offsetsW w cs).drop j =
      (offsetsW w (cs.drop j)).map (fun a => ((cs.take j).map w).sum + a) := by
  conv_lhs => rw [← List.take_append_drop j cs]
  rw [offsetsW_append, List.drop_left']
  rw [offsetsW_length, List.length_take]
  omega

theorem sum_map_take_lt {γ : Type _} (w : γ → Nat) (hw : ∀ g, 0 < w g)
    (cs : List γ) (i j : Nat) (hij : i < j) (hj : j ≤ cs.length) :
    ((cs.take i).map w).sum < ((cs.take j).map w).sum := by
  have hsplit : cs.take j = cs.take i ++ (cs.drop i).take (j - i) := by
    rw [← List.take_add]
    congr 1
    omega
  rw [hsplit]
  simp only [List.map_append, List.sum_append]
  have hne : (cs.drop i).take (j - i) ≠ [] := by
    have : ((cs.drop i).take (j - i)).length = j - i := by
      rw [List.length_take, List.length_drop]
      omega
    intro h
    rw [h] at this
    simp at this
    omega
  obtain ⟨y, ys, hys⟩ := List.exists_cons_of_ne_nil hne
  rw [hys]
  have := hw y
  simp
  omega

theorem sum_map_take_inj {γ : Type _} (w : γ → Nat) (hw : ∀ g, 0 < w g)
    (cs : List γ) (i j : Nat) (hi : i ≤ cs.length) (hj : j ≤ cs.length)
    (h : ((cs.take i).map w).sum = ((cs.take j).map w).sum) : i = j := by
  rcases Nat.lt_trichotomy i j with hlt | heq | hgt
  · have := sum_map_take_lt w hw cs i j hlt hj
    omega
  · exact heq
  · have := sum_map_take_lt w hw cs j i hgt hi
    omega

theorem findSome?_eq_filterMap_head {γ δ : Type _} (f : γ → Option δ)
    (l : List γ) : l.findSome? f = (l.filterMap f).head? := by
  induction l with
  | nil => simp
  | cons x l ih =>
    rcases hx : f x with _ | y
    · have h1 : List.findSome? f (x :: l) = List.findSome? f l := by
        rw [List.findSome?_cons, hx]
      have h2 : List.filterMap f (x :: l) = List.filterMap f l := by
        rw [List.filterMap_cons, hx]
      rw [h1, h2, ih]
    · have h1 : List.findSome? f (x :: l) = some y := by
        rw [List.findSome?_cons, hx]
      have h2 : List.filterMap f (x :: l) = y :: List.filterMap f l := by
        rw [List.filterMap_cons, hx]
      rw [h1, h2, List.head?_cons]

theorem mem_insertA {κ α : Type _} [DecidableEq κ]
    {m : List (κ × α)} {k : κ} {v : α} {q : κ × α}
    (h : q ∈ insertA m k v) : q = (k, v) ∨ q ∈ m := by
  induction m with
  | nil => simpa [insertA] using h
  | cons p rest ih =>
    obtain ⟨k0, v0⟩ := p
    by_cases hk : k0 = k
    · simp only [insertA, hk, if_pos rfl] at h
      rcases List.mem_cons.1 h with h | h
      · exact Or.inl h
      · exact Or.inr (List.mem_cons_of_mem _ h)
    · simp only [insertA, hk, if_neg hk] at h
      rcases List.mem_cons.1 h with h | h
      · exact Or.inr (by simp [h])
      · rcases ih h with h | h
        · exact Or.inl h
        · exact Or.inr (List.mem_cons_of_mem _ h)

theorem mem_removeA {κ α : Type _} [DecidableEq κ]
    {m : List (κ × α)} {k : κ} {q : κ × α}
    (h : q ∈ removeA m k) : q ∈ m := by
  induction m with
  | nil => simpa [removeA] using h
  | cons p rest ih =>
    obtain ⟨k0, v0⟩ := p
    by_cases hk : k0 = k
    · simp only [removeA, hk, if_pos rfl] at h
      exact List.mem_cons_of_mem _ h
    · simp only [removeA, hk, if_neg hk] at h
      rcases List.mem_cons.1 h with h | h
      · simp [h]
      · exact List.mem_cons_of_mem _ (ih h)

theorem mem_of_lookupA {κ α : Type _} [DecidableEq κ]
    {m : List (κ × α)} {k : κ} {v : α}
    (h : lookupA m k = some v) : (k, v) ∈ m := by
  induction m with
  | nil => simp [lookupA] at h
  | cons p rest ih =>
    obtain ⟨k0, v0⟩ := p
    by_cases hk : k0 = k
    · subst hk
      simp [lookupA] at h
      simp [h]
    · simp only [lookupA, hk, if_neg hk] at h
      exact List.mem_cons_of_mem _ (ih h)

theorem two_le_length_of_lookupA {κ α : Type _} [DecidableEq κ]
    {m : List (κ × α)} {k1 k2 : κ} {v1 v2 : α}
    (h1 : lookupA m k1 = some v1) (h2 : lookupA m k2 = some v2)
    (hne : k1 ≠ k2) : 2 ≤ m.length := by
  induction m with
  | nil => simp [lookupA] at h1
  | cons p rest ih =>
    obtain ⟨k, v⟩ := p
    by_cases hk : k = k1
    · have h2' : lookupA rest k2 = some v2 := by
        simpa [lookupA, hk, hne] using h2
      cases rest with
      | nil => simp [lookupA] at h2'
      | cons q qs => simp
    · have h1' : lookupA rest k1 = some v1 := by
        simpa [lookupA, hk] using h1
      cases rest with
      | nil => simp [lookupA] at h1'
      | cons q qs => simp

namespace Tree

section ClaimProofs

variable {Id : Type _} [DecidableEq Id]

/-! ### The insertion-point scan over a tombstone anchor -/

theorem lookupIPLoop_cons_none (lid id : Id) (posOpt : Option Nat)
    (rest : List (Id × Option Nat)) (i : Nat) :
    lookupIPLoop lid ((id, posOpt) :: rest) i none =
      lookupIPLoop lid rest (i + 1) (if id = lid then some (i + 1) else none) := by
  cases posOpt <;> rfl

theorem lookupIPLoop_cons_dead (lid id : Id) (rest : List (Id × Option Nat))
    (i a : Nat) :
    lookupIPLoop lid ((id, none) :: rest) i (some a) =
      lookupIPLoop lid rest (i + 1) (if id = lid then some (i + 1) else some a) :=
  rfl

theorem lookupIPLoop_cons_live (lid id : Id) (p : Nat)
    (rest : List (Id × Option Nat)) (i a : Nat) :
    lookupIPLoop lid ((id, some p) :: rest) i (some a) = .inl (p, a) := rfl

theorem lookupIPLoop_skip (lid : Id) (l1 rest : List (Id × Option Nat)) (i : Nat)
    (h : lid ∉ l1.map Prod.fst) :
    lookupIPLoop lid (l1 ++ rest) i none = lookupIPLoop lid rest (i + l1.length) none := by
  induction l1 generalizing i with
  | nil => simp
  | cons q l1 ih =>
    obtain ⟨id, posOpt⟩ := q
    simp only [List.map_cons, List.mem_cons, not_or] at h
    have hid : ¬ id = lid := fun hh => h.1 hh.symm
    rw [List.cons_append, lookupIPLoop_cons_none, if_neg hid, ih (i + 1) h.2]
    congr 1
    simp only [List.length_cons]
    omega

theorem lookupIPLoop_after (lid : Id) (l2 : List (Id × Option Nat)) (i a : Nat)
    (h : lid ∉ l2.map Prod.fst) :
    lookupIPLoop lid l2 i (some a) =
      match (l2.filterMap Prod.snd).head? with
      | some p => .inl (p, a)
      | none => .inr (some a) := by
  induction l2 generalizing i with
  | nil => simp [lookupIPLoop]
  | cons q l2 ih =>
    obtain ⟨id, posOpt⟩ := q
    simp only [List.map_cons, List.mem_cons, not_or] at h
    have hid : ¬ id = lid := fun hh => h.1 hh.symm
    cases posOpt with
    | some p =>
      rw [lookupIPLoop_cons_live]
      simp [List.filterMap_cons]
    | none =>
      rw [lookupIPLoop_cons_dead, if_neg hid, ih (i + 1) h.2]
      simp [List.filterMap_cons]

theorem lookupIPLoop_tombstone (c : Id) (l1 l2 : List (Id × Option Nat))
    (h1 : c ∉ l1.map Prod.fst) (h2 : c ∉ l2.map Prod.fst) :
    lookupIPLoop c (l1 ++ (c, none) :: l2) 0 none =
      match (l2.filterMap Prod.snd).head? with
      | some p => .inl (p, l1.length + 1)
      | none => .inr (some (l1.length + 1)) := by
  rw [lookupIPLoop_skip c l1 ((c, none) :: l2) 0 h1]
  rw [lookupIPLoop_cons_none, if_pos rfl, lookupIPLoop_after c l2 _ _ h2]
  simp

/-! ### The segment representation invariant -/

/-- A segment's stored positions are exactly the weighted offsets of its
contents (true of every non-segment node). -/
def segOffsetsB : NodeData Id → Bool
  | .stringSegment _ _ cs ids =>
    decide (ids.filterMap Prod.snd = offsetsW charWidth cs)
  | .arraySegment _ _ cs ids =>
    decide (ids.filterMap Prod.snd = offsetsW (fun _ => 1) cs)
  | _ => Bool.true

/-- A segment's ids list respects the split threshold (true of every
non-segment node). -/
def segBoundB (d : NodeData Id) : Bool :=
  match d.segmentIds? with
  | some ids => decide (ids.length ≤ SPLIT_LEN)
  | none => Bool.true

/-- Every node of the tree satisfies the position invariant. -/
def SeqOffs (t : Tree Id) : Prop :=
  ∀ q ∈ t.nodes, segOffsetsB (q.2.data) = Bool.true

/-- Every node of the tree satisfies the length bound. -/
def SeqBnd (t : Tree Id) : Prop :=
  ∀ q ∈ t.nodes, segBoundB (q.2.data) = Bool.true

/-- The sequence-engine invariant of a tree. -/
def SeqInv (t : Tree Id) : Prop := SeqOffs t ∧ SeqBnd t

theorem segBoundB_congr (d d' : NodeData Id)
    (h : d.segmentIds? = d'.segmentIds?) : segBoundB d = segBoundB d' := by
  unfold segBoundB
  rw [h]

theorem sum_map_one {γ : Type _} (l : List γ) :
    (l.map (fun _ => (1 : Nat))).sum = l.length := by
  induction l <;> simp [*] <;> omega

/-! ### Shape of the insertion-point scan on any ids list -/

theorem drop_append_of_le {α : Type _} (l1 l2 : List α) (n : Nat)
    (h : n ≤ l1.length) : (l1 ++ l2).drop n = l1.drop n ++ l2 := by
  induction l1 generalizing n with
  | nil =>
    have : n = 0 := by simpa using h
    simp [this]
  | cons a l1 ih =>
    cases n with
    | zero => simp
    | succ n => simpa using ih n (by simpa using h)

theorem lookupIPLoop_shape (lid : Id) (rem : List (Id × Option Nat)) :
    ∀ (done : List (Id × Option Nat)) (acc : Option Nat),
    (∀ a, acc = some a → a ≤ done.length ∧
      (done.drop a).filterMap Prod.snd = []) →
    (match lookupIPLoop lid rem done.length acc with
     | .inl (P, ili) => ili ≤ (done ++ rem).length ∧
         (((done ++ rem).drop ili).filterMap Prod.snd).head? = some P
     | .inr (some ili) => ili ≤ (done ++ rem).length ∧
         ((done ++ rem).drop ili).filterMap Prod.snd = []
     | .inr none => True) := by
  induction rem with
  | nil =>
    intro done acc hacc
    rcases acc with _ | a
    · simp [lookupIPLoop]
    · obtain ⟨h1, h2⟩ := hacc a rfl
      simp only [lookupIPLoop, List.append_nil]
      exact ⟨h1, h2⟩
  | cons q rem ih =>
    intro done acc hacc
    obtain ⟨id, posOpt⟩ := q
    have hstep : ∀ (acc' : Option Nat),
        (∀ a, acc' = some a → a ≤ (done ++ [(id, posOpt)]).length ∧
          ((done ++ [(id, posOpt)]).drop a).filterMap Prod.snd = []) →
        (match lookupIPLoop lid rem (done.length + 1) acc' with
         | .inl (P, ili) => ili ≤ (done ++ (id, posOpt) :: rem).length ∧
             (((done ++ (id, posOpt) :: rem).drop ili).filterMap
               Prod.snd).head? = some P
         | .inr (some ili) => ili ≤ (done ++ (id, posOpt) :: rem).length ∧
             ((done ++ (id, posOpt) :: rem).drop ili).filterMap Prod.snd = []
         | .inr none => True) := by
      intro acc' hacc'
      have h := ih (done ++ [(id, posOpt)]) acc' hacc'
      have hL : (done ++ [(id, posOpt)]).length = done.length + 1 := by simp
      have hE : (done ++ [(id, posOpt)]) ++ rem = done ++ (id, posOpt) :: rem := by
        simp
      rw [hL, hE] at h
      exact h
    rcases acc with _ | a
    · rw [lookupIPLoop_cons_none]
      refine hstep _ ?_
      intro a ha
      by_cases hid : id = lid
      · rw [if_pos hid] at ha
        injection ha with ha
        subst ha
        constructor
        · simp
        · rw [List.drop_eq_nil_of_le (by simp)]
          simp
      · rw [if_neg hid] at ha
        cases ha
    · rcases posOpt with _ | p
      · rw [lookupIPLoop_cons_dead]
        obtain ⟨ha1, ha2⟩ := hacc a rfl
        refine hstep _ ?_
        intro a' ha'
        by_cases hid : id = lid
        · rw [if_pos hid] at ha'
          injection ha' with ha'
          subst ha'
          constructor
          · simp
          · rw [List.drop_eq_nil_of_le (by simp)]
            simp
        · rw [if_neg hid] at ha'
          injection ha' with ha'
          subst ha'
          constructor
          · simp
            omega
          · rw [drop_append_of_le done [(id, none)] a ha1]
            simp [List.filterMap_append, ha2]
      · rw [lookupIPLoop_cons_live]
        obtain ⟨ha1, ha2⟩ := hacc a rfl
        constructor
        · simp
          omega
        · rw [drop_append_of_le done ((id, some p) :: rem) a ha1]
          simp [List.filterMap_append, ha2]

theorem filterMap_snd_map_shift (l : List (Id × Option Nat)) (f : Nat → Nat) :
    (l.map (fun q => (q.1, q.2.map f))).filterMap Prod.snd =
      (l.filterMap Prod.snd).map f := by
  induction l with
  | nil => simp
  | cons q l ih =>
    obtain ⟨id, posOpt⟩ := q
    rcases posOpt with _ | p <;> simp [List.filterMap_cons, ih]

theorem splitCharsAt_spec (cs : List Char) (ofs : Nat) (pre post : List Char)
    (h : splitCharsAt cs ofs = some (pre, post)) :
    cs = pre ++ post ∧ byteLen pre = ofs := by
  induction cs generalizing ofs pre post with
  | nil =>
    cases ofs with
    | zero =>
      simp [splitCharsAt] at h
      obtain ⟨h1, h2⟩ := h
      subst h1
      subst h2
      simp [byteLen]
    | succ o => simp [splitCharsAt] at h
  | cons c rest ih =>
    cases ofs with
    | zero =>
      simp [splitCharsAt] at h
      obtain ⟨h1, h2⟩ := h
      subst h1
      subst h2
      simp [byteLen]
    | succ o =>
      rw [show splitCharsAt (c :: rest) (o + 1) =
          (if charWidth c ≤ o + 1 then
            (splitCharsAt rest (o + 1 - charWidth c)).map
              (fun p => (c :: p.1, p.2))
          else none) from rfl] at h
      by_cases hw : charWidth c ≤ o + 1
      · rw [if_pos hw] at h
        rcases hsp : splitCharsAt rest (o + 1 - charWidth c) with _ | ⟨p1, p2⟩
        · rw [hsp] at h
          simp at h
        · rw [hsp] at h
          simp only [Option.map_some', Option.some.injEq] at h
          obtain ⟨h1, h2⟩ := Prod.mk.injEq .. ▸ h
          obtain ⟨hcs, hbl⟩ := ih (o + 1 - charWidth c) p1 p2 hsp
          subst h2
          constructor
          · rw [← h1]
            simp [hcs]
          · rw [← h1]
            simp [byteLen] at hbl ⊢
            omega
      · rw [if_neg hw] at h
        cases h

theorem set_append_cons {α : Type _} (u v : List α) (b c : α) :
    (u ++ b :: v).set u.length c = u ++ c :: v := by
  induction u with
  | nil => simp
  | cons a u ih => simpa using ih

theorem drop_middle_eq {α : Type _} (l : List α) (i : Nat) (b : α)
    (h : l[i]? = some b) : l.drop i = b :: l.drop (i + 1) := by
  have hi : i < l.length := by
    by_contra hc
    rw [List.getElem?_eq_none (by omega)] at h
    cases h
  rw [List.drop_eq_getElem_cons hi]
  rw [List.getElem?_eq_getElem hi] at h
  injection h with h
  rw [h]

theorem take_middle_decomp {α : Type _} (l : List α) (i : Nat) (b : α)
    (h : l[i]? = some b) : l = l.take i ++ b :: l.drop (i + 1) := by
  conv_lhs => rw [← List.take_append_drop i l]
  rw [drop_middle_eq l i b h]

/-- Inserting an entry at the scan's insertion point preserves the offsets
invariant of a segment. -/
theorem offsets_insert_mid {γ : Type _} (w : γ → Nat) (hw : ∀ g, 0 < w g)
    (cs : List γ) (x : γ) (ids : List (Id × Option Nat)) (nid : Id)
    (ili j P : Nat)
    (hinv : ids.filterMap Prod.snd = offsetsW w cs)
    (hj : j ≤ cs.length)
    (hPj : P = ((cs.take j).map w).sum)
    (hb : ((ids.drop ili).filterMap Prod.snd).head? = some P ∨
          ((ids.drop ili).filterMap Prod.snd = [] ∧ P = (cs.map w).sum)) :
    (ids.take ili ++ (nid, some P) :: (ids.drop ili).map
        (fun q => (q.1, q.2.map (fun m => m + w x)))).filterMap Prod.snd =
      offsetsW w (cs.take j ++ x :: cs.drop j) := by
  have hAB : (ids.take ili).filterMap Prod.snd ++ (ids.drop ili).filterMap Prod.snd
      = offsetsW w cs := by
    rw [← List.filterMap_append, List.take_append_drop]
    exact hinv
  have hlenAB : ((ids.take ili).filterMap Prod.snd).length +
      ((ids.drop ili).filterMap Prod.snd).length = cs.length := by
    have h2 := congrArg List.length hAB
    simp [offsetsW_length] at h2
    omega
  have hA : (ids.take ili).filterMap Prod.snd =
      (offsetsW w cs).take ((ids.take ili).filterMap Prod.snd).length := by
    rw [← hAB, List.take_left]
  have hB : (ids.drop ili).filterMap Prod.snd =
      (offsetsW w cs).drop ((ids.take ili).filterMap Prod.snd).length := by
    rw [← hAB, List.drop_left]
  have hjA : j = ((ids.take ili).filterMap Prod.snd).length := by
    rcases hb with hhead | ⟨hemp, hPend⟩
    · rw [hB, offsetsW_head_drop] at hhead
      by_cases hlt : ((ids.take ili).filterMap Prod.snd).length < cs.length
      · rw [if_pos hlt] at hhead
        injection hhead with hhead
        refine sum_map_take_inj w hw cs j _ hj (by omega) ?_
        rw [← hPj, ← hhead]
      · rw [if_neg hlt] at hhead
        cases hhead
    · have hBlen : ((ids.drop ili).filterMap Prod.snd).length = 0 := by
        rw [hemp]
        rfl
      have heq : ((cs.take j).map w).sum = ((cs.take cs.length).map w).sum := by
        rw [← hPj, hPend, List.take_length]
      have := sum_map_take_inj w hw cs j cs.length hj (le_refl _) heq
      omega
  rw [List.filterMap_append, List.filterMap_cons]
  show _ ++ P :: _ = _
  rw [filterMap_snd_map_shift]
  rw [offsetsW_append, offsetsW_cons]
  rw [← hjA] at hA
  rw [offsetsW_take w cs j hj] at hA
  rw [← hA]
  have hBdrop : (ids.drop ili).filterMap Prod.snd =
      (offsetsW w (cs.drop j)).map
        (fun a => ((cs.take j).map w).sum + a) := by
    rw [hB, ← hjA, offsetsW_drop w cs j hj]
  rw [hBdrop]
  simp only [List.map_cons, List.map_map, List.cons_append]
  refine congrArg (_ ++ ·) ?_
  refine congrArg₂ (· :: ·) (by omega) ?_
  apply List.map_congr_left
  intro a _
  simp [Function.comp]
  omega

/-- Tombstoning an entry and removing its content preserves the offsets
invariant of a segment. -/
theorem offsets_remove_mid {γ : Type _} (w : γ → Nat) (hw : ∀ g, 0 < w g)
    (cs : List γ) (u v : List (Id × Option Nat)) (e : Id) (P j : Nat)
    (hinv : (u ++ (e, some P) :: v).filterMap Prod.snd = offsetsW w cs)
    (hj : j < cs.length)
    (hPj : P = ((cs.take j).map w).sum)
    (x : γ) (hx : cs[j]? = some x) :
    (u ++ (e, none) :: v.map
        (fun q => (q.1, q.2.map (fun m => m - w x)))).filterMap Prod.snd =
      offsetsW w (cs.take j ++ cs.drop (j + 1)) := by
  have hAB : u.filterMap Prod.snd ++ P :: v.filterMap Prod.snd =
      offsetsW w cs := by
    simpa [List.filterMap_append, List.filterMap_cons] using hinv
  have hlenAB : (u.filterMap Prod.snd).length + (1 + (v.filterMap Prod.snd).length)
      = cs.length := by
    have h2 := congrArg List.length hAB
    simp [offsetsW_length] at h2
    omega
  have hA : u.filterMap Prod.snd =
      (offsetsW w cs).take (u.filterMap Prod.snd).length := by
    rw [← hAB]
    rw [show (P :: v.filterMap Prod.snd) = [P] ++ v.filterMap Prod.snd from rfl]
    rw [← List.append_assoc, List.take_append_of_le_length (by simp),
      List.take_left]
  have hPcons : (offsetsW w cs).drop (u.filterMap Prod.snd).length =
      P :: v.filterMap Prod.snd := by
    rw [← hAB, List.drop_left]
  have hjA : j = (u.filterMap Prod.snd).length := by
    have hhead : ((offsetsW w cs).drop (u.filterMap Prod.snd).length).head? =
        some P := by
      rw [hPcons]
      rfl
    rw [offsetsW_head_drop] at hhead
    by_cases hlt : (u.filterMap Prod.snd).length < cs.length
    · rw [if_pos hlt] at hhead
      injection hhead with hhead
      refine sum_map_take_inj w hw cs j _ (by omega) (by omega) ?_
      rw [← hPj, ← hhead]
    · rw [if_neg hlt] at hhead
      cases hhead
  have hV : v.filterMap Prod.snd =
      (offsetsW w (cs.drop (j + 1))).map
        (fun a => ((cs.take (j + 1)).map w).sum + a) := by
    have h1 : (offsetsW w cs).drop (j + 1) = v.filterMap Prod.snd := by
      have := congrArg (List.drop 1) hPcons
      simpa [List.drop_drop, hjA, Nat.add_comm] using this
    rw [← h1, offsetsW_drop w cs (j + 1) (by omega)]
  have htakex : cs.take (j + 1) = cs.take j ++ [x] := by
    rw [List.take_succ, hx]
    rfl
  rw [List.filterMap_append, List.filterMap_cons]
  show _ ++ (v.map _).filterMap _ = _
  rw [filterMap_snd_map_shift]
  rw [offsetsW_append]
  rw [← hjA] at hA
  rw [offsetsW_take w cs j (by omega)] at hA
  rw [← hA, hV]
  simp only [List.map_map]
  refine congrArg (_ ++ ·) ?_
  apply List.map_congr_left
  intro a _
  simp [Function.comp, htakex]
  omega

/-! ### Key uniqueness of the arena -/

/-- The arena's keys are unique (every tree the API builds satisfies
this). -/
def NodesND (t : Tree Id) : Prop := (t.nodes.map Prod.fst).Nodup

theorem keys_insertA {κ α : Type _} [DecidableEq κ]
    (m : List (κ × α)) (k : κ) (v : α) :
    (insertA m k v).map Prod.fst =
      if k ∈ m.map Prod.fst then m.map Prod.fst
      else m.map Prod.fst ++ [k] := by
  induction m with
  | nil => simp [insertA]
  | cons p rest ih =>
    obtain ⟨k0, v0⟩ := p
    by_cases hk : k0 = k
    · subst hk
      simp [insertA]
    · have hkk : ¬ k = k0 := fun h => hk h.symm
      simp only [insertA, if_neg hk, List.map_cons, ih]
      by_cases hm : k ∈ rest.map Prod.fst <;>
        simp [hm, List.mem_cons, hkk]

theorem nodup_insertA {κ α : Type _} [DecidableEq κ]
    {m : List (κ × α)} (k : κ) (v : α)
    (h : (m.map Prod.fst).Nodup) : ((insertA m k v).map Prod.fst).Nodup := by
  rw [keys_insertA]
  by_cases hm : k ∈ m.map Prod.fst
  · simpa [hm] using h
  · simp only [hm, if_false]
    simp [List.nodup_append, h, hm]

theorem keys_removeA_sublist {κ α : Type _} [DecidableEq κ]
    (m : List (κ × α)) (k : κ) :
    List.Sublist ((removeA m k).map Prod.fst) (m.map Prod.fst) := by
  induction m with
  | nil => simp [removeA]
  | cons p rest ih =>
    obtain ⟨k0, v0⟩ := p
    by_cases hk : k0 = k
    · subst hk
      simp only [removeA, if_pos rfl, List.map_cons]
      exact List.sublist_cons_of_sublist _ (List.Sublist.refl _)
    · simp only [removeA, if_neg hk, List.map_cons]
      exact List.Sublist.cons₂ _ ih

theorem nodup_removeA {κ α : Type _} [DecidableEq κ]
    {m : List (κ × α)} (k : κ)
    (h : (m.map Prod.fst).Nodup) : ((removeA m k).map Prod.fst).Nodup :=
  (keys_removeA_sublist m k).nodup h

theorem lookupA_eq_of_mem_nodup {κ α : Type _} [DecidableEq κ]
    {m : List (κ × α)} {k : κ} {v : α}
    (hnd : (m.map Prod.fst).Nodup) (h : (k, v) ∈ m) :
    lookupA m k = some v := by
  induction m with
  | nil => simp at h
  | cons p rest ih =>
    obtain ⟨k0, v0⟩ := p
    simp only [List.map_cons, List.nodup_cons] at hnd
    rcases List.mem_cons.1 h with h | h
    · obtain ⟨h1, h2⟩ := Prod.mk.injEq .. ▸ h.symm
      subst h1
      subst h2
      simp [lookupA]
    · by_cases hk : k0 = k
      · subst hk
        exact absurd (by simpa using List.mem_map_of_mem Prod.fst h) hnd.1
      · simp only [lookupA, if_neg hk]
        exact ih hnd.2 h

/-- What a node of a rewired tree can be: either it satisfies both segment
invariants outright (a fresh empty segment), or it descends from a node of
the original tree with the same ids list and the same position-invariant
status (a pointer-only rewrite). -/
def FrameOld (t : Tree Id) (q : NodeId × Node Id) : Prop :=
  ∃ node, (q.1, node) ∈ t.nodes ∧
    node.data.segmentIds? = q.2.data.segmentIds? ∧
    segOffsetsB node.data = segOffsetsB (q.2.data)

def FrameOK (t : Tree Id) (q : NodeId × Node Id) : Prop :=
  (segOffsetsB (q.2.data) = Bool.true ∧ segBoundB (q.2.data) = Bool.true) ∨
  FrameOld t q

theorem frame_chase (t : Tree Id) (seg nx new : NodeId)
    (node0 rew0 empt nn rewN : Node Id)
    (hl : lookupA t.nodes seg = some node0)
    (hcore0i : rew0.data.segmentIds? = node0.data.segmentIds?)
    (hcore0o : segOffsetsB rew0.data = segOffsetsB node0.data)
    (hempty1 : segOffsetsB empt.data = Bool.true)
    (hempty2 : segBoundB empt.data = Bool.true)
    (hnext : lookupA (insertA (insertA t.nodes seg rew0) new empt) nx = some nn)
    (hcoreNi : rewN.data.segmentIds? = nn.data.segmentIds?)
    (hcoreNo : segOffsetsB rewN.data = segOffsetsB nn.data) :
    ∀ q ∈ insertA (insertA (insertA t.nodes seg rew0) new empt) nx rewN,
      FrameOK t q := by
  intro q hq
  rcases mem_insertA hq with rfl | hq1
  · have hmem := mem_of_lookupA hnext
    rcases mem_insertA hmem with he | hm1
    · injection he with h1 h2
      left
      constructor
      · rw [hcoreNo, h2, hempty1]
      · rw [segBoundB_congr _ _ hcoreNi, segBoundB_congr _ _
          (congrArg (fun z : Node Id => z.data.segmentIds?) h2), hempty2]
    · rcases mem_insertA hm1 with he | hm2
      · injection he with h1 h2
        right
        refine ⟨node0, ?_, ?_, ?_⟩
        · rw [h1]
          exact mem_of_lookupA hl
        · rw [← hcore0i, ← congrArg (fun z : Node Id => z.data.segmentIds?) h2,
            hcoreNi]
        · rw [← hcore0o, ← congrArg (fun z : Node Id => segOffsetsB z.data) h2,
            hcoreNo]
      · right
        exact ⟨nn, hm2, hcoreNi.symm, hcoreNo.symm⟩
  · rcases mem_insertA hq1 with rfl | hq2
    · left
      exact ⟨hempty1, hempty2⟩
    · rcases mem_insertA hq2 with rfl | hq3
      · right
        exact ⟨node0, mem_of_lookupA hl, hcore0i.symm, hcore0o.symm⟩
      · right
        exact ⟨q.2, hq3, rfl, rfl⟩

theorem insert_segment_frame (t : Tree Id) (seg : NodeId) (t2 : Tree Id)
    (fresh : NodeId) (hnd : NodesND t)
    (h : insert_segment t seg = some (t2, fresh)) :
    NodesND t2 ∧ ∀ q ∈ t2.nodes, FrameOK t q := by
  rcases hl : lookupA t.nodes seg with _ | node0
  · simp only [insert_segment, next_id, hl] at h
    exact Option.noConfusion h
  · obtain ⟨nd0, par0⟩ := node0
    cases nd0 with
    | object items oid =>
      simp only [insert_segment, next_id, hl] at h
      exact Option.noConfusion h
    | stringSegment p nxp cs ids =>
      simp only [insert_segment, next_id, hl, eq_self_iff_true, if_true,
        Bool.false_eq_true, if_false] at h
      split at h
      · exact Option.noConfusion h
      · rename_i nn hnext
        split at h <;>
          first
          | exact Option.noConfusion h
          | (rename_i a b c d heq
             injection h with h'
             injection h' with e1 e2
             subst e1
             subst e2
             refine ⟨nodup_insertA _ _ (nodup_insertA _ _ (nodup_insertA _ _
               hnd)), ?_⟩
             exact frame_chase t seg nxp t.next_node _ _ _ nn _ hl rfl rfl
               (by rfl) (by rfl) hnext (by simp [heq, NodeData.segmentIds?])
               (by simp [heq, segOffsetsB]))
          | (rename_i a b c heq
             injection h with h'
             injection h' with e1 e2
             subst e1
             subst e2
             refine ⟨nodup_insertA _ _ (nodup_insertA _ _ (nodup_insertA _ _
               hnd)), ?_⟩
             exact frame_chase t seg nxp t.next_node _ _ _ nn _ hl rfl rfl
               (by rfl) (by rfl) hnext (by simp [heq, NodeData.segmentIds?])
               (by simp [heq, segOffsetsB]))
    | string start stop sid =>
      simp only [insert_segment, next_id, hl, eq_self_iff_true, if_true,
        Bool.false_eq_true, if_false] at h
      split at h
      · exact Option.noConfusion h
      · rename_i nn hnext
        split at h <;>
          first
          | exact Option.noConfusion h
          | (rename_i a b c d heq
             injection h with h'
             injection h' with e1 e2
             subst e1
             subst e2
             refine ⟨nodup_insertA _ _ (nodup_insertA _ _ (nodup_insertA _ _
               hnd)), ?_⟩
             exact frame_chase t seg start t.next_node _ _ _ nn _ hl rfl rfl
               (by rfl) (by rfl) hnext (by simp [heq, NodeData.segmentIds?])
               (by simp [heq, segOffsetsB]))
          | (rename_i a b c heq
             injection h with h'
             injection h' with e1 e2
             subst e1
             subst e2
             refine ⟨nodup_insertA _ _ (nodup_insertA _ _ (nodup_insertA _ _
               hnd)), ?_⟩
             exact frame_chase t seg start t.next_node _ _ _ nn _ hl rfl rfl
               (by rfl) (by rfl) hnext (by simp [heq, NodeData.segmentIds?])
               (by simp [heq, segOffsetsB]))
    | arraySegment p nxp cs ids =>
      simp only [insert_segment, next_id, hl, eq_self_iff_true, if_true,
        Bool.false_eq_true, if_false] at h
      split at h
      · exact Option.noConfusion h
      · rename_i nn hnext
        split at h <;>
          first
          | exact Option.noConfusion h
          | (rename_i a b c d heq
             injection h with h'
             injection h' with e1 e2
             subst e1
             subst e2
             refine ⟨nodup_insertA _ _ (nodup_insertA _ _ (nodup_insertA _ _
               hnd)), ?_⟩
             exact frame_chase t seg nxp t.next_node _ _ _ nn _ hl rfl rfl
               (by rfl) (by rfl) hnext (by simp [heq, NodeData.segmentIds?])
               (by simp [heq, segOffsetsB]))
          | (rename_i a b c heq
             injection h with h'
             injection h' with e1 e2
             subst e1
             subst e2
             refine ⟨nodup_insertA _ _ (nodup_insertA _ _ (nodup_insertA _ _
               hnd)), ?_⟩
             exact frame_chase t seg nxp t.next_node _ _ _ nn _ hl rfl rfl
               (by rfl) (by rfl) hnext (by simp [heq, NodeData.segmentIds?])
               (by simp [heq, segOffsetsB]))
    | array start stop aid =>
      simp only [insert_segment, next_id, hl, eq_self_iff_true, if_true,
        Bool.false_eq_true, if_false] at h
      split at h
      · exact Option.noConfusion h
      · rename_i nn hnext
        split at h <;>
          first
          | exact Option.noConfusion h
          | (rename_i a b c d heq
             injection h with h'
             injection h' with e1 e2
             subst e1
             subst e2
             refine ⟨nodup_insertA _ _ (nodup_insertA _ _ (nodup_insertA _ _
               hnd)), ?_⟩
             exact frame_chase t seg start t.next_node _ _ _ nn _ hl rfl rfl
               (by rfl) (by rfl) hnext (by simp [heq, NodeData.segmentIds?])
               (by simp [heq, segOffsetsB]))
          | (rename_i a b c heq
             injection h with h'
             injection h' with e1 e2
             subst e1
             subst e2
             refine ⟨nodup_insertA _ _ (nodup_insertA _ _ (nodup_insertA _ _
               hnd)), ?_⟩
             exact frame_chase t seg start t.next_node _ _ _ nn _ hl rfl rfl
               (by rfl) (by rfl) hnext (by simp [heq, NodeData.segmentIds?])
               (by simp [heq, segOffsetsB]))

theorem frame_chase_del (t : Tree Id) (seg prevN nextN : NodeId)
    (pn rewP nn rewN : Node Id)
    (hprev : lookupA (removeA t.nodes seg) prevN = some pn)
    (hcorePi : rewP.data.segmentIds? = pn.data.segmentIds?)
    (hcorePo : segOffsetsB rewP.data = segOffsetsB pn.data)
    (hnext : lookupA (insertA (removeA t.nodes seg) prevN rewP) nextN = some nn)
    (hcoreNi : rewN.data.segmentIds? = nn.data.segmentIds?)
    (hcoreNo : segOffsetsB rewN.data = segOffsetsB nn.data) :
    ∀ q ∈ insertA (insertA (removeA t.nodes seg) prevN rewP) nextN rewN,
      FrameOld t q := by
  intro q hq
  rcases mem_insertA hq with rfl | hq1
  · have hmem := mem_of_lookupA hnext
    rcases mem_insertA hmem with he | hm1
    · injection he with h1 h2
      refine ⟨pn, ?_, ?_, ?_⟩
      · rw [h1]
        exact mem_removeA (mem_of_lookupA hprev)
      · rw [← hcorePi, ← congrArg (fun z : Node Id => z.data.segmentIds?) h2,
          hcoreNi]
      · rw [← hcorePo, ← congrArg (fun z : Node Id => segOffsetsB z.data) h2,
          hcoreNo]
    · exact ⟨nn, mem_removeA hm1, hcoreNi.symm, hcoreNo.symm⟩
  · rcases mem_insertA hq1 with rfl | hq2
    · exact ⟨pn, mem_removeA (mem_of_lookupA hprev), hcorePi.symm, hcorePo.symm⟩
    · exact ⟨q.2, mem_removeA hq2, rfl, rfl⟩

theorem delete_segment_frame (t : Tree Id) (seg : NodeId) (t1 : Tree Id)
    (deleted : Node Id) (hnd : NodesND t)
    (h : delete_segment t seg = some (t1, deleted)) :
    lookupA t.nodes seg = some deleted ∧ NodesND t1 ∧
      ∀ q ∈ t1.nodes, FrameOld t q := by
  rcases hl : lookupA t.nodes seg with _ | segNode
  · simp only [delete_segment, hl] at h
    exact Option.noConfusion h
  · have main : ∀ oldp oldn, deleteSegAux t seg segNode oldp oldn =
        some (t1, deleted) →
        lookupA t.nodes seg = some deleted ∧ NodesND t1 ∧
          ∀ q ∈ t1.nodes, FrameOld t q := by
      intro oldp oldn haux
      unfold deleteSegAux at haux
      split at haux
      · exact Option.noConfusion haux
      split at haux
      · exact Option.noConfusion haux
      rename_i pn hprev
      split at haux
      · exact Option.noConfusion haux
      rename_i nodes2 heq2
      split at heq2 <;>
        first
        | exact Option.noConfusion heq2
        | (first
           | rename_i a b c d heqP
           | rename_i a b c heqP
           injection heq2 with heq2
           subst heq2
           split at haux
           · exact Option.noConfusion haux
           rename_i nn hnext
           split at haux
           · exact Option.noConfusion haux
           rename_i nodes3 heq3
           split at heq3 <;>
             first
             | exact Option.noConfusion heq3
             | (first
                | rename_i a2 b2 c2 d2 heqN
                | rename_i a2 b2 c2 heqN
                injection heq3 with heq3
                subst heq3
                injection haux with haux2
                injection haux2 with e1 e2
                subst e1
                subst e2
                refine ⟨hl, nodup_insertA _ _ (nodup_insertA _ _
                  (nodup_removeA _ hnd)), ?_⟩
                exact frame_chase_del t seg oldp oldn pn _ nn _ hprev
                  (by simp [heqP, NodeData.segmentIds?])
                  (by simp [heqP, segOffsetsB]) hnext
                  (by simp [heqN, NodeData.segmentIds?])
                  (by simp [heqN, segOffsetsB])))
    obtain ⟨nd0, par0⟩ := segNode
    cases nd0 with
    | object items oid =>
      simp only [delete_segment, hl] at h
      exact Option.noConfusion h
    | string start stop sid =>
      simp only [delete_segment, hl] at h
      exact Option.noConfusion h
    | array start stop aid =>
      simp only [delete_segment, hl] at h
      exact Option.noConfusion h
    | stringSegment p nxp cs ids =>
      simp only [delete_segment, hl] at h
      have hm := main p nxp h
      rw [hl] at hm
      exact hm
    | arraySegment p nxp cs ids =>
      simp only [delete_segment, hl] at h
      have hm := main p nxp h
      rw [hl] at hm
      exact hm

theorem joinPair_pres (t : Tree Id) (l r : NodeId) (t1 : Tree Id)
    (hnd : NodesND t) (ho : SeqOffs t) (hb : SeqBnd t)
    (h : joinPair t l r = some t1) :
    NodesND t1 ∧ SeqOffs t1 ∧ SeqBnd t1 := by
  unfold joinPair at h
  split at h
  · exact Option.noConfusion h
  rename_i ln hln
  split at h
  · split at h
    · injection h with h
      subst h
      exact ⟨hnd, ho, hb⟩
    · exact Option.noConfusion h
  rename_i lids hlids
  split at h
  · exact Option.noConfusion h
  rename_i rn hrn
  split at h
  · split at h
    · injection h with h
      subst h
      exact ⟨hnd, ho, hb⟩
    · exact Option.noConfusion h
  rename_i rids hrids
  split at h
  · injection h with h
    subst h
    exact ⟨hnd, ho, hb⟩
  rename_i hguard
  push_neg at hguard
  split at h
  · exact Option.noConfusion h
  rename_i td deleted hdel
  obtain ⟨hldel, hndd, hframe⟩ := delete_segment_frame t r td deleted hnd hdel
  have hdelrn : deleted = rn := by
    rw [hldel] at hrn
    exact Option.some.inj hrn
  subst hdelrn
  split at h <;> try exact Option.noConfusion h
  · -- string segments
    rename_i dp dn dcs dids heqD
    split at h
    · exact Option.noConfusion h
    rename_i m hm
    split at h
    · exact Option.noConfusion h
    rename_i ln1 hln1
    split at h <;> try exact Option.noConfusion h
    rename_i lp lnx lcs lids1 heqL
    injection h with h
    subst h
    obtain ⟨nodeL, hmemL, hidsL, hoffsL⟩ := hframe (l, ln1) (mem_of_lookupA hln1)
    have hnodeL : nodeL = ln := by
      have h0 := lookupA_eq_of_mem_nodup hnd hmemL
      rw [hln] at h0
      exact (Option.some.inj h0).symm
    subst hnodeL
    have hlid1 : lids = lids1 := by
      have h1 : ln1.data.segmentIds? = some lids1 := by
        rw [heqL]
        rfl
      rw [hlids, h1] at hidsL
      exact Option.some.inj hidsL
    have hrid1 : rids = dids := by
      have h1 : deleted.data.segmentIds? = some dids := by
        rw [heqD]
        rfl
      rw [h1] at hrids
      exact (Option.some.inj hrids).symm
    have hL : lids1.filterMap Prod.snd = offsetsW charWidth lcs := by
      have h1 : segOffsetsB ln1.data = Bool.true := by
        rw [← hoffsL]
        exact ho _ (mem_of_lookupA hln)
      rw [heqL] at h1
      exact of_decide_eq_true h1
    have hD : dids.filterMap Prod.snd = offsetsW charWidth dcs := by
      have h1 : segOffsetsB deleted.data = Bool.true :=
        ho _ (mem_of_lookupA hldel)
      rw [heqD] at h1
      exact of_decide_eq_true h1
    have hmo : segOffsetsB (NodeData.stringSegment lp lnx (lcs ++ dcs)
        (lids1 ++ dids.map (fun q => (q.1, q.2.map (fun n => n + byteLen lcs))))
        : NodeData Id) = Bool.true := by
      refine decide_eq_true ?_
      rw [List.filterMap_append, filterMap_snd_map_shift, hL, hD,
        offsetsW_append]
      congr 1
      apply List.map_congr_left
      intro a _
      simp [byteLen]
      omega
    have hmb : segBoundB (NodeData.stringSegment lp lnx (lcs ++ dcs)
        (lids1 ++ dids.map (fun q => (q.1, q.2.map (fun n => n + byteLen lcs))))
        : NodeData Id) = Bool.true := by
      refine decide_eq_true ?_
      simp only [List.length_append, List.length_map]
      have h3 := hguard.2.2
      have e1 : lids.length = lids1.length := by rw [hlid1]
      have e2 : rids.length = dids.length := by rw [hrid1]
      simp only [SPLIT_LEN] at h3 ⊢
      omega
    refine ⟨nodup_insertA _ _ hndd, ?_, ?_⟩
    · intro q hq
      rcases mem_insertA hq with rfl | hq1
      · exact hmo
      · obtain ⟨node, hmem, hids, hoffs⟩ := hframe q hq1
        rw [← hoffs]
        exact ho _ hmem
    · intro q hq
      rcases mem_insertA hq with rfl | hq1
      · exact hmb
      · obtain ⟨node, hmem, hids, hoffs⟩ := hframe q hq1
        rw [← segBoundB_congr node.data q.2.data hids]
        exact hb _ hmem
  · -- array segments
    rename_i dp dn dcs dids heqD
    split at h
    · exact Option.noConfusion h
    rename_i m hm
    split at h
    · exact Option.noConfusion h
    rename_i ln1 hln1
    split at h <;> try exact Option.noConfusion h
    rename_i lp lnx lcs lids1 heqL
    injection h with h
    subst h
    obtain ⟨nodeL, hmemL, hidsL, hoffsL⟩ := hframe (l, ln1) (mem_of_lookupA hln1)
    have hnodeL : nodeL = ln := by
      have h0 := lookupA_eq_of_mem_nodup hnd hmemL
      rw [hln] at h0
      exact (Option.some.inj h0).symm
    subst hnodeL
    have hlid1 : lids = lids1 := by
      have h1 : ln1.data.segmentIds? = some lids1 := by
        rw [heqL]
        rfl
      rw [hlids, h1] at hidsL
      exact Option.some.inj hidsL
    have hrid1 : rids = dids := by
      have h1 : deleted.data.segmentIds? = some dids := by
        rw [heqD]
        rfl
      rw [h1] at hrids
      exact (Option.some.inj hrids).symm
    have hL : lids1.filterMap Prod.snd = offsetsW (fun _ => 1) lcs := by
      have h1 : segOffsetsB ln1.data = Bool.true := by
        rw [← hoffsL]
        exact ho _ (mem_of_lookupA hln)
      rw [heqL] at h1
      exact of_decide_eq_true h1
    have hD : dids.filterMap Prod.snd = offsetsW (fun _ => 1) dcs := by
      have h1 : segOffsetsB deleted.data = Bool.true :=
        ho _ (mem_of_lookupA hldel)
      rw [heqD] at h1
      exact of_decide_eq_true h1
    have hmo : segOffsetsB (NodeData.arraySegment lp lnx (lcs ++ dcs)
        (lids1 ++ dids.map (fun q => (q.1, q.2.map (fun n => n + lcs.length))))
        : NodeData Id) = Bool.true := by
      refine decide_eq_true ?_
      rw [List.filterMap_append, filterMap_snd_map_shift, hL, hD,
        offsetsW_append]
      congr 1
      apply List.map_congr_left
      intro a _
      simp [sum_map_one]
      omega
    have hmb : segBoundB (NodeData.arraySegment lp lnx (lcs ++ dcs)
        (lids1 ++ dids.map (fun q => (q.1, q.2.map (fun n => n + lcs.length))))
        : NodeData Id) = Bool.true := by
      refine decide_eq_true ?_
      simp only [List.length_append, List.length_map]
      have h3 := hguard.2.2
      have e1 : lids.length = lids1.length := by rw [hlid1]
      have e2 : rids.length = dids.length := by rw [hrid1]
      simp only [SPLIT_LEN] at h3 ⊢
      omega
    refine ⟨nodup_insertA _ _ hndd, ?_, ?_⟩
    · intro q hq
      rcases mem_insertA hq with rfl | hq1
      · exact hmo
      · obtain ⟨node, hmem, hids, hoffs⟩ := hframe q hq1
        rw [← hoffs]
        exact ho _ hmem
    · intro q hq
      rcases mem_insertA hq with rfl | hq1
      · exact hmb
      · obtain ⟨node, hmem, hids, hoffs⟩ := hframe q hq1
        rw [← segBoundB_congr node.data q.2.data hids]
        exact hb _ hmem

theorem consider_join_pres (t : Tree Id) (seg : NodeId) (rightward : Bool)
    (t1 : Tree Id) (hnd : NodesND t) (ho : SeqOffs t) (hb : SeqBnd t)
    (h : consider_join t seg rightward = some t1) :
    NodesND t1 ∧ SeqOffs t1 ∧ SeqBnd t1 := by
  unfold consider_join at h
  split at h
  · exact Option.noConfusion h
  rename_i node hlook
  split at h <;>
    first
    | exact Option.noConfusion h
    | (injection h with h
       subst h
       exact ⟨hnd, ho, hb⟩)
    | (split at h <;> exact joinPair_pres t _ _ t1 hnd ho hb h)

/-- Where the split cuts: the stored position the split point resolves to
is the weighted offset of the live count of the kept half. -/
theorem split_point_spec {γ : Type _} (w : γ → Nat) (cs : List γ)
    (ids : List (Id × Option Nat)) (mid : Nat) (dflt : Nat)
    (hdflt : dflt = (cs.map w).sum)
    (hinv : ids.filterMap Prod.snd = offsetsW w cs) :
    ∃ j2, j2 ≤ cs.length ∧
      ((ids.drop mid).findSome? Prod.snd).getD dflt =
        ((cs.take j2).map w).sum ∧
      (ids.take mid).filterMap Prod.snd = offsetsW w (cs.take j2) ∧
      (ids.drop mid).filterMap Prod.snd =
        (offsetsW w (cs.drop j2)).map
          (fun a => ((cs.take j2).map w).sum + a) := by
  have hAB : (ids.take mid).filterMap Prod.snd ++
      (ids.drop mid).filterMap Prod.snd = offsetsW w cs := by
    rw [← List.filterMap_append, List.take_append_drop]
    exact hinv
  have hlenAB : ((ids.take mid).filterMap Prod.snd).length +
      ((ids.drop mid).filterMap Prod.snd).length = cs.length := by
    have h2 := congrArg List.length hAB
    simp [offsetsW_length] at h2
    omega
  refine ⟨((ids.take mid).filterMap Prod.snd).length, by omega, ?_, ?_, ?_⟩
  · rw [findSome?_eq_filterMap_head]
    have hB : (ids.drop mid).filterMap Prod.snd =
        (offsetsW w cs).drop ((ids.take mid).filterMap Prod.snd).length := by
      rw [← hAB, List.drop_left]
    rw [hB, offsetsW_head_drop]
    by_cases hlt : ((ids.take mid).filterMap Prod.snd).length < cs.length
    · rw [if_pos hlt]
      rfl
    · rw [if_neg hlt]
      have : ((ids.take mid).filterMap Prod.snd).length = cs.length := by omega
      rw [this, List.take_length, hdflt]
      rfl
  · have hA : (ids.take mid).filterMap Prod.snd =
        (offsetsW w cs).take ((ids.take mid).filterMap Prod.snd).length := by
      rw [← hAB, List.take_left]
    conv_lhs => rw [hA]
    rw [offsetsW_take w cs _ (by omega)]
  · have hB : (ids.drop mid).filterMap Prod.snd =
        (offsetsW w cs).drop ((ids.take mid).filterMap Prod.snd).length := by
      rw [← hAB, List.drop_left]
    conv_lhs => rw [hB]
    rw [offsetsW_drop w cs _ (by omega)]

theorem consider_split_pres (fuel : Nat) : ∀ (t : Tree Id) (n : NodeId)
    (t' : Tree Id) (l r : NodeId),
    consider_split fuel t n = some (t', l, r) →
    NodesND t → SeqOffs t →
    NodesND t' ∧ SeqOffs t' ∧
      ∀ q ∈ t'.nodes, segBoundB (q.2.data) = Bool.true ∨
        (q.1 ≠ n ∧ FrameOld t q) := by
  induction fuel with
  | zero =>
    intro t n t' l r h hnd ho
    exact Option.noConfusion h
  | succ fuel ih =>
    intro t n t' l r h hnd ho
    rw [consider_split] at h
    split at h
    · exact Option.noConfusion h
    rename_i node hlk
    have hbase : segBoundB node.data = Bool.true → t' = t →
        NodesND t' ∧ SeqOffs t' ∧
        ∀ q ∈ t'.nodes, segBoundB (q.2.data) = Bool.true ∨
          (q.1 ≠ n ∧ FrameOld t q) := by
      intro hbnd he
      subst he
      refine ⟨hnd, ho, ?_⟩
      intro q hq
      by_cases hqn : q.1 = n
      · left
        have h0 := lookupA_eq_of_mem_nodup hnd
          (show (q.1, q.2) ∈ t'.nodes from hq)
        rw [hqn, hlk] at h0
        rw [← Option.some.inj h0]
        exact hbnd
      · exact Or.inr ⟨hqn, q.2, hq, rfl, rfl⟩
    split at h
    · -- string container
      rename_i s1 s2 s3 heqD
      injection h with h1
      injection h1 with e1 e2
      exact hbase (by rw [heqD]; rfl) e1.symm
    · -- array container
      rename_i s1 s2 s3 heqD
      injection h with h1
      injection h1 with e1 e2
      exact hbase (by rw [heqD]; rfl) e1.symm
    · -- string segment
      rename_i p nx contents ids heqD
      split at h
      · rename_i hsmall
        injection h with h1
        injection h1 with e1 e2
        exact hbase (by rw [heqD]; exact decide_eq_true hsmall) e1.symm
      · rename_i hbig
        have hio : ids.filterMap Prod.snd = offsetsW charWidth contents := by
          have h1 : segOffsetsB node.data = Bool.true :=
            ho _ (mem_of_lookupA hlk)
          rw [heqD] at h1
          exact of_decide_eq_true h1
        obtain ⟨j2, hj2, hb, hA, hB⟩ := split_point_spec charWidth contents ids
          (ids.length / 2) (byteLen contents) rfl hio
        rw [show ((contents.take j2).map charWidth).sum =
          byteLen (contents.take j2) from rfl] at hb
        rw [hb, splitCharsAt_byteLen_take contents j2 hj2] at h
        split at h
        · exact Option.noConfusion h
        rename_i keep moved heqKM
        injection heqKM with heqKM
        injection heqKM with eK eM
        subst eK
        subst eM
        split at h
        · exact Option.noConfusion h
        rename_i t2 new_node hins
        have hnd1 : NodesND ({ t with nodes := (insertA t.nodes n
            ⟨.stringSegment p nx (contents.take j2)
              (ids.take (ids.length / 2)), node.parent⟩) } : Tree Id) :=
          nodup_insertA _ _ hnd
        have ho1 : SeqOffs ({ t with nodes := (insertA t.nodes n
            ⟨.stringSegment p nx (contents.take j2)
              (ids.take (ids.length / 2)), node.parent⟩) } : Tree Id) := by
          intro q hq
          rcases mem_insertA hq with rfl | hq1
          · exact decide_eq_true hA
          · exact ho _ hq1
        obtain ⟨hnd2, hframe2⟩ := insert_segment_frame _ n t2 new_node hnd1 hins
        have ho2 : SeqOffs t2 := by
          intro q hq
          rcases hframe2 q hq with ⟨hoffs, _⟩ | ⟨nodeo, hmemo, hidso, hoffso⟩
          · exact hoffs
          · rw [← hoffso]
            exact ho1 _ hmemo
        split at h
        · exact Option.noConfusion h
        rename_i m hm
        split at h
        · exact Option.noConfusion h
        rename_i nn hnn
        split at h <;> try exact Option.noConfusion h
        rename_i np nnx ncs nids heqN
        split at h
        · exact Option.noConfusion h
        rename_i t5 left l2 hrec1
        split at h
        · exact Option.noConfusion h
        rename_i t6 l3 right hrec2
        injection h with h1
        injection h1 with e1 e2
        injection e2 with e2a e2b
        subst e1
        subst e2a
        subst e2b
        have hndS : NodesND ({ t2 with
            id_to_node := m,
            nodes := (insertA t2.nodes new_node
              ⟨.stringSegment np nnx (contents.drop j2)
                ((ids.drop (ids.length / 2)).map (fun q =>
                  (q.1, q.2.map (fun x =>
                    x - byteLen (contents.take j2))))), nn.parent⟩) } :
            Tree Id) := nodup_insertA _ _ hnd2
        have hoS : SeqOffs ({ t2 with
            id_to_node := m,
            nodes := (insertA t2.nodes new_node
              ⟨.stringSegment np nnx (contents.drop j2)
                ((ids.drop (ids.length / 2)).map (fun q =>
                  (q.1, q.2.map (fun x =>
                    x - byteLen (contents.take j2))))), nn.parent⟩) } :
            Tree Id) := by
          intro q hq
          rcases mem_insertA hq with rfl | hq1
          · refine decide_eq_true ?_
            rw [filterMap_snd_map_shift, hB, List.map_map]
            conv_rhs => rw [← List.map_id
              (offsetsW charWidth (contents.drop j2))]
            apply List.map_congr_left
            intro a _
            simp [Function.comp, byteLen]
          · exact ho2 _ hq1
        obtain ⟨hnd5, ho5, hbd5⟩ := ih _ n t5 left l2 hrec1 hndS hoS
        obtain ⟨hnd6, ho6, hbd6⟩ := ih t5 new_node t6 l3 right hrec2 hnd5 ho5
        refine ⟨hnd6, ho6, ?_⟩
        intro q hq
        rcases hbd6 q hq with hb6 | ⟨hne6, node5, hmem5, hids5, hoffs5⟩
        · exact Or.inl hb6
        rcases hbd5 (q.1, node5) hmem5 with hb5 | ⟨hne5, nodeS, hmemS, hidsS, hoffsS⟩
        · left
          rw [← segBoundB_congr node5.data q.2.data hids5]
          exact hb5
        rcases mem_insertA hmemS with he | hmem2
        · injection he with he1 he2
          exact absurd he1 hne6
        rcases hframe2 (q.1, nodeS) hmem2 with ⟨hoffsF, hbndF⟩ | ⟨node1, hmem1, hids1, hoffs1⟩
        · left
          rw [← segBoundB_congr nodeS.data q.2.data (hidsS.trans hids5)]
          exact hbndF
        rcases mem_insertA hmem1 with he | hmem0
        · injection he with he1 he2
          exact absurd he1 hne5
        right
        exact ⟨hne5, node1, hmem0, hids1.trans (hidsS.trans hids5),
          hoffs1.trans (hoffsS.trans hoffs5)⟩
    · -- array segment
      rename_i p nx contents ids heqD
      split at h
      · rename_i hsmall
        injection h with h1
        injection h1 with e1 e2
        exact hbase (by rw [heqD]; exact decide_eq_true hsmall) e1.symm
      · rename_i hbig
        have hio : ids.filterMap Prod.snd = offsetsW (fun _ => 1) contents := by
          have h1 : segOffsetsB node.data = Bool.true :=
            ho _ (mem_of_lookupA hlk)
          rw [heqD] at h1
          exact of_decide_eq_true h1
        obtain ⟨j2, hj2, hb, hA, hB⟩ := split_point_spec (fun _ => 1) contents
          ids (ids.length / 2) contents.length (sum_map_one contents).symm hio
        have hbj : ((ids.drop (ids.length / 2)).findSome? Prod.snd).getD
            contents.length = j2 := by
          rw [hb, sum_map_one, List.length_take]
          omega
        rw [hbj] at h
        by_cases hble : j2 ≤ contents.length
        · rw [if_pos hble] at h
          split at h
          · exact Option.noConfusion h
          rename_i t2 new_node hins
          have hnd1 : NodesND ({ t with nodes := (insertA t.nodes n
              ⟨.arraySegment p nx (contents.take j2)
                (ids.take (ids.length / 2)), node.parent⟩) } : Tree Id) :=
            nodup_insertA _ _ hnd
          have ho1 : SeqOffs ({ t with nodes := (insertA t.nodes n
              ⟨.arraySegment p nx (contents.take j2)
                (ids.take (ids.length / 2)), node.parent⟩) } : Tree Id) := by
            intro q hq
            rcases mem_insertA hq with rfl | hq1
            · exact decide_eq_true hA
            · exact ho _ hq1
          obtain ⟨hnd2, hframe2⟩ := insert_segment_frame _ n t2 new_node hnd1
            hins
          have ho2 : SeqOffs t2 := by
            intro q hq
            rcases hframe2 q hq with ⟨hoffs, _⟩ | ⟨nodeo, hmemo, hidso, hoffso⟩
            · exact hoffs
            · rw [← hoffso]
              exact ho1 _ hmemo
          split at h
          · exact Option.noConfusion h
          rename_i m hm
          split at h
          · exact Option.noConfusion h
          rename_i nn hnn
          split at h <;> try exact Option.noConfusion h
          rename_i np nnx ncs nids heqN
          split at h
          · exact Option.noConfusion h
          rename_i t5 left l2 hrec1
          split at h
          · exact Option.noConfusion h
          rename_i t6 l3 right hrec2
          injection h with h1
          injection h1 with e1 e2
          injection e2 with e2a e2b
          subst e1
          subst e2a
          subst e2b
          have hndS : NodesND ({ t2 with
              id_to_node := m,
              nodes := (insertA t2.nodes new_node
                ⟨.arraySegment np nnx (contents.drop j2)
                  ((ids.drop (ids.length / 2)).map (fun q =>
                    (q.1, q.2.map (fun x => x - j2)))), nn.parent⟩) } :
              Tree Id) := nodup_insertA _ _ hnd2
          have hoS : SeqOffs ({ t2 with
              id_to_node := m,
              nodes := (insertA t2.nodes new_node
                ⟨.arraySegment np nnx (contents.drop j2)
                  ((ids.drop (ids.length / 2)).map (fun q =>
                    (q.1, q.2.map (fun x => x - j2)))), nn.parent⟩) } :
              Tree Id) := by
            intro q hq
            rcases mem_insertA hq with rfl | hq1
            · refine decide_eq_true ?_
              rw [filterMap_snd_map_shift, hB, List.map_map]
              conv_rhs => rw [← List.map_id
                (offsetsW (fun _ => (1 : Nat)) (contents.drop j2))]
              apply List.map_congr_left
              intro a _
              have hs : ((contents.take j2).map (fun _ => (1 : Nat))).sum
                  = j2 := by
                rw [sum_map_one, List.length_take]
                omega
              simp only [Function.comp, hs, List.map_map, sum_map_one,
                List.length_take, id_eq]
              omega
            · exact ho2 _ hq1
          obtain ⟨hnd5, ho5, hbd5⟩ := ih _ n t5 left l2 hrec1 hndS hoS
          obtain ⟨hnd6, ho6, hbd6⟩ := ih t5 new_node t6 l3 right hrec2 hnd5 ho5
          refine ⟨hnd6, ho6, ?_⟩
          intro q hq
          rcases hbd6 q hq with hb6 | ⟨hne6, node5, hmem5, hids5, hoffs5⟩
          · exact Or.inl hb6
          rcases hbd5 (q.1, node5) hmem5 with hb5 | ⟨hne5, nodeS, hmemS, hidsS, hoffsS⟩
          · left
            rw [← segBoundB_congr node5.data q.2.data hids5]
            exact hb5
          rcases mem_insertA hmemS with he | hmem2
          · injection he with he1 he2
            exact absurd he1 hne6
          rcases hframe2 (q.1, nodeS) hmem2 with ⟨hoffsF, hbndF⟩ | ⟨node1, hmem1, hids1, hoffs1⟩
          · left
            rw [← segBoundB_congr nodeS.data q.2.data (hidsS.trans hids5)]
            exact hbndF
          rcases mem_insertA hmem1 with he | hmem0
          · injection he with he1 he2
            exact absurd he1 hne5
          right
          exact ⟨hne5, node1, hmem0, hids1.trans (hidsS.trans hids5),
            hoffs1.trans (hoffsS.trans hoffs5)⟩
        · rw [if_neg hble] at h
          exact Option.noConfusion h
    · -- non-segment data
      exact Option.noConfusion h


/-- `reparent_item` on a node that already has a parent fails with
`NodeAlreadyHadParent` and returns the tree unchanged. -/
theorem reparent_item_parented (t : Tree Id) (cn tgt : NodeId) (cnode : Node Id)
    (p : NodeId) (hc : lookupA t.nodes cn = some cnode)
    (hp : cnode.parent = some p) :
    reparent_item t cn tgt = some (t, .error .nodeAlreadyHadParent) := by
  simp [reparent_item, hc, hp]

/-- `reparent_item` fails with `EditWouldCauseCycle` and returns the tree
unchanged when the parent walk from the proposed parent reaches the item. -/
theorem reparent_item_cycle (t : Tree Id) (cn tgt : NodeId) (cnode : Node Id)
    (hc : lookupA t.nodes cn = some cnode) (hp : cnode.parent = none)
    (hw : parentWalk t cn (t.nodes.length + 1) (some tgt) =
      some (.error .editWouldCauseCycle)) :
    reparent_item t cn tgt = some (t, .error .editWouldCauseCycle) := by
  simp [reparent_item, hc, hp, hw]

/-- An `object_assign` whose value is a collection propagates a
`reparent_item` error verbatim, tree included. -/
theorem object_assign_reparent_error (t t' : Tree Id) (v : Value Id)
    (cn : NodeId) (oid : Id) (onid : NodeId) (key : String) (e : TreeError)
    (hv : value_to_child t v = .ok (some (.collection cn)))
    (ho : lookupA t.id_to_node oid = some onid)
    (hrep : reparent_item t cn onid = some (t', .error e)) :
    object_assign t oid key v = some (t', .error e) := by
  simp only [object_assign, idToNode, hv, ho, hrep]

/-- An `insert_list_item` whose value is a collection propagates a
`reparent_item` error verbatim, tree included. -/
theorem insert_list_item_reparent_error (t t' : Tree Id) (v : Value Id)
    (cn : NodeId) (aid : Id) (anid : NodeId) (anode : Node Id)
    (tgt : NodeId) (new_id : Id) (e : TreeError)
    (hv : value_to_child t v = .ok (some (.collection cn)))
    (ha : lookupA t.id_to_node aid = some anid)
    (han : lookupA t.nodes anid = some anode)
    (htgt : reparentTargetOfAnchor anode anid = some tgt)
    (hrep : reparent_item t cn tgt = some (t', .error e)) :
    insert_list_item t aid new_id v = some (t', .error e) := by
  obtain ⟨adata, apar⟩ := anode
  cases adata with
  | arraySegment pv nx cs ids =>
    obtain rfl : apar = some tgt := by
      simpa [reparentTargetOfAnchor] using htgt
    simp only [insert_list_item, idToNode, hv, ha, han, hrep]
  | array s st i2 =>
    obtain rfl : anid = tgt := by
      simpa [reparentTargetOfAnchor] using htgt
    simp only [insert_list_item, idToNode, hv, ha, han, hrep]
  | object items i2 => simp [reparentTargetOfAnchor] at htgt
  | string s st i2 => simp [reparentTargetOfAnchor] at htgt
  | stringSegment pv nx cs ids => simp [reparentTargetOfAnchor] at htgt

/-- C3: for every tree and every `object_assign` or `insert_list_item`
whose value resolves to a collection node, the call fails with
`NodeAlreadyHadParent` when the collection already has a parent, fails with
`EditWouldCauseCycle` when the parent-pointer walk from the proposed parent
(the target object node, resp. the anchor's reparent target) reaches the
collection, and in both failure cases the returned tree is the input tree
unchanged. -/
theorem c3_collection_reparent_failures (t : Tree Id) (v : Value Id)
    (cn : NodeId) (cnode : Node Id)
    (hv : value_to_child t v = .ok (some (.collection cn)))
    (hc : lookupA t.nodes cn = some cnode) :
    (∀ oid onid key, lookupA t.id_to_node oid = some onid →
      ((∀ p, cnode.parent = some p →
          object_assign t oid key v = some (t, .error .nodeAlreadyHadParent)) ∧
       (cnode.parent = none →
        parentWalk t cn (t.nodes.length + 1) (some onid) =
            some (.error .editWouldCauseCycle) →
        object_assign t oid key v = some (t, .error .editWouldCauseCycle)))) ∧
    (∀ aid anid anode tgt new_id, lookupA t.id_to_node aid = some anid →
      lookupA t.nodes anid = some anode →
      reparentTargetOfAnchor anode anid = some tgt →
      ((∀ p, cnode.parent = some p →
          insert_list_item t aid new_id v =
            some (t, .error .nodeAlreadyHadParent)) ∧
       (cnode.parent = none →
        parentWalk t cn (t.nodes.length + 1) (some tgt) =
            some (.error .editWouldCauseCycle) →
        insert_list_item t aid new_id v =
          some (t, .error .editWouldCauseCycle)))) := by
  constructor
  · intro oid onid key ho
    constructor
    · intro p hp
      exact object_assign_reparent_error t t v cn oid onid key _ hv ho
        (reparent_item_parented t cn onid cnode p hc hp)
    · intro hp hw
      exact object_assign_reparent_error t t v cn oid onid key _ hv ho
        (reparent_item_cycle t cn onid cnode hc hp hw)
  · intro aid anid anode tgt new_id ha han htgt
    constructor
    · intro p hp
      exact insert_list_item_reparent_error t t v cn aid anid anode tgt new_id _
        hv ha han htgt (reparent_item_parented t cn tgt cnode p hc hp)
    · intro hp hw
      exact insert_list_item_reparent_error t t v cn aid anid anode tgt new_id _
        hv ha han htgt (reparent_item_cycle t cn tgt cnode hc hp hw)

/-- Concrete instances of the four failure modes of the C3 theorem. -/
theorem c3_collection_reparent_failures_witness :
    object_assign exParentObj 0 "k2" (Value.object 1) =
      some (exParentObj, .error .nodeAlreadyHadParent) ∧
    object_assign exCycleObj 2 "x" (Value.object 1) =
      some (exCycleObj, .error .editWouldCauseCycle) ∧
    insert_list_item exParentArr 2 3 (Value.object 1) =
      some (exParentArr, .error .nodeAlreadyHadParent) ∧
    insert_list_item exCycleArr 2 9 (Value.object 1) =
      some (exCycleArr, .error .editWouldCauseCycle) :=
  ⟨((c3_collection_reparent_failures exParentObj (Value.object 1) 1
      ⟨.object [] 1, some 0⟩ (by rfl) (by rfl)).1 0 0 "k2" (by rfl)).1 0 (by rfl),
   ((c3_collection_reparent_failures exCycleObj (Value.object 1) 1
      ⟨.object [("my key 2", Child.collection 2)] 1, none⟩ (by rfl) (by rfl)).1
      2 2 "x" (by rfl)).2 (by rfl) (by rfl),
   ((c3_collection_reparent_failures exParentArr (Value.object 1) 2
      ⟨.object [] 1, some 1⟩ (by rfl) (by rfl)).2 2 0
      ⟨.arraySegment 1 1 [Child.collection 2] [(2, some 0)], some 1⟩
      1 3 (by rfl) (by rfl) (by rfl)).1 1 (by rfl),
   ((c3_collection_reparent_failures exCycleArr (Value.object 1) 2
      ⟨.object [("k", Child.collection 4)] 1, none⟩ (by rfl) (by rfl)).2 2 4
      ⟨.array 3 3 2, some 2⟩ 4 9 (by rfl) (by rfl) (by rfl)).2 (by rfl) (by rfl)⟩

/-- C4: refuted.  The primitive tree API can panic on caller contract
violations: `object_assign` reparenting the root (a parentless node that is
not in the orphan set) panics at `self.orphans.remove(&item).unwrap()`, and
`StringRef::end` on an empty string panics at `ids.last().unwrap()`; the
model returns `none` (a panic) on both, not a typed `TreeError`. -/
theorem c4_primitive_api_panics :
    object_assign ((construct_object (new_with_object_root (0 : Nat)) 1).1)
      1 "k" (Value.object 0) = none ∧
    stringRefEnd (new_with_string_root (0 : Nat)) 0 = none :=
  ⟨rfl, rfl⟩

/-- C6: deleting a sequence id that is already a tombstone (its entry in
the segment's ids list carries no position) succeeds and returns the tree
exactly as it was, for the character primitive and the array-entry
primitive alike. -/
theorem c6_double_delete_idempotent (t : Tree Id) (cid : Id) (n : NodeId)
    (i : Nat) (node : Node Id) (ids : List (Id × Option Nat)) (eid : Id)
    (h1 : lookup_id_index t cid = some (.ok (n, i)))
    (h2 : lookupA t.nodes n = some node)
    (h3 : node.data.segmentIds? = some ids)
    (h4 : ids[i]? = some (eid, none)) :
    delete_character t cid = some (t, .ok ()) ∧
    delete_list_item t cid = some (t, .ok Value.unset) := by
  constructor
  · simp only [delete_character, seq_delete, h1, h2, h3, h4]
  · simp only [delete_list_item, seq_delete, h1, h2, h3, h4, child_to_value]

/-- The second deletion of character 1 of the concrete tree `exTombstone`
(the string "ab" with 'a' deleted) is a no-op under both primitives. -/
theorem c6_double_delete_idempotent_witness :
    delete_character exTombstone 1 = some (exTombstone, .ok ()) ∧
    delete_list_item exTombstone 1 = some (exTombstone, .ok Value.unset) :=
  c6_double_delete_idempotent exTombstone 1 0 0
    ⟨.stringSegment 1 1 ['b'] [(1, none), (2, some 0)], some 1⟩
    [(1, none), (2, some 0)] 1 rfl rfl rfl rfl

/-- C9: `insert_list_item` called with the value `Unset` returns success
and inserts nothing; the resulting tree is the input tree itself. -/
theorem c9_insert_unset_is_noop (t : Tree Id) (append_id item_id : Id) :
    insert_list_item t append_id item_id Value.unset = some (t, .ok ()) := rfl

/-- C10: `object_assign` reparents a collection value before checking the
target's type: with an orphan collection `cn` and a target id resolving to
a non-object node, it returns the `UnexpectedNodeType` error yet the
returned tree has `cn` removed from the orphan set and `cn`'s parent set to
the target node — and that tree differs from the input tree. -/
theorem c10_object_assign_error_mutates (t : Tree Id) (oid : Id)
    (key : String) (v : Value Id) (cn onid : NodeId)
    (cnode onode : Node Id)
    (hv : value_to_child t v = .ok (some (.collection cn)))
    (ho : lookupA t.id_to_node oid = some onid)
    (hc : lookupA t.nodes cn = some cnode)
    (hp : cnode.parent = none)
    (horph : cn ∈ t.orphans)
    (hw : parentWalk t cn (t.nodes.length + 1) (some onid) = some (.ok ()))
    (hon : lookupA t.nodes onid = some onode)
    (hno : onode.data.isObject = Bool.false) :
    object_assign t oid key v =
      some ({ t with orphans := t.orphans.erase cn,
                     nodes := insertA t.nodes cn ⟨cnode.data, some onid⟩ },
            .error .unexpectedNodeType) ∧
    ({ t with orphans := t.orphans.erase cn,
              nodes := insertA t.nodes cn ⟨cnode.data, some onid⟩ } : Tree Id)
      ≠ t := by
  have hne : onid ≠ cn := by
    intro h
    rw [h] at hw
    unfold parentWalk at hw
    simp at hw
  have hrep : reparent_item t cn onid =
      some ({ t with orphans := t.orphans.erase cn,
                     nodes := insertA t.nodes cn ⟨cnode.data, some onid⟩ },
            .ok ()) := by
    simp [reparent_item, hc, hp, hw, horph]
  constructor
  · have hlook : lookupA (insertA t.nodes cn ⟨cnode.data, some onid⟩) onid =
        some onode := by
      rw [lookupA_insertA_ne t.nodes cn onid _ (fun h => hne h.symm)]
      exact hon
    simp only [object_assign, idToNode, hv, ho, hrep]
    obtain ⟨odata, opar⟩ := onode
    cases odata <;> simp_all [NodeData.isObject]
  · intro heq
    have h1 : (t.orphans.erase cn).length = t.orphans.length := by
      have := congrArg (fun tr : Tree Id => tr.orphans.length) heq
      simpa using this
    have h2 : (t.orphans.erase cn).length = t.orphans.length - 1 :=
      List.length_erase_of_mem horph
    have h3 : 0 < t.orphans.length :=
      List.length_pos.2 (List.ne_nil_of_mem horph)
    omega

/-- The C10 scenario on a concrete tree: assigning the orphan object 1 onto
the string root fails with `UnexpectedNodeType` yet mutates the tree. -/
theorem c10_object_assign_error_mutates_witness :
    object_assign exStringWithOrphan 0 "k" (Value.object 1) =
      some ({ exStringWithOrphan with
                orphans := exStringWithOrphan.orphans.erase 2,
                nodes := insertA exStringWithOrphan.nodes 2
                  ⟨.object [] 1, some 1⟩ },
            .error .unexpectedNodeType) ∧
    ({ exStringWithOrphan with
         orphans := exStringWithOrphan.orphans.erase 2,
         nodes := insertA exStringWithOrphan.nodes 2
           ⟨.object [] 1, some 1⟩ } : Tree Nat) ≠ exStringWithOrphan :=
  c10_object_assign_error_mutates exStringWithOrphan 0 "k" (Value.object 1)
    2 1 ⟨.object [] 1, none⟩ ⟨.string 0 0 0, none⟩
    rfl rfl rfl rfl (by decide) rfl rfl rfl

/-! ### Preservation of the sequence invariant by every public operation -/

/-- At the front of a segment the insertion-point side condition holds with
position `0`. -/
theorem offsets_front_point {γ : Type _} (w : γ → Nat) (cs : List γ)
    (ids : List (Id × Option Nat))
    (h : ids.filterMap Prod.snd = offsetsW w cs) :
    ((ids.drop 0).filterMap Prod.snd).head? = some 0 ∨
      ((ids.drop 0).filterMap Prod.snd = [] ∧ (0 : Nat) = (cs.map w).sum) := by
  cases cs with
  | nil =>
    right
    constructor
    · rw [List.drop_zero, h]
      simp [offsetsW]
    · simp
  | cons x l =>
    left
    rw [List.drop_zero, h, offsetsW_cons]
    rfl

/-- Writing one node whose data satisfies both segment invariants preserves
them for the whole tree. -/
theorem invs_insertA_node (t t' : Tree Id) (k : NodeId) (nd : Node Id)
    (hnodes : t'.nodes = insertA t.nodes k nd)
    (hnd : NodesND t) (ho : SeqOffs t) (hb : SeqBnd t)
    (hoff : segOffsetsB nd.data = Bool.true)
    (hbnd : segBoundB nd.data = Bool.true) :
    NodesND t' ∧ SeqOffs t' ∧ SeqBnd t' := by
  refine ⟨?_, ?_, ?_⟩
  · show (t'.nodes.map Prod.fst).Nodup
    rw [hnodes]
    exact nodup_insertA _ _ hnd
  · intro q hq
    rw [hnodes] at hq
    rcases mem_insertA hq with rfl | hq1
    · exact hoff
    · exact ho _ hq1
  · intro q hq
    rw [hnodes] at hq
    rcases mem_insertA hq with rfl | hq1
    · exact hbnd
    · exact hb _ hq1

/-- The invariants only depend on the node map. -/
theorem invs_nodes_eq (t t' : Tree Id) (hnodes : t'.nodes = t.nodes)
    (hnd : NodesND t) (ho : SeqOffs t) (hb : SeqBnd t) :
    NodesND t' ∧ SeqOffs t' ∧ SeqBnd t' := by
  refine ⟨?_, ?_, ?_⟩
  · show (t'.nodes.map Prod.fst).Nodup
    rw [hnodes]
    exact hnd
  · intro q hq
    rw [hnodes] at hq
    exact ho _ hq
  · intro q hq
    rw [hnodes] at hq
    exact hb _ hq

/-- `move_to_orphan` only rewrites a parent pointer. -/
theorem move_to_orphan_pres (t : Tree Id) (item : NodeId) (t1 : Tree Id)
    (hnd : NodesND t) (ho : SeqOffs t) (hb : SeqBnd t)
    (h : move_to_orphan t item = some t1) :
    NodesND t1 ∧ SeqOffs t1 ∧ SeqBnd t1 := by
  unfold move_to_orphan at h
  split at h
  · exact Option.noConfusion h
  rename_i node hlk
  injection h with h
  exact invs_insertA_node t t1 item { node with parent := none }
    (by rw [← h]) hnd ho hb
    (ho _ (mem_of_lookupA hlk)) (hb _ (mem_of_lookupA hlk))

/-- `reparent_item` only rewrites a parent pointer (or leaves the tree
unchanged on its error paths). -/
theorem reparent_item_pres (t : Tree Id) (item parent : NodeId)
    (t1 : Tree Id) (r : Except TreeError Unit)
    (hnd : NodesND t) (ho : SeqOffs t) (hb : SeqBnd t)
    (h : reparent_item t item parent = some (t1, r)) :
    NodesND t1 ∧ SeqOffs t1 ∧ SeqBnd t1 := by
  unfold reparent_item at h
  split at h
  · exact Option.noConfusion h
  rename_i node hlk
  split at h
  · injection h with h
    obtain ⟨h1, h2⟩ := Prod.mk.injEq .. ▸ h
    exact invs_nodes_eq t t1 (by rw [← h1]) hnd ho hb
  split at h
  · exact Option.noConfusion h
  · injection h with h
    obtain ⟨h1, h2⟩ := Prod.mk.injEq .. ▸ h
    exact invs_nodes_eq t t1 (by rw [← h1]) hnd ho hb
  · split at h
    · injection h with h
      obtain ⟨h1, h2⟩ := Prod.mk.injEq .. ▸ h
      exact invs_insertA_node t t1 item { node with parent := some parent }
        (by rw [← h1]) hnd ho hb
        (ho _ (mem_of_lookupA hlk)) (hb _ (mem_of_lookupA hlk))
    · exact Option.noConfusion h

/-- `construct_simple` adds one parentless node with the given data. -/
theorem construct_simple_pres (t : Tree Id) (id : Id) (nd : NodeData Id)
    (t1 : Tree Id) (r : Except TreeError NodeId)
    (hnd : NodesND t) (ho : SeqOffs t) (hb : SeqBnd t)
    (hoff : segOffsetsB nd = Bool.true) (hbnd : segBoundB nd = Bool.true)
    (h : construct_simple t id nd = (t1, r)) :
    NodesND t1 ∧ SeqOffs t1 ∧ SeqBnd t1 := by
  unfold construct_simple at h
  split at h
  · obtain ⟨h1, h2⟩ := Prod.mk.injEq .. ▸ h
    exact invs_nodes_eq t t1 (by rw [← h1]) hnd ho hb
  · simp only [next_id] at h
    obtain ⟨h1, h2⟩ := Prod.mk.injEq .. ▸ h
    exact invs_insertA_node { t with next_node := t.next_node + 1 } t1
      t.next_node ⟨nd, none⟩ (by rw [← h1]) hnd ho hb hoff hbnd

/-- `construct_object` preserves both invariants. -/
theorem construct_object_pres (t : Tree Id) (id : Id) (t1 : Tree Id)
    (r : Except TreeError Unit)
    (hnd : NodesND t) (ho : SeqOffs t) (hb : SeqBnd t)
    (h : construct_object t id = (t1, r)) :
    NodesND t1 ∧ SeqOffs t1 ∧ SeqBnd t1 := by
  unfold construct_object at h
  split at h
  · rename_i t2 e heq
    obtain ⟨h1, h2⟩ := Prod.mk.injEq .. ▸ h
    have hcs := construct_simple_pres t id (.object [] id) t2 (.error e)
      hnd ho hb (by rfl) (by rfl) heq
    rw [← h1]
    exact hcs
  · rename_i t2 nid heq
    obtain ⟨h1, h2⟩ := Prod.mk.injEq .. ▸ h
    have hcs := construct_simple_pres t id (.object [] id) t2 (.ok nid)
      hnd ho hb (by rfl) (by rfl) heq
    rw [← h1]
    exact hcs

/-- `construct_string` adds a container and one fresh empty segment. -/
theorem construct_string_pres (t : Tree Id) (id : Id) (t1 : Tree Id)
    (r : Except TreeError Unit)
    (hnd : NodesND t) (ho : SeqOffs t) (hb : SeqBnd t)
    (h : construct_string t id = (t1, r)) :
    NodesND t1 ∧ SeqOffs t1 ∧ SeqBnd t1 := by
  unfold construct_string at h
  simp only [next_id] at h
  split at h
  · rename_i t2 e heq
    obtain ⟨h1, h2⟩ := Prod.mk.injEq .. ▸ h
    have hcs := construct_simple_pres { t with next_node := t.next_node + 1 }
      id (.string t.next_node t.next_node id) t2 (.error e) hnd ho hb
      (by rfl) (by rfl) heq
    rw [← h1]
    exact hcs
  · rename_i t2 sid heq
    obtain ⟨h1, h2⟩ := Prod.mk.injEq .. ▸ h
    have hcs := construct_simple_pres { t with next_node := t.next_node + 1 }
      id (.string t.next_node t.next_node id) t2 (.ok sid) hnd ho hb
      (by rfl) (by rfl) heq
    exact invs_insertA_node t2 t1 t.next_node
      ⟨.stringSegment sid sid [] [], some sid⟩ (by rw [← h1])
      hcs.1 hcs.2.1 hcs.2.2 (by rfl) (by rfl)

/-- `construct_array` adds a container and one fresh empty segment. -/
theorem construct_array_pres (t : Tree Id) (id : Id) (t1 : Tree Id)
    (r : Except TreeError Unit)
    (hnd : NodesND t) (ho : SeqOffs t) (hb : SeqBnd t)
    (h : construct_array t id = (t1, r)) :
    NodesND t1 ∧ SeqOffs t1 ∧ SeqBnd t1 := by
  unfold construct_array at h
  simp only [next_id] at h
  split at h
  · rename_i t2 e heq
    obtain ⟨h1, h2⟩ := Prod.mk.injEq .. ▸ h
    have hcs := construct_simple_pres { t with next_node := t.next_node + 1 }
      id (.array t.next_node t.next_node id) t2 (.error e) hnd ho hb
      (by rfl) (by rfl) heq
    rw [← h1]
    exact hcs
  · rename_i t2 aid heq
    obtain ⟨h1, h2⟩ := Prod.mk.injEq .. ▸ h
    have hcs := construct_simple_pres { t with next_node := t.next_node + 1 }
      id (.array t.next_node t.next_node id) t2 (.ok aid) hnd ho hb
      (by rfl) (by rfl) heq
    exact invs_insertA_node t2 t1 t.next_node
      ⟨.arraySegment aid aid [] [], some aid⟩ (by rw [← h1])
      hcs.1 hcs.2.1 hcs.2.2 (by rfl) (by rfl)

/-- Replacing the ids list of a segment yields that ids list. -/
theorem segmentIds_withIds (d : NodeData Id) (l ids0 : List (Id × Option Nat))
    (h : d.segmentIds? = some ids0) :
    (d.withIds l).segmentIds? = some l := by
  cases d <;> simp [NodeData.segmentIds?, NodeData.withIds] at h ⊢

/-- Generic preservation for the sequence `delete` walk: tombstoning one
entry and shifting the later stored positions keeps both segment
invariants, for any removal closure that rewrites the contents
consistently. -/
theorem seq_delete_pres {β : Type _} (t : Tree Id) (del_id : Id)
    (doRemove : Nat → Node Id → Option (Node Id × Nat × β))
    (t4 : Tree Id) (res : Except TreeError Unit) (pl : Option β)
    (hnd : NodesND t) (ho : SeqOffs t) (hb : SeqBnd t)
    (hdo : ∀ (pos : Nat) (node : Node Id) (ids : List (Id × Option Nat))
      (ili : Nat) (id0 : Id) (node1 : Node Id) (width : Nat) (payload : β),
      node.data.segmentIds? = some ids →
      segOffsetsB node.data = Bool.true →
      ids[ili]? = some (id0, some pos) →
      doRemove pos ⟨node.data.withIds (ids.set ili (id0, none)), node.parent⟩
        = some (node1, width, payload) →
      node1.data.segmentIds? = some (ids.set ili (id0, none)) ∧
      segOffsetsB (node1.data.withIds
        ((ids.set ili (id0, none)).take ili ++
          ((ids.set ili (id0, none)).drop ili).map
            (fun q => (q.1, q.2.map (fun m => m - width))))) = Bool.true)
    (h : seq_delete t del_id doRemove = some (t4, res, pl)) :
    NodesND t4 ∧ SeqOffs t4 ∧ SeqBnd t4 := by
  unfold seq_delete at h
  split at h
  · exact Option.noConfusion h
  · injection h with h
    obtain ⟨h1, h2⟩ := Prod.mk.injEq .. ▸ h
    exact invs_nodes_eq t t4 (by rw [← h1]) hnd ho hb
  rename_i node_id ili hlid
  split at h
  · exact Option.noConfusion h
  rename_i node hlkn
  split at h
  · exact Option.noConfusion h
  rename_i ids hids
  split at h
  · exact Option.noConfusion h
  rename_i id0 posOpt hidx
  split at h
  · injection h with h
    obtain ⟨h1, h2⟩ := Prod.mk.injEq .. ▸ h
    exact invs_nodes_eq t t4 (by rw [← h1]) hnd ho hb
  rename_i pos
  split at h
  · exact Option.noConfusion h
  rename_i node1 width payload hrm
  split at h
  · exact Option.noConfusion h
  rename_i ids1 hids1
  injection h with h
  obtain ⟨h1, h2⟩ := Prod.mk.injEq .. ▸ h
  obtain ⟨hi1, hi2⟩ := hdo pos node ids ili id0 node1 width payload hids
    (ho _ (mem_of_lookupA hlkn)) hidx hrm
  have heqids1 : ids1 = ids.set ili (id0, none) :=
    Option.some.inj (hids1.symm.trans hi1)
  subst heqids1
  have hlt : ili < ids.length := by
    by_contra hc
    rw [List.getElem?_eq_none (by omega)] at hidx
    cases hidx
  have hbn := hb _ (mem_of_lookupA hlkn)
  unfold segBoundB at hbn
  simp only [hids] at hbn
  have hlen : ids.length ≤ SPLIT_LEN := of_decide_eq_true hbn
  refine invs_insertA_node t t4 node_id _ (by rw [← h1]) hnd ho hb hi2 ?_
  have hsome := segmentIds_withIds node1.data
    ((ids.set ili (id0, none)).take ili ++
      ((ids.set ili (id0, none)).drop ili).map
        (fun q => (q.1, q.2.map (fun m => m - width)))) _ hi1
  show segBoundB _ = Bool.true
  unfold segBoundB
  rw [hsome]
  apply decide_eq_true
  simp only [List.length_append, List.length_take, List.length_map,
    List.length_drop, List.length_set]
  omega

/-- The character-removal closure of `delete_character` meets the removal
contract of `seq_delete_pres`. -/
theorem delete_char_closure (pos : Nat) (node : Node Id)
    (ids : List (Id × Option Nat)) (ili : Nat) (id0 : Id) (node1 : Node Id)
    (width : Nat) (payload : Unit)
    (hids : node.data.segmentIds? = some ids)
    (hoffs : segOffsetsB node.data = Bool.true)
    (hidx : ids[ili]? = some (id0, some pos))
    (hrm : (match (node.data.withIds (ids.set ili (id0, none))) with
      | NodeData.stringSegment p nx contents ids2 =>
        (stringRemoveAt contents pos).map
          (fun q => ((⟨.stringSegment p nx q.2 ids2, node.parent⟩ : Node Id),
            charWidth q.1, ()))
      | _ => none) = some (node1, width, payload)) :
    node1.data.segmentIds? = some (ids.set ili (id0, none)) ∧
    segOffsetsB (node1.data.withIds
      ((ids.set ili (id0, none)).take ili ++
        ((ids.set ili (id0, none)).drop ili).map
          (fun q => (q.1, q.2.map (fun m => m - width))))) = Bool.true := by
  rcases node with ⟨nd, npar⟩
  cases nd with
  | stringSegment p nx contents ids0 =>
    simp only [NodeData.segmentIds?] at hids
    obtain rfl : ids = ids0 := (Option.some.inj hids).symm
    simp only [NodeData.withIds] at hrm
    rcases hsr : stringRemoveAt contents pos with _ | ⟨c, cs2⟩
    · rw [hsr] at hrm
      simp at hrm
    rw [hsr] at hrm
    simp only [Option.map_some'] at hrm
    injection hrm with hrm
    obtain ⟨hn1, hwp⟩ := Prod.mk.injEq .. ▸ hrm
    obtain ⟨hw, hplq⟩ := Prod.mk.injEq .. ▸ hwp
    subst hn1
    unfold stringRemoveAt at hsr
    split at hsr
    · exact Option.noConfusion hsr
    · exact Option.noConfusion hsr
    rename_i pre c2 post heqsp
    obtain ⟨hc2, hcs2⟩ := Prod.mk.injEq .. ▸ Option.some.inj hsr
    subst hc2
    subst hcs2
    obtain ⟨hcs, hbl⟩ := splitCharsAt_spec contents pos pre (c2 :: post) heqsp
    simp only [segOffsetsB] at hoffs
    have hinv0 := of_decide_eq_true hoffs
    have hlt : ili < ids.length := by
      by_contra hc
      rw [List.getElem?_eq_none (by omega)] at hidx
      cases hidx
    obtain ⟨u, v, hdec, hul⟩ : ∃ u v, ids = u ++ (id0, some pos) :: v ∧
        u.length = ili :=
      ⟨ids.take ili, ids.drop (ili + 1), take_middle_decomp ids ili _ hidx,
        by rw [List.length_take]; omega⟩
    subst hdec
    have hset : (u ++ (id0, some pos) :: v).set ili (id0, none) =
        u ++ (id0, none) :: v := by
      rw [← hul]
      exact set_append_cons u v _ _
    have htk : (u ++ (id0, none) :: v).take ili = u := by
      rw [← hul]
      exact List.take_left u _
    have hdp : (u ++ (id0, none) :: v).drop ili = (id0, none) :: v := by
      rw [← hul]
      exact List.drop_left u _
    constructor
    · simp only [NodeData.segmentIds?]
    · simp only [NodeData.withIds, segOffsetsB]
      apply decide_eq_true
      rw [hset, htk, hdp]
      simp only [List.map_cons, Option.map_none']
      have htkc : contents.take pre.length = pre := by
        rw [hcs]
        exact List.take_left pre _
      have hdpc : contents.drop (pre.length + 1) = post := by
        rw [hcs, show pre ++ c2 :: post = (pre ++ [c2]) ++ post by simp]
        have hd := List.drop_left (pre ++ [c2]) post
        simpa using hd
      have hj : pre.length < contents.length := by
        rw [hcs]
        simp
      have hPj : pos = ((contents.take pre.length).map charWidth).sum := by
        rw [htkc]
        unfold byteLen at hbl
        exact hbl.symm
      have hx : contents[pre.length]? = some c2 := by
        rw [← List.head?_drop, hcs, List.drop_left pre (c2 :: post)]
        rfl
      have hrem := offsets_remove_mid charWidth charWidth_pos contents u v
        id0 pos pre.length hinv0 hj hPj c2 hx
      rw [htkc, hdpc, hw] at hrem
      exact hrem
  | arraySegment p nx contents ids0 =>
    simp only [NodeData.withIds] at hrm
    exact Option.noConfusion hrm
  | object items oid =>
    simp [NodeData.segmentIds?] at hids
  | string a b c =>
    simp [NodeData.segmentIds?] at hids
  | array a b c =>
    simp [NodeData.segmentIds?] at hids

/-- `Tree::delete_character` preserves both invariants. -/
theorem delete_character_pres (t : Tree Id) (cid : Id) (t1 : Tree Id)
    (r : Except TreeError Unit)
    (hnd : NodesND t) (ho : SeqOffs t) (hb : SeqBnd t)
    (h : delete_character t cid = some (t1, r)) :
    NodesND t1 ∧ SeqOffs t1 ∧ SeqBnd t1 := by
  unfold delete_character at h
  split at h
  · exact Option.noConfusion h
  rename_i t2 r2 pl heq
  injection h with h
  obtain ⟨h1, h2⟩ := Prod.mk.injEq .. ▸ h
  have hmain := seq_delete_pres t cid _ t2 r2 pl hnd ho hb
    (fun pos node ids ili id0 node1 width payload hids hoffs hidx hrm =>
      delete_char_closure pos node ids ili id0 node1 width payload
        hids hoffs hidx hrm) heq
  rw [← h1]
  exact hmain

/-- The entry-removal closure of `delete_list_item` meets the removal
contract of `seq_delete_pres`. -/
theorem delete_list_closure (pos : Nat) (node : Node Id)
    (ids : List (Id × Option Nat)) (ili : Nat) (id0 : Id) (node1 : Node Id)
    (width : Nat) (payload : Child)
    (hids : node.data.segmentIds? = some ids)
    (hoffs : segOffsetsB node.data = Bool.true)
    (hidx : ids[ili]? = some (id0, some pos))
    (hrm : (match (node.data.withIds (ids.set ili (id0, none))) with
      | NodeData.arraySegment p nx contents ids2 =>
        (listRemoveAt contents pos).map
          (fun q => ((⟨.arraySegment p nx q.2 ids2, node.parent⟩ : Node Id),
            1, q.1))
      | _ => none) = some (node1, width, payload)) :
    node1.data.segmentIds? = some (ids.set ili (id0, none)) ∧
    segOffsetsB (node1.data.withIds
      ((ids.set ili (id0, none)).take ili ++
        ((ids.set ili (id0, none)).drop ili).map
          (fun q => (q.1, q.2.map (fun m => m - width))))) = Bool.true := by
  rcases node with ⟨nd, npar⟩
  cases nd with
  | arraySegment p nx contents ids0 =>
    simp only [NodeData.segmentIds?] at hids
    obtain rfl : ids = ids0 := (Option.some.inj hids).symm
    simp only [NodeData.withIds] at hrm
    rcases hsr : listRemoveAt contents pos with _ | ⟨x, cs2⟩
    · rw [hsr] at hrm
      simp at hrm
    rw [hsr] at hrm
    simp only [Option.map_some'] at hrm
    injection hrm with hrm
    obtain ⟨hn1, hwp⟩ := Prod.mk.injEq .. ▸ hrm
    obtain ⟨hw, hplq⟩ := Prod.mk.injEq .. ▸ hwp
    subst hn1
    unfold listRemoveAt at hsr
    split at hsr
    · exact Option.noConfusion hsr
    rename_i x0 heqx
    obtain ⟨hx0, hcs2⟩ := Prod.mk.injEq .. ▸ Option.some.inj hsr
    subst hx0
    subst hcs2
    simp only [segOffsetsB] at hoffs
    have hinv0 := of_decide_eq_true hoffs
    have hlt : ili < ids.length := by
      by_contra hc
      rw [List.getElem?_eq_none (by omega)] at hidx
      cases hidx
    obtain ⟨u, v, hdec, hul⟩ : ∃ u v, ids = u ++ (id0, some pos) :: v ∧
        u.length = ili :=
      ⟨ids.take ili, ids.drop (ili + 1), take_middle_decomp ids ili _ hidx,
        by rw [List.length_take]; omega⟩
    subst hdec
    have hset : (u ++ (id0, some pos) :: v).set ili (id0, none) =
        u ++ (id0, none) :: v := by
      rw [← hul]
      exact set_append_cons u v _ _
    have htk : (u ++ (id0, none) :: v).take ili = u := by
      rw [← hul]
      exact List.take_left u _
    have hdp : (u ++ (id0, none) :: v).drop ili = (id0, none) :: v := by
      rw [← hul]
      exact List.drop_left u _
    constructor
    · simp only [NodeData.segmentIds?]
    · simp only [NodeData.withIds, segOffsetsB]
      apply decide_eq_true
      rw [hset, htk, hdp]
      simp only [List.map_cons, Option.map_none']
      have hj : pos < contents.length := by
        by_contra hc
        rw [List.getElem?_eq_none (by omega)] at heqx
        cases heqx
      have hPj : pos = ((contents.take pos).map (fun _ => (1 : Nat))).sum := by
        rw [sum_map_one, List.length_take]
        omega
      have hrem := offsets_remove_mid (fun _ => (1 : Nat)) (fun _ => Nat.one_pos)
        contents u v id0 pos pos hinv0 hj hPj x0 heqx
      rw [← hw]
      exact hrem
  | stringSegment p nx contents ids0 =>
    simp only [NodeData.withIds] at hrm
    exact Option.noConfusion hrm
  | object items oid =>
    simp [NodeData.segmentIds?] at hids
  | string a b c =>
    simp [NodeData.segmentIds?] at hids
  | array a b c =>
    simp [NodeData.segmentIds?] at hids

/-- `Tree::delete_list_item` preserves both invariants. -/
theorem delete_list_item_pres (t : Tree Id) (iid : Id) (t1 : Tree Id)
    (r : Except TreeError (Value Id))
    (hnd : NodesND t) (ho : SeqOffs t) (hb : SeqBnd t)
    (h : delete_list_item t iid = some (t1, r)) :
    NodesND t1 ∧ SeqOffs t1 ∧ SeqBnd t1 := by
  unfold delete_list_item at h
  split at h
  · exact Option.noConfusion h
  · rename_i t2 e pl heq
    injection h with h
    obtain ⟨h1, h2⟩ := Prod.mk.injEq .. ▸ h
    have hmain := seq_delete_pres t iid _ t2 (.error e) pl hnd ho hb
      (fun pos node ids ili id0 node1 width payload hids hoffs hidx hrm =>
        delete_list_closure pos node ids ili id0 node1 width payload
          hids hoffs hidx hrm) heq
    rw [← h1]
    exact hmain
  rename_i t2 child_opt heq
  have hmain := seq_delete_pres t iid _ t2 (.ok ()) child_opt hnd ho hb
    (fun pos node ids ili id0 node1 width payload hids hoffs hidx hrm =>
      delete_list_closure pos node ids ili id0 node1 width payload
        hids hoffs hidx hrm) heq
  split at h
  · rename_i cid2
    split at h
    · exact Option.noConfusion h
    rename_i t3 hmv
    have hmv3 := move_to_orphan_pres t2 cid2 t3 hmain.1 hmain.2.1 hmain.2.2 hmv
    split at h
    · exact Option.noConfusion h
    rename_i v hcv
    injection h with h
    obtain ⟨h1, h2⟩ := Prod.mk.injEq .. ▸ h
    rw [← h1]
    exact hmv3
  · split at h
    · exact Option.noConfusion h
    rename_i v hcv
    injection h with h
    obtain ⟨h1, h2⟩ := Prod.mk.injEq .. ▸ h
    rw [← h1]
    exact hmain

/-- Generic preservation for the sequence `insert` walk: splicing a fresh
live entry at the scan's insertion point, then re-splitting and considering
joins, keeps both segment invariants, for any insertion closure that
rewrites the contents consistently with the stored positions. -/
theorem seq_insert_pres (t : Tree Id) (aid nid : Id)
    (doInsert : Nat → Node Id → Option (Node Id × Nat))
    (t4 : Tree Id) (res : Except TreeError Unit)
    (hnd : NodesND t) (ho : SeqOffs t) (hb : SeqBnd t)
    (hdo : ∀ (cidx : Nat) (node node1 : Node Id) (width : Nat),
      doInsert cidx node = some (node1, width) →
      segOffsetsB node.data = Bool.true →
      node1.data.segmentIds? = node.data.segmentIds? ∧
      ∀ ids, node1.data.segmentIds? = some ids →
        ∀ ili, ili ≤ ids.length →
        (((ids.drop ili).filterMap Prod.snd).head? = some cidx ∨
         ((ids.drop ili).filterMap Prod.snd = [] ∧
           node.data.segmentContentsLen? = some cidx) ∨
         (cidx = 0 ∧ ili = 0)) →
        segOffsetsB (node1.data.withIds (ids.take ili ++ (nid, some cidx) ::
          (ids.drop ili).map (fun q => (q.1, q.2.map (fun m => m + width)))))
          = Bool.true)
    (h : seq_insert t aid nid doInsert = some (t4, res)) :
    NodesND t4 ∧ SeqOffs t4 ∧ SeqBnd t4 := by
  unfold seq_insert at h
  split at h
  · injection h with h
    obtain ⟨h1, h2⟩ := Prod.mk.injEq .. ▸ h
    exact invs_nodes_eq t t4 (by rw [← h1]) hnd ho hb
  split at h
  · exact Option.noConfusion h
  · injection h with h
    obtain ⟨h1, h2⟩ := Prod.mk.injEq .. ▸ h
    exact invs_nodes_eq t t4 (by rw [← h1]) hnd ho hb
  rename_i node_id cidx ili hip
  split at h
  · exact Option.noConfusion h
  rename_i node hlkn
  split at h
  · exact Option.noConfusion h
  rename_i node1 width hdoeq
  split at h
  · exact Option.noConfusion h
  rename_i ids hids1
  split at h
  · exact Option.noConfusion h
  rename_i ids2 hins2
  split at h
  · exact Option.noConfusion h
  rename_i t2 left right hsplit
  split at h
  · exact Option.noConfusion h
  rename_i t3 hj1
  split at h
  · exact Option.noConfusion h
  rename_i t5 hj2
  injection h with h
  obtain ⟨h1, h2⟩ := Prod.mk.injEq .. ▸ h
  obtain ⟨hidseq, hoffgen⟩ := hdo cidx node node1 width hdoeq
    (ho _ (mem_of_lookupA hlkn))
  have hidsnode : node.data.segmentIds? = some ids := hidseq.symm.trans hids1
  have hipfacts : ili ≤ ids.length ∧
      (((ids.drop ili).filterMap Prod.snd).head? = some cidx ∨
       ((ids.drop ili).filterMap Prod.snd = [] ∧
         node.data.segmentContentsLen? = some cidx) ∨
       (cidx = 0 ∧ ili = 0)) := by
    unfold lookup_insertion_point at hip
    split at hip
    · injection hip with hip
      exact Except.noConfusion hip
    rename_i nid0 hmapa
    split at hip
    · exact Option.noConfusion hip
    rename_i nodeIP hlkIP
    split at hip
    · -- string segment
      rename_i p' nx' contents' ids' heqD
      have hsh := lookupIPLoop_shape aid ids' [] none
        (fun a ha => Option.noConfusion ha)
      simp only [List.length_nil, List.nil_append] at hsh
      split at hip
      · rename_i si ili' hloop
        injection hip with hip
        injection hip with hip
        obtain ⟨e1, e23⟩ := Prod.mk.injEq .. ▸ hip
        obtain ⟨e2, e3⟩ := Prod.mk.injEq .. ▸ e23
        rw [e1] at hlkIP
        have hnodeeq : nodeIP = node := Option.some.inj (hlkIP.symm.trans hlkn)
        rw [hnodeeq] at heqD
        rw [heqD] at hidsnode
        simp only [NodeData.segmentIds?] at hidsnode
        obtain rfl : ids' = ids := Option.some.inj hidsnode
        rw [hloop] at hsh
        obtain ⟨hs1, hs2⟩ := hsh
        rw [e3] at hs1 hs2
        rw [e2] at hs2
        exact ⟨hs1, Or.inl hs2⟩
      · rename_i ili' hloop
        injection hip with hip
        injection hip with hip
        obtain ⟨e1, e23⟩ := Prod.mk.injEq .. ▸ hip
        obtain ⟨e2, e3⟩ := Prod.mk.injEq .. ▸ e23
        rw [e1] at hlkIP
        have hnodeeq : nodeIP = node := Option.some.inj (hlkIP.symm.trans hlkn)
        rw [hnodeeq] at heqD
        have heqD2 := heqD
        rw [heqD] at hidsnode
        simp only [NodeData.segmentIds?] at hidsnode
        obtain rfl : ids' = ids := Option.some.inj hidsnode
        rw [hloop] at hsh
        obtain ⟨hs1, hs2⟩ := hsh
        rw [e3] at hs1 hs2
        refine ⟨hs1, Or.inr (Or.inl ⟨hs2, ?_⟩)⟩
        rw [heqD2]
        simp only [NodeData.segmentContentsLen?]
        rw [e2]
      · exact Option.noConfusion hip
    · -- array segment
      rename_i p' nx' contents' ids' heqD
      have hsh := lookupIPLoop_shape aid ids' [] none
        (fun a ha => Option.noConfusion ha)
      simp only [List.length_nil, List.nil_append] at hsh
      split at hip
      · rename_i si ili' hloop
        injection hip with hip
        injection hip with hip
        obtain ⟨e1, e23⟩ := Prod.mk.injEq .. ▸ hip
        obtain ⟨e2, e3⟩ := Prod.mk.injEq .. ▸ e23
        rw [e1] at hlkIP
        have hnodeeq : nodeIP = node := Option.some.inj (hlkIP.symm.trans hlkn)
        rw [hnodeeq] at heqD
        rw [heqD] at hidsnode
        simp only [NodeData.segmentIds?] at hidsnode
        obtain rfl : ids' = ids := Option.some.inj hidsnode
        rw [hloop] at hsh
        obtain ⟨hs1, hs2⟩ := hsh
        rw [e3] at hs1 hs2
        rw [e2] at hs2
        exact ⟨hs1, Or.inl hs2⟩
      · rename_i ili' hloop
        injection hip with hip
        injection hip with hip
        obtain ⟨e1, e23⟩ := Prod.mk.injEq .. ▸ hip
        obtain ⟨e2, e3⟩ := Prod.mk.injEq .. ▸ e23
        rw [e1] at hlkIP
        have hnodeeq : nodeIP = node := Option.some.inj (hlkIP.symm.trans hlkn)
        rw [hnodeeq] at heqD
        have heqD2 := heqD
        rw [heqD] at hidsnode
        simp only [NodeData.segmentIds?] at hidsnode
        obtain rfl : ids' = ids := Option.some.inj hidsnode
        rw [hloop] at hsh
        obtain ⟨hs1, hs2⟩ := hsh
        rw [e3] at hs1 hs2
        refine ⟨hs1, Or.inr (Or.inl ⟨hs2, ?_⟩)⟩
        rw [heqD2]
        simp only [NodeData.segmentContentsLen?]
        rw [e2]
      · exact Option.noConfusion hip
    · -- string container
      rename_i start stop sid heqD
      injection hip with hip
      injection hip with hip
      obtain ⟨e1, e23⟩ := Prod.mk.injEq .. ▸ hip
      obtain ⟨e2, e3⟩ := Prod.mk.injEq .. ▸ e23
      exact ⟨by omega, Or.inr (Or.inr ⟨e2.symm, e3.symm⟩)⟩
    · -- array container
      rename_i start stop sid heqD
      injection hip with hip
      injection hip with hip
      obtain ⟨e1, e23⟩ := Prod.mk.injEq .. ▸ hip
      obtain ⟨e2, e3⟩ := Prod.mk.injEq .. ▸ e23
      exact ⟨by omega, Or.inr (Or.inr ⟨e2.symm, e3.symm⟩)⟩
    · injection hip with hip
      exact Except.noConfusion hip
  obtain ⟨hili, hcond⟩ := hipfacts
  have hoffNew := hoffgen ids hids1 ili hili hcond
  have hshift : (ids.take ili).length = ili := by
    rw [List.length_take]
    omega
  unfold listInsertAt at hins2
  split at hins2
  · rename_i hle
    have hids2 : ids2 = ids.take ili ++ (nid, some cidx) ::
        (ids.drop ili).map (fun q => (q.1, q.2.map (fun m => m + width))) := by
      rw [← Option.some.inj hins2, List.take_left' hshift,
        List.drop_left' hshift]
    have hndM : NodesND ({ t with
        nodes := insertA t.nodes node_id ⟨node1.data.withIds ids2, node1.parent⟩,
        id_to_node := insertA t.id_to_node nid node_id } : Tree Id) :=
      nodup_insertA _ _ hnd
    have hoM : SeqOffs ({ t with
        nodes := insertA t.nodes node_id ⟨node1.data.withIds ids2, node1.parent⟩,
        id_to_node := insertA t.id_to_node nid node_id } : Tree Id) := by
      intro q hq
      rcases mem_insertA hq with rfl | hq1
      · show segOffsetsB (node1.data.withIds ids2) = Bool.true
        rw [hids2]
        exact hoffNew
      · exact ho _ hq1
    obtain ⟨hnd2, ho2, hbd2⟩ := consider_split_pres (ids2.length + 1) _ node_id
      t2 left right hsplit hndM hoM
    have hb2 : SeqBnd t2 := by
      intro q hq
      rcases hbd2 q hq with hbq | ⟨hne, hold⟩
      · exact hbq
      obtain ⟨nd0, hmem0, hids0, hoffs0⟩ := hold
      rcases mem_insertA hmem0 with he | hmem1
      · exact absurd (congrArg Prod.fst he) hne
      · rw [segBoundB_congr q.2.data nd0.data hids0.symm]
        exact hb _ hmem1
    obtain ⟨hnd3, ho3, hb3⟩ :=
      consider_join_pres t2 left Bool.false t3 hnd2 ho2 hb2 hj1
    obtain ⟨hnd4, ho4, hb4⟩ :=
      consider_join_pres t3 right Bool.false t5 hnd3 ho3 hb3 hj2
    rw [← h1]
    exact ⟨hnd4, ho4, hb4⟩
  · exact Option.noConfusion hins2

/-- The character-insertion closure of `insert_character` meets the
insertion contract of `seq_insert_pres`. -/
theorem insert_char_closure (ch : Char) (nid : Id) (cidx : Nat)
    (node node1 : Node Id) (width : Nat)
    (hdoeq : (match node.data with
      | NodeData.stringSegment p nx contents ids0 =>
        (stringInsertAt contents cidx ch).map
          (fun cs => ((⟨.stringSegment p nx cs ids0, node.parent⟩ : Node Id),
            charWidth ch))
      | _ => none) = some (node1, width))
    (hoffs : segOffsetsB node.data = Bool.true) :
    node1.data.segmentIds? = node.data.segmentIds? ∧
    ∀ ids, node1.data.segmentIds? = some ids →
      ∀ ili, ili ≤ ids.length →
      (((ids.drop ili).filterMap Prod.snd).head? = some cidx ∨
       ((ids.drop ili).filterMap Prod.snd = [] ∧
         node.data.segmentContentsLen? = some cidx) ∨
       (cidx = 0 ∧ ili = 0)) →
      segOffsetsB (node1.data.withIds (ids.take ili ++ (nid, some cidx) ::
        (ids.drop ili).map (fun q => (q.1, q.2.map (fun m => m + width)))))
        = Bool.true := by
  rcases node with ⟨nd, npar⟩
  cases nd with
  | stringSegment p nx contents ids0 =>
    replace hdoeq : (stringInsertAt contents cidx ch).map
        (fun cs => ((⟨.stringSegment p nx cs ids0, npar⟩ : Node Id),
          charWidth ch)) = some (node1, width) := hdoeq
    rcases hsi : stringInsertAt contents cidx ch with _ | cs
    · rw [hsi] at hdoeq
      simp at hdoeq
    rw [hsi] at hdoeq
    simp only [Option.map_some'] at hdoeq
    injection hdoeq with hdoeq
    obtain ⟨hn1, hw⟩ := Prod.mk.injEq .. ▸ hdoeq
    subst hn1
    unfold stringInsertAt at hsi
    rcases hsp : splitCharsAt contents cidx with _ | ⟨pre, post⟩
    · rw [hsp] at hsi
      simp at hsi
    rw [hsp] at hsi
    simp only [Option.map_some'] at hsi
    have hcseq : pre ++ ch :: post = cs := Option.some.inj hsi
    obtain ⟨hcs, hbl⟩ := splitCharsAt_spec contents cidx pre post hsp
    simp only [segOffsetsB] at hoffs
    have hinv := of_decide_eq_true hoffs
    constructor
    · simp only [NodeData.segmentIds?]
    intro ids hids ili hili hcond
    simp only [NodeData.segmentIds?] at hids
    obtain rfl : ids = ids0 := (Option.some.inj hids).symm
    simp only [NodeData.withIds, segOffsetsB]
    apply decide_eq_true
    have hj : pre.length ≤ contents.length := by
      rw [hcs]
      simp
    have htkc : contents.take pre.length = pre := by
      rw [hcs]
      exact List.take_left pre _
    have hdpc : contents.drop pre.length = post := by
      rw [hcs]
      exact List.drop_left pre _
    have hPj : cidx = ((contents.take pre.length).map charWidth).sum := by
      rw [htkc]
      unfold byteLen at hbl
      exact hbl.symm
    have hbc : ((ids.drop ili).filterMap Prod.snd).head? = some cidx ∨
        ((ids.drop ili).filterMap Prod.snd = [] ∧
          cidx = (contents.map charWidth).sum) := by
      rcases hcond with hc | ⟨hc1, hc2⟩ | ⟨hc1, hc2⟩
      · exact Or.inl hc
      · refine Or.inr ⟨hc1, ?_⟩
        simp only [NodeData.segmentContentsLen?] at hc2
        have := Option.some.inj hc2
        unfold byteLen at this
        exact this.symm
      · subst hc1
        subst hc2
        exact offsets_front_point charWidth contents ids hinv
    have hres := offsets_insert_mid charWidth charWidth_pos contents ch ids
      nid ili pre.length cidx hinv hj hPj hbc
    rw [htkc, hdpc, hcseq, hw] at hres
    exact hres
  | arraySegment p nx contents ids0 =>
    exact Option.noConfusion hdoeq
  | object items oid =>
    exact Option.noConfusion hdoeq
  | string a b c =>
    exact Option.noConfusion hdoeq
  | array a b c =>
    exact Option.noConfusion hdoeq

/-- The entry-insertion closure of `insert_list_item` meets the insertion
contract of `seq_insert_pres`. -/
theorem insert_list_closure (child : Child) (nid : Id) (cidx : Nat)
    (node node1 : Node Id) (width : Nat)
    (hdoeq : (match node.data with
      | NodeData.arraySegment p nx contents ids0 =>
        (listInsertAt contents cidx child).map
          (fun cs => ((⟨.arraySegment p nx cs ids0, node.parent⟩ : Node Id),
            1))
      | _ => none) = some (node1, width))
    (hoffs : segOffsetsB node.data = Bool.true) :
    node1.data.segmentIds? = node.data.segmentIds? ∧
    ∀ ids, node1.data.segmentIds? = some ids →
      ∀ ili, ili ≤ ids.length →
      (((ids.drop ili).filterMap Prod.snd).head? = some cidx ∨
       ((ids.drop ili).filterMap Prod.snd = [] ∧
         node.data.segmentContentsLen? = some cidx) ∨
       (cidx = 0 ∧ ili = 0)) →
      segOffsetsB (node1.data.withIds (ids.take ili ++ (nid, some cidx) ::
        (ids.drop ili).map (fun q => (q.1, q.2.map (fun m => m + width)))))
        = Bool.true := by
  rcases node with ⟨nd, npar⟩
  cases nd with
  | arraySegment p nx contents ids0 =>
    replace hdoeq : (listInsertAt contents cidx child).map
        (fun cs => ((⟨.arraySegment p nx cs ids0, npar⟩ : Node Id),
          (1 : Nat))) = some (node1, width) := hdoeq
    rcases hsi : listInsertAt contents cidx child with _ | cs
    · rw [hsi] at hdoeq
      simp at hdoeq
    rw [hsi] at hdoeq
    simp only [Option.map_some'] at hdoeq
    injection hdoeq with hdoeq
    obtain ⟨hn1, hw⟩ := Prod.mk.injEq .. ▸ hdoeq
    subst hn1
    unfold listInsertAt at hsi
    split at hsi
    · rename_i hle
      have hcseq : contents.take cidx ++ child :: contents.drop cidx = cs :=
        Option.some.inj hsi
      simp only [segOffsetsB] at hoffs
      have hinv := of_decide_eq_true hoffs
      constructor
      · simp only [NodeData.segmentIds?]
      intro ids hids ili hili hcond
      simp only [NodeData.segmentIds?] at hids
      obtain rfl : ids = ids0 := (Option.some.inj hids).symm
      simp only [NodeData.withIds, segOffsetsB]
      apply decide_eq_true
      have hPj : cidx = ((contents.take cidx).map (fun _ => (1 : Nat))).sum := by
        rw [sum_map_one, List.length_take]
        omega
      have hbc : ((ids.drop ili).filterMap Prod.snd).head? = some cidx ∨
          ((ids.drop ili).filterMap Prod.snd = [] ∧
            cidx = (contents.map (fun _ => (1 : Nat))).sum) := by
        rcases hcond with hc | ⟨hc1, hc2⟩ | ⟨hc1, hc2⟩
        · exact Or.inl hc
        · refine Or.inr ⟨hc1, ?_⟩
          simp only [NodeData.segmentContentsLen?] at hc2
          have h2 := Option.some.inj hc2
          rw [sum_map_one]
          exact h2.symm
        · subst hc1
          subst hc2
          exact offsets_front_point (fun _ => (1 : Nat)) contents ids hinv
      have hres := offsets_insert_mid (fun _ => (1 : Nat))
        (fun _ => Nat.one_pos) contents child ids nid ili cidx cidx
        hinv hle hPj hbc
      rw [hcseq] at hres
      rw [← hw]
      exact hres
    · exact Option.noConfusion hsi
  | stringSegment p nx contents ids0 =>
    exact Option.noConfusion hdoeq
  | object items oid =>
    exact Option.noConfusion hdoeq
  | string a b c =>
    exact Option.noConfusion hdoeq
  | array a b c =>
    exact Option.noConfusion hdoeq

/-- `Tree::insert_character` preserves both invariants. -/
theorem insert_character_pres (t : Tree Id) (aid cid : Id) (ch : Char)
    (t1 : Tree Id) (r : Except TreeError Unit)
    (hnd : NodesND t) (ho : SeqOffs t) (hb : SeqBnd t)
    (h : insert_character t aid cid ch = some (t1, r)) :
    NodesND t1 ∧ SeqOffs t1 ∧ SeqBnd t1 := by
  unfold insert_character at h
  exact seq_insert_pres t aid cid _ t1 r hnd ho hb
    (fun cidx node node1 width hdoeq hoffs =>
      insert_char_closure ch cid cidx node node1 width hdoeq hoffs) h

/-- `Tree::insert_list_item` preserves both invariants. -/
theorem insert_list_item_pres (t : Tree Id) (aid iid : Id) (v : Value Id)
    (t1 : Tree Id) (r : Except TreeError Unit)
    (hnd : NodesND t) (ho : SeqOffs t) (hb : SeqBnd t)
    (h : insert_list_item t aid iid v = some (t1, r)) :
    NodesND t1 ∧ SeqOffs t1 ∧ SeqBnd t1 := by
  unfold insert_list_item at h
  split at h
  · injection h with h
    obtain ⟨h1, h2⟩ := Prod.mk.injEq .. ▸ h
    exact invs_nodes_eq t t1 (by rw [← h1]) hnd ho hb
  · injection h with h
    obtain ⟨h1, h2⟩ := Prod.mk.injEq .. ▸ h
    exact invs_nodes_eq t t1 (by rw [← h1]) hnd ho hb
  rename_i child hchild
  have hseqfin : ∀ (t5 : Tree Id), NodesND t5 → SeqOffs t5 → SeqBnd t5 →
      seq_insert t5 aid iid (fun array_index (node : Node Id) =>
        match node.data with
        | NodeData.arraySegment p nx contents ids =>
          (listInsertAt contents array_index child).map
            (fun cs => ((⟨.arraySegment p nx cs ids, node.parent⟩ : Node Id),
              (1 : Nat)))
        | _ => none) = some (t1, r) →
      NodesND t1 ∧ SeqOffs t1 ∧ SeqBnd t1 := fun t5 hnd5 ho5 hb5 hh =>
    seq_insert_pres t5 aid iid _ t1 r hnd5 ho5 hb5
      (fun cidx node node1 width hdoeq hoffs =>
        insert_list_closure child iid cidx node node1 width hdoeq hoffs) hh
  cases child with
  | collection c =>
    replace h : (match ((match idToNode t aid with
        | .error e => some (t, .error e)
        | .ok append_node =>
          match lookupA t.nodes append_node with
          | none => none
          | some anode =>
            match anode.data with
            | NodeData.arraySegment _ _ _ _ =>
              (match anode.parent with
               | none => none
               | some par => reparent_item t c par)
            | NodeData.array _ _ _ => reparent_item t c append_node
            | _ => some (t, .error .unexpectedNodeType)) :
          Option (Tree Id × Except TreeError Unit)) with
      | none => none
      | some (t5, .error e) => some (t5, .error e)
      | some (t5, .ok ()) =>
        seq_insert t5 aid iid (fun array_index (node : Node Id) =>
          match node.data with
          | NodeData.arraySegment p nx contents ids =>
            (listInsertAt contents array_index (Child.collection c)).map
              (fun cs =>
                ((⟨.arraySegment p nx cs ids, node.parent⟩ : Node Id),
                  (1 : Nat)))
          | _ => none)) = some (t1, r) := h
    have hinner : ∀ (t5 : Tree Id) (r5 : Except TreeError Unit),
        ((match idToNode t aid with
         | .error e => some (t, .error e)
         | .ok append_node =>
           match lookupA t.nodes append_node with
           | none => none
           | some anode =>
             match anode.data with
             | NodeData.arraySegment _ _ _ _ =>
               (match anode.parent with
                | none => none
                | some par => reparent_item t c par)
             | NodeData.array _ _ _ => reparent_item t c append_node
             | _ => some (t, .error .unexpectedNodeType)) :
           Option (Tree Id × Except TreeError Unit)) = some (t5, r5) →
        NodesND t5 ∧ SeqOffs t5 ∧ SeqBnd t5 := by
      intro t5 r5 hin
      split at hin
      · injection hin with hin
        obtain ⟨h1, h2⟩ := Prod.mk.injEq .. ▸ hin
        exact invs_nodes_eq t t5 (by rw [← h1]) hnd ho hb
      rename_i append_node hids2n
      split at hin
      · exact Option.noConfusion hin
      rename_i anode hanode
      split at hin
      · split at hin
        · exact Option.noConfusion hin
        rename_i par hpar
        exact reparent_item_pres t c par t5 r5 hnd ho hb hin
      · exact reparent_item_pres t c append_node t5 r5 hnd ho hb hin
      · injection hin with hin
        obtain ⟨h1, h2⟩ := Prod.mk.injEq .. ▸ hin
        exact invs_nodes_eq t t5 (by rw [← h1]) hnd ho hb
    split at h
    · exact Option.noConfusion h
    · rename_i t5 e heqR
      injection h with h
      obtain ⟨h1, h2⟩ := Prod.mk.injEq .. ▸ h
      have hin5 := hinner t5 (.error e) heqR
      rw [← h1]
      exact hin5
    · rename_i t5 heqR
      have hin5 := hinner t5 (.ok ()) heqR
      exact hseqfin t5 hin5.1 hin5.2.1 hin5.2.2 h
  | true =>
    replace h : seq_insert t aid iid (fun array_index (node : Node Id) =>
        match node.data with
        | NodeData.arraySegment p nx contents ids =>
          (listInsertAt contents array_index Child.true).map
            (fun cs => ((⟨.arraySegment p nx cs ids, node.parent⟩ : Node Id),
              (1 : Nat)))
        | _ => none) = some (t1, r) := h
    exact hseqfin t hnd ho hb h
  | false =>
    replace h : seq_insert t aid iid (fun array_index (node : Node Id) =>
        match node.data with
        | NodeData.arraySegment p nx contents ids =>
          (listInsertAt contents array_index Child.false).map
            (fun cs => ((⟨.arraySegment p nx cs ids, node.parent⟩ : Node Id),
              (1 : Nat)))
        | _ => none) = some (t1, r) := h
    exact hseqfin t hnd ho hb h
  | int i =>
    replace h : seq_insert t aid iid (fun array_index (node : Node Id) =>
        match node.data with
        | NodeData.arraySegment p nx contents ids =>
          (listInsertAt contents array_index (Child.int i)).map
            (fun cs => ((⟨.arraySegment p nx cs ids, node.parent⟩ : Node Id),
              (1 : Nat)))
        | _ => none) = some (t1, r) := h
    exact hseqfin t hnd ho hb h
  | null =>
    replace h : seq_insert t aid iid (fun array_index (node : Node Id) =>
        match node.data with
        | NodeData.arraySegment p nx contents ids =>
          (listInsertAt contents array_index Child.null).map
            (fun cs => ((⟨.arraySegment p nx cs ids, node.parent⟩ : Node Id),
              (1 : Nat)))
        | _ => none) = some (t1, r) := h
    exact hseqfin t hnd ho hb h

/-- Preservation along the write-back tail of `object_assign`, for any
reparent result `R` and any rewrite `mkI` of the object's item list. -/
theorem object_assign_tail_pres (key : String) (obj : NodeId)
    (R : Option (Tree Id × Except TreeError Unit))
    (mkI : List (String × Child) → List (String × Child))
    (t1 : Tree Id) (r : Except TreeError (Value Id))
    (h : (match R with
      | none => none
      | some (t5, .error e) => some (t5, .error e)
      | some (t5, .ok ()) =>
        match lookupA t5.nodes obj with
        | none => none
        | some node =>
          match node.data with
          | NodeData.object items oid =>
            (match (match lookupA items key with
                    | some (Child.collection old_id) =>
                      move_to_orphan { t5 with nodes := (insertA t5.nodes obj
                          ⟨.object (mkI items) oid, node.parent⟩) } old_id
                    | _ =>
                      some { t5 with nodes := (insertA t5.nodes obj
                          ⟨.object (mkI items) oid, node.parent⟩) }) with
             | none => none
             | some t3 =>
               match child_to_value t3 (lookupA items key) with
               | none => none
               | some v => some (t3, .ok v))
          | _ => some (t5, .error .unexpectedNodeType)) = some (t1, r))
    (hR : ∀ (t5 : Tree Id) (r5 : Except TreeError Unit), R = some (t5, r5) →
      NodesND t5 ∧ SeqOffs t5 ∧ SeqBnd t5) :
    NodesND t1 ∧ SeqOffs t1 ∧ SeqBnd t1 := by
  split at h
  · exact Option.noConfusion h
  · injection h with h
    obtain ⟨h1, h2⟩ := Prod.mk.injEq .. ▸ h
    have h5 := hR _ _ rfl
    rw [← h1]
    exact h5
  rename_i x0 t5
  have h5 := hR _ _ rfl
  split at h
  · exact Option.noConfusion h
  rename_i node hlk5
  split at h
  · rename_i items oid heqD
    have htmod : NodesND ({ t5 with nodes := (insertA t5.nodes obj
          ⟨.object (mkI items) oid, node.parent⟩) } : Tree Id) ∧
        SeqOffs ({ t5 with nodes := (insertA t5.nodes obj
          ⟨.object (mkI items) oid, node.parent⟩) } : Tree Id) ∧
        SeqBnd ({ t5 with nodes := (insertA t5.nodes obj
          ⟨.object (mkI items) oid, node.parent⟩) } : Tree Id) :=
      invs_insertA_node t5 _ obj ⟨.object (mkI items) oid, node.parent⟩
        rfl h5.1 h5.2.1 h5.2.2 (by rfl) (by rfl)
    have hmid : ∀ (t3 : Tree Id),
        (match lookupA items key with
         | some (Child.collection old_id) =>
           move_to_orphan { t5 with nodes := (insertA t5.nodes obj
               ⟨.object (mkI items) oid, node.parent⟩) } old_id
         | _ =>
           some { t5 with nodes := (insertA t5.nodes obj
               ⟨.object (mkI items) oid, node.parent⟩) }) = some t3 →
        NodesND t3 ∧ SeqOffs t3 ∧ SeqBnd t3 := by
      intro t3 hmv
      split at hmv
      · exact move_to_orphan_pres _ _ t3 htmod.1 htmod.2.1 htmod.2.2 hmv
      · injection hmv with hmv
        rw [← hmv]
        exact htmod
    split at h
    · exact Option.noConfusion h
    rename_i t3 heqM
    have h3 := hmid t3 heqM
    split at h
    · exact Option.noConfusion h
    rename_i v hcv
    injection h with h
    obtain ⟨h1, h2⟩ := Prod.mk.injEq .. ▸ h
    rw [← h1]
    exact h3
  · injection h with h
    obtain ⟨h1, h2⟩ := Prod.mk.injEq .. ▸ h
    rw [← h1]
    exact h5

/-- `Tree::object_assign` preserves both invariants on every path,
including its mutate-then-error path. -/
theorem object_assign_pres (t : Tree Id) (object : Id) (key : String)
    (value : Value Id) (t1 : Tree Id) (r : Except TreeError (Value Id))
    (hnd : NodesND t) (ho : SeqOffs t) (hb : SeqBnd t)
    (h : object_assign t object key value = some (t1, r)) :
    NodesND t1 ∧ SeqOffs t1 ∧ SeqBnd t1 := by
  unfold object_assign at h
  split at h
  · injection h with h
    obtain ⟨h1, h2⟩ := Prod.mk.injEq .. ▸ h
    exact invs_nodes_eq t t1 (by rw [← h1]) hnd ho hb
  rename_i child_opt hvc
  split at h
  · injection h with h
    obtain ⟨h1, h2⟩ := Prod.mk.injEq .. ▸ h
    exact invs_nodes_eq t t1 (by rw [← h1]) hnd ho hb
  rename_i obj hobj
  have hRok : ∀ (t5 : Tree Id) (r5 : Except TreeError Unit),
      (some (t, (Except.ok () : Except TreeError Unit))) = some (t5, r5) →
      NodesND t5 ∧ SeqOffs t5 ∧ SeqBnd t5 := by
    intro t5 r5 hr5
    injection hr5 with hr5
    obtain ⟨h1, h2⟩ := Prod.mk.injEq .. ▸ hr5
    rw [← h1]
    exact ⟨hnd, ho, hb⟩
  cases child_opt with
  | none =>
    exact object_assign_tail_pres key obj _ (fun items => removeA items key)
      t1 r h hRok
  | some child =>
    cases child with
    | collection c =>
      exact object_assign_tail_pres key obj (reparent_item t c obj)
        (fun items => insertA items key (Child.collection c)) t1 r h
        (fun t5 r5 hr5 => reparent_item_pres t c obj t5 r5 hnd ho hb hr5)
    | true =>
      exact object_assign_tail_pres key obj _
        (fun items => insertA items key Child.true) t1 r h hRok
    | false =>
      exact object_assign_tail_pres key obj _
        (fun items => insertA items key Child.false) t1 r h hRok
    | int i =>
      exact object_assign_tail_pres key obj _
        (fun items => insertA items key (Child.int i)) t1 r h hRok
    | null =>
      exact object_assign_tail_pres key obj _
        (fun items => insertA items key Child.null) t1 r h hRok

/-- Every public operation of `Tree::update` preserves the node-key
nodup property and both segment invariants. -/
theorem update_pres (t : Tree Id) (e : Edit Id) (t1 : Tree Id)
    (r : Except TreeError Unit)
    (hnd : NodesND t) (ho : SeqOffs t) (hb : SeqBnd t)
    (h : update t e = some (t1, r)) :
    NodesND t1 ∧ SeqOffs t1 ∧ SeqBnd t1 := by
  cases e with
  | arrayCreate id =>
    simp only [update] at h
    injection h with h
    exact construct_array_pres t id t1 r hnd ho hb h
  | arrayInsert index id item =>
    simp only [update] at h
    exact insert_list_item_pres t index id item t1 r hnd ho hb h
  | arrayDelete id =>
    simp only [update] at h
    rcases hd : delete_list_item t id with _ | p2
    · rw [hd] at h
      simp at h
    rw [hd] at h
    simp only [Option.map_some'] at h
    injection h with h
    obtain ⟨h1, h2⟩ := Prod.mk.injEq .. ▸ h
    have h5 := delete_list_item_pres t id p2.1 p2.2 hnd ho hb (by rw [hd])
    rw [← h1]
    exact h5
  | mapCreate id =>
    simp only [update] at h
    injection h with h
    exact construct_object_pres t id t1 r hnd ho hb h
  | mapInsert parent key item =>
    simp only [update] at h
    rcases hd : object_assign t parent key item with _ | p2
    · rw [hd] at h
      simp at h
    rw [hd] at h
    simp only [Option.map_some'] at h
    injection h with h
    obtain ⟨h1, h2⟩ := Prod.mk.injEq .. ▸ h
    have h5 := object_assign_pres t parent key item p2.1 p2.2 hnd ho hb
      (by rw [hd])
    rw [← h1]
    exact h5
  | textCreate id =>
    simp only [update] at h
    injection h with h
    exact construct_string_pres t id t1 r hnd ho hb h
  | textInsert index id character =>
    simp only [update] at h
    exact insert_character_pres t index id character t1 r hnd ho hb h
  | textDelete id =>
    simp only [update] at h
    exact delete_character_pres t id t1 r hnd ho hb h

/-- The number of content elements of a segment: characters of a string
segment, entries of an array segment. -/
def segmentElemCount? : NodeData Id → Option Nat
  | .stringSegment _ _ cs _ => some cs.length
  | .arraySegment _ _ cs _ => some cs.length
  | _ => none

/-- The sum of the segment contents lengths across a list of segments. -/
def segsContentsSum (t : Tree Id) (segs : List NodeId) : Option Nat :=
  segs.foldr (fun s acc =>
    match acc, (lookupA t.nodes s).bind (fun n => segmentElemCount? n.data) with
    | some a, some k => some (k + a)
    | _, _ => none) (some 0)

/-- On a tree satisfying the offsets invariant, the total contents length
of any segment list equals the number of live id entries they carry. -/
theorem segs_live_count (t : Tree Id) (ho : SeqOffs t) :
    ∀ (segs : List NodeId) (entries : List (Id × Option Nat)),
    (segs.foldr (fun s acc =>
      match acc, (lookupA t.nodes s).bind (fun n => n.data.segmentIds?) with
      | some l, some ids => some (ids ++ l)
      | _, _ => none) (some [])) = some entries →
    segsContentsSum t segs = some ((entries.filterMap Prod.snd).length) := by
  intro segs
  induction segs with
  | nil =>
    intro entries hfold
    simp only [List.foldr] at hfold
    obtain rfl : entries = [] := (Option.some.inj hfold).symm
    rfl
  | cons s ss ih =>
    intro entries hfold
    simp only [List.foldr] at hfold
    split at hfold
    · rename_i l ids heq1 heq2
      obtain rfl : entries = ids ++ l := (Option.some.inj hfold).symm
      have hsum := ih l heq1
      rcases hlk : lookupA t.nodes s with _ | nd
      · rw [hlk] at heq2
        exact Option.noConfusion heq2
      rw [hlk] at heq2
      replace heq2 : nd.data.segmentIds? = some ids := heq2
      have hseg := ho (s, nd) (mem_of_lookupA hlk)
      have hkind : ∃ k, segmentElemCount? nd.data = some k ∧
          (ids.filterMap Prod.snd).length = k := by
        cases hdk : nd.data with
        | object items oid =>
          rw [hdk] at heq2
          exact Option.noConfusion heq2
        | string a b c =>
          rw [hdk] at heq2
          exact Option.noConfusion heq2
        | array a b c =>
          rw [hdk] at heq2
          exact Option.noConfusion heq2
        | stringSegment p nx cs ids0 =>
          rw [hdk] at heq2
          simp only [NodeData.segmentIds?] at heq2
          obtain rfl : ids = ids0 := (Option.some.inj heq2).symm
          rw [hdk] at hseg
          simp only [segOffsetsB] at hseg
          have hiv := of_decide_eq_true hseg
          refine ⟨cs.length, by simp [segmentElemCount?], ?_⟩
          rw [hiv, offsetsW_length]
        | arraySegment p nx cs ids0 =>
          rw [hdk] at heq2
          simp only [NodeData.segmentIds?] at heq2
          obtain rfl : ids = ids0 := (Option.some.inj heq2).symm
          rw [hdk] at hseg
          simp only [segOffsetsB] at hseg
          have hiv := of_decide_eq_true hseg
          refine ⟨cs.length, by simp [segmentElemCount?], ?_⟩
          rw [hiv, offsetsW_length]
      obtain ⟨k, hk1, hk2⟩ := hkind
      unfold segsContentsSum at hsum ⊢
      simp only [List.foldr]
      rw [hsum, hlk]
      replace hk1 : (some nd).bind (fun n => segmentElemCount? n.data) =
          some k := hk1
      rw [hk1]
      simp only [List.filterMap_append, List.length_append, hk2]
    · exact Option.noConfusion hfold

/-- C7: after every public operation (`Tree::update`) on a tree whose node
keys are distinct and whose sequences satisfy the representation
invariant, the invariant still holds; consequently no segment's ids list
exceeds the hard upper bound `SPLIT_LEN`, and along every string or array
sequence the sum of the segment contents lengths equals the number of
live (non-tombstoned) id entries of that sequence. -/
theorem c7_split_bound_and_live_count (t : Tree Id) (e : Edit Id)
    (t' : Tree Id) (r : Except TreeError Unit)
    (hnd : NodesND t) (hinv : SeqInv t)
    (h : update t e = some (t', r)) :
    SeqInv t' ∧
    (∀ q ∈ t'.nodes, ∀ ids, (q.2 : Node Id).data.segmentIds? = some ids →
      ids.length ≤ SPLIT_LEN) ∧
    (∀ container segs entries,
      seqSegs t' container = some segs →
      seqIdEntries t' container = some entries →
      segsContentsSum t' segs = some ((entries.filterMap Prod.snd).length)) := by
  obtain ⟨ho, hb⟩ := hinv
  obtain ⟨hnd', ho', hb'⟩ := update_pres t e t' r hnd ho hb h
  refine ⟨⟨ho', hb'⟩, ?_, ?_⟩
  · intro q hq ids hids
    have hbq := hb' q hq
    unfold segBoundB at hbq
    simp only [hids] at hbq
    exact of_decide_eq_true hbq
  · intro container segs entries hsegs hentries
    unfold seqIdEntries at hentries
    simp only [hsegs] at hentries
    exact segs_live_count t' ho' segs entries hentries

/-- The C7 facts on a concrete run: inserting a character after the
tombstone of `exTombstone` keeps the bound and the live-count equation. -/
theorem c7_split_bound_and_live_count_witness :
    NodesND exTombstone ∧ SeqInv exTombstone ∧
    ∃ (p : Tree Nat × Except TreeError Unit),
      update exTombstone (Edit.textInsert 1 7 'x') = some p ∧
      (SeqInv p.1 ∧
       (∀ q ∈ p.1.nodes, ∀ ids, (q.2 : Node Nat).data.segmentIds? = some ids →
         ids.length ≤ SPLIT_LEN) ∧
       (∀ container segs entries,
         seqSegs p.1 container = some segs →
         seqIdEntries p.1 container = some entries →
         segsContentsSum p.1 segs =
           some ((entries.filterMap Prod.snd).length))) := by
  have hnd : NodesND exTombstone := by
    show (exTombstone.nodes.map Prod.fst).Nodup
    decide
  have hinv : SeqInv exTombstone := by
    constructor
    · show ∀ q ∈ exTombstone.nodes,
        segOffsetsB (q.2 : Node Nat).data = Bool.true
      decide
    · show ∀ q ∈ exTombstone.nodes,
        segBoundB (q.2 : Node Nat).data = Bool.true
      decide
  obtain ⟨p, hp⟩ : ∃ p, update exTombstone (Edit.textInsert 1 7 'x') = some p :=
    ⟨_, rfl⟩
  refine ⟨hnd, hinv, p, hp, ?_⟩
  exact c7_split_bound_and_live_count exTombstone (Edit.textInsert 1 7 'x')
    p.1 p.2 hnd hinv (by rw [hp])

/-! ### Ring observations and chain walks -/

/-- The next pointer of a segment node. -/
def segNext? : NodeData Id → Option NodeId
  | .stringSegment _ nx _ _ => some nx
  | .arraySegment _ nx _ _ => some nx
  | _ => none

/-- The prev pointer of a segment node. -/
def segPrev? : NodeData Id → Option NodeId
  | .stringSegment p _ _ _ => some p
  | .arraySegment p _ _ _ => some p
  | _ => none

/-- The first-segment pointer of a container node. -/
def contStart? : NodeData Id → Option NodeId
  | .string s _ _ => some s
  | .array s _ _ => some s
  | _ => none

/-- Nodes that take part in a sequence ring. -/
def ringNode : NodeData Id → Bool
  | .stringSegment _ _ _ _ => Bool.true
  | .arraySegment _ _ _ _ => Bool.true
  | .string _ _ _ => Bool.true
  | .array _ _ _ => Bool.true
  | _ => Bool.false

/-- The backward-pointer rewrite of the ring surgeries (`prev` of a
segment, `stop` of a container). -/
def withPrev : NodeData Id → NodeId → NodeData Id
  | .stringSegment _ nx cs ids, q => .stringSegment q nx cs ids
  | .arraySegment _ nx cs ids, q => .arraySegment q nx cs ids
  | .string s _ sid, q => .string s q sid
  | .array s _ aid, q => .array s q aid
  | d, _ => d

/-- The constructor tag of a node payload. -/
def ctorIdx : NodeData Id → Nat
  | .object _ _ => 0
  | .string _ _ _ => 1
  | .array _ _ _ => 2
  | .stringSegment _ _ _ _ => 3
  | .arraySegment _ _ _ _ => 4

/-- Everything the chain observations read, preserved by a backward-pointer
rewrite. -/
def SameShape (d d' : NodeData Id) : Prop :=
  d'.segmentIds? = d.segmentIds? ∧ segNext? d' = segNext? d ∧
  contStart? d' = contStart? d ∧
  d'.segmentIsContainer = d.segmentIsContainer ∧
  segOffsetsB d' = segOffsetsB d ∧
  ctorIdx d' = ctorIdx d

theorem sameShape_withPrev (d : NodeData Id) (q : NodeId) :
    SameShape d (withPrev d q) := by
  cases d <;>
    exact ⟨rfl, rfl, rfl, rfl, rfl, rfl⟩

theorem sameShape_refl (d : NodeData Id) : SameShape d d :=
  ⟨rfl, rfl, rfl, rfl, rfl, rfl⟩

theorem sameShape_trans {d1 d2 d3 : NodeData Id}
    (h1 : SameShape d1 d2) (h2 : SameShape d2 d3) : SameShape d1 d3 :=
  ⟨h2.1.trans h1.1, h2.2.1.trans h1.2.1, h2.2.2.1.trans h1.2.2.1,
   h2.2.2.2.1.trans h1.2.2.2.1, h2.2.2.2.2.1.trans h1.2.2.2.2.1,
   h2.2.2.2.2.2.trans h1.2.2.2.2.2⟩

/-- The next-pointer observation a chain walk reads at a key. -/
def obsNext (t : Tree Id) (k : NodeId) : Option NodeId :=
  (lookupA t.nodes k).bind (fun nd => segNext? nd.data)

/-- The ids observation the entries fold reads at a key. -/
def obsIds (t : Tree Id) (k : NodeId) : Option (List (Id × Option Nat)) :=
  (lookupA t.nodes k).bind (fun nd => nd.data.segmentIds?)

/-- A node with a next pointer is a segment and has an ids list. -/
theorem segNext?_some_ids (d : NodeData Id) (nx : NodeId)
    (h : segNext? d = some nx) : ∃ ids, d.segmentIds? = some ids := by
  cases d <;> simp [segNext?, NodeData.segmentIds?] at h ⊢

/-- A next-linked walk through the node map. -/
def chainW (t : Tree Id) : NodeId → List NodeId → NodeId → Prop
  | cur, [], stop => cur = stop
  | cur, s :: rest, stop =>
    cur = s ∧ ∃ nxt, obsNext t s = some nxt ∧ chainW t nxt rest stop

theorem chainW_append (t : Tree Id) (u : List NodeId) :
    ∀ (v : List NodeId) (cur stop : NodeId),
    chainW t cur (u ++ v) stop ↔
      ∃ m, chainW t cur u m ∧ chainW t m v stop := by
  induction u with
  | nil =>
    intro v cur stop
    constructor
    · intro h
      exact ⟨cur, rfl, h⟩
    · rintro ⟨m, hm, h⟩
      cases hm
      exact h
  | cons s u ih =>
    intro v cur stop
    constructor
    · rintro ⟨rfl, nxt, hn, h⟩
      obtain ⟨m, h1, h2⟩ := (ih v nxt stop).1 h
      exact ⟨m, ⟨rfl, nxt, hn, h1⟩, h2⟩
    · rintro ⟨m, ⟨rfl, nxt, hn, h1⟩, h2⟩
      exact ⟨rfl, nxt, hn, (ih v nxt stop).2 ⟨m, h1, h2⟩⟩

theorem chainW_frame (t t' : Tree Id) :
    ∀ (l : List NodeId) (cur stop : NodeId),
    (∀ s ∈ l, obsNext t' s = obsNext t s) →
    chainW t cur l stop → chainW t' cur l stop := by
  intro l
  induction l with
  | nil => intro cur stop _ h; exact h
  | cons s rest ih =>
    rintro cur stop hobs ⟨rfl, nxt, hn, h⟩
    refine ⟨rfl, nxt, ?_,
      ih nxt stop (fun x hx => hobs x (List.mem_cons_of_mem _ hx)) h⟩
    rw [hobs cur (List.mem_cons_self _ _)]
    exact hn

theorem lookupA_some_mem_keys {κ α : Type _} [DecidableEq κ]
    {m : List (κ × α)} {k : κ} {v : α} (h : lookupA m k = some v) :
    k ∈ m.map Prod.fst :=
  List.mem_map.2 ⟨(k, v), mem_of_lookupA h, rfl⟩

theorem chainW_mem_keys (t : Tree Id) :
    ∀ (l : List NodeId) (cur stop : NodeId),
    chainW t cur l stop → ∀ s ∈ l, s ∈ t.nodes.map Prod.fst := by
  intro l
  induction l with
  | nil => intro cur stop _ s hs; cases hs
  | cons a rest ih =>
    rintro cur stop ⟨rfl, nxt, hn, h⟩ s hs
    rcases List.mem_cons.1 hs with rfl | hs
    · unfold obsNext at hn
      rcases hlk : lookupA t.nodes s with _ | nd
      · rw [hlk] at hn
        cases hn
      · exact lookupA_some_mem_keys hlk
    · exact ih nxt stop h s hs

theorem chainFrom_sound (t : Tree Id) (cont : NodeId) :
    ∀ (fuel : Nat) (cur : NodeId) (l : List NodeId),
    chainFrom t cont fuel cur = some l →
    chainW t cur l cont ∧ ∀ s ∈ l, s ≠ cont := by
  intro fuel
  induction fuel with
  | zero => intro cur l h; exact Option.noConfusion h
  | succ fuel ih =>
    intro cur l h
    rw [chainFrom] at h
    split at h
    · rename_i hc
      obtain rfl : l = [] := (Option.some.inj h).symm
      exact ⟨hc, fun s hs => absurd hs (List.not_mem_nil s)⟩
    rename_i hc
    split at h
    · exact Option.noConfusion h
    rename_i node hlk
    split at h
    · rename_i pp nx cs ids heqD
      rcases hrec : chainFrom t cont fuel nx with _ | l0
      · rw [hrec] at h
        cases h
      rw [hrec] at h
      simp only [Option.map_some'] at h
      obtain rfl : l = cur :: l0 := (Option.some.inj h).symm
      obtain ⟨h1, h2⟩ := ih nx l0 hrec
      refine ⟨⟨rfl, nx, ?_, h1⟩, ?_⟩
      · unfold obsNext
        rw [hlk]
        show segNext? node.data = some nx
        rw [heqD]
        rfl
      · intro s hs
        rcases List.mem_cons.1 hs with rfl | hs
        · exact hc
        · exact h2 s hs
    · rename_i pp nx cs ids heqD
      rcases hrec : chainFrom t cont fuel nx with _ | l0
      · rw [hrec] at h
        cases h
      rw [hrec] at h
      simp only [Option.map_some'] at h
      obtain rfl : l = cur :: l0 := (Option.some.inj h).symm
      obtain ⟨h1, h2⟩ := ih nx l0 hrec
      refine ⟨⟨rfl, nx, ?_, h1⟩, ?_⟩
      · unfold obsNext
        rw [hlk]
        show segNext? node.data = some nx
        rw [heqD]
        rfl
      · intro s hs
        rcases List.mem_cons.1 hs with rfl | hs
        · exact hc
        · exact h2 s hs
    · exact Option.noConfusion h

theorem chainFrom_of_chainW (t : Tree Id) (cont : NodeId) :
    ∀ (l : List NodeId) (cur : NodeId),
    chainW t cur l cont → (∀ s ∈ l, s ≠ cont) →
    ∀ fuel, l.length < fuel → chainFrom t cont fuel cur = some l := by
  intro l
  induction l with
  | nil =>
    intro cur h _ fuel hf
    obtain ⟨f, rfl⟩ : ∃ f, fuel = f + 1 := ⟨fuel - 1, by omega⟩
    rw [h, chainFrom, if_pos rfl]
  | cons s rest ih =>
    rintro cur ⟨rfl, nxt, hn, h⟩ hne fuel hf
    obtain ⟨f, rfl⟩ : ∃ f, fuel = f + 1 := ⟨fuel - 1, by omega⟩
    unfold obsNext at hn
    rcases hlk : lookupA t.nodes cur with _ | nd
    · rw [hlk] at hn
      cases hn
    rw [hlk] at hn
    replace hn : segNext? nd.data = some nxt := hn
    have hrec := ih nxt h (fun x hx => hne x (List.mem_cons_of_mem _ hx)) f
      (by simp only [List.length_cons] at hf; omega)
    rw [chainFrom, if_neg (hne cur (List.mem_cons_self _ _)), hlk]
    rcases nd with ⟨ndd, ndp⟩
    cases ndd with
    | object items oid => exact Option.noConfusion hn
    | string a b c => exact Option.noConfusion hn
    | array a b c => exact Option.noConfusion hn
    | stringSegment pp nx cs ids =>
      simp only [segNext?] at hn
      obtain rfl : nxt = nx := (Option.some.inj hn).symm
      show (chainFrom t cont f nxt).map (cur :: ·) = some (cur :: rest)
      rw [hrec]
      rfl
    | arraySegment pp nx cs ids =>
      simp only [segNext?] at hn
      obtain rfl : nxt = nx := (Option.some.inj hn).symm
      show (chainFrom t cont f nxt).map (cur :: ·) = some (cur :: rest)
      rw [hrec]
      rfl

/-! ### The entries fold over a segment list -/

/-- The concatenated ids of a list of segments. -/
def entriesOf (t : Tree Id) (ss : List NodeId) : Option (List (Id × Option Nat)) :=
  ss.foldr (fun s acc =>
    match acc, (lookupA t.nodes s).bind (fun n => n.data.segmentIds?) with
    | some l, some ids => some (ids ++ l)
    | _, _ => none) (some [])

theorem seqIdEntries_entriesOf (t : Tree Id) (cont : NodeId)
    (ss : List NodeId) (hsegs : seqSegs t cont = some ss) :
    seqIdEntries t cont = entriesOf t ss := by
  unfold seqIdEntries entriesOf
  rw [hsegs]

theorem entriesOf_forall₂ (t : Tree Id) :
    ∀ (ss : List NodeId) (idss : List (List (Id × Option Nat))),
    List.Forall₂ (fun s l => obsIds t s = some l) ss idss →
    entriesOf t ss = some (idss.foldr (· ++ ·) []) := by
  intro ss idss h
  induction h with
  | nil => rfl
  | cons hsl hrest ih =>
    rename_i s l ss2 idss2
    unfold entriesOf at ih ⊢
    simp only [List.foldr_cons, ih]
    unfold obsIds at hsl
    rw [hsl]

theorem chainW_forall₂_ids (t : Tree Id) :
    ∀ (l : List NodeId) (cur stop : NodeId),
    chainW t cur l stop →
    ∃ idss, List.Forall₂ (fun s li => obsIds t s = some li) l idss := by
  intro l
  induction l with
  | nil => intro cur stop _; exact ⟨[], List.Forall₂.nil⟩
  | cons s rest ih =>
    rintro cur stop ⟨rfl, nxt, hn, h⟩
    obtain ⟨idss, hidss⟩ := ih nxt stop h
    unfold obsNext at hn
    rcases hlk : lookupA t.nodes cur with _ | nd
    · rw [hlk] at hn
      cases hn
    rw [hlk] at hn
    obtain ⟨ids, hids⟩ := segNext?_some_ids nd.data nxt hn
    refine ⟨ids :: idss, List.Forall₂.cons ?_ hidss⟩
    unfold obsIds
    rw [hlk]
    show nd.data.segmentIds? = some ids
    exact hids

/-! ### Repositioned entry lists -/

/-- Two entry lists carrying the same ids in the same order, with the same
tombstone pattern (stored positions may differ). -/
def Repositioned : List (Id × Option Nat) → List (Id × Option Nat) → Prop :=
  List.Forall₂ (fun a b => a.1 = b.1 ∧ a.2.isSome = b.2.isSome)

theorem rep_refl (l : List (Id × Option Nat)) : Repositioned l l := by
  induction l with
  | nil => exact List.Forall₂.nil
  | cons a l ih => exact List.Forall₂.cons ⟨rfl, rfl⟩ ih

theorem rep_shift (l : List (Id × Option Nat)) (f : Nat → Nat) :
    Repositioned l (l.map (fun q => (q.1, q.2.map f))) := by
  induction l with
  | nil => exact List.Forall₂.nil
  | cons a l ih =>
    obtain ⟨x, o⟩ := a
    refine List.Forall₂.cons ⟨rfl, ?_⟩ ih
    cases o <;> rfl

theorem rep_append {a b a' b' : List (Id × Option Nat)}
    (h1 : Repositioned a b) (h2 : Repositioned a' b') :
    Repositioned (a ++ a') (b ++ b') := by
  induction h1 with
  | nil => exact h2
  | cons hab h ih => exact List.Forall₂.cons hab ih

theorem rep_trans {a b c : List (Id × Option Nat)}
    (h1 : Repositioned a b) (h2 : Repositioned b c) : Repositioned a c := by
  induction h1 generalizing c with
  | nil =>
    cases h2
    exact List.Forall₂.nil
  | cons hab h1 ih =>
    rename_i x y l1 l2
    cases h2 with
    | cons hbc h2 =>
      exact List.Forall₂.cons ⟨hab.1.trans hbc.1, hab.2.trans hbc.2⟩ (ih h2)

theorem rep_map_fst {a b : List (Id × Option Nat)} (h : Repositioned a b) :
    b.map Prod.fst = a.map Prod.fst := by
  induction h with
  | nil => rfl
  | cons hab h ih =>
    simp only [List.map_cons, ih, hab.1]

theorem rep_decomp {E1 E2 F : List (Id × Option Nat)}
    {e : Id × Option Nat}
    (h : Repositioned (E1 ++ e :: E2) F) :
    ∃ F1 b F2, F = F1 ++ b :: F2 ∧ Repositioned E1 F1 ∧
      e.1 = b.1 ∧ e.2.isSome = b.2.isSome ∧ Repositioned E2 F2 := by
  induction E1 generalizing F with
  | nil =>
    cases h with
    | cons hb h =>
      rename_i b F2
      exact ⟨[], b, F2, rfl, List.Forall₂.nil, hb.1, hb.2, h⟩
  | cons a E1 ih =>
    cases h with
    | cons ha h =>
      rename_i b0 F0
      obtain ⟨F1, b, F2, rfl, hF1, hb1, hb2, hF2⟩ := ih h
      exact ⟨b0 :: F1, b, F2, rfl, List.Forall₂.cons ha hF1, hb1, hb2, hF2⟩

/-! ### Key-freshness utilities -/

/-- Every node key is below the arena counter. -/
def KeysLT (t : Tree Id) : Prop := ∀ p ∈ t.nodes, p.1 < t.next_node

theorem lookupA_not_mem_none {κ α : Type _} [DecidableEq κ]
    {m : List (κ × α)} {k : κ} (h : k ∉ m.map Prod.fst) :
    lookupA m k = none := by
  induction m with
  | nil => rfl
  | cons p rest ih =>
    obtain ⟨k0, v0⟩ := p
    simp only [List.map_cons, List.mem_cons, not_or] at h
    show (if k0 = k then some v0 else lookupA rest k) = none
    rw [if_neg (fun hh => h.1 hh.symm)]
    exact ih h.2

theorem length_insertA_mem {κ α : Type _} [DecidableEq κ]
    (m : List (κ × α)) (k : κ) (v : α) (h : k ∈ m.map Prod.fst) :
    (insertA m k v).length = m.length := by
  have := keys_insertA m k v
  rw [if_pos h] at this
  have h2 := congrArg List.length this
  simpa using h2

theorem length_insertA_not_mem {κ α : Type _} [DecidableEq κ]
    (m : List (κ × α)) (k : κ) (v : α) (h : k ∉ m.map Prod.fst) :
    (insertA m k v).length = m.length + 1 := by
  have := keys_insertA m k v
  rw [if_neg h] at this
  have h2 := congrArg List.length this
  simpa using h2

theorem mem_keys_insertA {κ α : Type _} [DecidableEq κ]
    (m : List (κ × α)) (k : κ) (v : α) (j : κ) :
    j ∈ (insertA m k v).map Prod.fst ↔ j ∈ m.map Prod.fst ∨ j = k := by
  rw [keys_insertA]
  by_cases h : k ∈ m.map Prod.fst
  · rw [if_pos h]
    constructor
    · exact Or.inl
    · rintro (hj | rfl)
      · exact hj
      · exact h
  · rw [if_neg h]
    simp [or_comm]

theorem containsA_insertA_of {κ α : Type _} [DecidableEq κ]
    (m : List (κ × α)) (k : κ) (v : α) (y : κ)
    (h : containsA m y = Bool.true) :
    containsA (insertA m k v) y = Bool.true := by
  by_cases hy : y = k
  · subst hy
    unfold containsA
    rw [lookupA_insertA_self]
    rfl
  · unfold containsA at h ⊢
    rw [lookupA_insertA_ne m k y v (fun hh => hy hh.symm)]
    exact h

theorem containsA_insertA_eq {κ α : Type _} [DecidableEq κ]
    (m : List (κ × α)) (k : κ) (v : α)
    (hk : containsA m k = Bool.true) (y : κ) :
    containsA (insertA m k v) y = containsA m y := by
  by_cases hy : y = k
  · subst hy
    unfold containsA
    rw [lookupA_insertA_self]
    unfold containsA at hk
    rw [hk]
    rfl
  · unfold containsA
    rw [lookupA_insertA_ne m k y v (fun hh => hy hh.symm)]

/-- `redirectIds` succeeds whenever every moved id is in the map and the
rewrite leaves key membership unchanged. -/
theorem redirectIds_total (target : NodeId) :
    ∀ (ids : List (Id × Option Nat)) (m : List (Id × NodeId)),
    (∀ x ∈ ids.map Prod.fst, containsA m x = Bool.true) →
    ∃ m', redirectIds ids m target = some m' ∧
      ∀ y, containsA m' y = containsA m y := by
  intro ids
  induction ids with
  | nil =>
    intro m h
    exact ⟨m, rfl, fun y => rfl⟩
  | cons q rest ih =>
    intro m h
    obtain ⟨id, po⟩ := q
    have hid : containsA m id = Bool.true := h id (by simp)
    have hrest : ∀ x ∈ rest.map Prod.fst,
        containsA (insertA m id target) x = Bool.true := by
      intro x hx
      exact containsA_insertA_of _ _ _ _ (h x (by simp [hx]))
    obtain ⟨m', hm', hc⟩ := ih (insertA m id target) hrest
    refine ⟨m', ?_, ?_⟩
    · unfold redirectIds
      rw [if_pos hid]
      exact hm'
    · intro y
      rw [hc y]
      exact containsA_insertA_eq m id target hid y

/-- What `insert_segment` does to a string segment: rewrites its next
pointer to the fresh key, adds the fresh empty segment, and rewrites the
old neighbour's backward pointer. -/
theorem insert_segment_strSeg (t : Tree Id) (n : NodeId) (p nx : NodeId)
    (cs : List Char) (ids : List (Id × Option Nat)) (npar : Option NodeId)
    (nd : Node Id)
    (hn : lookupA t.nodes n = some ⟨.stringSegment p nx cs ids, npar⟩)
    (hnx : lookupA t.nodes nx = some nd) (hring : ringNode nd.data = Bool.true)
    (hne : n ≠ nx) (hfr : t.next_node ∉ t.nodes.map Prod.fst) :
    insert_segment t n = some
      ({ t with
         next_node := t.next_node + 1,
         nodes := (insertA (insertA (insertA t.nodes n
           ⟨.stringSegment p t.next_node cs ids, npar⟩) t.next_node
           ⟨.stringSegment n nx [] [], npar⟩) nx
           ⟨withPrev nd.data t.next_node, nd.parent⟩) }, t.next_node) := by
  have hnxfr : (t.next_node : NodeId) ≠ nx := by
    intro h
    exact hfr (h ▸ lookupA_some_mem_keys hnx)
  have hlk2 : lookupA (insertA (insertA t.nodes n
      ⟨.stringSegment p t.next_node cs ids, npar⟩) t.next_node
      ⟨.stringSegment n nx [] [], npar⟩) nx = some nd := by
    rw [lookupA_insertA_ne _ _ _ _ hnxfr, lookupA_insertA_ne _ _ _ _ hne]
    exact hnx
  unfold insert_segment
  simp only [next_id, hn, if_true, Bool.false_eq_true, if_false]
  rw [hlk2]
  rcases nd with ⟨ndd, ndp⟩
  cases ndd with
  | object items oid => simp [ringNode] at hring
  | string a b c => simp [withPrev]
  | array a b c => simp [withPrev]
  | stringSegment a b c d => simp [withPrev]
  | arraySegment a b c d => simp [withPrev]

/-- What `insert_segment` does to an array segment. -/
theorem insert_segment_arrSeg (t : Tree Id) (n : NodeId) (p nx : NodeId)
    (cs : List Child) (ids : List (Id × Option Nat)) (npar : Option NodeId)
    (nd : Node Id)
    (hn : lookupA t.nodes n = some ⟨.arraySegment p nx cs ids, npar⟩)
    (hnx : lookupA t.nodes nx = some nd) (hring : ringNode nd.data = Bool.true)
    (hne : n ≠ nx) (hfr : t.next_node ∉ t.nodes.map Prod.fst) :
    insert_segment t n = some
      ({ t with
         next_node := t.next_node + 1,
         nodes := (insertA (insertA (insertA t.nodes n
           ⟨.arraySegment p t.next_node cs ids, npar⟩) t.next_node
           ⟨.arraySegment n nx [] [], npar⟩) nx
           ⟨withPrev nd.data t.next_node, nd.parent⟩) }, t.next_node) := by
  have hnxfr : (t.next_node : NodeId) ≠ nx := by
    intro h
    exact hfr (h ▸ lookupA_some_mem_keys hnx)
  have hlk2 : lookupA (insertA (insertA t.nodes n
      ⟨.arraySegment p t.next_node cs ids, npar⟩) t.next_node
      ⟨.arraySegment n nx [] [], npar⟩) nx = some nd := by
    rw [lookupA_insertA_ne _ _ _ _ hnxfr, lookupA_insertA_ne _ _ _ _ hne]
    exact hnx
  unfold insert_segment
  simp only [next_id, hn, if_true, Bool.false_eq_true, if_false]
  rw [hlk2]
  rcases nd with ⟨ndd, ndp⟩
  cases ndd with
  | object items oid => simp [ringNode] at hring
  | string a b c => simp [withPrev]
  | array a b c => simp [withPrev]
  | stringSegment a b c d => simp [withPrev]
  | arraySegment a b c d => simp [withPrev]

theorem insertA_insertA {κ α : Type _} [DecidableEq κ]
    (m : List (κ × α)) (k : κ) (v v' : α) :
    insertA (insertA m k v) k v' = insertA m k v' := by
  induction m with
  | nil => simp [insertA]
  | cons p rest ih =>
    obtain ⟨k0, v0⟩ := p
    by_cases h : k0 = k
    · simp [insertA, h]
    · simp [insertA, h, ih]

theorem keysLT_not_mem (t : Tree Id) (h : KeysLT t) :
    t.next_node ∉ t.nodes.map Prod.fst := by
  intro hmem
  obtain ⟨q, hq, hq1⟩ := List.mem_map.1 hmem
  have h2 := h q hq
  rw [hq1] at h2
  exact lt_irrefl _ h2

theorem ringNode_withPrev (d : NodeData Id) (q : NodeId) :
    ringNode (withPrev d q) = ringNode d := by
  cases d <;> rfl

theorem segPrev?_withPrev (d : NodeData Id) (q : NodeId) :
    segPrev? (withPrev d q) = (segPrev? d).map (fun _ => q) := by
  cases d <;> rfl

theorem foldr_append_concat {α : Type _} (u v : List (List α)) :
    (u ++ v).foldr (· ++ ·) ([] : List α) =
      u.foldr (· ++ ·) [] ++ v.foldr (· ++ ·) [] := by
  induction u with
  | nil => simp
  | cons a u ih => simp [ih]

theorem forall₂_mem_left {α β : Type _} {R : α → β → Prop}
    {l1 : List α} {l2 : List β} (h : List.Forall₂ R l1 l2) {x : α}
    (hx : x ∈ l1) : ∃ y, y ∈ l2 ∧ R x y := by
  induction h with
  | nil => cases hx
  | cons hab hrest ih =>
    rcases List.mem_cons.1 hx with rfl | hx
    · exact ⟨_, List.mem_cons_self _ _, hab⟩
    · obtain ⟨y, hy, hr⟩ := ih hx
      exact ⟨y, List.mem_cons_of_mem _ hy, hr⟩

theorem forall₂_ids_frame (t t' : Tree Id) (l : List NodeId)
    (idss : List (List (Id × Option Nat)))
    (hobs : ∀ s ∈ l, lookupA t'.nodes s = lookupA t.nodes s)
    (h : List.Forall₂ (fun m li => obsIds t m = some li) l idss) :
    List.Forall₂ (fun m li => obsIds t' m = some li) l idss := by
  induction h with
  | nil => exact List.Forall₂.nil
  | cons hab hrest ih =>
    rename_i s li l2 idss2
    refine List.Forall₂.cons ?_ (ih (fun x hx => hobs x (List.mem_cons_of_mem _ hx)))
    unfold obsIds at hab ⊢
    rw [hobs s (List.mem_cons_self _ _)]
    exact hab

theorem chainW_frame_lookup (t t' : Tree Id) (l : List NodeId)
    (cur stop : NodeId)
    (hobs : ∀ s ∈ l, lookupA t'.nodes s = lookupA t.nodes s)
    (h : chainW t cur l stop) : chainW t' cur l stop := by
  refine chainW_frame t t' l cur stop ?_ h
  intro s hs
  unfold obsNext
  rw [hobs s hs]

/-- Everything the rest of an insertion needs to know about a
`consider_split` run: the resulting chain of pieces, their ids lists, the
frame on untouched nodes, freshness of the new keys and the no-join size
guarantees. -/
structure SplitFacts (t t' : Tree Id) (n nx r : NodeId) (node nd : Node Id)
    (ids : List (Id × Option Nat)) (ms : List NodeId)
    (idss : List (List (Id × Option Nat))) : Prop where
  triv_or_big : (t' = t ∧ r = n ∧ ms = []) ∨ (∀ l ∈ idss, JOIN_LEN < l.length)
  ms_fresh : ∀ m ∈ ms, t.next_node ≤ m ∧ m < t'.next_node
  next_mono : t.next_node ≤ t'.next_node
  nodup : (n :: ms).Nodup
  last_eq : r = (n :: ms).getLast (List.cons_ne_nil n ms)
  nodesND : NodesND t'
  klt : KeysLT t'
  keys_mono : ∀ k, k ∈ t.nodes.map Prod.fst → k ∈ t'.nodes.map Prod.fst
  id_map : ∀ y, containsA t'.id_to_node y = containsA t.id_to_node y
  frame : ∀ j, j ≠ n → j ∉ ms → j ≠ nx → lookupA t'.nodes j = lookupA t.nodes j
  nbr : ∃ ndx, lookupA t'.nodes nx = some ndx ∧ SameShape nd.data ndx.data ∧
    ((ms = [] ∧ ndx = nd) ∨
      segPrev? ndx.data = (segPrev? nd.data).map (fun _ => r))
  chain : chainW t' n (n :: ms) nx
  ids_all : List.Forall₂ (fun m l => obsIds t' m = some l) (n :: ms) idss
  rep : Repositioned ids (idss.foldr (· ++ ·) [])
  prev_keep : ∃ node', lookupA t'.nodes n = some node' ∧
    segPrev? node'.data = segPrev? node.data
  last_prev : ms = [] ∨ ∃ nodr pp lpp, lookupA t'.nodes r = some nodr ∧
    segPrev? nodr.data = some pp ∧ pp ∈ n :: ms ∧
    obsIds t' pp = some lpp ∧ JOIN_LEN < lpp.length

theorem forall₂_append_rel {α β : Type _} {R : α → β → Prop}
    {u u' : List α} {v v' : List β}
    (h1 : List.Forall₂ R u v) (h2 : List.Forall₂ R u' v') :
    List.Forall₂ R (u ++ u') (v ++ v') := by
  induction h1 with
  | nil => exact h2
  | cons hab h ih => exact List.Forall₂.cons hab ih

theorem getLast_append_ne {α : Type _} (u : List α) :
    ∀ (v : List α) (hv : v ≠ []) (h : u ++ v ≠ []),
    (u ++ v).getLast h = v.getLast hv := by
  induction u with
  | nil => intro v hv h; rfl
  | cons a u ih =>
    intro v hv h
    have huv : u ++ v ≠ [] := by
      intro hc
      exact hv (by simpa using congrArg (List.drop u.length) hc)
    exact (List.getLast_cons huv).trans (ih v hv huv)

/-- Functional characterisation of `consider_split` on a segment whose
neighbour is a ring node: with enough fuel it succeeds and produces a
next-linked chain of pieces carrying the original ids. -/
theorem consider_split_chain : ∀ (fuel : Nat) (t : Tree Id) (n : NodeId)
    (node : Node Id) (ids : List (Id × Option Nat)) (nx : NodeId)
    (nd : Node Id),
    lookupA t.nodes n = some node →
    node.data.segmentIds? = some ids →
    segNext? node.data = some nx →
    segOffsetsB node.data = Bool.true →
    lookupA t.nodes nx = some nd →
    ringNode nd.data = Bool.true →
    n ≠ nx →
    NodesND t →
    KeysLT t →
    (∀ x ∈ ids.map Prod.fst, containsA t.id_to_node x = Bool.true) →
    ids.length < fuel →
    ∃ t' r ms idss, consider_split fuel t n = some (t', n, r) ∧
      SplitFacts t t' n nx r node nd ids ms idss := by
  intro fuel
  induction fuel with
  | zero =>
    intro t n node ids nx nd _ _ _ _ _ _ _ _ _ _ hfuel
    omega
  | succ fuel ih =>
    intro t n node ids nx nd hn hids hnxp hoff hnd hring hne hND hKLT hcont hfuel
    have hnlt : @LT.lt Nat instLTNat n t.next_node :=
      hKLT (n, node) (mem_of_lookupA hn)
    have hnxlt : @LT.lt Nat instLTNat nx t.next_node :=
      hKLT (nx, nd) (mem_of_lookupA hnd)
    rcases node with ⟨ndd, npar⟩
    cases ndd with
    | object items oid => exact absurd hids (by simp [NodeData.segmentIds?])
    | string a b c => exact absurd hnxp (by simp [segNext?])
    | array a b c => exact absurd hnxp (by simp [segNext?])
    | stringSegment p nx0 cs ids0 =>
      obtain rfl : ids0 = ids := by
        simpa [NodeData.segmentIds?] using hids
      obtain rfl : nx0 = nx := by simpa [segNext?] using hnxp
      replace hoff : ids0.filterMap Prod.snd = offsetsW charWidth cs := by
        simpa [segOffsetsB] using hoff
      by_cases hsmall : ids0.length ≤ SPLIT_LEN
      · refine ⟨t, n, [], [ids0], ?_, ?_⟩
        · rw [consider_split]
          simp only [hn]
          rw [if_pos hsmall]
        · refine ⟨Or.inl ⟨rfl, rfl, rfl⟩, by simp, le_refl _, by simp, rfl,
            hND, hKLT, fun k hk => hk, fun y => rfl, fun j _ _ _ => rfl,
            ⟨nd, hnd, sameShape_refl _, Or.inl ⟨rfl, rfl⟩⟩,
            ⟨rfl, nx0, ?_, rfl⟩, ?_, ?_, ⟨_, hn, rfl⟩, Or.inl rfl⟩
          · unfold obsNext
            rw [hn]
            rfl
          · refine List.Forall₂.cons ?_ List.Forall₂.nil
            unfold obsIds
            rw [hn]
            rfl
          · simp only [List.foldr_cons, List.foldr_nil, List.append_nil]
            exact rep_refl _
      · have hlenbig : SPLIT_LEN < ids0.length := Nat.lt_of_not_le hsmall
        have hlb : 1024 < ids0.length := by simpa [SPLIT_LEN] using hlenbig
        obtain ⟨j2, hj2le, hgd, hA, hB⟩ :=
          split_point_spec charWidth cs ids0 (ids0.length / 2) (byteLen cs)
            rfl hoff
        have hgd' : ((ids0.drop (ids0.length / 2)).findSome? Prod.snd).getD
            (byteLen cs) = byteLen (cs.take j2) := hgd
        have hsplitc : splitCharsAt cs (byteLen (cs.take j2)) =
            some (cs.take j2, cs.drop j2) :=
          splitCharsAt_byteLen_take cs j2 hj2le
        have hfnen : (t.next_node : NodeId) ≠ n := Ne.symm (Nat.ne_of_lt hnlt)
        have hfnenx : (t.next_node : NodeId) ≠ nx0 := Ne.symm (Nat.ne_of_lt hnxlt)
        have hnne_f : n ≠ t.next_node := Nat.ne_of_lt hnlt
        have hnx0ne_n : nx0 ≠ n := fun h => hne h.symm
        have hnK : lookupA (insertA t.nodes n
            (⟨.stringSegment p nx0 (cs.take j2) (ids0.take (ids0.length / 2)),
              npar⟩ : Node Id)) n = some
            ⟨.stringSegment p nx0 (cs.take j2) (ids0.take (ids0.length / 2)),
              npar⟩ := lookupA_insertA_self _ _ _
        have hnxK : lookupA (insertA t.nodes n
            (⟨.stringSegment p nx0 (cs.take j2) (ids0.take (ids0.length / 2)),
              npar⟩ : Node Id)) nx0 = some nd := by
          rw [lookupA_insertA_ne _ _ _ _ hne]
          exact hnd
        have hfrK : t.next_node ∉ ((insertA t.nodes n
            (⟨.stringSegment p nx0 (cs.take j2) (ids0.take (ids0.length / 2)),
              npar⟩ : Node Id)).map Prod.fst) := by
          rw [keys_insertA, if_pos (lookupA_some_mem_keys hn)]
          exact keysLT_not_mem t hKLT
        have hins : insert_segment { t with nodes := (insertA t.nodes n
            ⟨.stringSegment p nx0 (cs.take j2) (ids0.take (ids0.length / 2)),
              npar⟩) } n = some
            ({ t with
               next_node := t.next_node + 1,
               nodes := insertA (insertA (insertA t.nodes n
                 ⟨.stringSegment p t.next_node (cs.take j2)
                   (ids0.take (ids0.length / 2)), npar⟩) t.next_node
                 ⟨.stringSegment n nx0 [] [], npar⟩) nx0
                 ⟨withPrev nd.data t.next_node, nd.parent⟩ }, t.next_node) := by
          rw [insert_segment_strSeg _ n p nx0 (cs.take j2)
            (ids0.take (ids0.length / 2)) npar nd hnK hnxK hring hne hfrK]
          simp only [insertA_insertA]
        have hcontsh : ∀ x ∈ ((ids0.drop (ids0.length / 2)).map
            (fun q => (q.1, q.2.map (fun v => v - byteLen (cs.take j2))))).map
              Prod.fst, containsA t.id_to_node x = Bool.true := by
          intro x hx
          obtain ⟨q', hq', rfl⟩ := List.mem_map.1 hx
          obtain ⟨q, hq, rfl⟩ := List.mem_map.1 hq'
          exact hcont q.1 (List.mem_map.2 ⟨q, List.mem_of_mem_drop hq, rfl⟩)
        obtain ⟨m', hred, hmpres⟩ :=
          redirectIds_total t.next_node _ t.id_to_node hcontsh
        have hlkF : lookupA (insertA (insertA (insertA t.nodes n
            (⟨.stringSegment p t.next_node (cs.take j2)
              (ids0.take (ids0.length / 2)), npar⟩ : Node Id)) t.next_node
            (⟨.stringSegment n nx0 [] [], npar⟩ : Node Id)) nx0
            (⟨withPrev nd.data t.next_node, nd.parent⟩ : Node Id)) t.next_node =
            some ⟨.stringSegment n nx0 [] [], npar⟩ := by
          rw [lookupA_insertA_ne _ _ _ _ hfnenx.symm]
          exact lookupA_insertA_self _ _ _
        have hlkSn : lookupA (insertA (insertA (insertA (insertA t.nodes n
            (⟨.stringSegment p t.next_node (cs.take j2)
              (ids0.take (ids0.length / 2)), npar⟩ : Node Id)) t.next_node
            (⟨.stringSegment n nx0 [] [], npar⟩ : Node Id)) nx0
            (⟨withPrev nd.data t.next_node, nd.parent⟩ : Node Id)) t.next_node
            (⟨.stringSegment n nx0 (cs.drop j2) ((ids0.drop (ids0.length / 2)).map
              (fun q => (q.1, q.2.map (fun v => v - byteLen (cs.take j2))))),
              npar⟩ : Node Id)) n = some
            ⟨.stringSegment p t.next_node (cs.take j2)
              (ids0.take (ids0.length / 2)), npar⟩ := by
          rw [lookupA_insertA_ne _ _ _ _ hfnen,
            lookupA_insertA_ne _ _ _ _ hnx0ne_n,
            lookupA_insertA_ne _ _ _ _ hfnen]
          exact lookupA_insertA_self _ _ _
        have hNDstar : NodesND ({ t with
            next_node := t.next_node + 1,
            id_to_node := m',
            nodes := insertA (insertA (insertA (insertA t.nodes n
              (⟨.stringSegment p t.next_node (cs.take j2)
                (ids0.take (ids0.length / 2)), npar⟩ : Node Id)) t.next_node
              (⟨.stringSegment n nx0 [] [], npar⟩ : Node Id)) nx0
              (⟨withPrev nd.data t.next_node, nd.parent⟩ : Node Id)) t.next_node
              (⟨.stringSegment n nx0 (cs.drop j2)
                ((ids0.drop (ids0.length / 2)).map
                  (fun q => (q.1, q.2.map (fun v => v - byteLen (cs.take j2))))),
                npar⟩ : Node Id) } : Tree Id) := by
          unfold NodesND at hND ⊢
          exact nodup_insertA _ _ (nodup_insertA _ _ (nodup_insertA _ _
            (nodup_insertA _ _ hND)))
        have hKLTstar : KeysLT ({ t with
            next_node := t.next_node + 1,
            id_to_node := m',
            nodes := insertA (insertA (insertA (insertA t.nodes n
              (⟨.stringSegment p t.next_node (cs.take j2)
                (ids0.take (ids0.length / 2)), npar⟩ : Node Id)) t.next_node
              (⟨.stringSegment n nx0 [] [], npar⟩ : Node Id)) nx0
              (⟨withPrev nd.data t.next_node, nd.parent⟩ : Node Id)) t.next_node
              (⟨.stringSegment n nx0 (cs.drop j2)
                ((ids0.drop (ids0.length / 2)).map
                  (fun q => (q.1, q.2.map (fun v => v - byteLen (cs.take j2))))),
                npar⟩ : Node Id) } : Tree Id) := by
          intro q hq
          show q.1 < t.next_node + 1
          rcases mem_insertA hq with rfl | hq
          · exact Nat.lt_succ_self _
          rcases mem_insertA hq with rfl | hq
          · exact Nat.lt_succ_of_lt hnxlt
          rcases mem_insertA hq with rfl | hq
          · exact Nat.lt_succ_self _
          rcases mem_insertA hq with rfl | hq
          · exact Nat.lt_succ_of_lt hnlt
          · exact Nat.lt_succ_of_lt (hKLT q hq)
        have hcontS1 : ∀ x ∈ (ids0.take (ids0.length / 2)).map Prod.fst,
            containsA m' x = Bool.true := by
          intro x hx
          rw [hmpres x]
          obtain ⟨q, hq, rfl⟩ := List.mem_map.1 hx
          exact hcont q.1 (List.mem_map.2 ⟨q, List.take_subset _ _ hq, rfl⟩)
        have hoffS1 : segOffsetsB (NodeData.stringSegment p t.next_node
            (cs.take j2) (ids0.take (ids0.length / 2)) : NodeData Id) =
            Bool.true := by
          simp [segOffsetsB, hA]
        have hlen1 : (ids0.take (ids0.length / 2)).length < fuel := by
          simp only [List.length_take]
          omega
        have hlen2' : ((ids0.drop (ids0.length / 2)).map
            (fun q => (q.1, q.2.map (fun v => v - byteLen (cs.take j2))))).length
            < fuel := by
          simp only [List.length_map, List.length_drop]
          omega
        obtain ⟨t5, r1, ms1, idss1, hrec1, F1⟩ := ih
          ({ t with
            next_node := t.next_node + 1,
            id_to_node := m',
            nodes := insertA (insertA (insertA (insertA t.nodes n
              (⟨.stringSegment p t.next_node (cs.take j2)
                (ids0.take (ids0.length / 2)), npar⟩ : Node Id)) t.next_node
              (⟨.stringSegment n nx0 [] [], npar⟩ : Node Id)) nx0
              (⟨withPrev nd.data t.next_node, nd.parent⟩ : Node Id)) t.next_node
              (⟨.stringSegment n nx0 (cs.drop j2)
                ((ids0.drop (ids0.length / 2)).map
                  (fun q => (q.1, q.2.map (fun v => v - byteLen (cs.take j2))))),
                npar⟩ : Node Id) } : Tree Id)
          n ⟨.stringSegment p t.next_node (cs.take j2)
              (ids0.take (ids0.length / 2)), npar⟩
          (ids0.take (ids0.length / 2)) t.next_node
          ⟨.stringSegment n nx0 (cs.drop j2) ((ids0.drop (ids0.length / 2)).map
            (fun q => (q.1, q.2.map (fun v => v - byteLen (cs.take j2))))), npar⟩
          hlkSn rfl rfl hoffS1 (lookupA_insertA_self _ _ _) rfl hnne_f
          hNDstar hKLTstar hcontS1 hlen1
        have hms1b : ∀ m ∈ ms1,
            (@LE.le Nat instLENat (t.next_node + 1) m ∧
              @LT.lt Nat instLTNat m t5.next_node) :=
          fun m hm => F1.ms_fresh m hm
        have h15 : @LE.le Nat instLENat (t.next_node + 1) t5.next_node :=
          F1.next_mono
        obtain ⟨ndxF, hlkF5, hshF, hprevF⟩ := F1.nbr
        have hidsF : ndxF.data.segmentIds? =
            some ((ids0.drop (ids0.length / 2)).map
              (fun q => (q.1, q.2.map (fun v => v - byteLen (cs.take j2))))) :=
          hshF.1
        have hnxF : segNext? ndxF.data = some nx0 := hshF.2.1
        have hoffF : segOffsetsB ndxF.data = Bool.true := by
          rw [hshF.2.2.2.2.1]
          show segOffsetsB (NodeData.stringSegment n nx0 (cs.drop j2)
            ((ids0.drop (ids0.length / 2)).map
              (fun q => (q.1, q.2.map (fun v => v - byteLen (cs.take j2))))) :
            NodeData Id) = Bool.true
          simp only [segOffsetsB, filterMap_snd_map_shift, hB, List.map_map]
          rw [show ((fun v => v - byteLen (cs.take j2)) ∘
              (fun a => ((cs.take j2).map charWidth).sum + a)) = id from
            funext (fun a => by
              show ((cs.take j2).map charWidth).sum + a - byteLen (cs.take j2) = a
              have hbl : byteLen (cs.take j2) =
                ((cs.take j2).map charWidth).sum := rfl
              omega)]
          simp
        have hnxnotms1 : nx0 ∉ ms1 := by
          intro h
          have h2 : @LE.le Nat instLENat (t.next_node + 1) nx0 := (F1.ms_fresh nx0 h).1
          omega
        have hlknx5 : lookupA t5.nodes nx0 =
            some ⟨withPrev nd.data t.next_node, nd.parent⟩ := by
          rw [F1.frame nx0 hnx0ne_n hnxnotms1 hfnenx.symm]
          show lookupA (insertA (insertA (insertA (insertA t.nodes n
            (⟨.stringSegment p t.next_node (cs.take j2)
              (ids0.take (ids0.length / 2)), npar⟩ : Node Id)) t.next_node
            (⟨.stringSegment n nx0 [] [], npar⟩ : Node Id)) nx0
            (⟨withPrev nd.data t.next_node, nd.parent⟩ : Node Id)) t.next_node
            (⟨.stringSegment n nx0 (cs.drop j2) ((ids0.drop (ids0.length / 2)).map
              (fun q => (q.1, q.2.map (fun v => v - byteLen (cs.take j2))))),
              npar⟩ : Node Id)) nx0 = _
          rw [lookupA_insertA_ne _ _ _ _ hfnenx]
          exact lookupA_insertA_self _ _ _
        have hringF : ringNode (withPrev nd.data t.next_node) = Bool.true := by
          rw [ringNode_withPrev]
          exact hring
        have hcontS2 : ∀ x ∈ (((ids0.drop (ids0.length / 2)).map
            (fun q => (q.1, q.2.map (fun v => v - byteLen (cs.take j2))))).map
              Prod.fst),
            containsA t5.id_to_node x = Bool.true := by
          intro x hx
          rw [F1.id_map x]
          show containsA m' x = Bool.true
          rw [hmpres x]
          exact hcontsh x hx
        obtain ⟨t6, r2, ms2, idss2, hrec2, F2⟩ := ih t5 t.next_node ndxF
          ((ids0.drop (ids0.length / 2)).map
            (fun q => (q.1, q.2.map (fun v => v - byteLen (cs.take j2)))))
          nx0 ⟨withPrev nd.data t.next_node, nd.parent⟩
          hlkF5 hidsF hnxF hoffF hlknx5 hringF hfnenx F1.nodesND F1.klt
          hcontS2 hlen2'
        have hms2b : ∀ m ∈ ms2,
            (@LE.le Nat instLENat t5.next_node m ∧
              @LT.lt Nat instLTNat m t6.next_node) :=
          fun m hm => F2.ms_fresh m hm
        have h56 : @LE.le Nat instLENat t5.next_node t6.next_node :=
          F2.next_mono
        have hobs_left : ∀ s ∈ n :: ms1,
            lookupA t6.nodes s = lookupA t5.nodes s := by
          intro s hs
          rcases List.mem_cons.1 hs with rfl | hs
          · refine F2.frame s hnne_f (fun hc => ?_) hne
            have h2 : @LE.le Nat instLENat t5.next_node s := (hms2b s hc).1
            omega
          · have hb := hms1b s hs
            refine F2.frame s ((by omega : @Ne Nat s t.next_node))
              (fun hc => ?_) ((by omega : @Ne Nat s nx0))
            have h2 : @LE.le Nat instLENat t5.next_node s := (hms2b s hc).1
            omega
        have hchain6left : chainW t6 n (n :: ms1) t.next_node :=
          chainW_frame_lookup t5 t6 _ _ _ hobs_left F1.chain
        have hids6left : List.Forall₂ (fun m l => obsIds t6 m = some l)
            (n :: ms1) idss1 :=
          forall₂_ids_frame t5 t6 _ _ hobs_left F1.ids_all
        have hidsT : List.Forall₂ (fun m l => obsIds t6 m = some l)
            ((n :: ms1) ++ (t.next_node :: ms2)) (idss1 ++ idss2) :=
          forall₂_append_rel hids6left F2.ids_all
        have hbig1 : ∀ l ∈ idss1, JOIN_LEN < l.length := by
          rcases F1.triv_or_big with ⟨h5eq, _, hms1nil⟩ | hbig
          · intro l hl
            subst hms1nil
            cases F1.ids_all with
            | cons hh htl =>
            cases htl
            rcases List.mem_cons.1 hl with rfl | hl
            · replace hh : (lookupA t5.nodes n).bind
                  (fun nd => nd.data.segmentIds?) = some l := hh
              rw [h5eq] at hh
              replace hh : (lookupA (insertA (insertA (insertA (insertA
                t.nodes n (⟨.stringSegment p t.next_node (cs.take j2)
                  (ids0.take (ids0.length / 2)), npar⟩ : Node Id)) t.next_node
                (⟨.stringSegment n nx0 [] [], npar⟩ : Node Id)) nx0
                (⟨withPrev nd.data t.next_node, nd.parent⟩ : Node Id))
                t.next_node
                (⟨.stringSegment n nx0 (cs.drop j2)
                  ((ids0.drop (ids0.length / 2)).map
                    (fun q => (q.1, q.2.map
                      (fun v => v - byteLen (cs.take j2))))),
                  npar⟩ : Node Id)) n).bind
                  (fun nd => nd.data.segmentIds?) = some l := hh
              rw [hlkSn] at hh
              replace hh : some (ids0.take (ids0.length / 2)) = some l := hh
              obtain rfl : ids0.take (ids0.length / 2) = l :=
                Option.some.inj hh
              show JOIN_LEN < (ids0.take (ids0.length / 2)).length
              simp only [JOIN_LEN, List.length_take]
              omega
            · exact absurd hl (List.not_mem_nil l)
          · exact hbig
        have hbig2 : ∀ l ∈ idss2, JOIN_LEN < l.length := by
          rcases F2.triv_or_big with ⟨h6eq, _, hms2nil⟩ | hbig
          · intro l hl
            subst hms2nil
            cases F2.ids_all with
            | cons hh htl =>
            cases htl
            rcases List.mem_cons.1 hl with rfl | hl
            · replace hh : (lookupA t6.nodes t.next_node).bind
                  (fun nd => nd.data.segmentIds?) = some l := hh
              rw [h6eq] at hh
              replace hh : (lookupA t5.nodes t.next_node).bind
                  (fun nd => nd.data.segmentIds?) = some l := hh
              rw [hlkF5] at hh
              replace hh : ndxF.data.segmentIds? = some l := hh
              rw [hidsF] at hh
              obtain rfl : ((ids0.drop (ids0.length / 2)).map
                  (fun q => (q.1, q.2.map
                    (fun v => v - byteLen (cs.take j2))))) = l :=
                Option.some.inj hh
              show JOIN_LEN < (((ids0.drop (ids0.length / 2)).map
                (fun q => (q.1, q.2.map
                  (fun v => v - byteLen (cs.take j2)))))).length
              simp only [JOIN_LEN, List.length_map, List.length_drop]
              omega
            · exact absurd hl (List.not_mem_nil l)
          · exact hbig
        have hbigT : ∀ l ∈ idss1 ++ idss2, JOIN_LEN < l.length := by
          intro l hl
          rcases List.mem_append.1 hl with h | h
          · exact hbig1 l h
          · exact hbig2 l h
        have hnodupT : (n :: (ms1 ++ t.next_node :: ms2)).Nodup := by
          have h1 : (n :: ms1).Nodup := F1.nodup
          have h2 : ((t.next_node : NodeId) :: ms2).Nodup := F2.nodup
          have hd : List.Disjoint (n :: ms1) (t.next_node :: ms2) := by
            intro a ha hb
            have hA' : @Eq Nat a n ∨
                (@LE.le Nat instLENat (t.next_node + 1) a ∧
                  @LT.lt Nat instLTNat a t5.next_node) := by
              rcases List.mem_cons.1 ha with rfl | ha
              · exact Or.inl rfl
              · exact Or.inr (hms1b a ha)
            have hB' : @Eq Nat a t.next_node ∨
                (@LE.le Nat instLENat t5.next_node a ∧
                  @LT.lt Nat instLTNat a t6.next_node) := by
              rcases List.mem_cons.1 hb with rfl | hb
              · exact Or.inl rfl
              · exact Or.inr (hms2b a hb)
            rcases hA' with h | ⟨ha1, ha2⟩ <;>
              rcases hB' with h' | ⟨hb1, hb2⟩ <;> omega
          have h3 := List.Nodup.append h1 h2 hd
          simpa using h3
        refine ⟨t6, r2, ms1 ++ t.next_node :: ms2, idss1 ++ idss2, ?_, ?_⟩
        · rw [consider_split]
          simp only [hn]
          rw [if_neg hsmall]
          rw [hgd']
          rw [hsplitc]
          simp only [hins, hred, hlkF, hrec1, hrec2]
        · refine ⟨Or.inr hbigT, ?_,
            ((by omega : @LE.le Nat instLENat t.next_node t6.next_node)), hnodupT, ?_,
            F2.nodesND, F2.klt, ?_, ?_, ?_, ?_, ?_, ?_, ?_, ?_, ?_⟩
          · intro m hm
            rcases List.mem_append.1 hm with hm | hm
            · have hb := hms1b m hm
              exact ⟨(by omega : @LE.le Nat instLENat t.next_node m),
                (by omega : @LT.lt Nat instLTNat m t6.next_node)⟩
            rcases List.mem_cons.1 hm with rfl | hm
            · exact ⟨le_refl _,
                (by omega : @LT.lt Nat instLTNat t.next_node t6.next_node)⟩
            · have hb := hms2b m hm
              exact ⟨(by omega : @LE.le Nat instLENat t.next_node m),
                (by omega : @LT.lt Nat instLTNat m t6.next_node)⟩
          · rw [F2.last_eq]
            exact (getLast_append_ne (n :: ms1) (t.next_node :: ms2)
              (by simp) (by simp)).symm
          · intro k hk
            apply F2.keys_mono
            apply F1.keys_mono
            show k ∈ ((insertA (insertA (insertA (insertA t.nodes n
              (⟨.stringSegment p t.next_node (cs.take j2)
                (ids0.take (ids0.length / 2)), npar⟩ : Node Id)) t.next_node
              (⟨.stringSegment n nx0 [] [], npar⟩ : Node Id)) nx0
              (⟨withPrev nd.data t.next_node, nd.parent⟩ : Node Id)) t.next_node
              (⟨.stringSegment n nx0 (cs.drop j2)
                ((ids0.drop (ids0.length / 2)).map
                  (fun q => (q.1, q.2.map (fun v => v - byteLen (cs.take j2))))),
                npar⟩ : Node Id)).map Prod.fst)
            exact (mem_keys_insertA _ _ _ _).2 (Or.inl
              ((mem_keys_insertA _ _ _ _).2 (Or.inl
                ((mem_keys_insertA _ _ _ _).2 (Or.inl
                  ((mem_keys_insertA _ _ _ _).2 (Or.inl hk)))))))
          · intro y
            rw [F2.id_map y, F1.id_map y]
            show containsA m' y = containsA t.id_to_node y
            exact hmpres y
          · intro j hjn hjms hjnx
            have hjms1 : j ∉ ms1 := fun h =>
              hjms (List.mem_append.2 (Or.inl h))
            have hjF : j ≠ t.next_node := fun h => hjms
              (List.mem_append.2 (Or.inr (h ▸ List.mem_cons_self _ _)))
            have hjms2 : j ∉ ms2 := fun h => hjms
              (List.mem_append.2 (Or.inr (List.mem_cons_of_mem _ h)))
            rw [F2.frame j hjF hjms2 hjnx, F1.frame j hjn hjms1 hjF]
            show lookupA (insertA (insertA (insertA (insertA t.nodes n
              (⟨.stringSegment p t.next_node (cs.take j2)
                (ids0.take (ids0.length / 2)), npar⟩ : Node Id)) t.next_node
              (⟨.stringSegment n nx0 [] [], npar⟩ : Node Id)) nx0
              (⟨withPrev nd.data t.next_node, nd.parent⟩ : Node Id)) t.next_node
              (⟨.stringSegment n nx0 (cs.drop j2)
                ((ids0.drop (ids0.length / 2)).map
                  (fun q => (q.1, q.2.map (fun v => v - byteLen (cs.take j2))))),
                npar⟩ : Node Id)) j = lookupA t.nodes j
            rw [lookupA_insertA_ne _ _ _ _ hjF.symm,
              lookupA_insertA_ne _ _ _ _ hjnx.symm,
              lookupA_insertA_ne _ _ _ _ hjF.symm,
              lookupA_insertA_ne _ _ _ _ hjn.symm]
          · obtain ⟨ndx2, hlk2, hsh2, hprev2⟩ := F2.nbr
            refine ⟨ndx2, hlk2,
              sameShape_trans (sameShape_withPrev nd.data t.next_node) hsh2,
              Or.inr ?_⟩
            rcases hprev2 with ⟨hms2nil, hndx2⟩ | hp2
            · have hr2 : r2 = t.next_node := by
                have h2 := F2.last_eq
                rw [hms2nil] at h2
                simpa using h2
              rw [hndx2, hr2]
              show segPrev? (withPrev nd.data t.next_node) =
                (segPrev? nd.data).map (fun _ => t.next_node)
              exact segPrev?_withPrev _ _
            · rw [hp2]
              show (segPrev? (withPrev nd.data t.next_node)).map
                (fun _ => r2) = (segPrev? nd.data).map (fun _ => r2)
              rw [segPrev?_withPrev]
              cases segPrev? nd.data <;> rfl
          · show chainW t6 n ((n :: ms1) ++ (t.next_node :: ms2)) nx0
            exact (chainW_append t6 (n :: ms1) (t.next_node :: ms2) n nx0).2
              ⟨t.next_node, hchain6left, F2.chain⟩
          · show List.Forall₂ (fun m l => obsIds t6 m = some l)
              ((n :: ms1) ++ (t.next_node :: ms2)) (idss1 ++ idss2)
            exact hidsT
          · rw [foldr_append_concat]
            have h1 : Repositioned (ids0.take (ids0.length / 2))
                (idss1.foldr (· ++ ·) []) := F1.rep
            have h2 : Repositioned (ids0.drop (ids0.length / 2))
                (idss2.foldr (· ++ ·) []) :=
              rep_trans (rep_shift _ _) F2.rep
            have h3 := rep_append h1 h2
            rw [List.take_append_drop] at h3
            exact h3
          · obtain ⟨node5, hlk5, hp5⟩ := F1.prev_keep
            refine ⟨node5, ?_, ?_⟩
            · rw [hobs_left n (List.mem_cons_self _ _)]
              exact hlk5
            · rw [hp5]
              rfl
          · right
            rcases F2.last_prev with hms2nil |
              ⟨nodr, pp, lpp, hlkr, hpr, hppmem, hoids, hbigl⟩
            · have hr2 : r2 = t.next_node := by
                have h2 := F2.last_eq
                rw [hms2nil] at h2
                simpa using h2
              obtain ⟨nodF6, hlkF6, hpF6⟩ := F2.prev_keep
              have hppex : ∃ pp, segPrev? ndxF.data = some pp ∧
                  pp ∈ n :: ms1 := by
                rcases hprevF with ⟨_, hndxF⟩ | hpF
                · refine ⟨n, ?_, List.mem_cons_self _ _⟩
                  rw [hndxF]
                  rfl
                · refine ⟨r1, ?_, ?_⟩
                  · rw [hpF]
                    rfl
                  · rw [F1.last_eq]
                    exact List.getLast_mem _
              obtain ⟨pp, hpp, hppmem1⟩ := hppex
              have hmemT : pp ∈ n :: (ms1 ++ t.next_node :: ms2) := by
                rcases List.mem_cons.1 hppmem1 with rfl | h
                · exact List.mem_cons_self _ _
                · exact List.mem_cons_of_mem _ (List.mem_append.2 (Or.inl h))
              obtain ⟨lpp, hlppmem, hlppobs⟩ := forall₂_mem_left hidsT
                (show pp ∈ (n :: ms1) ++ (t.next_node :: ms2) from
                  List.mem_append.2 (Or.inl hppmem1))
              refine ⟨nodF6, pp, lpp, ?_, ?_, hmemT, hlppobs,
                hbigT lpp hlppmem⟩
              · rw [hr2]
                exact hlkF6
              · rw [hpF6]
                exact hpp
            · refine ⟨nodr, pp, lpp, hlkr, hpr, ?_, hoids, hbigl⟩
              rcases List.mem_cons.1 hppmem with rfl | h
              · exact List.mem_cons_of_mem _ (List.mem_append.2
                  (Or.inr (List.mem_cons_self _ _)))
              · exact List.mem_cons_of_mem _ (List.mem_append.2
                  (Or.inr (List.mem_cons_of_mem _ h)))
    | arraySegment p nx0 cs ids0 =>
      obtain rfl : ids0 = ids := by
        simpa [NodeData.segmentIds?] using hids
      obtain rfl : nx0 = nx := by simpa [segNext?] using hnxp
      replace hoff : ids0.filterMap Prod.snd = offsetsW (fun _ => (1 : Nat)) cs := by
        simpa [segOffsetsB] using hoff
      by_cases hsmall : ids0.length ≤ SPLIT_LEN
      · refine ⟨t, n, [], [ids0], ?_, ?_⟩
        · rw [consider_split]
          simp only [hn]
          rw [if_pos hsmall]
        · refine ⟨Or.inl ⟨rfl, rfl, rfl⟩, by simp, le_refl _, by simp, rfl,
            hND, hKLT, fun k hk => hk, fun y => rfl, fun j _ _ _ => rfl,
            ⟨nd, hnd, sameShape_refl _, Or.inl ⟨rfl, rfl⟩⟩,
            ⟨rfl, nx0, ?_, rfl⟩, ?_, ?_, ⟨_, hn, rfl⟩, Or.inl rfl⟩
          · unfold obsNext
            rw [hn]
            rfl
          · refine List.Forall₂.cons ?_ List.Forall₂.nil
            unfold obsIds
            rw [hn]
            rfl
          · simp only [List.foldr_cons, List.foldr_nil, List.append_nil]
            exact rep_refl _
      · have hlenbig : SPLIT_LEN < ids0.length := Nat.lt_of_not_le hsmall
        have hlb : 1024 < ids0.length := by simpa [SPLIT_LEN] using hlenbig
        obtain ⟨j2, hj2le, hgd, hA, hB⟩ :=
          split_point_spec (fun _ => (1 : Nat)) cs ids0 (ids0.length / 2)
            cs.length (sum_map_one cs).symm hoff
        have htl : ((cs.take j2).map (fun _ => (1 : Nat))).sum = j2 := by
          rw [sum_map_one, List.length_take]
          omega
        have hgd' : ((ids0.drop (ids0.length / 2)).findSome? Prod.snd).getD
            cs.length = j2 := hgd.trans htl
        have hfnen : (t.next_node : NodeId) ≠ n := Ne.symm (Nat.ne_of_lt hnlt)
        have hfnenx : (t.next_node : NodeId) ≠ nx0 := Ne.symm (Nat.ne_of_lt hnxlt)
        have hnne_f : n ≠ t.next_node := Nat.ne_of_lt hnlt
        have hnx0ne_n : nx0 ≠ n := fun h => hne h.symm
        have hnK : lookupA (insertA t.nodes n
            (⟨.arraySegment p nx0 (cs.take j2) (ids0.take (ids0.length / 2)),
              npar⟩ : Node Id)) n = some
            ⟨.arraySegment p nx0 (cs.take j2) (ids0.take (ids0.length / 2)),
              npar⟩ := lookupA_insertA_self _ _ _
        have hnxK : lookupA (insertA t.nodes n
            (⟨.arraySegment p nx0 (cs.take j2) (ids0.take (ids0.length / 2)),
              npar⟩ : Node Id)) nx0 = some nd := by
          rw [lookupA_insertA_ne _ _ _ _ hne]
          exact hnd
        have hfrK : t.next_node ∉ ((insertA t.nodes n
            (⟨.arraySegment p nx0 (cs.take j2) (ids0.take (ids0.length / 2)),
              npar⟩ : Node Id)).map Prod.fst) := by
          rw [keys_insertA, if_pos (lookupA_some_mem_keys hn)]
          exact keysLT_not_mem t hKLT
        have hins : insert_segment { t with nodes := (insertA t.nodes n
            ⟨.arraySegment p nx0 (cs.take j2) (ids0.take (ids0.length / 2)),
              npar⟩) } n = some
            ({ t with
               next_node := t.next_node + 1,
               nodes := insertA (insertA (insertA t.nodes n
                 ⟨.arraySegment p t.next_node (cs.take j2)
                   (ids0.take (ids0.length / 2)), npar⟩) t.next_node
                 ⟨.arraySegment n nx0 [] [], npar⟩) nx0
                 ⟨withPrev nd.data t.next_node, nd.parent⟩ }, t.next_node) := by
          rw [insert_segment_arrSeg _ n p nx0 (cs.take j2)
            (ids0.take (ids0.length / 2)) npar nd hnK hnxK hring hne hfrK]
          simp only [insertA_insertA]
        have hcontsh : ∀ x ∈ ((ids0.drop (ids0.length / 2)).map
            (fun q => (q.1, q.2.map (fun v => v - j2)))).map
              Prod.fst, containsA t.id_to_node x = Bool.true := by
          intro x hx
          obtain ⟨q', hq', rfl⟩ := List.mem_map.1 hx
          obtain ⟨q, hq, rfl⟩ := List.mem_map.1 hq'
          exact hcont q.1 (List.mem_map.2 ⟨q, List.mem_of_mem_drop hq, rfl⟩)
        obtain ⟨m', hred, hmpres⟩ :=
          redirectIds_total t.next_node _ t.id_to_node hcontsh
        have hlkF : lookupA (insertA (insertA (insertA t.nodes n
            (⟨.arraySegment p t.next_node (cs.take j2)
              (ids0.take (ids0.length / 2)), npar⟩ : Node Id)) t.next_node
            (⟨.arraySegment n nx0 [] [], npar⟩ : Node Id)) nx0
            (⟨withPrev nd.data t.next_node, nd.parent⟩ : Node Id)) t.next_node =
            some ⟨.arraySegment n nx0 [] [], npar⟩ := by
          rw [lookupA_insertA_ne _ _ _ _ hfnenx.symm]
          exact lookupA_insertA_self _ _ _
        have hlkSn : lookupA (insertA (insertA (insertA (insertA t.nodes n
            (⟨.arraySegment p t.next_node (cs.take j2)
              (ids0.take (ids0.length / 2)), npar⟩ : Node Id)) t.next_node
            (⟨.arraySegment n nx0 [] [], npar⟩ : Node Id)) nx0
            (⟨withPrev nd.data t.next_node, nd.parent⟩ : Node Id)) t.next_node
            (⟨.arraySegment n nx0 (cs.drop j2) ((ids0.drop (ids0.length / 2)).map
              (fun q => (q.1, q.2.map (fun v => v - j2)))),
              npar⟩ : Node Id)) n = some
            ⟨.arraySegment p t.next_node (cs.take j2)
              (ids0.take (ids0.length / 2)), npar⟩ := by
          rw [lookupA_insertA_ne _ _ _ _ hfnen,
            lookupA_insertA_ne _ _ _ _ hnx0ne_n,
            lookupA_insertA_ne _ _ _ _ hfnen]
          exact lookupA_insertA_self _ _ _
        have hNDstar : NodesND ({ t with
            next_node := t.next_node + 1,
            id_to_node := m',
            nodes := insertA (insertA (insertA (insertA t.nodes n
              (⟨.arraySegment p t.next_node (cs.take j2)
                (ids0.take (ids0.length / 2)), npar⟩ : Node Id)) t.next_node
              (⟨.arraySegment n nx0 [] [], npar⟩ : Node Id)) nx0
              (⟨withPrev nd.data t.next_node, nd.parent⟩ : Node Id)) t.next_node
              (⟨.arraySegment n nx0 (cs.drop j2)
                ((ids0.drop (ids0.length / 2)).map
                  (fun q => (q.1, q.2.map (fun v => v - j2)))),
                npar⟩ : Node Id) } : Tree Id) := by
          unfold NodesND at hND ⊢
          exact nodup_insertA _ _ (nodup_insertA _ _ (nodup_insertA _ _
            (nodup_insertA _ _ hND)))
        have hKLTstar : KeysLT ({ t with
            next_node := t.next_node + 1,
            id_to_node := m',
            nodes := insertA (insertA (insertA (insertA t.nodes n
              (⟨.arraySegment p t.next_node (cs.take j2)
                (ids0.take (ids0.length / 2)), npar⟩ : Node Id)) t.next_node
              (⟨.arraySegment n nx0 [] [], npar⟩ : Node Id)) nx0
              (⟨withPrev nd.data t.next_node, nd.parent⟩ : Node Id)) t.next_node
              (⟨.arraySegment n nx0 (cs.drop j2)
                ((ids0.drop (ids0.length / 2)).map
                  (fun q => (q.1, q.2.map (fun v => v - j2)))),
                npar⟩ : Node Id) } : Tree Id) := by
          intro q hq
          show q.1 < t.next_node + 1
          rcases mem_insertA hq with rfl | hq
          · exact Nat.lt_succ_self _
          rcases mem_insertA hq with rfl | hq
          · exact Nat.lt_succ_of_lt hnxlt
          rcases mem_insertA hq with rfl | hq
          · exact Nat.lt_succ_self _
          rcases mem_insertA hq with rfl | hq
          · exact Nat.lt_succ_of_lt hnlt
          · exact Nat.lt_succ_of_lt (hKLT q hq)
        have hcontS1 : ∀ x ∈ (ids0.take (ids0.length / 2)).map Prod.fst,
            containsA m' x = Bool.true := by
          intro x hx
          rw [hmpres x]
          obtain ⟨q, hq, rfl⟩ := List.mem_map.1 hx
          exact hcont q.1 (List.mem_map.2 ⟨q, List.take_subset _ _ hq, rfl⟩)
        have hoffS1 : segOffsetsB (NodeData.arraySegment p t.next_node
            (cs.take j2) (ids0.take (ids0.length / 2)) : NodeData Id) =
            Bool.true := by
          simp [segOffsetsB, hA]
        have hlen1 : (ids0.take (ids0.length / 2)).length < fuel := by
          simp only [List.length_take]
          omega
        have hlen2' : ((ids0.drop (ids0.length / 2)).map
            (fun q => (q.1, q.2.map (fun v => v - j2)))).length
            < fuel := by
          simp only [List.length_map, List.length_drop]
          omega
        obtain ⟨t5, r1, ms1, idss1, hrec1, F1⟩ := ih
          ({ t with
            next_node := t.next_node + 1,
            id_to_node := m',
            nodes := insertA (insertA (insertA (insertA t.nodes n
              (⟨.arraySegment p t.next_node (cs.take j2)
                (ids0.take (ids0.length / 2)), npar⟩ : Node Id)) t.next_node
              (⟨.arraySegment n nx0 [] [], npar⟩ : Node Id)) nx0
              (⟨withPrev nd.data t.next_node, nd.parent⟩ : Node Id)) t.next_node
              (⟨.arraySegment n nx0 (cs.drop j2)
                ((ids0.drop (ids0.length / 2)).map
                  (fun q => (q.1, q.2.map (fun v => v - j2)))),
                npar⟩ : Node Id) } : Tree Id)
          n ⟨.arraySegment p t.next_node (cs.take j2)
              (ids0.take (ids0.length / 2)), npar⟩
          (ids0.take (ids0.length / 2)) t.next_node
          ⟨.arraySegment n nx0 (cs.drop j2) ((ids0.drop (ids0.length / 2)).map
            (fun q => (q.1, q.2.map (fun v => v - j2)))), npar⟩
          hlkSn rfl rfl hoffS1 (lookupA_insertA_self _ _ _) rfl hnne_f
          hNDstar hKLTstar hcontS1 hlen1
        have hms1b : ∀ m ∈ ms1,
            (@LE.le Nat instLENat (t.next_node + 1) m ∧
              @LT.lt Nat instLTNat m t5.next_node) :=
          fun m hm => F1.ms_fresh m hm
        have h15 : @LE.le Nat instLENat (t.next_node + 1) t5.next_node :=
          F1.next_mono
        obtain ⟨ndxF, hlkF5, hshF, hprevF⟩ := F1.nbr
        have hidsF : ndxF.data.segmentIds? =
            some ((ids0.drop (ids0.length / 2)).map
              (fun q => (q.1, q.2.map (fun v => v - j2)))) :=
          hshF.1
        have hnxF : segNext? ndxF.data = some nx0 := hshF.2.1
        have hoffF : segOffsetsB ndxF.data = Bool.true := by
          rw [hshF.2.2.2.2.1]
          show segOffsetsB (NodeData.arraySegment n nx0 (cs.drop j2)
            ((ids0.drop (ids0.length / 2)).map
              (fun q => (q.1, q.2.map (fun v => v - j2)))) :
            NodeData Id) = Bool.true
          simp only [segOffsetsB, filterMap_snd_map_shift, hB, List.map_map]
          rw [show ((fun v => v - j2) ∘
              (fun a => ((cs.take j2).map (fun _ => (1 : Nat))).sum + a)) = id from
            funext (fun a => by
              show ((cs.take j2).map (fun _ => (1 : Nat))).sum + a - j2 = a
              have hbl : ((cs.take j2).map (fun _ => (1 : Nat))).sum = j2 := htl
              omega)]
          simp
        have hnxnotms1 : nx0 ∉ ms1 := by
          intro h
          have h2 : @LE.le Nat instLENat (t.next_node + 1) nx0 := (F1.ms_fresh nx0 h).1
          omega
        have hlknx5 : lookupA t5.nodes nx0 =
            some ⟨withPrev nd.data t.next_node, nd.parent⟩ := by
          rw [F1.frame nx0 hnx0ne_n hnxnotms1 hfnenx.symm]
          show lookupA (insertA (insertA (insertA (insertA t.nodes n
            (⟨.arraySegment p t.next_node (cs.take j2)
              (ids0.take (ids0.length / 2)), npar⟩ : Node Id)) t.next_node
            (⟨.arraySegment n nx0 [] [], npar⟩ : Node Id)) nx0
            (⟨withPrev nd.data t.next_node, nd.parent⟩ : Node Id)) t.next_node
            (⟨.arraySegment n nx0 (cs.drop j2) ((ids0.drop (ids0.length / 2)).map
              (fun q => (q.1, q.2.map (fun v => v - j2)))),
              npar⟩ : Node Id)) nx0 = _
          rw [lookupA_insertA_ne _ _ _ _ hfnenx]
          exact lookupA_insertA_self _ _ _
        have hringF : ringNode (withPrev nd.data t.next_node) = Bool.true := by
          rw [ringNode_withPrev]
          exact hring
        have hcontS2 : ∀ x ∈ (((ids0.drop (ids0.length / 2)).map
            (fun q => (q.1, q.2.map (fun v => v - j2)))).map
              Prod.fst),
            containsA t5.id_to_node x = Bool.true := by
          intro x hx
          rw [F1.id_map x]
          show containsA m' x = Bool.true
          rw [hmpres x]
          exact hcontsh x hx
        obtain ⟨t6, r2, ms2, idss2, hrec2, F2⟩ := ih t5 t.next_node ndxF
          ((ids0.drop (ids0.length / 2)).map
            (fun q => (q.1, q.2.map (fun v => v - j2))))
          nx0 ⟨withPrev nd.data t.next_node, nd.parent⟩
          hlkF5 hidsF hnxF hoffF hlknx5 hringF hfnenx F1.nodesND F1.klt
          hcontS2 hlen2'
        have hms2b : ∀ m ∈ ms2,
            (@LE.le Nat instLENat t5.next_node m ∧
              @LT.lt Nat instLTNat m t6.next_node) :=
          fun m hm => F2.ms_fresh m hm
        have h56 : @LE.le Nat instLENat t5.next_node t6.next_node :=
          F2.next_mono
        have hobs_left : ∀ s ∈ n :: ms1,
            lookupA t6.nodes s = lookupA t5.nodes s := by
          intro s hs
          rcases List.mem_cons.1 hs with rfl | hs
          · refine F2.frame s hnne_f (fun hc => ?_) hne
            have h2 : @LE.le Nat instLENat t5.next_node s := (hms2b s hc).1
            omega
          · have hb := hms1b s hs
            refine F2.frame s ((by omega : @Ne Nat s t.next_node))
              (fun hc => ?_) ((by omega : @Ne Nat s nx0))
            have h2 : @LE.le Nat instLENat t5.next_node s := (hms2b s hc).1
            omega
        have hchain6left : chainW t6 n (n :: ms1) t.next_node :=
          chainW_frame_lookup t5 t6 _ _ _ hobs_left F1.chain
        have hids6left : List.Forall₂ (fun m l => obsIds t6 m = some l)
            (n :: ms1) idss1 :=
          forall₂_ids_frame t5 t6 _ _ hobs_left F1.ids_all
        have hidsT : List.Forall₂ (fun m l => obsIds t6 m = some l)
            ((n :: ms1) ++ (t.next_node :: ms2)) (idss1 ++ idss2) :=
          forall₂_append_rel hids6left F2.ids_all
        have hbig1 : ∀ l ∈ idss1, JOIN_LEN < l.length := by
          rcases F1.triv_or_big with ⟨h5eq, _, hms1nil⟩ | hbig
          · intro l hl
            subst hms1nil
            cases F1.ids_all with
            | cons hh htl =>
            cases htl
            rcases List.mem_cons.1 hl with rfl | hl
            · replace hh : (lookupA t5.nodes n).bind
                  (fun nd => nd.data.segmentIds?) = some l := hh
              rw [h5eq] at hh
              replace hh : (lookupA (insertA (insertA (insertA (insertA
                t.nodes n (⟨.arraySegment p t.next_node (cs.take j2)
                  (ids0.take (ids0.length / 2)), npar⟩ : Node Id)) t.next_node
                (⟨.arraySegment n nx0 [] [], npar⟩ : Node Id)) nx0
                (⟨withPrev nd.data t.next_node, nd.parent⟩ : Node Id))
                t.next_node
                (⟨.arraySegment n nx0 (cs.drop j2)
                  ((ids0.drop (ids0.length / 2)).map
                    (fun q => (q.1, q.2.map
                      (fun v => v - j2)))),
                  npar⟩ : Node Id)) n).bind
                  (fun nd => nd.data.segmentIds?) = some l := hh
              rw [hlkSn] at hh
              replace hh : some (ids0.take (ids0.length / 2)) = some l := hh
              obtain rfl : ids0.take (ids0.length / 2) = l :=
                Option.some.inj hh
              show JOIN_LEN < (ids0.take (ids0.length / 2)).length
              simp only [JOIN_LEN, List.length_take]
              omega
            · exact absurd hl (List.not_mem_nil l)
          · exact hbig
        have hbig2 : ∀ l ∈ idss2, JOIN_LEN < l.length := by
          rcases F2.triv_or_big with ⟨h6eq, _, hms2nil⟩ | hbig
          · intro l hl
            subst hms2nil
            cases F2.ids_all with
            | cons hh htl =>
            cases htl
            rcases List.mem_cons.1 hl with rfl | hl
            · replace hh : (lookupA t6.nodes t.next_node).bind
                  (fun nd => nd.data.segmentIds?) = some l := hh
              rw [h6eq] at hh
              replace hh : (lookupA t5.nodes t.next_node).bind
                  (fun nd => nd.data.segmentIds?) = some l := hh
              rw [hlkF5] at hh
              replace hh : ndxF.data.segmentIds? = some l := hh
              rw [hidsF] at hh
              obtain rfl : ((ids0.drop (ids0.length / 2)).map
                  (fun q => (q.1, q.2.map
                    (fun v => v - j2)))) = l :=
                Option.some.inj hh
              show JOIN_LEN < (((ids0.drop (ids0.length / 2)).map
                (fun q => (q.1, q.2.map
                  (fun v => v - j2))))).length
              simp only [JOIN_LEN, List.length_map, List.length_drop]
              omega
            · exact absurd hl (List.not_mem_nil l)
          · exact hbig
        have hbigT : ∀ l ∈ idss1 ++ idss2, JOIN_LEN < l.length := by
          intro l hl
          rcases List.mem_append.1 hl with h | h
          · exact hbig1 l h
          · exact hbig2 l h
        have hnodupT : (n :: (ms1 ++ t.next_node :: ms2)).Nodup := by
          have h1 : (n :: ms1).Nodup := F1.nodup
          have h2 : ((t.next_node : NodeId) :: ms2).Nodup := F2.nodup
          have hd : List.Disjoint (n :: ms1) (t.next_node :: ms2) := by
            intro a ha hb
            have hA' : @Eq Nat a n ∨
                (@LE.le Nat instLENat (t.next_node + 1) a ∧
                  @LT.lt Nat instLTNat a t5.next_node) := by
              rcases List.mem_cons.1 ha with rfl | ha
              · exact Or.inl rfl
              · exact Or.inr (hms1b a ha)
            have hB' : @Eq Nat a t.next_node ∨
                (@LE.le Nat instLENat t5.next_node a ∧
                  @LT.lt Nat instLTNat a t6.next_node) := by
              rcases List.mem_cons.1 hb with rfl | hb
              · exact Or.inl rfl
              · exact Or.inr (hms2b a hb)
            rcases hA' with h | ⟨ha1, ha2⟩ <;>
              rcases hB' with h' | ⟨hb1, hb2⟩ <;> omega
          have h3 := List.Nodup.append h1 h2 hd
          simpa using h3
        refine ⟨t6, r2, ms1 ++ t.next_node :: ms2, idss1 ++ idss2, ?_, ?_⟩
        · rw [consider_split]
          simp only [hn]
          rw [if_neg hsmall]
          rw [hgd']
          rw [if_pos hj2le]
          simp only [hins, hred, hlkF, hrec1, hrec2]
        · refine ⟨Or.inr hbigT, ?_,
            ((by omega : @LE.le Nat instLENat t.next_node t6.next_node)), hnodupT, ?_,
            F2.nodesND, F2.klt, ?_, ?_, ?_, ?_, ?_, ?_, ?_, ?_, ?_⟩
          · intro m hm
            rcases List.mem_append.1 hm with hm | hm
            · have hb := hms1b m hm
              exact ⟨(by omega : @LE.le Nat instLENat t.next_node m),
                (by omega : @LT.lt Nat instLTNat m t6.next_node)⟩
            rcases List.mem_cons.1 hm with rfl | hm
            · exact ⟨le_refl _,
                (by omega : @LT.lt Nat instLTNat t.next_node t6.next_node)⟩
            · have hb := hms2b m hm
              exact ⟨(by omega : @LE.le Nat instLENat t.next_node m),
                (by omega : @LT.lt Nat instLTNat m t6.next_node)⟩
          · rw [F2.last_eq]
            exact (getLast_append_ne (n :: ms1) (t.next_node :: ms2)
              (by simp) (by simp)).symm
          · intro k hk
            apply F2.keys_mono
            apply F1.keys_mono
            show k ∈ ((insertA (insertA (insertA (insertA t.nodes n
              (⟨.arraySegment p t.next_node (cs.take j2)
                (ids0.take (ids0.length / 2)), npar⟩ : Node Id)) t.next_node
              (⟨.arraySegment n nx0 [] [], npar⟩ : Node Id)) nx0
              (⟨withPrev nd.data t.next_node, nd.parent⟩ : Node Id)) t.next_node
              (⟨.arraySegment n nx0 (cs.drop j2)
                ((ids0.drop (ids0.length / 2)).map
                  (fun q => (q.1, q.2.map (fun v => v - j2)))),
                npar⟩ : Node Id)).map Prod.fst)
            exact (mem_keys_insertA _ _ _ _).2 (Or.inl
              ((mem_keys_insertA _ _ _ _).2 (Or.inl
                ((mem_keys_insertA _ _ _ _).2 (Or.inl
                  ((mem_keys_insertA _ _ _ _).2 (Or.inl hk)))))))
          · intro y
            rw [F2.id_map y, F1.id_map y]
            show containsA m' y = containsA t.id_to_node y
            exact hmpres y
          · intro j hjn hjms hjnx
            have hjms1 : j ∉ ms1 := fun h =>
              hjms (List.mem_append.2 (Or.inl h))
            have hjF : j ≠ t.next_node := fun h => hjms
              (List.mem_append.2 (Or.inr (h ▸ List.mem_cons_self _ _)))
            have hjms2 : j ∉ ms2 := fun h => hjms
              (List.mem_append.2 (Or.inr (List.mem_cons_of_mem _ h)))
            rw [F2.frame j hjF hjms2 hjnx, F1.frame j hjn hjms1 hjF]
            show lookupA (insertA (insertA (insertA (insertA t.nodes n
              (⟨.arraySegment p t.next_node (cs.take j2)
                (ids0.take (ids0.length / 2)), npar⟩ : Node Id)) t.next_node
              (⟨.arraySegment n nx0 [] [], npar⟩ : Node Id)) nx0
              (⟨withPrev nd.data t.next_node, nd.parent⟩ : Node Id)) t.next_node
              (⟨.arraySegment n nx0 (cs.drop j2)
                ((ids0.drop (ids0.length / 2)).map
                  (fun q => (q.1, q.2.map (fun v => v - j2)))),
                npar⟩ : Node Id)) j = lookupA t.nodes j
            rw [lookupA_insertA_ne _ _ _ _ hjF.symm,
              lookupA_insertA_ne _ _ _ _ hjnx.symm,
              lookupA_insertA_ne _ _ _ _ hjF.symm,
              lookupA_insertA_ne _ _ _ _ hjn.symm]
          · obtain ⟨ndx2, hlk2, hsh2, hprev2⟩ := F2.nbr
            refine ⟨ndx2, hlk2,
              sameShape_trans (sameShape_withPrev nd.data t.next_node) hsh2,
              Or.inr ?_⟩
            rcases hprev2 with ⟨hms2nil, hndx2⟩ | hp2
            · have hr2 : r2 = t.next_node := by
                have h2 := F2.last_eq
                rw [hms2nil] at h2
                simpa using h2
              rw [hndx2, hr2]
              show segPrev? (withPrev nd.data t.next_node) =
                (segPrev? nd.data).map (fun _ => t.next_node)
              exact segPrev?_withPrev _ _
            · rw [hp2]
              show (segPrev? (withPrev nd.data t.next_node)).map
                (fun _ => r2) = (segPrev? nd.data).map (fun _ => r2)
              rw [segPrev?_withPrev]
              cases segPrev? nd.data <;> rfl
          · show chainW t6 n ((n :: ms1) ++ (t.next_node :: ms2)) nx0
            exact (chainW_append t6 (n :: ms1) (t.next_node :: ms2) n nx0).2
              ⟨t.next_node, hchain6left, F2.chain⟩
          · show List.Forall₂ (fun m l => obsIds t6 m = some l)
              ((n :: ms1) ++ (t.next_node :: ms2)) (idss1 ++ idss2)
            exact hidsT
          · rw [foldr_append_concat]
            have h1 : Repositioned (ids0.take (ids0.length / 2))
                (idss1.foldr (· ++ ·) []) := F1.rep
            have h2 : Repositioned (ids0.drop (ids0.length / 2))
                (idss2.foldr (· ++ ·) []) :=
              rep_trans (rep_shift _ _) F2.rep
            have h3 := rep_append h1 h2
            rw [List.take_append_drop] at h3
            exact h3
          · obtain ⟨node5, hlk5, hp5⟩ := F1.prev_keep
            refine ⟨node5, ?_, ?_⟩
            · rw [hobs_left n (List.mem_cons_self _ _)]
              exact hlk5
            · rw [hp5]
              rfl
          · right
            rcases F2.last_prev with hms2nil |
              ⟨nodr, pp, lpp, hlkr, hpr, hppmem, hoids, hbigl⟩
            · have hr2 : r2 = t.next_node := by
                have h2 := F2.last_eq
                rw [hms2nil] at h2
                simpa using h2
              obtain ⟨nodF6, hlkF6, hpF6⟩ := F2.prev_keep
              have hppex : ∃ pp, segPrev? ndxF.data = some pp ∧
                  pp ∈ n :: ms1 := by
                rcases hprevF with ⟨_, hndxF⟩ | hpF
                · refine ⟨n, ?_, List.mem_cons_self _ _⟩
                  rw [hndxF]
                  rfl
                · refine ⟨r1, ?_, ?_⟩
                  · rw [hpF]
                    rfl
                  · rw [F1.last_eq]
                    exact List.getLast_mem _
              obtain ⟨pp, hpp, hppmem1⟩ := hppex
              have hmemT : pp ∈ n :: (ms1 ++ t.next_node :: ms2) := by
                rcases List.mem_cons.1 hppmem1 with rfl | h
                · exact List.mem_cons_self _ _
                · exact List.mem_cons_of_mem _ (List.mem_append.2 (Or.inl h))
              obtain ⟨lpp, hlppmem, hlppobs⟩ := forall₂_mem_left hidsT
                (show pp ∈ (n :: ms1) ++ (t.next_node :: ms2) from
                  List.mem_append.2 (Or.inl hppmem1))
              refine ⟨nodF6, pp, lpp, ?_, ?_, hmemT, hlppobs,
                hbigT lpp hlppmem⟩
              · rw [hr2]
                exact hlkF6
              · rw [hpF6]
                exact hpp
            · refine ⟨nodr, pp, lpp, hlkr, hpr, ?_, hoids, hbigl⟩
              rcases List.mem_cons.1 hppmem with rfl | h
              · exact List.mem_cons_of_mem _ (List.mem_append.2
                  (Or.inr (List.mem_cons_self _ _)))
              · exact List.mem_cons_of_mem _ (List.mem_append.2
                  (Or.inr (List.mem_cons_of_mem _ h)))

theorem segPrev?_some_ids (d : NodeData Id) (p : NodeId)
    (h : segPrev? d = some p) : ∃ ids, d.segmentIds? = some ids := by
  cases d <;> simp [segPrev?, NodeData.segmentIds?] at h ⊢

theorem ringNode_of_segNext (d : NodeData Id) (x : NodeId)
    (h : segNext? d = some x) : ringNode d = Bool.true := by
  cases d <;> first | rfl | exact absurd h (by simp [segNext?])

theorem ctorIdx_string (d : NodeData Id) (h : ctorIdx d = 1) :
    ∃ a b c, d = NodeData.string a b c := by
  cases d with
  | string a b c => exact ⟨a, b, c, rfl⟩
  | object x y => exact absurd h (by simp [ctorIdx])
  | array a b c => exact absurd h (by simp [ctorIdx])
  | stringSegment a b c e => exact absurd h (by simp [ctorIdx])
  | arraySegment a b c e => exact absurd h (by simp [ctorIdx])

theorem ctorIdx_array (d : NodeData Id) (h : ctorIdx d = 2) :
    ∃ a b c, d = NodeData.array a b c := by
  cases d with
  | array a b c => exact ⟨a, b, c, rfl⟩
  | object x y => exact absurd h (by simp [ctorIdx])
  | string a b c => exact absurd h (by simp [ctorIdx])
  | stringSegment a b c e => exact absurd h (by simp [ctorIdx])
  | arraySegment a b c e => exact absurd h (by simp [ctorIdx])

theorem chainW_nodes (t : Tree Id) :
    ∀ (l : List NodeId) (cur stop : NodeId),
    chainW t cur l stop →
    ∀ s ∈ l, ∃ nds nxs, lookupA t.nodes s = some nds ∧
      segNext? nds.data = some nxs := by
  intro l
  induction l with
  | nil => intro cur stop _ s hs; cases hs
  | cons a rest ih =>
    rintro cur stop ⟨rfl, nxt, hn, h⟩ s hs
    rcases List.mem_cons.1 hs with rfl | hs
    · unfold obsNext at hn
      rcases hlk : lookupA t.nodes s with _ | nds
      · rw [hlk] at hn
        cases hn
      · rw [hlk] at hn
        exact ⟨nds, nxt, rfl, hn⟩
    · exact ih nxt stop h s hs

theorem consider_join_left (t : Tree Id) (seg pq : NodeId) (node : Node Id)
    (hlk : lookupA t.nodes seg = some node)
    (hp : segPrev? node.data = some pq) :
    consider_join t seg Bool.false = joinPair t pq seg := by
  unfold consider_join
  rw [hlk]
  rcases node with ⟨ndd, ndp⟩
  cases ndd with
  | object items oid => exact absurd hp (by simp [segPrev?])
  | string a b c => exact absurd hp (by simp [segPrev?])
  | array a b c => exact absurd hp (by simp [segPrev?])
  | stringSegment p nx cs ids =>
    obtain rfl : p = pq := by simpa [segPrev?] using hp
    simp
  | arraySegment p nx cs ids =>
    obtain rfl : p = pq := by simpa [segPrev?] using hp
    simp

theorem joinPair_noop_big (t : Tree Id) (lft rgt : NodeId) (ln rn : Node Id)
    (lids rids : List (Id × Option Nat))
    (h1 : lookupA t.nodes lft = some ln)
    (h2 : ln.data.segmentIds? = some lids)
    (h3 : lookupA t.nodes rgt = some rn)
    (h4 : rn.data.segmentIds? = some rids)
    (h5 : JOIN_LEN ≤ lids.length) : joinPair t lft rgt = some t := by
  unfold joinPair
  rw [h1]
  simp only [h2]
  rw [h3]
  simp only [h4]
  rw [if_pos (Or.inl h5)]

theorem joinPair_noop_container (t : Tree Id) (lft rgt : NodeId)
    (ln : Node Id)
    (h1 : lookupA t.nodes lft = some ln)
    (h2 : ln.data.segmentIds? = none)
    (h3 : ln.data.segmentIsContainer = Bool.true) :
    joinPair t lft rgt = some t := by
  unfold joinPair
  rw [h1]
  simp only [h2, h3, if_true]

theorem nodup_length_le {α : Type _} (u v : List α)
    (h1 : u.Nodup) (h2 : ∀ x ∈ u, x ∈ v) : u.length ≤ v.length :=
  (h1.subperm h2).length_le

theorem forall₂_ids_frame_obs (t t' : Tree Id) (l : List NodeId)
    (idss : List (List (Id × Option Nat)))
    (hobs : ∀ s ∈ l, obsIds t' s = obsIds t s)
    (h : List.Forall₂ (fun m li => obsIds t m = some li) l idss) :
    List.Forall₂ (fun m li => obsIds t' m = some li) l idss := by
  induction h with
  | nil => exact List.Forall₂.nil
  | cons hab hrest ih =>
    rename_i s li l2 idss2
    refine List.Forall₂.cons ?_
      (ih (fun x hx => hobs x (List.mem_cons_of_mem _ hx)))
    rw [hobs s (List.mem_cons_self _ _)]
    exact hab

theorem entriesOf_congr (t t' : Tree Id) :
    ∀ (ss : List NodeId),
    (∀ s ∈ ss, lookupA t'.nodes s = lookupA t.nodes s) →
    entriesOf t' ss = entriesOf t ss := by
  intro ss
  induction ss with
  | nil => intro _; rfl
  | cons a rest ih =>
    intro hobs
    unfold entriesOf at ih ⊢
    simp only [List.foldr_cons]
    rw [ih (fun x hx => hobs x (List.mem_cons_of_mem _ hx)),
      hobs a (List.mem_cons_self _ _)]

/-- The chain-side core of a tombstone-anchored insertion: after the write
of the spliced segment, `consider_split` succeeds, both joins are no-ops,
and the id-entry traversal of the sequence shows the new entry immediately
after the tombstone, with all other ids in place. -/
theorem tombstone_insert_entries (t : Tree Id) (c new_id : Id)
    (cont st n np nnx : NodeId) (cnode nodeN nodeI : Node Id)
    (l1 l2 l2s : List (Id × Option Nat)) (q : Nat) (s1 s2 : List NodeId)
    (hcont : lookupA t.nodes cont = some cnode)
    (hcshape : (∃ sp sid, cnode.data = NodeData.string st sp sid) ∨
               (∃ sp aid, cnode.data = NodeData.array st sp aid))
    (hsegs : seqSegs t cont = some (s1 ++ n :: s2))
    (hsnd : (s1 ++ n :: s2).Nodup)
    (hnode : lookupA t.nodes n = some nodeN)
    (hnids : nodeN.data.segmentIds? = some (l1 ++ (c, none) :: l2))
    (hnnxp : segNext? nodeN.data = some nnx)
    (hIids : nodeI.data.segmentIds? =
      some (l1 ++ (c, none) :: (new_id, some q) :: l2s))
    (hInx : segNext? nodeI.data = some nnx)
    (hIprev : segPrev? nodeI.data = some np)
    (hIoffs : segOffsetsB nodeI.data = Bool.true)
    (hl2s : l2s.map Prod.fst = l2.map Prod.fst)
    (hall : ∀ x ∈ (l1 ++ (c, none) :: l2).map Prod.fst,
      containsA t.id_to_node x = Bool.true)
    (hND : NodesND t) (hKLT : KeysLT t)
    (hprev : np = cont ∨ (np ≠ n ∧ ∃ pn plids, lookupA t.nodes np = some pn ∧
      pn.data.segmentIds? = some plids ∧ JOIN_LEN ≤ plids.length)) :
    ∃ E1 E2 t6 r,
      seqIdEntries t cont = some (E1 ++ (c, none) :: E2) ∧
      consider_split ((l1 ++ (c, none) :: (new_id, some q) :: l2s).length + 1)
        { t with
          nodes := (insertA t.nodes n nodeI),
          id_to_node := insertA t.id_to_node new_id n } n =
        some (t6, n, r) ∧
      consider_join t6 n Bool.false = some t6 ∧
      consider_join t6 r Bool.false = some t6 ∧
      ∃ q2 E1b E2b,
        seqIdEntries t6 cont =
          some (E1b ++ (c, none) :: (new_id, some q2) :: E2b) ∧
        E1b.map Prod.fst = E1.map Prod.fst ∧
        E2b.map Prod.fst = E2.map Prod.fst := by
  have hchainFrom : chainFrom t cont (t.nodes.length + 1) st =
      some (s1 ++ n :: s2) := by
    rcases hcshape with ⟨sp, sid, hd⟩ | ⟨sp, aid, hd⟩ <;>
      simpa only [seqSegs, hcont, hd] using hsegs
  obtain ⟨hchainW, hnotcont⟩ := chainFrom_sound t cont _ st _ hchainFrom
  obtain ⟨mid1, hchainA, hchainB⟩ :=
    (chainW_append t s1 (n :: s2) st cont).1 hchainW
  obtain ⟨hmid, nxt, hobsn, hchainC⟩ := hchainB
  subst mid1
  have hobsn2 : segNext? nodeN.data = some nxt := by
    unfold obsNext at hobsn
    rw [hnode] at hobsn
    exact hobsn
  have hnxteq : nxt = nnx := by
    rw [hnnxp] at hobsn2
    exact (Option.some.inj hobsn2).symm
  subst nxt
  have hnecont : n ≠ cont := hnotcont n (by simp)
  have hnltN : @LT.lt Nat instLTNat n t.next_node :=
    hKLT (n, nodeN) (mem_of_lookupA hnode)
  have hcontlt : @LT.lt Nat instLTNat cont t.next_node :=
    hKLT (cont, cnode) (mem_of_lookupA hcont)
  have hsnd2 : (n :: (s1 ++ s2)).Nodup := List.nodup_middle.1 hsnd
  have hnmem : n ∉ s1 ++ s2 := (List.nodup_cons.1 hsnd2).1
  have hs12nd : (s1 ++ s2).Nodup := (List.nodup_cons.1 hsnd2).2
  have hnnx_cases : nnx = cont ∨ nnx ∈ s2 := by
    cases s2 with
    | nil => exact Or.inl hchainC
    | cons b s2x =>
      exact Or.inr (hchainC.1 ▸ List.mem_cons_self _ _)
  have hnnxfacts : ∃ nd, lookupA t.nodes nnx = some nd ∧
      ringNode nd.data = Bool.true := by
    rcases hnnx_cases with rfl | h2
    · refine ⟨cnode, hcont, ?_⟩
      rcases hcshape with ⟨sp, sid, hd⟩ | ⟨sp, aid, hd⟩ <;> rw [hd] <;> rfl
    · obtain ⟨nds, nxs, hlks, hnxs⟩ :=
        chainW_nodes t s2 nnx cont hchainC nnx h2
      exact ⟨nds, hlks, ringNode_of_segNext _ _ hnxs⟩
  obtain ⟨nd, hnnxlk, hnnxring⟩ := hnnxfacts
  have hnnxlt : @LT.lt Nat instLTNat nnx t.next_node :=
    hKLT (nnx, nd) (mem_of_lookupA hnnxlk)
  have hnne_nnx : n ≠ nnx := by
    rcases hnnx_cases with rfl | h2
    · exact hnecont
    · intro h
      exact hnmem (List.mem_append.2 (Or.inr (h ▸ h2)))
  have hlkIn : lookupA (insertA t.nodes n nodeI) n = some nodeI :=
    lookupA_insertA_self _ _ _
  have hlkInnx : lookupA (insertA t.nodes n nodeI) nnx = some nd := by
    rw [lookupA_insertA_ne _ _ _ _ hnne_nnx]
    exact hnnxlk
  have hNDI : NodesND ({ t with
      nodes := (insertA t.nodes n nodeI),
      id_to_node := insertA t.id_to_node new_id n } : Tree Id) := by
    unfold NodesND at hND ⊢
    exact nodup_insertA _ _ hND
  have hKLTI : KeysLT ({ t with
      nodes := (insertA t.nodes n nodeI),
      id_to_node := insertA t.id_to_node new_id n } : Tree Id) := by
    intro pq hpq
    show @LT.lt Nat instLTNat pq.1 t.next_node
    rcases mem_insertA hpq with rfl | hpq
    · exact hnltN
    · exact hKLT pq hpq
  have hcontI : ∀ x ∈ (l1 ++ (c, none) :: (new_id, some q) :: l2s).map
      Prod.fst,
      containsA (insertA t.id_to_node new_id n) x = Bool.true := by
    intro x hx
    by_cases hxn : x = new_id
    · subst hxn
      unfold containsA
      rw [lookupA_insertA_self]
      rfl
    · have hconv : containsA (insertA t.id_to_node new_id n) x =
          containsA t.id_to_node x := by
        unfold containsA
        rw [lookupA_insertA_ne _ _ _ _ (fun h => hxn h.symm)]
      rw [hconv]
      apply hall
      simp only [List.map_append, List.map_cons, List.mem_append,
        List.mem_cons] at hx ⊢
      rcases hx with h | h | h | h
      · exact Or.inl h
      · exact Or.inr (Or.inl h)
      · exact absurd h hxn
      · refine Or.inr (Or.inr ?_)
        rw [← hl2s]
        exact h
  obtain ⟨t6, r, ms, idss, hsplitrun, F⟩ :=
    consider_split_chain
      ((l1 ++ (c, none) :: (new_id, some q) :: l2s).length + 1)
      ({ t with
        nodes := (insertA t.nodes n nodeI),
        id_to_node := insertA t.id_to_node new_id n } : Tree Id)
      n nodeI (l1 ++ (c, none) :: (new_id, some q) :: l2s) nnx nd
      hlkIn hIids hInx hIoffs hlkInnx hnnxring hnne_nnx hNDI hKLTI hcontI
      (Nat.lt_succ_self _)
  have hmsb : ∀ m ∈ ms, (@LE.le Nat instLENat t.next_node m ∧
      @LT.lt Nat instLTNat m t6.next_node) :=
    fun m hm => F.ms_fresh m hm
  have hkeylt : ∀ s, s ∈ t.nodes.map Prod.fst →
      @LT.lt Nat instLTNat s t.next_node := by
    intro s hs
    obtain ⟨pq, hpq, rfl⟩ := List.mem_map.1 hs
    exact hKLT pq hpq
  have hnotms_of_key : ∀ s, s ∈ t.nodes.map Prod.fst → s ∉ ms := by
    intro s hsk hsm
    have h1 := hkeylt s hsk
    have h2 : @LE.le Nat instLENat t.next_node s := (hmsb s hsm).1
    omega
  have hcont6 : ∃ cnode6, lookupA t6.nodes cont = some cnode6 ∧
      SameShape cnode.data cnode6.data := by
    by_cases hcnnx : cont = nnx
    · obtain ⟨ndx, hlknx6, hsh, _⟩ := F.nbr
      have hndc : nd = cnode := by
        rw [← hcnnx] at hnnxlk
        rw [hcont] at hnnxlk
        exact (Option.some.inj hnnxlk).symm
      refine ⟨ndx, by rw [hcnnx]; exact hlknx6, ?_⟩
      rw [← hndc]
      exact hsh
    · have hcnotms : cont ∉ ms :=
        hnotms_of_key cont (lookupA_some_mem_keys hcont)
      refine ⟨cnode, ?_, sameShape_refl _⟩
      rw [F.frame cont (fun h => hnecont h.symm) hcnotms hcnnx]
      show lookupA (insertA t.nodes n nodeI) cont = _
      rw [lookupA_insertA_ne _ _ _ _ hnecont]
      exact hcont
  obtain ⟨cnode6, hlkc6, hshc⟩ := hcont6
  obtain ⟨nodeL, hlkL, hprevL⟩ := F.prev_keep
  have hprevL2 : segPrev? nodeL.data = some np := by
    rw [hprevL, hIprev]
  obtain ⟨nids, hnidsL⟩ := segPrev?_some_ids _ _ hprevL2
  have hjoin1 : consider_join t6 n Bool.false = some t6 := by
    rw [consider_join_left t6 n np nodeL hlkL hprevL2]
    rcases hprev with rfl | ⟨hnpne, pn, plids, hlkpn, hpnids, hpnbig⟩
    · refine joinPair_noop_container t6 np n cnode6 hlkc6 ?_ ?_
      · rw [hshc.1]
        rcases hcshape with ⟨sp, sid, hd⟩ | ⟨sp, aid, hd⟩ <;> rw [hd] <;> rfl
      · rw [hshc.2.2.2.1]
        rcases hcshape with ⟨sp, sid, hd⟩ | ⟨sp, aid, hd⟩ <;> rw [hd] <;> rfl
    · have hnplt : @LT.lt Nat instLTNat np t.next_node :=
        hKLT (np, pn) (mem_of_lookupA hlkpn)
      by_cases hnpnnx : np = nnx
      · obtain ⟨ndx, hlknx6, hsh, _⟩ := F.nbr
        have hpn_nd : pn = nd := by
          rw [hnpnnx] at hlkpn
          rw [hlkpn] at hnnxlk
          exact Option.some.inj hnnxlk
        refine joinPair_noop_big t6 np n ndx nodeL plids nids
          (by rw [hnpnnx]; exact hlknx6) ?_ hlkL hnidsL hpnbig
        rw [hsh.1, ← hpn_nd]
        exact hpnids
      · have hnpnotms : np ∉ ms :=
          hnotms_of_key np (lookupA_some_mem_keys hlkpn)
        have hlknp6 : lookupA t6.nodes np = some pn := by
          rw [F.frame np hnpne hnpnotms hnpnnx]
          show lookupA (insertA t.nodes n nodeI) np = _
          rw [lookupA_insertA_ne _ _ _ _ (fun h => hnpne h.symm)]
          exact hlkpn
        exact joinPair_noop_big t6 np n pn nodeL plids nids hlknp6 hpnids
          hlkL hnidsL hpnbig
  have hjoin2 : consider_join t6 r Bool.false = some t6 := by
    rcases F.last_prev with hmsnil |
      ⟨nodr, pp, lpp, hlkr, hpr, hppmem, hoids, hbigl⟩
    · have hr : r = n := by
        have h2 := F.last_eq
        rw [hmsnil] at h2
        simpa using h2
      rw [hr]
      exact hjoin1
    · rw [consider_join_left t6 r pp nodr hlkr hpr]
      obtain ⟨rids, hrids⟩ := segPrev?_some_ids _ _ hpr
      unfold obsIds at hoids
      rcases hlkpp : lookupA t6.nodes pp with _ | ndpp
      · rw [hlkpp] at hoids
        cases hoids
      · rw [hlkpp] at hoids
        replace hoids : ndpp.data.segmentIds? = some lpp := hoids
        exact joinPair_noop_big t6 pp r ndpp nodr lpp rids hlkpp hoids
          hlkr hrids (le_of_lt hbigl)
  obtain ⟨idssA, hidssA⟩ := chainW_forall₂_ids t s1 st n hchainA
  obtain ⟨idssB, hidssB⟩ := chainW_forall₂_ids t s2 nnx cont hchainC
  have hmidn : obsIds t n = some (l1 ++ (c, none) :: l2) := by
    unfold obsIds
    rw [hnode]
    exact hnids
  have hFall : List.Forall₂ (fun s li => obsIds t s = some li)
      (s1 ++ n :: s2) (idssA ++ (l1 ++ (c, none) :: l2) :: idssB) :=
    forall₂_append_rel hidssA (List.Forall₂.cons hmidn hidssB)
  have hEnt : entriesOf t (s1 ++ n :: s2) =
      some ((idssA ++ (l1 ++ (c, none) :: l2) :: idssB).foldr (· ++ ·) []) :=
    entriesOf_forall₂ t _ _ hFall
  have hflat0 : (idssA ++ (l1 ++ (c, none) :: l2) :: idssB).foldr
      (· ++ ·) [] =
      (idssA.foldr (· ++ ·) [] ++ l1) ++
        (c, none) :: (l2 ++ idssB.foldr (· ++ ·) []) := by
    rw [foldr_append_concat]
    simp [List.append_assoc]
  have hentT : seqIdEntries t cont =
      some ((idssA.foldr (· ++ ·) [] ++ l1) ++
        (c, none) :: (l2 ++ idssB.foldr (· ++ ·) [])) := by
    rw [seqIdEntries_entriesOf t cont _ hsegs, hEnt, hflat0]
  have hs1sub : ∀ s ∈ s1, s ∈ t.nodes.map Prod.fst :=
    chainW_mem_keys t s1 st n hchainA
  have hs2sub : ∀ s ∈ s2, s ∈ t.nodes.map Prod.fst :=
    chainW_mem_keys t s2 nnx cont hchainC
  have hfr1 : ∀ s ∈ s1, lookupA t6.nodes s = lookupA t.nodes s := by
    intro s hs
    have hsn : s ≠ n := fun h =>
      hnmem (List.mem_append.2 (Or.inl (h ▸ hs)))
    have hsnnx : s ≠ nnx := by
      rcases hnnx_cases with rfl | h2
      · exact hnotcont s (List.mem_append.2 (Or.inl hs))
      · intro h
        exact (List.disjoint_of_nodup_append hs12nd) hs (h ▸ h2)
    rw [F.frame s hsn (hnotms_of_key s (hs1sub s hs)) hsnnx]
    show lookupA (insertA t.nodes n nodeI) s = _
    rw [lookupA_insertA_ne _ _ _ _ (fun h => hsn h.symm)]
  have hobs2 : ∀ s ∈ s2, obsNext t6 s = obsNext t s ∧
      obsIds t6 s = obsIds t s := by
    intro s hs
    by_cases hsnnx : s = nnx
    · subst hsnnx
      obtain ⟨ndx, hlknx6, hsh, _⟩ := F.nbr
      constructor
      · unfold obsNext
        rw [hlknx6, hnnxlk]
        show segNext? ndx.data = segNext? nd.data
        exact hsh.2.1
      · unfold obsIds
        rw [hlknx6, hnnxlk]
        show ndx.data.segmentIds? = nd.data.segmentIds?
        exact hsh.1
    · have hsn : s ≠ n := fun h =>
        hnmem (List.mem_append.2 (Or.inr (h ▸ hs)))
      have heq : lookupA t6.nodes s = lookupA t.nodes s := by
        rw [F.frame s hsn (hnotms_of_key s (hs2sub s hs)) hsnnx]
        show lookupA (insertA t.nodes n nodeI) s = _
        rw [lookupA_insertA_ne _ _ _ _ (fun h => hsn h.symm)]
      constructor
      · unfold obsNext
        rw [heq]
      · unfold obsIds
        rw [heq]
  have hchainA6 : chainW t6 st s1 n :=
    chainW_frame t t6 s1 st n
      (fun s hs => by unfold obsNext; rw [hfr1 s hs]) hchainA
  have hchainC6 : chainW t6 nnx s2 cont :=
    chainW_frame t t6 s2 nnx cont (fun s hs => (hobs2 s hs).1) hchainC
  have hchainFull : chainW t6 st (s1 ++ ((n :: ms) ++ s2)) cont := by
    refine (chainW_append t6 s1 ((n :: ms) ++ s2) st cont).2
      ⟨n, hchainA6, ?_⟩
    exact (chainW_append t6 (n :: ms) s2 n cont).2 ⟨nnx, F.chain, hchainC6⟩
  have hnotcont2 : ∀ s ∈ s1 ++ ((n :: ms) ++ s2), s ≠ cont := by
    intro s hs
    rcases List.mem_append.1 hs with h | h
    · exact hnotcont s (List.mem_append.2 (Or.inl h))
    rcases List.mem_append.1 h with h | h
    · rcases List.mem_cons.1 h with rfl | h
      · exact hnecont
      · intro hc
        have h2 : @LE.le Nat instLENat t.next_node s := (hmsb s h).1
        subst hc
        omega
    · exact hnotcont s (List.mem_append.2 (Or.inr (List.mem_cons_of_mem _ h)))
  have hndsegs2 : (s1 ++ ((n :: ms) ++ s2)).Nodup := by
    have hperm : (s1 ++ ((n :: ms) ++ s2)).Perm ((s1 ++ n :: s2) ++ ms) := by
      have h1 : (ms ++ s2).Perm (s2 ++ ms) := List.perm_append_comm
      have h2 : (n :: (ms ++ s2)).Perm (n :: (s2 ++ ms)) := h1.cons n
      have h3 : (s1 ++ (n :: (ms ++ s2))).Perm (s1 ++ (n :: (s2 ++ ms))) :=
        List.Perm.append_left s1 h2
      have he1 : s1 ++ ((n :: ms) ++ s2) = s1 ++ (n :: (ms ++ s2)) := by simp
      have he2 : (s1 ++ n :: s2) ++ ms = s1 ++ (n :: (s2 ++ ms)) := by simp
      rw [he1, he2]
      exact h3
    have hdisj : List.Disjoint (s1 ++ n :: s2) ms := by
      intro a ha ham
      have hak : a ∈ t.nodes.map Prod.fst := by
        rcases List.mem_append.1 ha with h | h
        · exact hs1sub a h
        rcases List.mem_cons.1 h with rfl | h
        · exact lookupA_some_mem_keys hnode
        · exact hs2sub a h
      exact hnotms_of_key a hak ham
    exact (hperm.nodup_iff).mpr
      (List.Nodup.append hsnd (List.nodup_cons.1 F.nodup).2 hdisj)
  have hlencheck : (s1 ++ ((n :: ms) ++ s2)).length < t6.nodes.length + 1 := by
    have hsub : ∀ x ∈ s1 ++ ((n :: ms) ++ s2), x ∈ t6.nodes.map Prod.fst :=
      chainW_mem_keys t6 _ st cont hchainFull
    have hle := nodup_length_le _ (t6.nodes.map Prod.fst) hndsegs2 hsub
    have hkeys : (t6.nodes.map Prod.fst).length = t6.nodes.length := by simp
    omega
  have hchainFrom6 : chainFrom t6 cont (t6.nodes.length + 1) st =
      some (s1 ++ ((n :: ms) ++ s2)) :=
    chainFrom_of_chainW t6 cont _ st hchainFull hnotcont2 _ hlencheck
  have hsegs6 : seqSegs t6 cont = some (s1 ++ ((n :: ms) ++ s2)) := by
    rcases hcshape with ⟨sp, sid, hd⟩ | ⟨sp, aid, hd⟩
    · obtain ⟨a, b, c2, hda⟩ := ctorIdx_string cnode6.data
        (by rw [hshc.2.2.2.2.2, hd]; rfl)
      have hst : a = st := by
        have h := hshc.2.2.1
        rw [hda, hd] at h
        simpa [contStart?] using h
      subst hst
      simp only [seqSegs, hlkc6, hda]
      exact hchainFrom6
    · obtain ⟨a, b, c2, hda⟩ := ctorIdx_array cnode6.data
        (by rw [hshc.2.2.2.2.2, hd]; rfl)
      have hst : a = st := by
        have h := hshc.2.2.1
        rw [hda, hd] at h
        simpa [contStart?] using h
      subst hst
      simp only [seqSegs, hlkc6, hda]
      exact hchainFrom6
  have hA6 : List.Forall₂ (fun m li => obsIds t6 m = some li) s1 idssA :=
    forall₂_ids_frame t t6 s1 idssA hfr1 hidssA
  have hB6 : List.Forall₂ (fun m li => obsIds t6 m = some li) s2 idssB :=
    forall₂_ids_frame_obs t t6 s2 idssB (fun s hs => (hobs2 s hs).2) hidssB
  have hFall6 : List.Forall₂ (fun m li => obsIds t6 m = some li)
      (s1 ++ ((n :: ms) ++ s2)) (idssA ++ (idss ++ idssB)) :=
    forall₂_append_rel hA6 (forall₂_append_rel F.ids_all hB6)
  have hEnt6 : entriesOf t6 (s1 ++ ((n :: ms) ++ s2)) =
      some ((idssA ++ (idss ++ idssB)).foldr (· ++ ·) []) :=
    entriesOf_forall₂ t6 _ _ hFall6
  obtain ⟨Fl1, b, Fl2, hdec, hrepl1, hb1, hb2, hrepl2⟩ := rep_decomp F.rep
  have hbc : b = (c, none) := by
    obtain ⟨b1, b2⟩ := b
    cases b2 with
    | none =>
      replace hb1 : c = b1 := hb1
      rw [← hb1]
    | some v =>
      simp at hb2
  subst hbc
  cases hrepl2 with
  | cons hbb hrl2 =>
  rename_i b2 Fl2x
  obtain ⟨b21, b22⟩ := b2
  obtain ⟨hbb1, hbb2⟩ := hbb
  cases b22 with
  | none => simp at hbb2
  | some q2 =>
  replace hbb1 : new_id = b21 := hbb1
  obtain rfl : new_id = b21 := hbb1
  have hflat6 : (idssA ++ (idss ++ idssB)).foldr (· ++ ·) [] =
      (idssA.foldr (· ++ ·) [] ++ Fl1) ++
        (c, none) :: (new_id, some q2) ::
          (Fl2x ++ idssB.foldr (· ++ ·) []) := by
    rw [foldr_append_concat, foldr_append_concat, hdec]
    simp [List.append_assoc]
  refine ⟨idssA.foldr (· ++ ·) [] ++ l1,
    l2 ++ idssB.foldr (· ++ ·) [], t6, r, hentT, hsplitrun, hjoin1, hjoin2,
    q2, idssA.foldr (· ++ ·) [] ++ Fl1,
    Fl2x ++ idssB.foldr (· ++ ·) [], ?_, ?_, ?_⟩
  · rw [seqIdEntries_entriesOf t6 cont _ hsegs6, hEnt6, hflat6]
  · simp only [List.map_append]
    rw [rep_map_fst hrepl1]
  · simp only [List.map_append]
    rw [rep_map_fst hrl2, hl2s]

/-- Tombstone-anchored character insertion into any segment of a
multi-segment string: it succeeds and the new character's entry lands
immediately after the tombstone in the id-entry traversal. -/
theorem insert_character_tombstone_multi (t : Tree Id) (c new_id : Id)
    (cont st n np nnx : NodeId) (cnode : Node Id) (npar : Option NodeId)
    (contents : List Char) (l1 l2 : List (Id × Option Nat)) (ch : Char)
    (s1 s2 : List NodeId)
    (hcont : lookupA t.nodes cont = some cnode)
    (hcshape : ∃ sp sid, cnode.data = NodeData.string st sp sid)
    (hsegs : seqSegs t cont = some (s1 ++ n :: s2))
    (hsnd : (s1 ++ n :: s2).Nodup)
    (hnode : lookupA t.nodes n =
      some ⟨.stringSegment np nnx contents (l1 ++ (c, none) :: l2), npar⟩)
    (hmap : lookupA t.id_to_node c = some n)
    (hc1 : c ∉ l1.map Prod.fst) (hc2 : c ∉ l2.map Prod.fst)
    (hfresh : containsA t.id_to_node new_id = Bool.false)
    (hseg : (l1 ++ (c, none) :: l2).filterMap Prod.snd =
      offsetsW charWidth contents)
    (hall : ∀ x ∈ (l1 ++ (c, none) :: l2).map Prod.fst,
      containsA t.id_to_node x = Bool.true)
    (hND : NodesND t) (hKLT : KeysLT t)
    (hprev : np = cont ∨ (np ≠ n ∧ ∃ pn plids,
      lookupA t.nodes np = some pn ∧
      pn.data.segmentIds? = some plids ∧ JOIN_LEN ≤ plids.length)) :
    ∃ E1 E2, seqIdEntries t cont = some (E1 ++ (c, none) :: E2) ∧
      ∃ t2 q E1b E2b, insert_character t c new_id ch = some (t2, .ok ()) ∧
        seqIdEntries t2 cont =
          some (E1b ++ (c, none) :: (new_id, some q) :: E2b) ∧
        E1b.map Prod.fst = E1.map Prod.fst ∧
        E2b.map Prod.fst = E2.map Prod.fst := by
  set j1 := (l1.filterMap Prod.snd).length with hj1
  have hsplitseg : l1.filterMap Prod.snd ++ l2.filterMap Prod.snd =
      offsetsW charWidth contents := by
    simpa [List.filterMap_append, List.filterMap_cons] using hseg
  have hlens : j1 + (l2.filterMap Prod.snd).length = contents.length := by
    have := congrArg List.length hsplitseg
    simpa [offsetsW_length] using this
  have hj1len : j1 ≤ contents.length := by omega
  have hP : (l2.filterMap Prod.snd).head? =
      if j1 < contents.length then some (byteLen (contents.take j1))
      else none := by
    have hdrop2 : l2.filterMap Prod.snd =
        (offsetsW charWidth contents).drop j1 := by
      rw [← hsplitseg, hj1, List.drop_left]
    rw [hdrop2, offsetsW_head_drop]
    simp [byteLen]
  have hloop := lookupIPLoop_tombstone c l1 l2 hc1 hc2
  have hlip : lookup_insertion_point t c =
      some (.ok (n, byteLen (contents.take j1), l1.length + 1)) := by
    rcases hh : (l2.filterMap Prod.snd).head? with _ | p
    · have hj : j1 = contents.length := by
        rw [hP] at hh
        by_cases hcnd : j1 < contents.length
        · simp [hcnd] at hh
        · omega
      have hloop2 : lookupIPLoop c (l1 ++ (c, none) :: l2) 0 none =
          .inr (some (l1.length + 1)) := by
        rw [hloop, hh]
      simp only [lookup_insertion_point, hmap, hnode, hloop2]
      rw [hj, List.take_length]
    · have hp : p = byteLen (contents.take j1) := by
        rw [hP] at hh
        by_cases hcnd : j1 < contents.length
        · simp [hcnd] at hh
          omega
        · simp [hcnd] at hh
      have hloop2 : lookupIPLoop c (l1 ++ (c, none) :: l2) 0 none =
          .inl (p, l1.length + 1) := by
        rw [hloop, hh]
      simp only [lookup_insertion_point, hmap, hnode, hloop2]
      rw [hp]
  have hins : stringInsertAt contents (byteLen (contents.take j1)) ch =
      some (contents.take j1 ++ ch :: contents.drop j1) := by
    unfold stringInsertAt
    rw [splitCharsAt_byteLen_take contents j1 hj1len]
    rfl
  have htake : (l1 ++ (c, none) :: l2).take (l1.length + 1) =
      l1 ++ [(c, none)] :=
    take_append_cons l1 l2 (c, none)
  have hdrop : (l1 ++ (c, none) :: l2).drop (l1.length + 1) = l2 :=
    drop_append_cons l1 l2 (c, none)
  have hli : listInsertAt ((l1 ++ [(c, none)]) ++
      l2.map (fun q => (q.1, q.2.map (fun x => x + charWidth ch))))
      (l1.length + 1)
      (new_id, some (byteLen (contents.take j1))) =
      some (l1 ++ (c, none) :: (new_id, some (byteLen (contents.take j1))) ::
        l2.map (fun q => (q.1, q.2.map (fun x => x + charWidth ch)))) := by
    unfold listInsertAt
    rw [if_pos (by simp)]
    rw [show l1.length + 1 = (l1 ++ [(c, none)]).length from by simp]
    rw [List.take_left, List.drop_left]
    simp
  have hb : (((l1 ++ (c, none) :: l2).drop (l1.length + 1)).filterMap
        Prod.snd).head? = some (byteLen (contents.take j1)) ∨
      (((l1 ++ (c, none) :: l2).drop (l1.length + 1)).filterMap
        Prod.snd = [] ∧
        byteLen (contents.take j1) = (contents.map charWidth).sum) := by
    rw [hdrop]
    rcases hh : (l2.filterMap Prod.snd).head? with _ | p
    · right
      have hj : j1 = contents.length := by
        rw [hP] at hh
        by_cases hcnd : j1 < contents.length
        · simp [hcnd] at hh
        · omega
      constructor
      · cases hcase : l2.filterMap Prod.snd with
        | nil => rfl
        | cons a l =>
          rw [hcase] at hh
          simp at hh
      · rw [hj, List.take_length]
        rfl
    · left
      have hp : p = byteLen (contents.take j1) := by
        rw [hP] at hh
        by_cases hcnd : j1 < contents.length
        · simp [hcnd] at hh
          omega
        · simp [hcnd] at hh
      rw [hp]
  have hoffs2 := offsets_insert_mid charWidth charWidth_pos contents ch
    (l1 ++ (c, none) :: l2) new_id (l1.length + 1) j1
    (byteLen (contents.take j1)) hseg hj1len rfl hb
  rw [htake, hdrop] at hoffs2
  have hIoffs : segOffsetsB (NodeData.stringSegment np nnx
      (contents.take j1 ++ ch :: contents.drop j1)
      (l1 ++ (c, none) :: (new_id, some (byteLen (contents.take j1))) ::
        l2.map (fun q => (q.1, q.2.map (fun x => x + charWidth ch)))) :
      NodeData Id) = Bool.true := by
    simp only [segOffsetsB]
    rw [show l1 ++ (c, none) :: (new_id, some (byteLen (contents.take j1))) ::
        l2.map (fun q => (q.1, q.2.map (fun x => x + charWidth ch))) =
        (l1 ++ [(c, none)]) ++
        (new_id, some (byteLen (contents.take j1))) ::
        l2.map (fun q => (q.1, q.2.map (fun x => x + charWidth ch))) from
      by simp]
    rw [show (l2.map (fun q => (q.1, q.2.map (fun x => x + charWidth ch)))) =
        (l2.map (fun q => (q.1, q.2.map (fun m => m + charWidth ch)))) from
      rfl]
    rw [hoffs2]
    simp
  obtain ⟨E1, E2, t6, r, hentT, hsplitrun, hjoin1, hjoin2, q2, E1b, E2b,
      hent6, hf1, hf2⟩ :=
    tombstone_insert_entries t c new_id cont st n np nnx cnode
      ⟨.stringSegment np nnx contents (l1 ++ (c, none) :: l2), npar⟩
      ⟨.stringSegment np nnx (contents.take j1 ++ ch :: contents.drop j1)
        (l1 ++ (c, none) :: (new_id, some (byteLen (contents.take j1))) ::
          l2.map (fun q => (q.1, q.2.map (fun x => x + charWidth ch)))),
        npar⟩
      l1 l2 _
      (byteLen (contents.take j1)) s1 s2
      hcont (Or.inl hcshape) hsegs hsnd hnode rfl rfl rfl rfl rfl hIoffs
      (by simp) hall hND hKLT hprev
  refine ⟨E1, E2, hentT, t6, q2, E1b, E2b, ?_, hent6, hf1, hf2⟩
  simp only [insert_character, seq_insert, hfresh, Bool.false_eq_true,
    if_false, hlip, hnode, hins, Option.map_some', NodeData.segmentIds?,
    htake, hdrop, hli, NodeData.withIds, hsplitrun, hjoin1, hjoin2]

/-- Tombstone-anchored entry insertion at the `seq_insert` level of a
multi-segment array: it succeeds and the new entry lands immediately
after the tombstone in the id-entry traversal. -/
theorem seq_insert_list_tombstone_core (T : Tree Id) (c new_id : Id)
    (child : Child) (cont st n np nnx : NodeId) (cnode : Node Id)
    (npar : Option NodeId) (contents : List Child)
    (l1 l2 : List (Id × Option Nat)) (s1 s2 : List NodeId)
    (hcont : lookupA T.nodes cont = some cnode)
    (hcshape : ∃ sp aid, cnode.data = NodeData.array st sp aid)
    (hsegs : seqSegs T cont = some (s1 ++ n :: s2))
    (hsnd : (s1 ++ n :: s2).Nodup)
    (hnode : lookupA T.nodes n =
      some ⟨.arraySegment np nnx contents (l1 ++ (c, none) :: l2), npar⟩)
    (hmap : lookupA T.id_to_node c = some n)
    (hc1 : c ∉ l1.map Prod.fst) (hc2 : c ∉ l2.map Prod.fst)
    (hfresh : containsA T.id_to_node new_id = Bool.false)
    (hseg : (l1 ++ (c, none) :: l2).filterMap Prod.snd =
      offsetsW (fun _ => 1) contents)
    (hall : ∀ x ∈ (l1 ++ (c, none) :: l2).map Prod.fst,
      containsA T.id_to_node x = Bool.true)
    (hND : NodesND T) (hKLT : KeysLT T)
    (hprev : np = cont ∨ (np ≠ n ∧ ∃ pn plids,
      lookupA T.nodes np = some pn ∧
      pn.data.segmentIds? = some plids ∧ JOIN_LEN ≤ plids.length)) :
    ∃ E1 E2, seqIdEntries T cont = some (E1 ++ (c, none) :: E2) ∧
      ∃ t2 q E1b E2b,
        seq_insert T c new_id
          (fun array_index node =>
            match node.data with
            | .arraySegment p nx contents ids =>
              (listInsertAt contents array_index child).map
                (fun cs => (⟨.arraySegment p nx cs ids, node.parent⟩, 1))
            | _ => none) = some (t2, .ok ()) ∧
        seqIdEntries t2 cont =
          some (E1b ++ (c, none) :: (new_id, some q) :: E2b) ∧
        E1b.map Prod.fst = E1.map Prod.fst ∧
        E2b.map Prod.fst = E2.map Prod.fst := by
  set j1 := (l1.filterMap Prod.snd).length with hj1
  have hsplitseg : l1.filterMap Prod.snd ++ l2.filterMap Prod.snd =
      offsetsW (fun _ => 1) contents := by
    simpa [List.filterMap_append, List.filterMap_cons] using hseg
  have hlens : j1 + (l2.filterMap Prod.snd).length = contents.length := by
    have := congrArg List.length hsplitseg
    simpa [offsetsW_length] using this
  have hj1len : j1 ≤ contents.length := by omega
  have hsumtake : ((contents.take j1).map (fun _ => (1 : Nat))).sum = j1 := by
    rw [sum_map_one, List.length_take]
    omega
  have hP : (l2.filterMap Prod.snd).head? =
      if j1 < contents.length then some j1 else none := by
    have hdrop2 : l2.filterMap Prod.snd =
        (offsetsW (fun _ => 1) contents).drop j1 := by
      rw [← hsplitseg, hj1, List.drop_left]
    rw [hdrop2, offsetsW_head_drop, hsumtake]
  have hloop := lookupIPLoop_tombstone c l1 l2 hc1 hc2
  have hlip : lookup_insertion_point T c =
      some (.ok (n, j1, l1.length + 1)) := by
    rcases hh : (l2.filterMap Prod.snd).head? with _ | p
    · have hj : j1 = contents.length := by
        rw [hP] at hh
        by_cases hcnd : j1 < contents.length
        · simp [hcnd] at hh
        · omega
      have hloop2 : lookupIPLoop c (l1 ++ (c, none) :: l2) 0 none =
          .inr (some (l1.length + 1)) := by
        rw [hloop, hh]
      simp only [lookup_insertion_point, hmap, hnode, hloop2]
      rw [hj]
    · have hp : p = j1 := by
        rw [hP] at hh
        by_cases hcnd : j1 < contents.length
        · simp [hcnd] at hh
          omega
        · simp [hcnd] at hh
      have hloop2 : lookupIPLoop c (l1 ++ (c, none) :: l2) 0 none =
          .inl (p, l1.length + 1) := by
        rw [hloop, hh]
      simp only [lookup_insertion_point, hmap, hnode, hloop2]
      rw [hp]
  have hins : listInsertAt contents j1 child =
      some (contents.take j1 ++ child :: contents.drop j1) := by
    unfold listInsertAt
    rw [if_pos hj1len]
  have htake : (l1 ++ (c, none) :: l2).take (l1.length + 1) =
      l1 ++ [(c, none)] :=
    take_append_cons l1 l2 (c, none)
  have hdrop : (l1 ++ (c, none) :: l2).drop (l1.length + 1) = l2 :=
    drop_append_cons l1 l2 (c, none)
  have hli : listInsertAt ((l1 ++ [(c, none)]) ++
      l2.map (fun q => (q.1, q.2.map (fun x => x + 1))))
      (l1.length + 1) (new_id, some j1) =
      some (l1 ++ (c, none) :: (new_id, some j1) ::
        l2.map (fun q => (q.1, q.2.map (fun x => x + 1)))) := by
    unfold listInsertAt
    rw [if_pos (by simp)]
    rw [show l1.length + 1 = (l1 ++ [(c, none)]).length from by simp]
    rw [List.take_left, List.drop_left]
    simp
  have hb : (((l1 ++ (c, none) :: l2).drop (l1.length + 1)).filterMap
        Prod.snd).head? = some j1 ∨
      (((l1 ++ (c, none) :: l2).drop (l1.length + 1)).filterMap
        Prod.snd = [] ∧
        j1 = (contents.map (fun _ => 1)).sum) := by
    rw [hdrop]
    rcases hh : (l2.filterMap Prod.snd).head? with _ | p
    · right
      have hj : j1 = contents.length := by
        rw [hP] at hh
        by_cases hcnd : j1 < contents.length
        · simp [hcnd] at hh
        · omega
      constructor
      · cases hcase : l2.filterMap Prod.snd with
        | nil => rfl
        | cons a l =>
          rw [hcase] at hh
          simp at hh
      · rw [hj]
        exact (sum_map_one contents).symm
    · left
      have hp : p = j1 := by
        rw [hP] at hh
        by_cases hcnd : j1 < contents.length
        · simp [hcnd] at hh
          omega
        · simp [hcnd] at hh
      rw [hp]
  have hoffs2 := offsets_insert_mid (fun _ => (1 : Nat))
    (fun _ => Nat.one_pos) contents child
    (l1 ++ (c, none) :: l2) new_id (l1.length + 1) j1 j1 hseg hj1len
    hsumtake.symm hb
  rw [htake, hdrop] at hoffs2
  have hIoffs : segOffsetsB (NodeData.arraySegment np nnx
      (contents.take j1 ++ child :: contents.drop j1)
      (l1 ++ (c, none) :: (new_id, some j1) ::
        l2.map (fun q => (q.1, q.2.map (fun x => x + 1)))) :
      NodeData Id) = Bool.true := by
    simp only [segOffsetsB]
    rw [show l1 ++ (c, none) :: (new_id, some j1) ::
        l2.map (fun q => (q.1, q.2.map (fun x => x + 1))) =
        (l1 ++ [(c, none)]) ++ (new_id, some j1) ::
        l2.map (fun q => (q.1, q.2.map (fun x => x + 1))) from by simp]
    rw [show (l2.map (fun q => (q.1, q.2.map (fun x => x + 1)))) =
        (l2.map (fun q => (q.1, q.2.map (fun m => m + 1)))) from rfl]
    rw [hoffs2]
    simp
  obtain ⟨E1, E2, t6, r, hentT, hsplitrun, hjoin1, hjoin2, q2, E1b, E2b,
      hent6, hf1, hf2⟩ :=
    tombstone_insert_entries T c new_id cont st n np nnx cnode
      ⟨.arraySegment np nnx contents (l1 ++ (c, none) :: l2), npar⟩
      ⟨.arraySegment np nnx (contents.take j1 ++ child :: contents.drop j1)
        (l1 ++ (c, none) :: (new_id, some j1) ::
          l2.map (fun q => (q.1, q.2.map (fun x => x + 1)))), npar⟩
      l1 l2 _ j1 s1 s2
      hcont (Or.inr hcshape) hsegs hsnd hnode rfl rfl rfl rfl rfl hIoffs
      (by simp) hall hND hKLT hprev
  refine ⟨E1, E2, hentT, t6, q2, E1b, E2b, ?_, hent6, hf1, hf2⟩
  simp only [seq_insert, hfresh, Bool.false_eq_true, if_false, hlip, hnode,
    hins, Option.map_some', NodeData.segmentIds?, htake, hdrop, hli,
    NodeData.withIds, hsplitrun, hjoin1, hjoin2]

/-- Transferring a sequence's segment chain and id entries across a write
to a node outside the chain. -/
theorem seqSegs_entries_transfer (t tR : Tree Id) (cont : NodeId)
    (segs : List NodeId) (k : NodeId)
    (hlkeq : ∀ j, j ≠ k → lookupA tR.nodes j = lookupA t.nodes j)
    (hlen : tR.nodes.length = t.nodes.length)
    (hsegs : seqSegs t cont = some segs)
    (hnd : segs.Nodup)
    (hkc : k ≠ cont) (hknot : k ∉ segs) :
    seqSegs tR cont = some segs ∧ seqIdEntries tR cont = seqIdEntries t cont := by
  rcases hclk : lookupA t.nodes cont with _ | cnode
  · unfold seqSegs at hsegs
    rw [hclk] at hsegs
    cases hsegs
  have hclkR : lookupA tR.nodes cont = some cnode := by
    rw [hlkeq cont (fun h => hkc h.symm)]
    exact hclk
  have hlkeqsegs : ∀ s ∈ segs, lookupA tR.nodes s = lookupA t.nodes s := by
    intro s hs
    exact hlkeq s (fun h => hknot (h ▸ hs))
  have hmain : ∀ st0 : NodeId,
      chainFrom t cont (t.nodes.length + 1) st0 = some segs →
      chainFrom tR cont (tR.nodes.length + 1) st0 = some segs := by
    intro st0 hcf
    obtain ⟨hcw, hnc⟩ := chainFrom_sound t cont _ st0 _ hcf
    have hcwR : chainW tR st0 segs cont :=
      chainW_frame t tR segs st0 cont
        (fun s hs => by unfold obsNext; rw [hlkeqsegs s hs]) hcw
    have hsub : ∀ x ∈ segs, x ∈ t.nodes.map Prod.fst :=
      chainW_mem_keys t segs st0 cont hcw
    have hle := nodup_length_le segs (t.nodes.map Prod.fst) hnd hsub
    have hkeys : (t.nodes.map Prod.fst).length = t.nodes.length := by simp
    refine chainFrom_of_chainW tR cont segs st0 hcwR hnc _ ?_
    omega
  have hsegsR : seqSegs tR cont = some segs := by
    cases hdd : cnode.data with
    | object items oid =>
      simp only [seqSegs, hclk, hdd] at hsegs
      cases hsegs
    | string st0 sp sid =>
      have hcf : chainFrom t cont (t.nodes.length + 1) st0 = some segs := by
        simpa only [seqSegs, hclk, hdd] using hsegs
      simp only [seqSegs, hclkR, hdd]
      exact hmain st0 hcf
    | array st0 sp aid =>
      have hcf : chainFrom t cont (t.nodes.length + 1) st0 = some segs := by
        simpa only [seqSegs, hclk, hdd] using hsegs
      simp only [seqSegs, hclkR, hdd]
      exact hmain st0 hcf
    | stringSegment p nx cs ids =>
      simp only [seqSegs, hclk, hdd] at hsegs
      cases hsegs
    | arraySegment p nx cs ids =>
      simp only [seqSegs, hclk, hdd] at hsegs
      cases hsegs
  refine ⟨hsegsR, ?_⟩
  rw [seqIdEntries_entriesOf tR cont segs hsegsR,
    seqIdEntries_entriesOf t cont segs hsegs]
  exact entriesOf_congr t tR segs hlkeqsegs

/-- Tombstone-anchored insertion of a non-collection value into a
multi-segment array. -/
theorem insert_list_item_tombstone_plain (t : Tree Id) (c new_id : Id)
    (cont st n np nnx : NodeId) (cnode : Node Id) (npar : Option NodeId)
    (contents : List Child) (l1 l2 : List (Id × Option Nat))
    (v : Value Id) (child : Child) (s1 s2 : List NodeId)
    (hcont : lookupA t.nodes cont = some cnode)
    (hcshape : ∃ sp aid, cnode.data = NodeData.array st sp aid)
    (hsegs : seqSegs t cont = some (s1 ++ n :: s2))
    (hsnd : (s1 ++ n :: s2).Nodup)
    (hnode : lookupA t.nodes n =
      some ⟨.arraySegment np nnx contents (l1 ++ (c, none) :: l2), npar⟩)
    (hmap : lookupA t.id_to_node c = some n)
    (hc1 : c ∉ l1.map Prod.fst) (hc2 : c ∉ l2.map Prod.fst)
    (hfresh : containsA t.id_to_node new_id = Bool.false)
    (hv : value_to_child t v = .ok (some child))
    (hnc : ∀ x, child ≠ Child.collection x)
    (hseg : (l1 ++ (c, none) :: l2).filterMap Prod.snd =
      offsetsW (fun _ => 1) contents)
    (hall : ∀ x ∈ (l1 ++ (c, none) :: l2).map Prod.fst,
      containsA t.id_to_node x = Bool.true)
    (hND : NodesND t) (hKLT : KeysLT t)
    (hprev : np = cont ∨ (np ≠ n ∧ ∃ pn plids,
      lookupA t.nodes np = some pn ∧
      pn.data.segmentIds? = some plids ∧ JOIN_LEN ≤ plids.length)) :
    ∃ E1 E2, seqIdEntries t cont = some (E1 ++ (c, none) :: E2) ∧
      ∃ t2 q E1b E2b, insert_list_item t c new_id v = some (t2, .ok ()) ∧
        seqIdEntries t2 cont =
          some (E1b ++ (c, none) :: (new_id, some q) :: E2b) ∧
        E1b.map Prod.fst = E1.map Prod.fst ∧
        E2b.map Prod.fst = E2.map Prod.fst := by
  obtain ⟨E1, E2, hentT, t2, q2, E1b, E2b, hseqrun, hent6, hf1, hf2⟩ :=
    seq_insert_list_tombstone_core t c new_id child cont st n np nnx cnode
      npar contents l1 l2 s1 s2 hcont hcshape hsegs hsnd hnode hmap hc1 hc2
      hfresh hseg hall hND hKLT hprev
  refine ⟨E1, E2, hentT, t2, q2, E1b, E2b, ?_, hent6, hf1, hf2⟩
  cases child with
  | collection x => exact absurd rfl (hnc x)
  | true =>
    simp only [insert_list_item, hv]
    exact hseqrun
  | false =>
    simp only [insert_list_item, hv]
    exact hseqrun
  | null =>
    simp only [insert_list_item, hv]
    exact hseqrun
  | int i =>
    simp only [insert_list_item, hv]
    exact hseqrun

/-- Tombstone-anchored insertion of a collection value into a
multi-segment array: the collection is reparented onto the array and the
new entry lands immediately after the tombstone. -/
theorem insert_list_item_tombstone_collection (t : Tree Id) (c new_id : Id)
    (cont st n np nnx c2 apar : NodeId) (cnode c2node : Node Id)
    (contents : List Child) (l1 l2 : List (Id × Option Nat))
    (v : Value Id) (s1 s2 : List NodeId)
    (hcont : lookupA t.nodes cont = some cnode)
    (hcshape : ∃ sp aid, cnode.data = NodeData.array st sp aid)
    (hsegs : seqSegs t cont = some (s1 ++ n :: s2))
    (hsnd : (s1 ++ n :: s2).Nodup)
    (hnode : lookupA t.nodes n =
      some ⟨.arraySegment np nnx contents (l1 ++ (c, none) :: l2),
        some apar⟩)
    (hmap : lookupA t.id_to_node c = some n)
    (hc1 : c ∉ l1.map Prod.fst) (hc2 : c ∉ l2.map Prod.fst)
    (hfresh : containsA t.id_to_node new_id = Bool.false)
    (hv : value_to_child t v = .ok (some (Child.collection c2)))
    (hc2lk : lookupA t.nodes c2 = some c2node)
    (hc2par : c2node.parent = none)
    (hc2orph : c2 ∈ t.orphans)
    (hwalk : parentWalk t c2 (t.nodes.length + 1) (some apar) =
      some (.ok ()))
    (hc2cont : c2 ≠ cont) (hc2chain : c2 ∉ s1 ++ n :: s2) (hc2np : c2 ≠ np)
    (hseg : (l1 ++ (c, none) :: l2).filterMap Prod.snd =
      offsetsW (fun _ => 1) contents)
    (hall : ∀ x ∈ (l1 ++ (c, none) :: l2).map Prod.fst,
      containsA t.id_to_node x = Bool.true)
    (hND : NodesND t) (hKLT : KeysLT t)
    (hprev : np = cont ∨ (np ≠ n ∧ ∃ pn plids,
      lookupA t.nodes np = some pn ∧
      pn.data.segmentIds? = some plids ∧ JOIN_LEN ≤ plids.length)) :
    ∃ E1 E2, seqIdEntries t cont = some (E1 ++ (c, none) :: E2) ∧
      ∃ t2 q E1b E2b, insert_list_item t c new_id v = some (t2, .ok ()) ∧
        seqIdEntries t2 cont =
          some (E1b ++ (c, none) :: (new_id, some q) :: E2b) ∧
        E1b.map Prod.fst = E1.map Prod.fst ∧
        E2b.map Prod.fst = E2.map Prod.fst := by
  have hc2n : c2 ≠ n := fun h =>
    hc2chain (h ▸ List.mem_append.2 (Or.inr (List.mem_cons_self _ _)))
  have hpre : reparent_item t c2 apar = some
      ({ t with
          orphans := t.orphans.erase c2,
          nodes := (insertA t.nodes c2 ⟨c2node.data, some apar⟩) },
        .ok ()) := by
    unfold reparent_item
    rw [hc2lk]
    simp only [hc2par, Option.isSome_none, Bool.false_eq_true, if_false]
    rw [hwalk]
    rw [if_pos hc2orph]
  have hlkeq : ∀ j, j ≠ c2 →
      lookupA (insertA t.nodes c2 (⟨c2node.data, some apar⟩ : Node Id)) j =
      lookupA t.nodes j := by
    intro j hj
    rw [lookupA_insertA_ne _ _ _ _ (fun h => hj h.symm)]
  have hlenR : (insertA t.nodes c2
      (⟨c2node.data, some apar⟩ : Node Id)).length = t.nodes.length :=
    length_insertA_mem _ _ _ (lookupA_some_mem_keys hc2lk)
  obtain ⟨hsegsR, hentEq⟩ := seqSegs_entries_transfer t
    { t with
      orphans := t.orphans.erase c2,
      nodes := (insertA t.nodes c2 ⟨c2node.data, some apar⟩) }
    cont (s1 ++ n :: s2) c2 hlkeq hlenR hsegs hsnd hc2cont hc2chain
  have hcontR : lookupA (insertA t.nodes c2
      (⟨c2node.data, some apar⟩ : Node Id)) cont = some cnode := by
    rw [hlkeq cont (fun h => hc2cont h.symm)]
    exact hcont
  have hnodeR : lookupA (insertA t.nodes c2
      (⟨c2node.data, some apar⟩ : Node Id)) n =
      some ⟨.arraySegment np nnx contents (l1 ++ (c, none) :: l2),
        some apar⟩ := by
    rw [hlkeq n (fun h => hc2n h.symm)]
    exact hnode
  have hprevR : np = cont ∨ (np ≠ n ∧ ∃ pn plids,
      lookupA (insertA t.nodes c2
        (⟨c2node.data, some apar⟩ : Node Id)) np = some pn ∧
      pn.data.segmentIds? = some plids ∧ JOIN_LEN ≤ plids.length) := by
    rcases hprev with h | ⟨hne2, pn, plids, hlk2, hids2x, hbig2⟩
    · exact Or.inl h
    · refine Or.inr ⟨hne2, pn, plids, ?_, hids2x, hbig2⟩
      rw [hlkeq np (fun h => hc2np h.symm)]
      exact hlk2
  have hNDR : NodesND ({ t with
      orphans := t.orphans.erase c2,
      nodes := (insertA t.nodes c2 ⟨c2node.data, some apar⟩) } : Tree Id) := by
    unfold NodesND at hND ⊢
    exact nodup_insertA _ _ hND
  have hKLTR : KeysLT ({ t with
      orphans := t.orphans.erase c2,
      nodes := (insertA t.nodes c2 ⟨c2node.data, some apar⟩) } : Tree Id) := by
    intro pq hpq
    show @LT.lt Nat instLTNat pq.1 t.next_node
    rcases mem_insertA hpq with rfl | hpq
    · exact hKLT (c2, c2node) (mem_of_lookupA hc2lk)
    · exact hKLT pq hpq
  obtain ⟨E1, E2, hentTR, t2, q2, E1b, E2b, hseqrun, hent6, hf1, hf2⟩ :=
    seq_insert_list_tombstone_core
      { t with
        orphans := t.orphans.erase c2,
        nodes := (insertA t.nodes c2 ⟨c2node.data, some apar⟩) }
      c new_id (Child.collection c2) cont st n np nnx cnode (some apar)
      contents l1 l2 s1 s2 hcontR hcshape hsegsR hsnd hnodeR hmap hc1 hc2
      hfresh hseg hall hNDR hKLTR hprevR
  have hentT : seqIdEntries t cont = some (E1 ++ (c, none) :: E2) := by
    rw [← hentEq]
    exact hentTR
  refine ⟨E1, E2, hentT, t2, q2, E1b, E2b, ?_, hent6, hf1, hf2⟩
  simp only [insert_list_item, hv, idToNode, hmap, hnode, hpre]
  exact hseqrun

/-- The array-tombstone tree with an extra orphaned object 9, for the
collection-value insertion scenario. -/
def exArrTombOrph : Tree Nat :=
  (Tree.construct_object exArrTomb 9).1

/-- C5: anchored at a tombstone `c` of any segment of a string or array
sequence (single- or multi-segment, any ids-list length, and for arrays
both plain and collection values), an insertion of a fresh id succeeds and
in the id-entry traversal of the sequence the new entry sits immediately
after `c`'s tombstone, the entries before and after keeping their ids. -/
theorem c5_tombstone_anchor_insert (t : Tree Id) (c new_id : Id) :
    (∀ cont st n np nnx cnode npar contents l1 l2 (ch : Char) s1 s2,
      lookupA t.nodes cont = some cnode →
      (∃ sp sid, cnode.data = NodeData.string st sp sid) →
      seqSegs t cont = some (s1 ++ n :: s2) →
      (s1 ++ n :: s2).Nodup →
      lookupA t.nodes n =
        some ⟨.stringSegment np nnx contents (l1 ++ (c, none) :: l2), npar⟩ →
      lookupA t.id_to_node c = some n →
      c ∉ l1.map Prod.fst → c ∉ l2.map Prod.fst →
      containsA t.id_to_node new_id = Bool.false →
      (l1 ++ (c, none) :: l2).filterMap Prod.snd =
        offsetsW charWidth contents →
      (∀ x ∈ (l1 ++ (c, none) :: l2).map Prod.fst,
        containsA t.id_to_node x = Bool.true) →
      NodesND t → KeysLT t →
      (np = cont ∨ (np ≠ n ∧ ∃ pn plids, lookupA t.nodes np = some pn ∧
        pn.data.segmentIds? = some plids ∧ JOIN_LEN ≤ plids.length)) →
      ∃ E1 E2, seqIdEntries t cont = some (E1 ++ (c, none) :: E2) ∧
        ∃ t2 q E1b E2b, insert_character t c new_id ch = some (t2, .ok ()) ∧
          seqIdEntries t2 cont =
            some (E1b ++ (c, none) :: (new_id, some q) :: E2b) ∧
          E1b.map Prod.fst = E1.map Prod.fst ∧
          E2b.map Prod.fst = E2.map Prod.fst) ∧
    (∀ cont st n np nnx cnode npar contents l1 l2 (v : Value Id) child s1 s2,
      lookupA t.nodes cont = some cnode →
      (∃ sp aid, cnode.data = NodeData.array st sp aid) →
      seqSegs t cont = some (s1 ++ n :: s2) →
      (s1 ++ n :: s2).Nodup →
      lookupA t.nodes n =
        some ⟨.arraySegment np nnx contents (l1 ++ (c, none) :: l2), npar⟩ →
      lookupA t.id_to_node c = some n →
      c ∉ l1.map Prod.fst → c ∉ l2.map Prod.fst →
      containsA t.id_to_node new_id = Bool.false →
      value_to_child t v = .ok (some child) →
      (∀ x, child ≠ Child.collection x) →
      (l1 ++ (c, none) :: l2).filterMap Prod.snd =
        offsetsW (fun _ => 1) contents →
      (∀ x ∈ (l1 ++ (c, none) :: l2).map Prod.fst,
        containsA t.id_to_node x = Bool.true) →
      NodesND t → KeysLT t →
      (np = cont ∨ (np ≠ n ∧ ∃ pn plids, lookupA t.nodes np = some pn ∧
        pn.data.segmentIds? = some plids ∧ JOIN_LEN ≤ plids.length)) →
      ∃ E1 E2, seqIdEntries t cont = some (E1 ++ (c, none) :: E2) ∧
        ∃ t2 q E1b E2b, insert_list_item t c new_id v = some (t2, .ok ()) ∧
          seqIdEntries t2 cont =
            some (E1b ++ (c, none) :: (new_id, some q) :: E2b) ∧
          E1b.map Prod.fst = E1.map Prod.fst ∧
          E2b.map Prod.fst = E2.map Prod.fst) ∧
    (∀ cont st n np nnx c2 apar cnode c2node contents l1 l2 (v : Value Id)
        s1 s2,
      lookupA t.nodes cont = some cnode →
      (∃ sp aid, cnode.data = NodeData.array st sp aid) →
      seqSegs t cont = some (s1 ++ n :: s2) →
      (s1 ++ n :: s2).Nodup →
      lookupA t.nodes n =
        some ⟨.arraySegment np nnx contents (l1 ++ (c, none) :: l2),
          some apar⟩ →
      lookupA t.id_to_node c = some n →
      c ∉ l1.map Prod.fst → c ∉ l2.map Prod.fst →
      containsA t.id_to_node new_id = Bool.false →
      value_to_child t v = .ok (some (Child.collection c2)) →
      lookupA t.nodes c2 = some c2node →
      c2node.parent = none →
      c2 ∈ t.orphans →
      parentWalk t c2 (t.nodes.length + 1) (some apar) = some (.ok ()) →
      c2 ≠ cont → c2 ∉ s1 ++ n :: s2 → c2 ≠ np →
      (l1 ++ (c, none) :: l2).filterMap Prod.snd =
        offsetsW (fun _ => 1) contents →
      (∀ x ∈ (l1 ++ (c, none) :: l2).map Prod.fst,
        containsA t.id_to_node x = Bool.true) →
      NodesND t → KeysLT t →
      (np = cont ∨ (np ≠ n ∧ ∃ pn plids, lookupA t.nodes np = some pn ∧
        pn.data.segmentIds? = some plids ∧ JOIN_LEN ≤ plids.length)) →
      ∃ E1 E2, seqIdEntries t cont = some (E1 ++ (c, none) :: E2) ∧
        ∃ t2 q E1b E2b, insert_list_item t c new_id v = some (t2, .ok ()) ∧
          seqIdEntries t2 cont =
            some (E1b ++ (c, none) :: (new_id, some q) :: E2b) ∧
          E1b.map Prod.fst = E1.map Prod.fst ∧
          E2b.map Prod.fst = E2.map Prod.fst) := by
  refine ⟨?_, ?_, ?_⟩
  · intro cont st n np nnx cnode npar contents l1 l2 ch s1 s2 hcont hcshape
      hsegs hsnd hnode hmap hc1 hc2 hfresh hseg hall hND hKLT hprev
    exact insert_character_tombstone_multi t c new_id cont st n np nnx cnode
      npar contents l1 l2 ch s1 s2 hcont hcshape hsegs hsnd hnode hmap hc1
      hc2 hfresh hseg hall hND hKLT hprev
  · intro cont st n np nnx cnode npar contents l1 l2 v child s1 s2 hcont
      hcshape hsegs hsnd hnode hmap hc1 hc2 hfresh hv hnc hseg hall hND
      hKLT hprev
    exact insert_list_item_tombstone_plain t c new_id cont st n np nnx
      cnode npar contents l1 l2 v child s1 s2 hcont hcshape hsegs hsnd
      hnode hmap hc1 hc2 hfresh hv hnc hseg hall hND hKLT hprev
  · intro cont st n np nnx c2 apar cnode c2node contents l1 l2 v s1 s2
      hcont hcshape hsegs hsnd hnode hmap hc1 hc2 hfresh hv hc2lk hc2par
      hc2orph hwalk hc2cont hc2chain hc2np hseg hall hND hKLT hprev
    exact insert_list_item_tombstone_collection t c new_id cont st n np nnx
      c2 apar cnode c2node contents l1 l2 v s1 s2 hcont hcshape hsegs hsnd
      hnode hmap hc1 hc2 hfresh hv hc2lk hc2par hc2orph hwalk hc2cont
      hc2chain hc2np hseg hall hND hKLT hprev

/-- The C5 scenarios on concrete trees: a character inserted after the
deleted 'a' of "ab"; an array entry inserted after the deleted 5 of
`[5, 7]`; and an orphaned object inserted as a collection value after the
same array tombstone. -/
theorem c5_tombstone_anchor_insert_witness :
    (∃ E1 E2, seqIdEntries exTombstone 1 = some (E1 ++ (1, none) :: E2) ∧
      ∃ t2 q E1b E2b,
        insert_character exTombstone 1 7 'x' = some (t2, .ok ()) ∧
        seqIdEntries t2 1 =
          some (E1b ++ (1, none) :: (7, some q) :: E2b) ∧
        E1b.map Prod.fst = E1.map Prod.fst ∧
        E2b.map Prod.fst = E2.map Prod.fst) ∧
    (∃ E1 E2, seqIdEntries exArrTomb 1 = some (E1 ++ (1, none) :: E2) ∧
      ∃ t2 q E1b E2b,
        insert_list_item exArrTomb 1 7 (Value.int 9) = some (t2, .ok ()) ∧
        seqIdEntries t2 1 =
          some (E1b ++ (1, none) :: (7, some q) :: E2b) ∧
        E1b.map Prod.fst = E1.map Prod.fst ∧
        E2b.map Prod.fst = E2.map Prod.fst) ∧
    (∃ E1 E2, seqIdEntries exArrTombOrph 1 = some (E1 ++ (1, none) :: E2) ∧
      ∃ t2 q E1b E2b,
        insert_list_item exArrTombOrph 1 7 (Value.object 9) =
          some (t2, .ok ()) ∧
        seqIdEntries t2 1 =
          some (E1b ++ (1, none) :: (7, some q) :: E2b) ∧
        E1b.map Prod.fst = E1.map Prod.fst ∧
        E2b.map Prod.fst = E2.map Prod.fst) :=
  ⟨(c5_tombstone_anchor_insert exTombstone 1 7).1 1 0 0 1 1
      ⟨.string 0 0 0, none⟩ (some 1) ['b'] [] [(2, some 0)] 'x' [] []
      (by rfl) ⟨0, 0, rfl⟩ (by rfl) (by decide) (by rfl) (by rfl)
      (by decide) (by decide) (by rfl) (by rfl) (by decide)
      (show (exTombstone.nodes.map Prod.fst).Nodup by decide)
      (show ∀ p ∈ exTombstone.nodes, p.1 < exTombstone.next_node by decide)
      (Or.inl rfl),
   (c5_tombstone_anchor_insert exArrTomb 1 7).2.1 1 0 0 1 1
      ⟨.array 0 0 0, none⟩ (some 1) [Child.int 7] [] [(2, some 0)]
      (Value.int 9) (Child.int 9) [] []
      (by rfl) ⟨0, 0, rfl⟩ (by rfl) (by decide) (by rfl) (by rfl)
      (by decide) (by decide) (by rfl) (by rfl)
      (by intro x h; cases h) (by rfl) (by decide)
      (show (exArrTomb.nodes.map Prod.fst).Nodup by decide)
      (show ∀ p ∈ exArrTomb.nodes, p.1 < exArrTomb.next_node by decide)
      (Or.inl rfl),
   (c5_tombstone_anchor_insert exArrTombOrph 1 7).2.2 1 0 0 1 1 2 1
      ⟨.array 0 0 0, none⟩ ⟨.object [] 9, none⟩ [Child.int 7] []
      [(2, some 0)] (Value.object 9) [] []
      (by rfl) ⟨0, 0, rfl⟩ (by rfl) (by decide) (by rfl) (by rfl)
      (by decide) (by decide) (by rfl) (by rfl) (by rfl) (by rfl)
      (by decide) (by rfl) (by decide) (by decide) (by decide)
      (by rfl) (by decide)
      (show (exArrTombOrph.nodes.map Prod.fst).Nodup by decide)
      (show ∀ p ∈ exArrTombOrph.nodes, p.1 < exArrTombOrph.next_node
        by decide)
      (Or.inl rfl)⟩


end ClaimProofs

end Tree

end Crudite
